import Mathlib

/-!
# Vincent-Soille watershed: a shallow embedding of `main.cpp`

The label engine of `VincentSoille()` and the clean-up pass
`RemoveWatershedPixels()` are embedded as pure functions on an explicit state.

* Grids `lab`, `dist`, `ftleValues` (`T ***` cubes indexed `[x][y][z]`) are total
  functions on `CellIndex`; the source guards every neighbour access with
  `Outside`, and so does the model.
* `std::queue<CellIndex>` is a list: `front` is the head, `push` appends.
* `std::map<int,int>` is a key-sorted association list (`counterAdd`).
* `while` loops take a fuel argument; running out of fuel is the fault
  `Fault.outOfFuel`, the `exit(0)` of the distance check is
  `Fault.unexpectedDist`, reading the front of an empty queue is
  `Fault.emptyQueue`.
* Heights are `double` in the source.  The engine only tests them with `==`
  (and `std::sort` with `<`), so the model takes any type `H` with decidable
  equality, and a linear order where the sort matters.
* `std::sort` is represented by its postcondition (`IsHeightOrder`): the engine
  takes the sorted `cellOrder` as an argument.
* `propagateVisits`, `fillVisits` and `newMinimaVisits` are records of the same
  loops: they list the voxels taken from the queue (for the propagation with
  `curdist` and the state at that moment), so that statements about "every
  dequeued voxel" can be made about the run itself.
* `FillWatershedPixels()`, whose call is commented out in the source, is embedded
  as its two triple loops.
-/

namespace Watershed

/-- Source `struct CellIndex`. -/
structure CellIndex where
  x : Int
  y : Int
  z : Int
deriving DecidableEq, Repr

/-- Source `dire[26][3]`. -/
def dire : List (Int × Int × Int) :=
  [(-1, 0, 0), (1, 0, 0),
   (0, -1, 0), (0, 1, 0),
   (0, 0, -1), (0, 0, 1),
   (0, -1, -1), (0, -1, 1),
   (0, 1, -1), (0, 1, 1),
   (-1, 0, -1), (-1, 0, 1),
   (1, 0, -1), (1, 0, 1),
   (-1, -1, 0), (-1, 1, 0),
   (1, -1, 0), (1, 1, 0),
   (-1, -1, -1), (-1, -1, 1),
   (-1, 1, -1), (-1, 1, 1),
   (1, -1, -1), (1, -1, 1),
   (1, 1, -1), (1, 1, 1)]

/-- Source `numOfNeighbors`. -/
def numOfNeighbors : Nat := 6

/-- Source `int dimensions[3]` (non-negative extents). -/
structure Dimensions where
  d0 : Nat
  d1 : Nat
  d2 : Nat
deriving DecidableEq, Repr

/-- Source `Outside(x, y, z)`. -/
def Outside (dims : Dimensions) (x y z : Int) : Bool :=
  decide (x < 0) || decide (y < 0) || decide (z < 0) ||
    decide (x ≥ (dims.d0 : Int)) || decide (y ≥ (dims.d1 : Int)) || decide (z ≥ (dims.d2 : Int))

/-- Source `#define INIT -1`. -/
def INIT : Int := -1
/-- Source `#define MASK -2`. -/
def MASK : Int := -2
/-- Source `#define WSHED 0`. -/
def WSHED : Int := 0
/-- Source `#define FICTITIOUS CellIndex(-1, -1, -1)`. -/
def FICTITIOUS : CellIndex := ⟨-1, -1, -1⟩

/-- Assignment `grid[idx.x][idx.y][idx.z] = v`. -/
def upd (f : CellIndex → Int) (idx : CellIndex) (v : Int) : CellIndex → Int :=
  fun c => if c = idx then v else f c

/-- The cells `(_x, _y, _z)` a loop `for (k = 0; k < numOfNeighbors; k++)` reaches
past its `if (Outside(_x, _y, _z)) continue;`, in the order of `k`. -/
def neighborCells (dims : Dimensions) (idx : CellIndex) : List CellIndex :=
  ((dire.take numOfNeighbors).map
      (fun d => CellIndex.mk (idx.x + d.1) (idx.y + d.2.1) (idx.z + d.2.2))).filter
    (fun n => !Outside dims n.x n.y n.z)

/-- The cells of the triple loop `for i < d0, for j < d1, for k < d2`, in loop order. -/
def allCells (dims : Dimensions) : List CellIndex :=
  (List.range dims.d0).flatMap (fun (i : Nat) =>
    (List.range dims.d1).flatMap (fun (j : Nat) =>
      (List.range dims.d2).map (fun (k : Nat) => CellIndex.mk (i : Int) (j : Int) (k : Int))))

/-- How a run of the embedded loops can fail. -/
inductive Fault where
  | unexpectedDist
  | emptyQueue
  | outOfFuel
deriving DecidableEq, Repr

/-- The working state of `VincentSoille()`: `lab`, `dist`, `queue`, `curlab`. -/
structure FloodState where
  lab : CellIndex → Int
  dist : CellIndex → Int
  queue : List CellIndex
  curlab : Int

/-- The state after the initialisation loop (source lines 285-292). -/
def initState : FloodState :=
  { lab := fun _ => INIT, dist := fun _ => 0, queue := [], curlab := 0 }

/-- The test `lab[_x][_y][_z] > 0 || lab[_x][_y][_z] == WSHED` of the masking loop,
over the in-grid neighbours (`flag`). -/
def hasFloodedNeighbor (dims : Dimensions) (lab : CellIndex → Int) (idx : CellIndex) : Bool :=
  (neighborCells dims idx).any (fun n => decide (lab n > 0) || decide (lab n = WSHED))

/-- One iteration of the masking loop (source lines 314-336). -/
def maskStep (dims : Dimensions) (s : FloodState) (idx : CellIndex) : FloodState :=
  let lab1 := upd s.lab idx MASK
  if hasFloodedNeighbor dims lab1 idx then
    { s with lab := lab1, dist := upd s.dist idx 1, queue := s.queue ++ [idx] }
  else
    { s with lab := lab1 }

/-- The masking loop over the level `cellOrder[d .. nextD)`. -/
def maskLevel (dims : Dimensions) (s : FloodState) (level : List CellIndex) : FloodState :=
  level.foldl (maskStep dims) s

/-- The body of the neighbour loop of the propagation (source lines 380-409) for the
dequeued voxel `idx` and one in-grid neighbour `n`. -/
def examineNeighbor (curdist : Int) (idx : CellIndex) (s : FloodState) (n : CellIndex) :
    Except Fault FloodState :=
  if s.dist n < curdist ∧ (s.lab n > 0 ∨ s.lab n = WSHED) then
    if s.dist n ≠ curdist - 1 then .error Fault.unexpectedDist
    else if s.lab n > 0 then
      if s.lab idx = MASK ∨ s.lab idx = WSHED then
        .ok { s with lab := upd s.lab idx (s.lab n) }
      else if s.lab idx ≠ s.lab n then
        .ok { s with lab := upd s.lab idx WSHED }
      else .ok s
    else
      if s.lab idx = MASK then .ok { s with lab := upd s.lab idx WSHED }
      else .ok s
  else if s.lab n = MASK ∧ s.dist n = 0 then
    .ok { s with dist := upd s.dist n (curdist + 1), queue := s.queue ++ [n] }
  else .ok s

/-- The neighbour loop of the propagation over the remaining neighbours `ns`. -/
def visitNeighbors (curdist : Int) (idx : CellIndex) :
    List CellIndex → FloodState → Except Fault FloodState
  | [], s => .ok s
  | n :: ns, s =>
    (examineNeighbor curdist idx s n).bind (visitNeighbors curdist idx ns)

/-- The loop `while (1)` of the propagation (source lines 341-420). -/
def propagate (dims : Dimensions) : Nat → Int → FloodState → Except Fault FloodState
  | 0, _, _ => .error Fault.outOfFuel
  | fuel + 1, curdist, s =>
    match s.queue with
    | [] => .error Fault.emptyQueue
    | idx :: q =>
      if idx.x = -1 then
        match q with
        | [] => .ok { s with queue := [] }
        | idx2 :: q2 =>
          (visitNeighbors (curdist + 1) idx2 (neighborCells dims idx2)
              { s with queue := q2 ++ [FICTITIOUS] }).bind (propagate dims fuel (curdist + 1))
      else
        (visitNeighbors curdist idx (neighborCells dims idx) { s with queue := q }).bind
          (propagate dims fuel curdist)

/-- The neighbour loop of the basin fill (source lines 437-449) for one neighbour. -/
def fillNeighbor (s : FloodState) (n : CellIndex) : FloodState :=
  if s.lab n = MASK then
    { s with queue := s.queue ++ [n], lab := upd s.lab n s.curlab }
  else s

/-- The loop `while (!queue.empty())` of the basin fill (source lines 434-450). -/
def fillBasin (dims : Dimensions) : Nat → FloodState → Except Fault FloodState
  | fuel, s =>
    match s.queue with
    | [] => .ok s
    | idx :: q =>
      match fuel with
      | 0 => .error Fault.outOfFuel
      | fuel1 + 1 =>
        fillBasin dims fuel1 ((neighborCells dims idx).foldl fillNeighbor { s with queue := q })

/-- One iteration of the new-minima loop (source lines 423-452). -/
def newMinimum (dims : Dimensions) (fuel : Nat) (s : FloodState) (idx : CellIndex) :
    Except Fault FloodState :=
  let s1 : FloodState := { s with dist := upd s.dist idx 0 }
  if s1.lab idx = MASK then
    fillBasin dims fuel
      { s1 with curlab := s1.curlab + 1, queue := s1.queue ++ [idx],
                lab := upd s1.lab idx (s1.curlab + 1) }
  else .ok s1

/-- The new-minima loop over the level. -/
def newMinima (dims : Dimensions) (fuel : Nat) :
    List CellIndex → FloodState → Except Fault FloodState
  | [], s => .ok s
  | idx :: rest, s =>
    (newMinimum dims fuel s idx).bind (newMinima dims fuel rest)

/-- The body of the level loop for the level `cellOrder[d .. nextD)`
(source lines 314-452). -/
def processLevel (dims : Dimensions) (fuel : Nat) (level : List CellIndex) (s : FloodState) :
    Except Fault FloodState :=
  let s1 := maskLevel dims s level
  (propagate dims fuel 1 { s1 with queue := s1.queue ++ [FICTITIOUS] }).bind
    (newMinima dims fuel level)

/-- The level loop `for (int d = 0; d < d0 * d1 * d2; )` (source lines 294-455); the
list argument is `cellOrder[d ..]`, the level is the run found by the `nextD` scan. -/
def floodLoop {H : Type} [DecidableEq H] (dims : Dimensions) (ftleValues : CellIndex → H)
    (fuel : Nat) : Nat → List CellIndex → FloodState → Except Fault FloodState
  | _, [], s => .ok s
  | 0, _ :: _, _ => .error Fault.outOfFuel
  | n + 1, idx :: tl, s =>
    let height := ftleValues idx
    let level := (idx :: tl).takeWhile (fun c => decide (ftleValues c = height))
    (processLevel dims fuel level s).bind
      (floodLoop dims ftleValues fuel n
        ((idx :: tl).dropWhile (fun c => decide (ftleValues c = height))))

/-- The Flood Engine: `VincentSoille()` from the initialisation of `lab` and `dist` up
to the end of the level loop (source lines 280-455), on the sorted `cellOrder`. -/
def FloodEngine {H : Type} [DecidableEq H] (dims : Dimensions) (ftleValues : CellIndex → H)
    (fuel : Nat) (cellOrder : List CellIndex) : Except Fault FloodState :=
  floodLoop dims ftleValues fuel fuel cellOrder initState

/-- The postcondition of `std::sort(cellOrder, cellOrder + cnt, HeightComparator())`
on the array filled by the triple loop (source lines 272-278). -/
def IsHeightOrder {H : Type} [LinearOrder H] (dims : Dimensions) (ftleValues : CellIndex → H)
    (cellOrder : List CellIndex) : Prop :=
  cellOrder.Perm (allCells dims) ∧
    cellOrder.Pairwise (fun a b => ¬ ftleValues b < ftleValues a)

/-- The update `counter[value] = 1` / `counter[value]++` of the `std::map<int, int>`
(kept sorted by key, as the map iterates). -/
def counterAdd : List (Int × Int) → Int → List (Int × Int)
  | [], value => [(value, 1)]
  | (k, c) :: rest, value =>
    if value = k then (k, c + 1) :: rest
    else if value < k then (value, 1) :: (k, c) :: rest
    else (k, c) :: counterAdd rest value

/-- The neighbour loop of `RemoveWatershedPixels` that fills `counter`
(source lines 247-258). -/
def countNeighbors (dims : Dimensions) (lab : CellIndex → Int) (idx : CellIndex) :
    List (Int × Int) :=
  (neighborCells dims idx).foldl
    (fun counter n =>
      if lab n ≠ WSHED ∧ lab n ≠ INIT then counterAdd counter (lab n) else counter) []

/-- The loop over the map that picks `(bestLabel, maxCnt)` (source lines 259-265). -/
def bestOf (counter : List (Int × Int)) : Int × Int :=
  counter.foldl (fun best kc => if kc.2 > best.2 then (kc.1, kc.2) else best) (-1, 0)

/-- The body of the triple loop of `RemoveWatershedPixels` for one voxel; the state is
`(lab, flag)`. -/
def removeStep (dims : Dimensions) (st : (CellIndex → Int) × Bool) (idx : CellIndex) :
    (CellIndex → Int) × Bool :=
  if st.1 idx = WSHED then
    let best := bestOf (countNeighbors dims st.1 idx)
    (if best.2 > 0 then upd st.1 idx best.1 else st.1, true)
  else st

/-- One full-grid pass of `RemoveWatershedPixels`, starting with `flag = false`. -/
def removePass (dims : Dimensions) (lab : CellIndex → Int) : (CellIndex → Int) × Bool :=
  (allCells dims).foldl (removeStep dims) (lab, false)

/-- Source `RemoveWatershedPixels(lab)`: the loop `while (flag)`. -/
def RemoveWatershedPixels (dims : Dimensions) : Nat → (CellIndex → Int) →
    Except Fault (CellIndex → Int)
  | 0, _ => .error Fault.outOfFuel
  | fuel + 1, lab =>
    if (removePass dims lab).2 then RemoveWatershedPixels dims fuel (removePass dims lab).1
    else .ok (removePass dims lab).1

/-- Decidable form of "the run succeeds and its result satisfies `p`". -/
def okAnd {α : Type} (r : Except Fault α) (p : α → Bool) : Bool :=
  match r with
  | .ok a => p a
  | .error _ => false

/-- The 7x1x1 grid of the two-basin saddle. -/
def saddleDims : Dimensions := ⟨7, 1, 1⟩

/-- The heights `[0,1,2,3,2,1,0]` along `x`. -/
def saddleHeights (c : CellIndex) : Int := [0, 1, 2, 3, 2, 1, 0].getD c.x.toNat 0

/-- What the saddle run must look like before clean-up: two basins, `x = 0,1,2` in one,
`x = 4,5,6` in the other, `x = 3` the only watershed voxel. -/
def SaddleFlooded (s : FloodState) : Prop :=
  s.curlab = 2 ∧
  s.lab ⟨0, 0, 0⟩ ≠ s.lab ⟨6, 0, 0⟩ ∧
  (1 ≤ s.lab ⟨0, 0, 0⟩ ∧ s.lab ⟨0, 0, 0⟩ ≤ 2) ∧ (1 ≤ s.lab ⟨6, 0, 0⟩ ∧ s.lab ⟨6, 0, 0⟩ ≤ 2) ∧
  s.lab ⟨1, 0, 0⟩ = s.lab ⟨0, 0, 0⟩ ∧ s.lab ⟨2, 0, 0⟩ = s.lab ⟨0, 0, 0⟩ ∧
  s.lab ⟨4, 0, 0⟩ = s.lab ⟨6, 0, 0⟩ ∧ s.lab ⟨5, 0, 0⟩ = s.lab ⟨6, 0, 0⟩ ∧
  ∀ c ∈ allCells saddleDims, s.lab c = WSHED ↔ c = ⟨3, 0, 0⟩

instance (s : FloodState) : Decidable (SaddleFlooded s) := by
  unfold SaddleFlooded; infer_instance

/-- The saddle run on one `cellOrder`, with fuel 8, as a decidable check. -/
def saddleCheck (cellOrder : List CellIndex) : Bool :=
  okAnd (FloodEngine saddleDims saddleHeights 8 cellOrder) (fun s =>
    decide (SaddleFlooded s) &&
    okAnd (RemoveWatershedPixels saddleDims 8 s.lab) (fun lab1 =>
      decide (∀ c ∈ allCells saddleDims, lab1 c ≠ WSHED)))

/-- One height order of the saddle grid: `x = 0, 6, 1, 5, 2, 4, 3`. -/
def saddleOrder : List CellIndex :=
  [⟨0, 0, 0⟩, ⟨6, 0, 0⟩, ⟨1, 0, 0⟩, ⟨5, 0, 0⟩, ⟨2, 0, 0⟩, ⟨4, 0, 0⟩, ⟨3, 0, 0⟩]

/-- The labels that the counting loop of `RemoveWatershedPixels` puts into the map for
the voxel `idx`, in neighbour order (`lab != WSHED && lab != INIT`). -/
def countedLabels (dims : Dimensions) (lab : CellIndex → Int) (idx : CellIndex) : List Int :=
  ((neighborCells dims idx).map lab).filter (fun v => decide (v ≠ WSHED ∧ v ≠ INIT))

/-- The tie rule in the words of the specification: among the labels of maximal count,
the one met first in the neighbour-iteration order. -/
def firstEncounteredBest (labels : List Int) : Option Int :=
  labels.find? (fun v => labels.all (fun w => decide (labels.count w ≤ labels.count v)))

/-- The number stored in the map under the key `k` (0 when absent). -/
def counterGet (counter : List (Int × Int)) (k : Int) : Int :=
  ((counter.filter (fun kc => decide (kc.1 = k))).map (fun kc => kc.2)).sum

/-- A 3x1x1 label field `[2, WSHED, 1]`: the watershed voxel has one neighbour of each
basin. -/
def tieDims : Dimensions := ⟨3, 1, 1⟩

/-- The labels `[2, 0, 1]` along `x`. -/
def tieLab (c : CellIndex) : Int := [2, 0, 1].getD c.x.toNat INIT

/-- The number of WSHED voxels of the grid. -/
def wshedCount (dims : Dimensions) (lab : CellIndex → Int) : Nat :=
  ((allCells dims).filter (fun c => decide (lab c = WSHED))).length

/-- The city-block distance between two cells. -/
def gridDist (a b : CellIndex) : Nat :=
  (a.x - b.x).natAbs + (a.y - b.y).natAbs + (a.z - b.z).natAbs

/-- A 1x1x1 grid. -/
def unitDims : Dimensions := ⟨1, 1, 1⟩

/-- The label field that is WSHED everywhere. -/
def allWshed : CellIndex → Int := fun _ => WSHED

/-- The test of the first branch of the propagation's neighbour loop (source line 380):
the neighbour `n` is settled at a distance below `curdist` and carries a basin label or
WSHED. -/
def propagates (curdist : Int) (s : FloodState) (n : CellIndex) : Bool :=
  decide (s.dist n < curdist ∧ (s.lab n > 0 ∨ s.lab n = WSHED))

/-- The test of the second branch (source line 406): `n` is an untouched plateau voxel. -/
def isPlateau (s : FloodState) (n : CellIndex) : Bool :=
  decide (s.lab n = MASK ∧ s.dist n = 0)

/-- The label update of source lines 394-405: the dequeued voxel's label `cur` after a
propagating neighbour with label `nb`. -/
def relabel (cur nb : Int) : Int :=
  if nb > 0 then
    if cur = MASK ∨ cur = WSHED then nb
    else if cur ≠ nb then WSHED
    else cur
  else
    if cur = MASK then WSHED else cur

/-- The label of the dequeued voxel `idx` after the neighbour loop over `ns`: the fold of
`relabel` over the labels of the propagating neighbours, in neighbour order. -/
def visitLabel (curdist : Int) (s : FloodState) (idx : CellIndex) (ns : List CellIndex) : Int :=
  ((ns.filter (propagates curdist s)).map s.lab).foldl relabel (s.lab idx)

/-- What holds of a level `L = cellOrder[d .. nextD)` and of the label field `lab0` when
the level loop reaches it: the level's voxels are distinct, in the grid and still INIT;
every other voxel is INIT or carries a basin label / WSHED within `0 .. cl`. -/
structure LevelCtx (dims : Dimensions) (L : List CellIndex) (lab0 : CellIndex → Int)
    (cl : Int) : Prop where
  nodup : L.Nodup
  inGrid : ∀ c ∈ L, c ∈ allCells dims
  init : ∀ c ∈ L, lab0 c = INIT
  other : ∀ c, c ∉ L → lab0 c = INIT ∨ (0 ≤ lab0 c ∧ lab0 c ≤ cl)

/-- The invariant of the propagation loop at distance `k`, for a queue that holds the
voxels `A` (distance `k`), the sentinel, and the voxels `B` (distance `k + 1`). -/
structure PropInv (dims : Dimensions) (L : List CellIndex) (lab0 : CellIndex → Int)
    (cl : Int) (k : Int) (A B : List CellIndex) (s : FloodState) : Prop where
  curlab : s.curlab = cl
  frame : ∀ c, c ∉ L → s.lab c = lab0 c ∧ s.dist c = 0
  nodup : (A ++ B).Nodup
  front : ∀ c ∈ A, c ∈ L ∧ s.lab c = MASK ∧ s.dist c = k
  back : ∀ c ∈ B, c ∈ L ∧ s.lab c = MASK ∧ s.dist c = k + 1
  untouched : ∀ c ∈ L, s.dist c = 0 → s.lab c = MASK
  settled : ∀ c ∈ L, s.dist c ≠ 0 → c ∉ A → c ∉ B →
    0 ≤ s.lab c ∧ s.lab c ≤ cl ∧ 1 ≤ s.dist c ∧ s.dist c ≤ k
  seeds : ∀ c ∈ L, hasFloodedNeighbor dims lab0 c = true ↔ s.dist c = 1
  closed : ∀ c ∈ L, s.dist c ≠ 0 → c ∉ A → c ∉ B →
    ∀ n ∈ neighborCells dims c, n ∈ L → s.dist n ≠ 0 ∧ s.dist n ≤ s.dist c + 1
  pred : ∀ c ∈ L, 2 ≤ s.dist c → ∃ n ∈ neighborCells dims c, n ∈ L ∧ s.dist n = s.dist c - 1
  pos : 1 ≤ k

/-- A run either succeeds with a result satisfying `Post`, or stops for lack of fuel,
which does not happen when `enough` holds; it never ends in another fault. -/
def Outcome {α : Type} (r : Except Fault α) (enough : Prop) (Post : α → Prop) : Prop :=
  match r with
  | .ok a => Post a
  | .error e => e = Fault.outOfFuel ∧ ¬ enough

/-- The number of voxels of the level that are still MASK. -/
def maskCount (L : List CellIndex) (s : FloodState) : Nat :=
  (L.filter (fun c => decide (s.lab c = MASK))).length

/-- `Reach dims M a b`: the voxel `b` is reached from `a` by steps to in-grid 6-neighbours
that satisfy `M`. -/
inductive Reach (dims : Dimensions) (M : CellIndex → Prop) : CellIndex → CellIndex → Prop
  | refl (a : CellIndex) : Reach dims M a a
  | step {a b n : CellIndex} :
      Reach dims M a b → n ∈ neighborCells dims b → M n → Reach dims M a n

/-- The invariant of the basin fill started at the voxel `idx` with the fresh label `nl`,
from the label field `labS` (in which `idx` is still MASK). -/
structure FillInv (dims : Dimensions) (L : List CellIndex) (labS : CellIndex → Int)
    (nl : Int) (idx : CellIndex) (s : FloodState) : Prop where
  curlab : s.curlab = nl
  fresh : 1 ≤ nl
  lab_cases : ∀ c, s.lab c = labS c ∨ (labS c = MASK ∧ s.lab c = nl)
  queue_nodup : s.queue.Nodup
  queue_filled : ∀ c ∈ s.queue, labS c = MASK ∧ s.lab c = nl
  seed_filled : labS idx = MASK ∧ s.lab idx = nl
  sound : ∀ c, labS c = MASK → s.lab c = nl → Reach dims (fun n => labS n = MASK) idx c
  closed : ∀ c, labS c = MASK → s.lab c = nl → c ∉ s.queue →
    ∀ n ∈ neighborCells dims c, labS n = MASK → s.lab n = nl
  maskIn : ∀ c, labS c = MASK → c ∈ L

/-- The number of voxels of the level that are MASK or waiting in the queue. -/
def fillCount (L : List CellIndex) (s : FloodState) : Nat :=
  (L.filter (fun c => decide (s.lab c = MASK ∨ c ∈ s.queue))).length

/-- The invariant of the new-minima loop with the voxels `todo` of the level `L` still to
visit; `lab2` is the label field left by the propagation and `cl` the basin counter at
the start of the level. -/
structure MinInv (dims : Dimensions) (L : List CellIndex) (lab2 : CellIndex → Int) (cl : Int)
    (todo : List CellIndex) (s : FloodState) : Prop where
  queue_nil : s.queue = []
  curlab_ge : cl ≤ s.curlab
  keep : ∀ c, lab2 c ≠ MASK → s.lab c = lab2 c
  fresh : ∀ c, lab2 c = MASK → s.lab c = MASK ∨ (cl < s.lab c ∧ s.lab c ≤ s.curlab)
  done_filled : ∀ c ∈ L, c ∉ todo → s.lab c ≠ MASK
  comp : ∀ c d, lab2 c = MASK → lab2 d = MASK → s.lab c ≠ MASK →
    (s.lab d = s.lab c ↔ Reach dims (fun n => lab2 n = MASK) c d)
  used : ∀ j, cl < j → j ≤ s.curlab → ∃ c, lab2 c = MASK ∧ s.lab c = j
  dist_done : ∀ c, c ∉ todo → s.dist c = 0

/-- The state of the level loop when it reaches `cellOrder[d ..] = rest`. -/
structure LevelStart (dims : Dimensions) (rest : List CellIndex) (s : FloodState) : Prop where
  queue_nil : s.queue = []
  dist_zero : ∀ c, s.dist c = 0
  pending : ∀ c ∈ rest, s.lab c = INIT
  settled : ∀ c ∈ allCells dims, c ∉ rest → 0 ≤ s.lab c ∧ s.lab c ≤ s.curlab
  outside : ∀ c, c ∉ allCells dims → s.lab c = INIT
  curlab_nonneg : 0 ≤ s.curlab
  used : ∀ j, 1 ≤ j → j ≤ s.curlab → ∃ c ∈ allCells dims, s.lab c = j
  rest_nodup : rest.Nodup
  rest_grid : ∀ c ∈ rest, c ∈ allCells dims
  started : (∃ c ∈ allCells dims, c ∉ rest) → 1 ≤ s.curlab

/-- What one level does: `s` is the state at the start of the level `L`, `s2` the state
after the propagation, `s3` the state after the new-minima loop. -/
structure LevelPost (dims : Dimensions) (L : List CellIndex) (s s2 s3 : FloodState) :
    Prop where
  curlab2 : s2.curlab = s.curlab
  frame2 : ∀ c, c ∉ L → s2.lab c = s.lab c
  range2 : ∀ c ∈ L, s2.lab c = MASK ∨ (0 ≤ s2.lab c ∧ s2.lab c ≤ s.curlab)
  mask_iff : ∀ c ∈ L, (s2.lab c = MASK ↔
    ¬ ∃ d, Reach dims (fun n => n ∈ L) c d ∧ hasFloodedNeighbor dims s.lab d = true)
  keep : ∀ c, s2.lab c ≠ MASK → s3.lab c = s2.lab c
  fresh : ∀ c, s2.lab c = MASK → s.curlab < s3.lab c ∧ s3.lab c ≤ s3.curlab
  comp : ∀ c d, s2.lab c = MASK → s2.lab d = MASK →
    (s3.lab d = s3.lab c ↔ Reach dims (fun n => n ∈ L) c d)
  used : ∀ j, s.curlab < j → j ≤ s3.curlab → ∃ c, s2.lab c = MASK ∧ s3.lab c = j
  curlab_le : s.curlab ≤ s3.curlab

/-- `LoopAt dims ftleValues fuel cellOrder n rest s`: the level loop of the Flood Engine,
run on `cellOrder` with `fuel`, reaches the head of the loop with `cellOrder[d ..] = rest`
in the state `s` (with `n` iterations of fuel left). -/
inductive LoopAt {H : Type} [DecidableEq H] (dims : Dimensions) (ftleValues : CellIndex → H)
    (fuel : Nat) (cellOrder : List CellIndex) : Nat → List CellIndex → FloodState → Prop
  | start : LoopAt dims ftleValues fuel cellOrder fuel cellOrder initState
  | next {n : Nat} {idx : CellIndex} {tl : List CellIndex} {s s1 : FloodState} :
      LoopAt dims ftleValues fuel cellOrder (n + 1) (idx :: tl) s →
      processLevel dims fuel
        ((idx :: tl).takeWhile (fun c => decide (ftleValues c = ftleValues idx))) s = .ok s1 →
      LoopAt dims ftleValues fuel cellOrder n
        ((idx :: tl).dropWhile (fun c => decide (ftleValues c = ftleValues idx))) s1

/-- The tie level at the head of `rest`: the run found by the `nextD` scan. -/
def levelOf {H : Type} [DecidableEq H] (ftleValues : CellIndex → H) (idx : CellIndex)
    (tl : List CellIndex) : List CellIndex :=
  (idx :: tl).takeWhile (fun c => decide (ftleValues c = ftleValues idx))

/-- What is left of `cellOrder` after the tie level at the head of `rest`. -/
def afterLevel {H : Type} [DecidableEq H] (ftleValues : CellIndex → H) (idx : CellIndex)
    (tl : List CellIndex) : List CellIndex :=
  (idx :: tl).dropWhile (fun c => decide (ftleValues c = ftleValues idx))

/-- A single bowl: `c0` is a voxel of minimal height, the voxels of that height form one
6-connected region, and every other voxel of the grid has an in-grid 6-neighbour of
strictly lower height. -/
structure SingleBowl {H : Type} [LinearOrder H] (dims : Dimensions)
    (ftleValues : CellIndex → H) (c0 : CellIndex) : Prop where
  mem : c0 ∈ allCells dims
  minimal : ∀ c ∈ allCells dims, ¬ ftleValues c < ftleValues c0
  connected : ∀ c ∈ allCells dims, ftleValues c = ftleValues c0 →
    Reach dims (fun x => ftleValues x = ftleValues c0) c0 c
  descends : ∀ c ∈ allCells dims, ftleValues c ≠ ftleValues c0 →
    ∃ n ∈ neighborCells dims c, ftleValues n < ftleValues c

/-- Every voxel processed so far is in basin 1, the only basin. -/
def OneBasin (dims : Dimensions) (rest : List CellIndex) (s : FloodState) : Prop :=
  (∀ c ∈ allCells dims, c ∉ rest → s.lab c = 1) ∧
    ((∃ c ∈ allCells dims, c ∉ rest) → s.curlab = 1)

/-- A 3x1x1 grid for a one-dimensional bowl. -/
def bowlDims : Dimensions := ⟨3, 1, 1⟩

/-- The heights `[0, 1, 2]` along `x`: a bowl with its minimum at `x = 0`. -/
def bowlHeights (c : CellIndex) : Int := [0, 1, 2].getD c.x.toNat 0

/-- A constant scalar field. -/
def flatHeights (_ : CellIndex) : Int := 5

/-- A 2x2x1 grid. -/
def flatDims : Dimensions := ⟨2, 2, 1⟩

/-- The neighbours from which the voxel `c` takes its label when it is dequeued: the
in-grid 6-neighbours settled at the previous distance (`dist = dist c - 1`) that carry a
basin label or WSHED, in neighbour order. -/
def feeders (dims : Dimensions) (s : FloodState) (c : CellIndex) : List CellIndex :=
  (neighborCells dims c).filter (fun n => decide (s.dist n = s.dist c - 1 ∧ 0 ≤ s.lab n))

/-- The basin labels (positive labels) carried by the feeders of `c`, in neighbour
order. -/
def feederBasins (dims : Dimensions) (s : FloodState) (c : CellIndex) : List Int :=
  ((feeders dims s c).map s.lab).filter (fun v => decide (0 < v))

/-- Every settled voxel of the level carries the fold of `relabel` over the labels of its
feeders. -/
def FedLabels (dims : Dimensions) (L : List CellIndex) (s : FloodState) : Prop :=
  ∀ c ∈ L, 0 ≤ s.lab c → s.lab c = ((feeders dims s c).map s.lab).foldl relabel MASK

/-- A 3x2x1 grid on which three basins meet at one voxel. -/
def meetDims : Dimensions := ⟨3, 2, 1⟩

/-- Heights: minima (0) at `(0,1)`, `(1,0)`, `(2,1)`; the meeting voxel `(1,1)` at 1; the
corners `(0,0)`, `(2,0)` at 2. -/
def meetHeights (c : CellIndex) : Int :=
  if c.y = 0 then [2, 0, 2].getD c.x.toNat 0 else [0, 1, 0].getD c.x.toNat 0

/-- A height order of the meeting grid. -/
def meetOrder : List CellIndex :=
  [⟨0, 1, 0⟩, ⟨1, 0, 0⟩, ⟨2, 1, 0⟩, ⟨1, 1, 0⟩, ⟨0, 0, 0⟩, ⟨2, 0, 0⟩]

/-- The state of a successful run (the initial state otherwise). -/
def stateAfter (r : Except Fault FloodState) : FloodState :=
  match r with
  | .ok s => s
  | .error _ => initState

/-- The saddle run after its first level (height 0). -/
def saddleState1 : FloodState :=
  stateAfter (processLevel saddleDims 8
    (levelOf saddleHeights ⟨0, 0, 0⟩
      [⟨6, 0, 0⟩, ⟨1, 0, 0⟩, ⟨5, 0, 0⟩, ⟨2, 0, 0⟩, ⟨4, 0, 0⟩, ⟨3, 0, 0⟩]) initState)

/-- The saddle run after its second level (height 1). -/
def saddleState2 : FloodState :=
  stateAfter (processLevel saddleDims 8
    (levelOf saddleHeights ⟨1, 0, 0⟩ [⟨5, 0, 0⟩, ⟨2, 0, 0⟩, ⟨4, 0, 0⟩, ⟨3, 0, 0⟩]) saddleState1)

/-- The saddle run after its third level (height 2), at the head of the peak's level. -/
def saddleState3 : FloodState :=
  stateAfter (processLevel saddleDims 8
    (levelOf saddleHeights ⟨2, 0, 0⟩ [⟨4, 0, 0⟩, ⟨3, 0, 0⟩]) saddleState2)

/-- The meeting-grid run after its first level (the three minima). -/
def meetState1 : FloodState :=
  stateAfter (processLevel meetDims 7
    (levelOf meetHeights ⟨0, 1, 0⟩
      [⟨1, 0, 0⟩, ⟨2, 1, 0⟩, ⟨1, 1, 0⟩, ⟨0, 0, 0⟩, ⟨2, 0, 0⟩]) initState)

/-- The state in which the propagation of a level `L` starts, after the masking loop and
the push of the sentinel. -/
def afterMasking (dims : Dimensions) (s : FloodState) (L : List CellIndex) : FloodState :=
  { maskLevel dims s L with queue := (maskLevel dims s L).queue ++ [FICTITIOUS] }

/-- One run of the neighbour loop of the propagation (source lines 364-410): the value of
`curdist`, the voxel `idx` taken from the queue, and the state after the pops of source
lines 342-353. -/
structure Visit where
  curdist : Int
  idx : CellIndex
  before : FloodState

/-- The runs of the neighbour loop that `propagate` makes, in order: a record of the loop
`while (1)`, one entry for every voxel taken from the queue whose neighbours are examined. -/
def propagateVisits (dims : Dimensions) : Nat → Int → FloodState → List Visit
  | 0, _, _ => []
  | fuel + 1, curdist, s =>
    match s.queue with
    | [] => []
    | idx :: q =>
      if idx.x = -1 then
        match q with
        | [] => []
        | idx2 :: q2 =>
          Visit.mk (curdist + 1) idx2 { s with queue := q2 ++ [FICTITIOUS] } ::
            (match visitNeighbors (curdist + 1) idx2 (neighborCells dims idx2)
                { s with queue := q2 ++ [FICTITIOUS] } with
              | .ok s1 => propagateVisits dims fuel (curdist + 1) s1
              | .error _ => [])
      else
        Visit.mk curdist idx { s with queue := q } ::
          (match visitNeighbors curdist idx (neighborCells dims idx) { s with queue := q } with
            | .ok s1 => propagateVisits dims fuel curdist s1
            | .error _ => [])

/-- The voxels that `fillBasin` takes from the queue, in order. -/
def fillVisits (dims : Dimensions) : Nat → FloodState → List CellIndex
  | 0, _ => []
  | fuel + 1, s =>
    match s.queue with
    | [] => []
    | idx :: q =>
      idx :: fillVisits dims fuel ((neighborCells dims idx).foldl fillNeighbor { s with queue := q })

/-- The voxels that the basin fills of the new-minima loop take from the queue, in order. -/
def newMinimaVisits (dims : Dimensions) (fuel : Nat) :
    List CellIndex → FloodState → List CellIndex
  | [], _ => []
  | idx :: rest, s =>
    (let s1 : FloodState := { s with dist := upd s.dist idx 0 }
     if s1.lab idx = MASK then
       fillVisits dims fuel
         { s1 with curlab := s1.curlab + 1, queue := s1.queue ++ [idx],
                   lab := upd s1.lab idx (s1.curlab + 1) }
     else []) ++
    (match newMinimum dims fuel s idx with
      | .ok s1 => newMinimaVisits dims fuel rest s1
      | .error _ => [])

/-- `Hops dims M a m b`: the voxel `b` is reached from `a` in `m` steps to in-grid
6-neighbours that satisfy `M`. -/
inductive Hops (dims : Dimensions) (M : CellIndex → Prop) (a : CellIndex) :
    Nat → CellIndex → Prop
  | refl : Hops dims M a 0 a
  | step {m : Nat} {b n : CellIndex} :
      Hops dims M a m b → n ∈ neighborCells dims b → M n → Hops dims M a (m + 1) n

/-- A seed of the level `L`: a voxel of the level with an in-grid 6-neighbour that carried a
basin label or WSHED in `lab0`, the label field when the level started. -/
def IsSeed (dims : Dimensions) (L : List CellIndex) (lab0 : CellIndex → Int)
    (d : CellIndex) : Prop :=
  d ∈ L ∧ hasFloodedNeighbor dims lab0 d = true

/-- `g` is the geodesic distance of the voxel `c` in the level `L`: one more than the least
number of hops between a seed of the level and `c` along 6-adjacent voxels of the level
(so 1 for a seed). -/
def IsGeodesic (dims : Dimensions) (L : List CellIndex) (lab0 : CellIndex → Int)
    (c : CellIndex) (g : Int) : Prop :=
  (∃ (m : Nat) (d : CellIndex), g = (m : Int) + 1 ∧ IsSeed dims L lab0 d ∧
    Hops dims (fun x => x ∈ L) d m c) ∧
  ∀ (m : Nat) (d : CellIndex), IsSeed dims L lab0 d → Hops dims (fun x => x ∈ L) d m c →
    g ≤ (m : Int) + 1

/-- The neighbour loop of `FillWatershedPixels` (source lines 216-226) over the remaining
in-grid neighbours: the value of `mark` after the loop (`break` ends it with WSHED). -/
def fillMark (lab : CellIndex → Int) (mark : Int) : List CellIndex → Int
  | [] => mark
  | n :: ns =>
    if lab n = WSHED ∨ lab n = INIT then fillMark lab mark ns
    else if mark ≠ lab n then WSHED
    else fillMark lab mark ns

/-- The body of the first triple loop of `FillWatershedPixels` for one voxel
(source lines 214-228). -/
def fillStep (dims : Dimensions) (lab : CellIndex → Int) (idx : CellIndex) : CellIndex → Int :=
  if lab idx ≠ WSHED ∧ lab idx ≠ INIT then
    upd lab idx (fillMark lab (lab idx) (neighborCells dims idx))
  else lab

/-- The body of the second triple loop of `FillWatershedPixels` for one voxel
(source lines 232-235). -/
def binarizeStep (lab : CellIndex → Int) (idx : CellIndex) : CellIndex → Int :=
  if lab idx ≠ WSHED ∧ lab idx ≠ INIT then upd lab idx 0 else upd lab idx 1

/-- Source `FillWatershedPixels(lab)`: the two triple loops, one after the other. -/
def FillWatershedPixels (dims : Dimensions) (lab : CellIndex → Int) : CellIndex → Int :=
  (allCells dims).foldl binarizeStep ((allCells dims).foldl (fillStep dims) lab)

/-- The labels `[2, WSHED, 2]` along `x`: a watershed voxel between two voxels of basin 2. -/
def unanimousLab (c : CellIndex) : Int := [2, 0, 2].getD c.x.toNat INIT

/-- `RegMin dims ftleValues m`: the voxel `m` lies in a regional minimum: no voxel of its
plateau (the voxels of its height joined to it by 6-adjacent voxels of that height) has an
in-grid 6-neighbour of strictly lower height. -/
def RegMin {H : Type} [LinearOrder H] (dims : Dimensions) (ftleValues : CellIndex → H)
    (m : CellIndex) : Prop :=
  ∀ d, Reach dims (fun x => ftleValues x = ftleValues m) m d →
    ∀ n ∈ neighborCells dims d, ¬ ftleValues n < ftleValues d

/-- `Descent dims ftleValues lab l a b`: from the voxel `a`, the voxel `b` is reached by
steps to in-grid 6-neighbours that carry the label `l` and are never higher than the voxel
they are reached from. -/
inductive Descent {H : Type} [LinearOrder H] (dims : Dimensions) (ftleValues : CellIndex → H)
    (lab : CellIndex → Int) (l : Int) (a : CellIndex) : CellIndex → Prop
  | refl : Descent dims ftleValues lab l a a
  | step {b n : CellIndex} :
      Descent dims ftleValues lab l a b → n ∈ neighborCells dims b → lab n = l →
      ftleValues n ≤ ftleValues b → Descent dims ftleValues lab l a n

/-- What holds of the basins when the level loop is at `rest`: every voxel with a basin
label descends, through voxels of its label, to a voxel of a regional minimum with that
label; every processed voxel of a regional minimum has a basin label; and two processed
voxels of regional minima share a label exactly when they lie in the same plateau. -/
structure BasinInv {H : Type} [LinearOrder H] (dims : Dimensions) (ftleValues : CellIndex → H)
    (rest : List CellIndex) (s : FloodState) : Prop where
  descends : ∀ c ∈ allCells dims, 0 < s.lab c →
    ∃ m ∈ allCells dims, RegMin dims ftleValues m ∧ s.lab m = s.lab c ∧
      Descent dims ftleValues s.lab (s.lab c) c m
  minima_pos : ∀ m ∈ allCells dims, m ∉ rest → RegMin dims ftleValues m → 0 < s.lab m
  minima_sep : ∀ m1 ∈ allCells dims, ∀ m2 ∈ allCells dims, m1 ∉ rest → m2 ∉ rest →
    RegMin dims ftleValues m1 → RegMin dims ftleValues m2 →
    (s.lab m2 = s.lab m1 ↔ Reach dims (fun x => ftleValues x = ftleValues m1) m1 m2)

/-- Two label fields split the processed voxels of the grid (those not in `rest`) alike:
they have the same WSHED voxels, and two voxels carry the same label in one field exactly
when they do in the other. -/
def SameSplit (dims : Dimensions) (rest : List CellIndex) (l1 l2 : CellIndex → Int) : Prop :=
  ∀ c ∈ allCells dims, c ∉ rest → ∀ d ∈ allCells dims, d ∉ rest →
    (l1 c = WSHED ↔ l2 c = WSHED) ∧ (l1 c = l1 d ↔ l2 c = l2 d)

/-- A second height order of the saddle grid, with every tie the other way round:
`x = 6, 0, 5, 1, 4, 2, 3`. -/
def saddleOrder2 : List CellIndex :=
  [⟨6, 0, 0⟩, ⟨0, 0, 0⟩, ⟨5, 0, 0⟩, ⟨1, 0, 0⟩, ⟨4, 0, 0⟩, ⟨2, 0, 0⟩, ⟨3, 0, 0⟩]

/-! ## Theorems -/

theorem bind_eq_ok {α β : Type} (x : Except Fault α) (f : α → Except Fault β) (r : β) :
    x.bind f = .ok r ↔ ∃ a, x = .ok a ∧ f a = .ok r := by
  cases x with
  | error e => simp [Except.bind]
  | ok a => simp [Except.bind]

theorem propagate_zero (dims : Dimensions) (cd : Int) (s : FloodState) :
    propagate dims 0 cd s = .error Fault.outOfFuel := rfl

theorem propagate_succ (dims : Dimensions) (n : Nat) (cd : Int) (s : FloodState) :
    propagate dims (n + 1) cd s =
      match s.queue with
      | [] => .error Fault.emptyQueue
      | idx :: q =>
        if idx.x = -1 then
          match q with
          | [] => .ok { s with queue := [] }
          | idx2 :: q2 =>
            (visitNeighbors (cd + 1) idx2 (neighborCells dims idx2)
                { s with queue := q2 ++ [FICTITIOUS] }).bind (propagate dims n (cd + 1))
        else
          (visitNeighbors cd idx (neighborCells dims idx) { s with queue := q }).bind
            (propagate dims n cd) := rfl

theorem propagate_fuel_mono (dims : Dimensions) :
    ∀ (n m : Nat) (cd : Int) (s r : FloodState), n ≤ m →
      propagate dims n cd s = .ok r → propagate dims m cd s = .ok r := by
  intro n
  induction n with
  | zero => intro m cd s r _ h; simp [propagate] at h
  | succ n ih =>
    intro m cd s r hnm h
    obtain ⟨m, rfl⟩ : ∃ k, m = k + 1 := ⟨m - 1, by omega⟩
    have hnm1 : n ≤ m := by omega
    rw [propagate_succ] at h ⊢
    cases hq : s.queue with
    | nil => simp [hq] at h
    | cons idx q =>
      simp only [hq] at h ⊢
      by_cases hx : idx.x = -1
      · simp only [hx, if_true] at h ⊢
        cases q with
        | nil => exact h
        | cons idx2 q2 =>
          simp only [bind_eq_ok] at h ⊢
          obtain ⟨a, ha, hr⟩ := h
          exact ⟨a, ha, ih m _ _ _ hnm1 hr⟩
      · simp only [hx, if_false] at h ⊢
        simp only [bind_eq_ok] at h ⊢
        obtain ⟨a, ha, hr⟩ := h
        exact ⟨a, ha, ih m _ _ _ hnm1 hr⟩

theorem fillBasin_nil (dims : Dimensions) (n : Nat) (s : FloodState) (h : s.queue = []) :
    fillBasin dims n s = .ok s := by
  unfold fillBasin; simp [h]

theorem fillBasin_cons_zero (dims : Dimensions) (s : FloodState) (idx : CellIndex)
    (q : List CellIndex) (h : s.queue = idx :: q) :
    fillBasin dims 0 s = .error Fault.outOfFuel := by
  unfold fillBasin; simp [h]

theorem fillBasin_cons_succ (dims : Dimensions) (n : Nat) (s : FloodState) (idx : CellIndex)
    (q : List CellIndex) (h : s.queue = idx :: q) :
    fillBasin dims (n + 1) s =
      fillBasin dims n ((neighborCells dims idx).foldl fillNeighbor { s with queue := q }) := by
  rw [fillBasin]; simp [h]

theorem fillBasin_fuel_mono (dims : Dimensions) :
    ∀ (n m : Nat) (s r : FloodState), n ≤ m →
      fillBasin dims n s = .ok r → fillBasin dims m s = .ok r := by
  intro n
  induction n with
  | zero =>
    intro m s r _ h
    cases hq : s.queue with
    | nil => rw [fillBasin_nil _ _ _ hq] at h ⊢; exact h
    | cons idx q => rw [fillBasin_cons_zero _ _ _ _ hq] at h; simp at h
  | succ n ih =>
    intro m s r hnm h
    obtain ⟨m, rfl⟩ : ∃ k, m = k + 1 := ⟨m - 1, by omega⟩
    cases hq : s.queue with
    | nil => rw [fillBasin_nil _ _ _ hq] at h ⊢; exact h
    | cons idx q =>
      rw [fillBasin_cons_succ _ _ _ _ _ hq] at h ⊢
      exact ih m _ _ (by omega) h

theorem newMinimum_fuel_mono (dims : Dimensions) (n m : Nat) (s r : FloodState)
    (idx : CellIndex) (hnm : n ≤ m) (h : newMinimum dims n s idx = .ok r) :
    newMinimum dims m s idx = .ok r := by
  unfold newMinimum at h ⊢
  by_cases hm : s.lab idx = MASK
  · simp only [hm, if_true] at h ⊢
    exact fillBasin_fuel_mono dims n m _ _ hnm h
  · simp only [hm, if_false] at h ⊢
    exact h

theorem newMinima_fuel_mono (dims : Dimensions) (n m : Nat) (hnm : n ≤ m) :
    ∀ (level : List CellIndex) (s r : FloodState),
      newMinima dims n level s = .ok r → newMinima dims m level s = .ok r := by
  intro level
  induction level with
  | nil => intro s r h; exact h
  | cons idx rest ih =>
    intro s r h
    simp only [newMinima, bind_eq_ok] at h ⊢
    obtain ⟨a, ha, hr⟩ := h
    exact ⟨a, newMinimum_fuel_mono dims n m _ _ _ hnm ha, ih _ _ hr⟩

theorem processLevel_fuel_mono (dims : Dimensions) (n m : Nat) (hnm : n ≤ m)
    (level : List CellIndex) (s r : FloodState)
    (h : processLevel dims n level s = .ok r) : processLevel dims m level s = .ok r := by
  simp only [processLevel, bind_eq_ok] at h ⊢
  obtain ⟨a, ha, hr⟩ := h
  exact ⟨a, propagate_fuel_mono dims n m _ _ _ hnm ha, newMinima_fuel_mono dims n m hnm _ _ _ hr⟩

theorem floodLoop_fuel_mono {H : Type} [DecidableEq H] (dims : Dimensions)
    (ftleValues : CellIndex → H) (f f1 : Nat) (hf : f ≤ f1) :
    ∀ (n m : Nat) (rest : List CellIndex) (s r : FloodState), n ≤ m →
      floodLoop dims ftleValues f n rest s = .ok r →
      floodLoop dims ftleValues f1 m rest s = .ok r := by
  intro n
  induction n with
  | zero =>
    intro m rest s r _ h
    cases rest with
    | nil => cases m <;> simpa [floodLoop] using h
    | cons idx tl => simp [floodLoop] at h
  | succ n ih =>
    intro m rest s r hnm h
    obtain ⟨m, rfl⟩ : ∃ k, m = k + 1 := ⟨m - 1, by omega⟩
    cases rest with
    | nil => simpa [floodLoop] using h
    | cons idx tl =>
      simp only [floodLoop, bind_eq_ok] at h ⊢
      obtain ⟨a, ha, hr⟩ := h
      exact ⟨a, processLevel_fuel_mono dims f f1 hf _ _ _ ha, ih m _ _ _ (by omega) hr⟩

theorem FloodEngine_fuel_mono {H : Type} [DecidableEq H] (dims : Dimensions)
    (ftleValues : CellIndex → H) (n m : Nat) (hnm : n ≤ m) (cellOrder : List CellIndex)
    (r : FloodState) (h : FloodEngine dims ftleValues n cellOrder = .ok r) :
    FloodEngine dims ftleValues m cellOrder = .ok r :=
  floodLoop_fuel_mono dims ftleValues n m hnm n m cellOrder _ r hnm h

theorem RemoveWatershedPixels_fuel_mono (dims : Dimensions) :
    ∀ (n m : Nat) (lab r : CellIndex → Int), n ≤ m →
      RemoveWatershedPixels dims n lab = .ok r → RemoveWatershedPixels dims m lab = .ok r := by
  intro n
  induction n with
  | zero => intro m lab r _ h; simp [RemoveWatershedPixels] at h
  | succ n ih =>
    intro m lab r hnm h
    obtain ⟨m, rfl⟩ : ∃ k, m = k + 1 := ⟨m - 1, by omega⟩
    simp only [RemoveWatershedPixels] at h ⊢
    by_cases hfl : (removePass dims lab).2 = true
    · simp only [hfl, if_true] at h ⊢
      exact ih m _ _ (by omega) h
    · simp only [hfl] at h ⊢
      exact h

theorem okAnd_eq_true {α : Type} (r : Except Fault α) (p : α → Bool) :
    okAnd r p = true ↔ ∃ a, r = .ok a ∧ p a = true := by
  cases r with
  | error e => simp [okAnd]
  | ok a => simp [okAnd]

set_option maxRecDepth 100000 in
set_option maxHeartbeats 4000000 in
theorem saddle_orders_check :
    ∀ a ∈ allCells saddleDims,
    ∀ b ∈ allCells saddleDims, b ∉ [a] → ¬ saddleHeights b < saddleHeights a →
    ∀ c ∈ allCells saddleDims, c ∉ [a, b] → ¬ saddleHeights c < saddleHeights b →
    ∀ d ∈ allCells saddleDims, d ∉ [a, b, c] → ¬ saddleHeights d < saddleHeights c →
    ∀ e ∈ allCells saddleDims, e ∉ [a, b, c, d] → ¬ saddleHeights e < saddleHeights d →
    ∀ f ∈ allCells saddleDims, f ∉ [a, b, c, d, e] → ¬ saddleHeights f < saddleHeights e →
    ∀ g ∈ allCells saddleDims, g ∉ [a, b, c, d, e, f] → ¬ saddleHeights g < saddleHeights f →
      saddleCheck [a, b, c, d, e, f, g] = true := by
  decide

theorem saddleCheck_of_order (cellOrder : List CellIndex)
    (hsort : IsHeightOrder saddleDims saddleHeights cellOrder) :
    saddleCheck cellOrder = true := by
  obtain ⟨hperm, hpair⟩ := hsort
  have hlen : cellOrder.length = 7 := by rw [hperm.length_eq]; decide
  have hnd : cellOrder.Nodup := hperm.nodup_iff.mpr (by decide)
  have hmem : ∀ c ∈ cellOrder, c ∈ allCells saddleDims := fun c hc => hperm.mem_iff.mp hc
  match cellOrder, hlen with
  | [a, b, c, d, e, f, g], _ =>
    simp only [List.pairwise_cons, List.mem_cons, List.mem_singleton, forall_eq_or_imp,
      forall_eq] at hpair
    simp only [List.nodup_cons, List.mem_cons, List.mem_singleton] at hnd
    obtain ⟨⟨hab, hac, had, hae, haf, hag⟩, ⟨hbc, hbd, hbe, hbf, hbg⟩, ⟨hcd, hce, hcf, hcg⟩,
      ⟨hde, hdf, hdg⟩, ⟨hef, heg⟩, hfg, -⟩ := hpair
    obtain ⟨na, nb, nc, nd, ne, nf, -⟩ := hnd
    have ma : a ∈ allCells saddleDims := hmem a (by simp)
    have mb : b ∈ allCells saddleDims := hmem b (by simp)
    have mc : c ∈ allCells saddleDims := hmem c (by simp)
    have md : d ∈ allCells saddleDims := hmem d (by simp)
    have me : e ∈ allCells saddleDims := hmem e (by simp)
    have mf : f ∈ allCells saddleDims := hmem f (by simp)
    have mg : g ∈ allCells saddleDims := hmem g (by simp)
    have xb : b ∉ [a] := by
      simp only [List.mem_singleton]; intro h; exact na (Or.inl h.symm)
    have xc : c ∉ [a, b] := by
      simp only [List.mem_cons, List.mem_singleton, List.not_mem_nil, or_false]
      rintro (h | h)
      · exact na (Or.inr (Or.inl h.symm))
      · exact nb (Or.inl h.symm)
    have xd : d ∉ [a, b, c] := by
      simp only [List.mem_cons, List.mem_singleton, List.not_mem_nil, or_false]
      rintro (h | h | h)
      · exact na (Or.inr (Or.inr (Or.inl h.symm)))
      · exact nb (Or.inr (Or.inl h.symm))
      · exact nc (Or.inl h.symm)
    have xe : e ∉ [a, b, c, d] := by
      simp only [List.mem_cons, List.mem_singleton, List.not_mem_nil, or_false]
      rintro (h | h | h | h)
      · exact na (Or.inr (Or.inr (Or.inr (Or.inl h.symm))))
      · exact nb (Or.inr (Or.inr (Or.inl h.symm)))
      · exact nc (Or.inr (Or.inl h.symm))
      · exact nd (Or.inl h.symm)
    have xf : f ∉ [a, b, c, d, e] := by
      simp only [List.mem_cons, List.mem_singleton, List.not_mem_nil, or_false]
      rintro (h | h | h | h | h)
      · exact na (Or.inr (Or.inr (Or.inr (Or.inr (Or.inl h.symm)))))
      · exact nb (Or.inr (Or.inr (Or.inr (Or.inl h.symm))))
      · exact nc (Or.inr (Or.inr (Or.inl h.symm)))
      · exact nd (Or.inr (Or.inl h.symm))
      · exact ne (Or.inl h.symm)
    have xg : g ∉ [a, b, c, d, e, f] := by
      simp only [List.mem_cons, List.mem_singleton, List.not_mem_nil, or_false]
      rintro (h | h | h | h | h | h)
      · exact na (Or.inr (Or.inr (Or.inr (Or.inr (Or.inr (Or.inl h.symm))))))
      · exact nb (Or.inr (Or.inr (Or.inr (Or.inr (Or.inl h.symm)))))
      · exact nc (Or.inr (Or.inr (Or.inr (Or.inl h.symm))))
      · exact nd (Or.inr (Or.inr (Or.inl h.symm)))
      · exact ne (Or.inr (Or.inl h.symm))
      · exact nf (Or.inl h.symm)
    exact saddle_orders_check a ma b mb xb hab c mc xc hbc d md xd hcd e me xe hde
      f mf xf hef g mg xg hfg.1

theorem saddleOrder_isHeightOrder : IsHeightOrder saddleDims saddleHeights saddleOrder := by
  constructor
  · decide
  · decide

/-- C1: on the 7x1x1 grid with heights `[0,1,2,3,2,1,0]`, for every height-sorted
`cellOrder` the Flood Engine succeeds with exactly two basin labels (`curlab = 2`), the
voxels `x = 0,1,2` carry one of them, `x = 4,5,6` the other, `x = 3` is the only
WSHED voxel; and RemoveWatershedPixels then terminates with no WSHED voxel left. -/
theorem saddle_two_basins (cellOrder : List CellIndex)
    (hsort : IsHeightOrder saddleDims saddleHeights cellOrder) (fuel : Nat) (hfuel : 8 ≤ fuel) :
    ∃ s, FloodEngine saddleDims saddleHeights fuel cellOrder = .ok s ∧ SaddleFlooded s ∧
      ∃ lab1, RemoveWatershedPixels saddleDims fuel s.lab = .ok lab1 ∧
        ∀ c ∈ allCells saddleDims, lab1 c ≠ WSHED := by
  have h := saddleCheck_of_order cellOrder hsort
  unfold saddleCheck at h
  rw [okAnd_eq_true] at h
  obtain ⟨s, hs, h⟩ := h
  rw [Bool.and_eq_true, okAnd_eq_true] at h
  obtain ⟨h1, lab1, hl, h2⟩ := h
  exact ⟨s, FloodEngine_fuel_mono _ _ 8 fuel hfuel _ _ hs, of_decide_eq_true h1, lab1,
    RemoveWatershedPixels_fuel_mono _ 8 fuel _ _ hfuel hl, of_decide_eq_true h2⟩

theorem saddle_two_basins_witness :
    IsHeightOrder saddleDims saddleHeights saddleOrder ∧ 8 ≤ 8 ∧
    ∃ s, FloodEngine saddleDims saddleHeights 8 saddleOrder = .ok s ∧ SaddleFlooded s ∧
      ∃ lab1, RemoveWatershedPixels saddleDims 8 s.lab = .ok lab1 ∧
        ∀ c ∈ allCells saddleDims, lab1 c ≠ WSHED :=
  ⟨saddleOrder_isHeightOrder, le_refl 8,
    saddle_two_basins saddleOrder saddleOrder_isHeightOrder 8 (le_refl 8)⟩

theorem upd_same (f : CellIndex → Int) (idx : CellIndex) (v : Int) : upd f idx v idx = v := by
  simp [upd]

theorem upd_other (f : CellIndex → Int) (idx c : CellIndex) (v : Int) (h : c ≠ idx) :
    upd f idx v c = f c := by
  simp [upd, h]

theorem outside_eq_false (dims : Dimensions) (x y z : Int) :
    Outside dims x y z = false ↔
      0 ≤ x ∧ 0 ≤ y ∧ 0 ≤ z ∧ x < dims.d0 ∧ y < dims.d1 ∧ z < dims.d2 := by
  simp only [Outside, Bool.or_eq_false_iff, decide_eq_false_iff_not, not_lt, ge_iff_le, not_le]
  tauto

theorem mem_allCells (dims : Dimensions) (c : CellIndex) :
    c ∈ allCells dims ↔ Outside dims c.x c.y c.z = false := by
  rw [outside_eq_false]
  simp only [allCells, List.mem_flatMap, List.mem_range, List.mem_map]
  constructor
  · rintro ⟨i, hi, j, hj, k, hk, rfl⟩
    simp only
    omega
  · rintro ⟨hx, hy, hz, hx1, hy1, hz1⟩
    refine ⟨c.x.toNat, by omega, c.y.toNat, by omega, c.z.toNat, by omega, ?_⟩
    cases c with
    | mk x y z =>
      simp only [CellIndex.mk.injEq] at *
      omega

theorem mem_neighborCells (dims : Dimensions) (idx n : CellIndex) :
    n ∈ neighborCells dims idx ↔
      Outside dims n.x n.y n.z = false ∧
        (n = ⟨idx.x + -1, idx.y + 0, idx.z + 0⟩ ∨ n = ⟨idx.x + 1, idx.y + 0, idx.z + 0⟩ ∨
         n = ⟨idx.x + 0, idx.y + -1, idx.z + 0⟩ ∨ n = ⟨idx.x + 0, idx.y + 1, idx.z + 0⟩ ∨
         n = ⟨idx.x + 0, idx.y + 0, idx.z + -1⟩ ∨ n = ⟨idx.x + 0, idx.y + 0, idx.z + 1⟩) := by
  simp only [neighborCells, dire, numOfNeighbors, List.take, List.map, List.mem_filter,
    List.mem_cons, List.mem_singleton, List.not_mem_nil, or_false, Bool.not_eq_true',
    Bool.not_eq_eq_eq_not, Bool.not_true]
  tauto

theorem nodup_allCells (dims : Dimensions) : (allCells dims).Nodup := by
  unfold allCells
  rw [List.nodup_flatMap]
  refine ⟨fun i _ => ?_, ?_⟩
  · rw [List.nodup_flatMap]
    refine ⟨fun j _ => ?_, ?_⟩
    · refine List.Nodup.map ?_ (List.nodup_range _)
      intro a b hab
      simp only [CellIndex.mk.injEq] at hab
      omega
    · refine (List.nodup_range _).pairwise_of_forall_ne ?_
      intro a _ b _ hab
      simp only [Function.onFun, List.disjoint_left, List.mem_map, not_exists, not_and]
      rintro c ⟨k, _, rfl⟩ k2 _ h
      simp only [CellIndex.mk.injEq] at h
      omega
  · refine (List.nodup_range _).pairwise_of_forall_ne ?_
    intro a _ b _ hab
    simp only [Function.onFun, List.disjoint_left, List.mem_flatMap, List.mem_map, not_exists,
      not_and]
    rintro c ⟨j, _, k, _, rfl⟩ j2 _ k2 _ h
    simp only [CellIndex.mk.injEq] at h
    omega

theorem neighbor_inGrid (dims : Dimensions) (idx n : CellIndex)
    (h : n ∈ neighborCells dims idx) : Outside dims n.x n.y n.z = false :=
  ((mem_neighborCells dims idx n).mp h).1

theorem neighbor_mem_allCells (dims : Dimensions) (idx n : CellIndex)
    (h : n ∈ neighborCells dims idx) : n ∈ allCells dims :=
  (mem_allCells dims n).mpr (neighbor_inGrid dims idx n h)

theorem neighbor_ne (dims : Dimensions) (idx n : CellIndex)
    (h : n ∈ neighborCells dims idx) : n ≠ idx := by
  obtain ⟨_, h⟩ := (mem_neighborCells dims idx n).mp h
  intro he
  subst he
  cases n with
  | mk x y z =>
    simp only [CellIndex.mk.injEq] at h
    omega

theorem neighbor_symm (dims : Dimensions) (idx n : CellIndex)
    (h : n ∈ neighborCells dims idx) (hin : Outside dims idx.x idx.y idx.z = false) :
    idx ∈ neighborCells dims n := by
  obtain ⟨_, h⟩ := (mem_neighborCells dims idx n).mp h
  rw [mem_neighborCells]
  refine ⟨hin, ?_⟩
  cases idx with
  | mk x y z =>
    rcases h with h | h | h | h | h | h <;> subst h <;>
      simp only [CellIndex.mk.injEq] <;> omega

theorem nodup_neighborCells (dims : Dimensions) (idx : CellIndex) :
    (neighborCells dims idx).Nodup := by
  unfold neighborCells
  apply List.Nodup.filter
  simp only [dire, numOfNeighbors, List.take, List.map, List.nodup_cons, List.mem_cons,
    List.mem_singleton, CellIndex.mk.injEq, List.not_mem_nil, List.nodup_nil, true_and,
    and_true, or_false, not_false_eq_true]
  omega

theorem countFold_eq (lab : CellIndex → Int) (ns : List CellIndex) :
    ∀ acc : List (Int × Int),
      ns.foldl (fun counter n =>
        if lab n ≠ WSHED ∧ lab n ≠ INIT then counterAdd counter (lab n) else counter) acc =
      ((ns.map lab).filter (fun v => decide (v ≠ WSHED ∧ v ≠ INIT))).foldl counterAdd acc := by
  induction ns with
  | nil => intro acc; rfl
  | cons n ns ih =>
    intro acc
    simp only [List.foldl_cons, List.map_cons, List.filter_cons]
    by_cases h : lab n ≠ WSHED ∧ lab n ≠ INIT
    · rw [if_pos h, if_pos (decide_eq_true h), List.foldl_cons]
      exact ih _
    · rw [if_neg h, if_neg (by simpa using h)]
      exact ih _

theorem countNeighbors_eq (dims : Dimensions) (lab : CellIndex → Int) (idx : CellIndex) :
    countNeighbors dims lab idx = (countedLabels dims lab idx).foldl counterAdd [] :=
  countFold_eq lab (neighborCells dims idx) []

theorem counterGet_counterAdd (counter : List (Int × Int)) (v k : Int) :
    counterGet (counterAdd counter v) k = counterGet counter k + (if k = v then 1 else 0) := by
  induction counter with
  | nil =>
    by_cases h : k = v
    · simp [counterAdd, counterGet, h]
    · simp [counterAdd, counterGet, h, Ne.symm h]
  | cons kc rest ih =>
    obtain ⟨k0, c0⟩ := kc
    unfold counterAdd
    by_cases h1 : v = k0
    · subst h1
      by_cases h : k = v
      · subst h; simp [counterGet]; ring
      · simp [counterGet, h, Ne.symm h]
    · simp only [h1, if_false]
      by_cases h2 : v < k0
      · simp only [h2, if_true]
        by_cases h : k = v
        · subst h; simp [counterGet, h1, Ne.symm h1]; ring
        · simp [counterGet, h, Ne.symm h]
      · simp only [h2, if_false]
        have e1 : counterGet ((k0, c0) :: counterAdd rest v) k =
            (if k0 = k then c0 else 0) + counterGet (counterAdd rest v) k := by
          by_cases hk : k0 = k <;> simp [counterGet, hk]
        have e2 : counterGet ((k0, c0) :: rest) k =
            (if k0 = k then c0 else 0) + counterGet rest k := by
          by_cases hk : k0 = k <;> simp [counterGet, hk]
        rw [e1, e2, ih]; ring

theorem counterGet_foldl (labels : List Int) (k : Int) :
    ∀ counter : List (Int × Int),
      counterGet (labels.foldl counterAdd counter) k = counterGet counter k + labels.count k := by
  induction labels with
  | nil => intro counter; simp
  | cons v vs ih =>
    intro counter
    rw [List.foldl_cons, ih, counterGet_counterAdd, List.count_cons]
    by_cases h : k = v
    · subst h; simp; ring
    · simp [h, Ne.symm h]

theorem counterAdd_key (counter : List (Int × Int)) (v : Int) :
    ∀ e ∈ counterAdd counter v, e.1 = v ∨ ∃ e1 ∈ counter, e1.1 = e.1 := by
  induction counter with
  | nil => intro e he; simp [counterAdd] at he; left; rw [he]
  | cons kc rest ih =>
    obtain ⟨k0, c0⟩ := kc
    intro e he
    unfold counterAdd at he
    by_cases h1 : v = k0
    · simp only [h1, if_true, List.mem_cons] at he
      rcases he with he | he
      · left; rw [he, h1]
      · right; exact ⟨e, List.mem_cons_of_mem _ he, rfl⟩
    · simp only [h1, if_false] at he
      by_cases h2 : v < k0
      · simp only [h2, if_true, List.mem_cons] at he
        rcases he with he | he | he
        · left; rw [he]
        · right; exact ⟨(k0, c0), List.mem_cons_self _ _, by rw [he]⟩
        · right; exact ⟨e, List.mem_cons_of_mem _ he, rfl⟩
      · simp only [h2, if_false, List.mem_cons] at he
        rcases he with he | he
        · right; exact ⟨(k0, c0), List.mem_cons_self _ _, by rw [he]⟩
        · rcases ih e he with h | ⟨e1, he1, h⟩
          · left; exact h
          · right; exact ⟨e1, List.mem_cons_of_mem _ he1, h⟩

theorem counterAdd_sorted (counter : List (Int × Int)) (v : Int)
    (hs : counter.Pairwise (fun a b => a.1 < b.1)) :
    (counterAdd counter v).Pairwise (fun a b => a.1 < b.1) := by
  induction counter with
  | nil => simp [counterAdd]
  | cons kc rest ih =>
    obtain ⟨k0, c0⟩ := kc
    rw [List.pairwise_cons] at hs
    obtain ⟨hhd, htl⟩ := hs
    unfold counterAdd
    by_cases h1 : v = k0
    · simp only [h1, if_true]
      exact List.pairwise_cons.mpr ⟨hhd, htl⟩
    · simp only [h1, if_false]
      by_cases h2 : v < k0
      · simp only [h2, if_true]
        refine List.pairwise_cons.mpr ⟨?_, List.pairwise_cons.mpr ⟨hhd, htl⟩⟩
        intro e he
        rcases List.mem_cons.mp he with he | he
        · rw [he]; exact h2
        · exact lt_trans h2 (hhd e he)
      · simp only [h2, if_false]
        refine List.pairwise_cons.mpr ⟨?_, ih htl⟩
        intro e he
        rcases counterAdd_key rest v e he with h | ⟨e1, he1, h⟩
        · rw [h]; simp only at *; omega
        · rw [← h]; exact hhd e1 he1

theorem counterAdd_pos (counter : List (Int × Int)) (v : Int)
    (hp : ∀ e ∈ counter, 0 < e.2) : ∀ e ∈ counterAdd counter v, 0 < e.2 := by
  induction counter with
  | nil => intro e he; simp [counterAdd] at he; rw [he]; exact Int.one_pos
  | cons kc rest ih =>
    obtain ⟨k0, c0⟩ := kc
    have hc0 : 0 < c0 := hp (k0, c0) (List.mem_cons_self _ _)
    have hrest : ∀ e ∈ rest, 0 < e.2 := fun e he => hp e (List.mem_cons_of_mem _ he)
    intro e he
    unfold counterAdd at he
    by_cases h1 : v = k0
    · simp only [h1, if_true, List.mem_cons] at he
      rcases he with he | he
      · rw [he]; simp only; omega
      · exact hrest e he
    · simp only [h1, if_false] at he
      by_cases h2 : v < k0
      · simp only [h2, if_true, List.mem_cons] at he
        rcases he with he | he | he
        · rw [he]; exact Int.one_pos
        · rw [he]; exact hc0
        · exact hrest e he
      · simp only [h2, if_false, List.mem_cons] at he
        rcases he with he | he
        · rw [he]; exact hc0
        · exact ih hrest e he

theorem counterFold_sorted_pos (labels : List Int) :
    ∀ counter : List (Int × Int),
      counter.Pairwise (fun a b => a.1 < b.1) → (∀ e ∈ counter, 0 < e.2) →
      (labels.foldl counterAdd counter).Pairwise (fun a b => a.1 < b.1) ∧
        ∀ e ∈ labels.foldl counterAdd counter, 0 < e.2 := by
  induction labels with
  | nil => intro counter hs hp; exact ⟨hs, hp⟩
  | cons v vs ih =>
    intro counter hs hp
    exact ih _ (counterAdd_sorted counter v hs) (counterAdd_pos counter v hp)

theorem counterGet_of_mem (counter : List (Int × Int))
    (hs : counter.Pairwise (fun a b => a.1 < b.1)) (k c : Int) (h : (k, c) ∈ counter) :
    counterGet counter k = c := by
  induction counter with
  | nil => simp at h
  | cons kc rest ih =>
    rw [List.pairwise_cons] at hs
    obtain ⟨hhd, htl⟩ := hs
    rcases List.mem_cons.mp h with h | h
    · subst h
      have : rest.filter (fun kc => decide (kc.1 = k)) = [] := by
        rw [List.filter_eq_nil_iff]
        intro e he
        have := hhd e he
        simp only at this
        simp only [decide_eq_true_eq]
        omega
      simp [counterGet, this]
    · have hne : kc.1 ≠ k := by
        have := hhd (k, c) h
        simp only at this
        omega
      have := ih htl h
      simp only [counterGet] at this ⊢
      simp [hne, this]

theorem counterGet_zero_of_not_mem (counter : List (Int × Int)) (k : Int)
    (h : ∀ e ∈ counter, e.1 ≠ k) : counterGet counter k = 0 := by
  have : counter.filter (fun kc => decide (kc.1 = k)) = [] := by
    rw [List.filter_eq_nil_iff]
    intro e he
    simpa using h e he
  simp [counterGet, this]

theorem bestFold_spec (counter : List (Int × Int)) :
    ∀ best : Int × Int, counter.Pairwise (fun a b => a.1 < b.1) →
      let r := counter.foldl (fun best kc => if kc.2 > best.2 then (kc.1, kc.2) else best) best
      best.2 ≤ r.2 ∧ (∀ e ∈ counter, e.2 ≤ r.2) ∧
        (r = best ∨ (r ∈ counter ∧ best.2 < r.2 ∧ ∀ e ∈ counter, e.2 = r.2 → r.1 ≤ e.1)) := by
  induction counter with
  | nil => intro best _; simp
  | cons kc rest ih =>
    intro best hs
    rw [List.pairwise_cons] at hs
    obtain ⟨hhd, htl⟩ := hs
    simp only [List.foldl_cons]
    by_cases h : kc.2 > best.2
    · rw [if_pos h]
      obtain ⟨h1, h2, h3⟩ := ih (kc.1, kc.2) htl
      simp only at h1 h2 h3
      refine ⟨by omega, ?_, ?_⟩
      · intro e he
        rcases List.mem_cons.mp he with he | he
        · rw [he]; exact h1
        · exact h2 e he
      · right
        rcases h3 with h3 | ⟨h3, h4, h5⟩
        · rw [h3]
          refine ⟨List.mem_cons_self _ _, h, ?_⟩
          intro e he _
          rcases List.mem_cons.mp he with he | he
          · rw [he]
          · exact le_of_lt (hhd e he)
        · refine ⟨List.mem_cons_of_mem _ h3, by omega, ?_⟩
          intro e he hee
          rcases List.mem_cons.mp he with he | he
          · rw [he] at hee; omega
          · exact h5 e he hee
    · rw [if_neg h]
      obtain ⟨h1, h2, h3⟩ := ih best htl
      refine ⟨h1, ?_, ?_⟩
      · intro e he
        rcases List.mem_cons.mp he with he | he
        · rw [he]; omega
        · exact h2 e he
      · rcases h3 with h3 | ⟨h3, h4, h5⟩
        · left; exact h3
        · right
          refine ⟨List.mem_cons_of_mem _ h3, h4, ?_⟩
          intro e he hee
          rcases List.mem_cons.mp he with he | he
          · rw [he] at hee; omega
          · exact h5 e he hee

/-- What `bestOf` picks on the map built from a non-empty list of counted labels: a
label of maximal count, the smallest one among those of maximal count. -/
theorem bestOf_counted (labels : List Int) (hne : labels ≠ []) :
    let best := bestOf (labels.foldl counterAdd [])
    0 < best.2 ∧ best.1 ∈ labels ∧ best.2 = labels.count best.1 ∧
      (∀ w ∈ labels, labels.count w ≤ labels.count best.1) ∧
      (∀ w ∈ labels, labels.count w = labels.count best.1 → best.1 ≤ w) := by
  intro best
  obtain ⟨hs, hp⟩ := counterFold_sorted_pos labels [] List.Pairwise.nil (by simp)
  have hget : ∀ k, counterGet (labels.foldl counterAdd []) k = labels.count k := by
    intro k; rw [counterGet_foldl]; simp [counterGet]
  have hentry : ∀ w ∈ labels, (w, (labels.count w : Int)) ∈ labels.foldl counterAdd [] := by
    intro w hw
    by_contra hcon
    have hz : counterGet (labels.foldl counterAdd []) w = 0 := by
      apply counterGet_zero_of_not_mem
      intro e he hew
      apply hcon
      have := counterGet_of_mem _ hs e.1 e.2 he
      rw [hget, hew] at this
      rw [this, ← hew]
      exact he
    rw [hget] at hz
    have : 0 < labels.count w := List.count_pos_iff.mpr hw
    omega
  have hmemc : ∀ e ∈ labels.foldl counterAdd [], e.1 ∈ labels ∧ e.2 = labels.count e.1 := by
    intro e he
    have h1 := counterGet_of_mem _ hs e.1 e.2 he
    rw [hget] at h1
    have h2 := hp e he
    refine ⟨?_, h1.symm⟩
    apply List.count_pos_iff.mp
    omega
  obtain ⟨_, h2, h3⟩ := bestFold_spec (labels.foldl counterAdd []) (-1, 0) hs
  simp only at h2 h3
  change (∀ e ∈ labels.foldl counterAdd [], e.2 ≤ best.2) at h2
  change (best = (-1, 0) ∨ _) at h3
  obtain ⟨v, hv⟩ := List.exists_mem_of_ne_nil labels hne
  have hv1 := h2 _ (hentry v hv)
  have hvpos : 0 < labels.count v := List.count_pos_iff.mpr hv
  simp only at hv1
  rcases h3 with h3 | ⟨h3, _, h5⟩
  · rw [h3] at hv1; simp only at hv1; omega
  · change best ∈ _ at h3
    obtain ⟨hb1, hb2⟩ := hmemc best h3
    refine ⟨by omega, hb1, hb2, ?_, ?_⟩
    · intro w hw
      have := h2 _ (hentry w hw)
      simp only at this
      omega
    · intro w hw hww
      have := h5 _ (hentry w hw)
      simp only at this
      apply this
      change (labels.count w : Int) = best.2
      omega

theorem bestOf_nil_counted (labels : List Int) (hnil : labels = []) :
    bestOf (labels.foldl counterAdd []) = (-1, 0) := by
  subst hnil; rfl

theorem removeStep_wshed (dims : Dimensions) (lab : CellIndex → Int) (flag : Bool)
    (idx : CellIndex) (hw : lab idx = WSHED) :
    removeStep dims (lab, flag) idx =
      (if (bestOf (countNeighbors dims lab idx)).2 > 0
        then upd lab idx (bestOf (countNeighbors dims lab idx)).1 else lab, true) := by
  simp [removeStep, hw]

theorem removeStep_not_wshed (dims : Dimensions) (lab : CellIndex → Int) (flag : Bool)
    (idx : CellIndex) (hw : lab idx ≠ WSHED) :
    removeStep dims (lab, flag) idx = (lab, flag) := by
  simp [removeStep, hw]

/-- C8 (as the code has it): a WSHED voxel visited by `RemoveWatershedPixels` receives,
among the counted neighbour labels of maximal count, the numerically smallest one
(the map is scanned in key order with a strict `>`), whatever the neighbour order. -/
theorem cleanup_tie_smallest_label (dims : Dimensions) (lab : CellIndex → Int) (flag : Bool)
    (idx : CellIndex) (hw : lab idx = WSHED) (v : Int)
    (hv : v ∈ countedLabels dims lab idx)
    (hmax : ∀ w ∈ countedLabels dims lab idx,
      (countedLabels dims lab idx).count w ≤ (countedLabels dims lab idx).count v)
    (hmin : ∀ w ∈ countedLabels dims lab idx,
      (countedLabels dims lab idx).count w = (countedLabels dims lab idx).count v → v ≤ w) :
    (removeStep dims (lab, flag) idx).1 idx = v := by
  have hne : countedLabels dims lab idx ≠ [] := List.ne_nil_of_mem hv
  obtain ⟨h1, h2, _, h4, h5⟩ := bestOf_counted (countedLabels dims lab idx) hne
  rw [← countNeighbors_eq] at h1 h2 h4 h5
  rw [removeStep_wshed dims lab flag idx hw]
  simp only [gt_iff_lt, h1, if_true, upd_same]
  have e1 := h4 v hv
  have e2 := hmax _ h2
  have e3 := h5 v hv (by omega)
  have e4 := hmin _ h2 (by omega)
  omega

theorem cleanup_tie_smallest_label_witness :
    (removeStep tieDims (tieLab, false) ⟨1, 0, 0⟩).1 ⟨1, 0, 0⟩ = 1 :=
  cleanup_tie_smallest_label tieDims tieLab false ⟨1, 0, 0⟩ (by decide) 1 (by decide)
    (by decide) (by decide)

/-- C8 as stated fails: in the field `[2, WSHED, 1]` the two neighbour labels tie with one
occurrence each, the label met first in neighbour order (`-x`) is 2, yet the voxel
receives 1, also at the end of `RemoveWatershedPixels`. -/
theorem cleanup_tie_not_first_encountered :
    tieLab ⟨1, 0, 0⟩ = WSHED ∧
    countedLabels tieDims tieLab ⟨1, 0, 0⟩ = [2, 1] ∧
    firstEncounteredBest (countedLabels tieDims tieLab ⟨1, 0, 0⟩) = some 2 ∧
    (removeStep tieDims (tieLab, false) ⟨1, 0, 0⟩).1 ⟨1, 0, 0⟩ = 1 ∧
    okAnd (RemoveWatershedPixels tieDims 2 tieLab)
      (fun lab1 => decide (lab1 ⟨1, 0, 0⟩ = 1)) = true := by
  decide

theorem grid_step_closer (dims : Dimensions) (w b : CellIndex)
    (hw : w ∈ allCells dims) (hb : b ∈ allCells dims) (hne : w ≠ b) :
    ∃ n ∈ neighborCells dims w, gridDist n b < gridDist w b := by
  rw [mem_allCells, outside_eq_false] at hw hb
  have hcoord : w.x ≠ b.x ∨ w.y ≠ b.y ∨ w.z ≠ b.z := by
    by_contra hcon
    push_neg at hcon
    apply hne
    cases w; cases b
    simp only [CellIndex.mk.injEq]
    exact hcon
  have key : ∀ n : CellIndex, Outside dims n.x n.y n.z = false →
      (n = ⟨w.x + -1, w.y + 0, w.z + 0⟩ ∨ n = ⟨w.x + 1, w.y + 0, w.z + 0⟩ ∨
       n = ⟨w.x + 0, w.y + -1, w.z + 0⟩ ∨ n = ⟨w.x + 0, w.y + 1, w.z + 0⟩ ∨
       n = ⟨w.x + 0, w.y + 0, w.z + -1⟩ ∨ n = ⟨w.x + 0, w.y + 0, w.z + 1⟩) →
      n ∈ neighborCells dims w := fun n h1 h2 => (mem_neighborCells dims w n).mpr ⟨h1, h2⟩
  unfold gridDist
  rcases hcoord with h | h | h
  · rcases lt_or_gt_of_ne h with h | h
    · refine ⟨⟨w.x + 1, w.y + 0, w.z + 0⟩, key _ ?_ (by tauto), ?_⟩
      · rw [outside_eq_false]; simp only; omega
      · simp only; omega
    · refine ⟨⟨w.x + -1, w.y + 0, w.z + 0⟩, key _ ?_ (by tauto), ?_⟩
      · rw [outside_eq_false]; simp only; omega
      · simp only; omega
  · rcases lt_or_gt_of_ne h with h | h
    · refine ⟨⟨w.x + 0, w.y + 1, w.z + 0⟩, key _ ?_ (by tauto), ?_⟩
      · rw [outside_eq_false]; simp only; omega
      · simp only; omega
    · refine ⟨⟨w.x + 0, w.y + -1, w.z + 0⟩, key _ ?_ (by tauto), ?_⟩
      · rw [outside_eq_false]; simp only; omega
      · simp only; omega
  · rcases lt_or_gt_of_ne h with h | h
    · refine ⟨⟨w.x + 0, w.y + 0, w.z + 1⟩, key _ ?_ (by tauto), ?_⟩
      · rw [outside_eq_false]; simp only; omega
      · simp only; omega
    · refine ⟨⟨w.x + 0, w.y + 0, w.z + -1⟩, key _ ?_ (by tauto), ?_⟩
      · rw [outside_eq_false]; simp only; omega
      · simp only; omega

/-- The grid is 6-connected: a property that holds at one cell and passes to in-grid
neighbours holds on the whole grid. -/
theorem grid_connected (dims : Dimensions) (P : CellIndex → Prop) (b : CellIndex)
    (hb : b ∈ allCells dims) (hPb : P b)
    (hstep : ∀ c ∈ allCells dims, P c → ∀ n ∈ neighborCells dims c, P n) :
    ∀ c ∈ allCells dims, P c := by
  have main : ∀ d : Nat, ∀ c ∈ allCells dims, gridDist c b ≤ d → P c := by
    intro d
    induction d with
    | zero =>
      intro c hc hd
      by_cases hcb : c = b
      · rw [hcb]; exact hPb
      · obtain ⟨n, _, hlt⟩ := grid_step_closer dims c b hc hb hcb
        omega
    | succ d ih =>
      intro c hc hd
      by_cases hcb : c = b
      · rw [hcb]; exact hPb
      · obtain ⟨n, hn, hlt⟩ := grid_step_closer dims c b hc hb hcb
        have hnin := neighbor_mem_allCells dims c n hn
        have hPn := ih n hnin (by omega)
        exact hstep n hnin hPn c
          (neighbor_symm dims c n hn ((mem_allCells dims c).mp hc))
  intro c hc
  exact main _ c hc (le_refl _)

theorem mem_countedLabels (dims : Dimensions) (lab : CellIndex → Int) (idx : CellIndex)
    (v : Int) :
    v ∈ countedLabels dims lab idx ↔
      ∃ n ∈ neighborCells dims idx, lab n = v ∧ v ≠ WSHED ∧ v ≠ INIT := by
  simp only [countedLabels, List.mem_filter, List.mem_map, decide_eq_true_eq]
  constructor
  · rintro ⟨⟨n, hn, rfl⟩, h⟩
    exact ⟨n, hn, rfl, h⟩
  · rintro ⟨n, hn, rfl, h⟩
    exact ⟨⟨n, hn, rfl⟩, h⟩

theorem removeStep_cases (dims : Dimensions) (lab : CellIndex → Int) (flag : Bool)
    (idx : CellIndex) :
    (lab idx ≠ WSHED ∧ removeStep dims (lab, flag) idx = (lab, flag)) ∨
    (lab idx = WSHED ∧ countedLabels dims lab idx = [] ∧
      removeStep dims (lab, flag) idx = (lab, true)) ∨
    (lab idx = WSHED ∧ ∃ v ∈ countedLabels dims lab idx,
      removeStep dims (lab, flag) idx = (upd lab idx v, true)) := by
  by_cases hw : lab idx = WSHED
  · right
    by_cases hne : countedLabels dims lab idx = []
    · left
      refine ⟨hw, hne, ?_⟩
      rw [removeStep_wshed dims lab flag idx hw, countNeighbors_eq,
        bestOf_nil_counted _ hne]
      simp
    · right
      obtain ⟨h1, h2, _⟩ := bestOf_counted (countedLabels dims lab idx) hne
      rw [← countNeighbors_eq] at h1 h2
      refine ⟨hw, _, h2, ?_⟩
      rw [removeStep_wshed dims lab flag idx hw]
      simp only [gt_iff_lt, h1, if_true]
  · left
    exact ⟨hw, removeStep_not_wshed dims lab flag idx hw⟩

/-- A pass only rewrites WSHED voxels, and only to counted labels. -/
theorem removeFold_change (dims : Dimensions) (cells : List CellIndex) :
    ∀ (lab : CellIndex → Int) (flag : Bool) (c : CellIndex),
      (cells.foldl (removeStep dims) (lab, flag)).1 c = lab c ∨
      (lab c = WSHED ∧ (cells.foldl (removeStep dims) (lab, flag)).1 c ≠ WSHED ∧
        (cells.foldl (removeStep dims) (lab, flag)).1 c ≠ INIT) := by
  induction cells with
  | nil => intro lab flag c; left; rfl
  | cons idx rest ih =>
    intro lab flag c
    rw [List.foldl_cons]
    rcases removeStep_cases dims lab flag idx with ⟨_, h⟩ | ⟨_, _, h⟩ | ⟨hw, v, hv, h⟩
    · rw [h]; exact ih lab flag c
    · rw [h]; exact ih lab true c
    · rw [h]
      obtain ⟨n, _, _, hv1, hv2⟩ := (mem_countedLabels dims lab idx v).mp hv
      by_cases hc : c = idx
      · subst hc
        right
        rcases ih (upd lab c v) true c with h1 | ⟨h1, _⟩
        · rw [h1, upd_same]; exact ⟨hw, hv1, hv2⟩
        · rw [upd_same] at h1; exact absurd h1 hv1
      · rcases ih (upd lab idx v) true c with h1 | ⟨h1, h2⟩
        · left; rw [h1, upd_other _ _ _ _ hc]
        · right; rw [upd_other _ _ _ _ hc] at h1; exact ⟨h1, h2⟩

theorem removeFold_not_mem (dims : Dimensions) (cells : List CellIndex) :
    ∀ (lab : CellIndex → Int) (flag : Bool) (c : CellIndex), c ∉ cells →
      (cells.foldl (removeStep dims) (lab, flag)).1 c = lab c := by
  induction cells with
  | nil => intro lab flag c _; rfl
  | cons idx rest ih =>
    intro lab flag c hc
    rw [List.foldl_cons]
    have hc1 : c ≠ idx := fun h => hc (h ▸ List.mem_cons_self _ _)
    have hc2 : c ∉ rest := fun h => hc (List.mem_cons_of_mem _ h)
    rcases removeStep_cases dims lab flag idx with ⟨_, h⟩ | ⟨_, _, h⟩ | ⟨hw, v, hv, h⟩
    · rw [h]; exact ih lab flag c hc2
    · rw [h]; exact ih lab true c hc2
    · rw [h, ih _ _ c hc2, upd_other _ _ _ _ hc1]

theorem removeFold_flag (dims : Dimensions) (cells : List CellIndex) (hnd : cells.Nodup) :
    ∀ (lab : CellIndex → Int) (flag : Bool),
      ((cells.foldl (removeStep dims) (lab, flag)).2 = true ↔
        flag = true ∨ ∃ c ∈ cells, lab c = WSHED) := by
  induction cells with
  | nil => intro lab flag; simp
  | cons idx rest ih =>
    intro lab flag
    rw [List.nodup_cons] at hnd
    obtain ⟨hidx, hnd⟩ := hnd
    rw [List.foldl_cons]
    rcases removeStep_cases dims lab flag idx with ⟨hw, h⟩ | ⟨hw, _, h⟩ | ⟨hw, v, hv, h⟩
    · rw [h, ih hnd]
      simp only [List.mem_cons, exists_eq_or_imp, hw, false_or]
    · rw [h, ih hnd]
      simp only [List.mem_cons, exists_eq_or_imp, hw, true_or, or_true]
    · rw [h, ih hnd]
      simp only [List.mem_cons, exists_eq_or_imp, hw, true_or, or_true]

/-- A WSHED voxel that has a counted neighbour at the start of a pass is resolved by it. -/
theorem removeFold_resolves (dims : Dimensions) (cells : List CellIndex) (hnd : cells.Nodup) :
    ∀ (lab : CellIndex → Int) (flag : Bool) (w : CellIndex), w ∈ cells → lab w = WSHED →
      (∃ n ∈ neighborCells dims w, lab n ≠ WSHED ∧ lab n ≠ INIT) →
      (cells.foldl (removeStep dims) (lab, flag)).1 w ≠ WSHED := by
  induction cells with
  | nil => intro lab flag w hw; simp at hw
  | cons idx rest ih =>
    intro lab flag w hw hlw hn
    rw [List.nodup_cons] at hnd
    obtain ⟨hidx, hnd⟩ := hnd
    rw [List.foldl_cons]
    rcases List.mem_cons.mp hw with hwi | hwr
    · subst hwi
      rcases removeStep_cases dims lab flag w with ⟨h0, _⟩ | ⟨_, hnil, _⟩ | ⟨_, v, hv, h⟩
      · exact absurd hlw h0
      · obtain ⟨n, hn1, hn2, hn3⟩ := hn
        have : lab n ∈ countedLabels dims lab w :=
          (mem_countedLabels dims lab w _).mpr ⟨n, hn1, rfl, hn2, hn3⟩
        rw [hnil] at this
        simp at this
      · rw [h, removeFold_not_mem dims rest _ _ w hidx, upd_same]
        exact ((mem_countedLabels dims lab w v).mp hv).choose_spec.2.2.1
    · have hwne : w ≠ idx := fun h => hidx (h ▸ hwr)
      rcases removeStep_cases dims lab flag idx with ⟨_, h⟩ | ⟨_, _, h⟩ | ⟨hwi, v, hv, h⟩
      · rw [h]; exact ih hnd lab flag w hwr hlw hn
      · rw [h]; exact ih hnd lab true w hwr hlw hn
      · rw [h]
        apply ih hnd _ _ w hwr
        · rw [upd_other _ _ _ _ hwne]; exact hlw
        · obtain ⟨n, hn1, hn2, hn3⟩ := hn
          have hnne : n ≠ idx := fun h => hn2 (h ▸ hwi)
          exact ⟨n, hn1, by rw [upd_other _ _ _ _ hnne]; exact ⟨hn2, hn3⟩⟩

/-- The labels a pass writes are labels that counted voxels of the grid already carry. -/
theorem removeFold_labels (dims : Dimensions) (P : Int → Prop) (cells : List CellIndex) :
    ∀ (lab : CellIndex → Int) (flag : Bool),
      (∀ c ∈ allCells dims, lab c ≠ WSHED → lab c ≠ INIT → P (lab c)) →
      ∀ c ∈ allCells dims, (cells.foldl (removeStep dims) (lab, flag)).1 c ≠ WSHED →
        (cells.foldl (removeStep dims) (lab, flag)).1 c ≠ INIT →
        P ((cells.foldl (removeStep dims) (lab, flag)).1 c) := by
  induction cells with
  | nil => intro lab flag h; exact h
  | cons idx rest ih =>
    intro lab flag hP
    rw [List.foldl_cons]
    rcases removeStep_cases dims lab flag idx with ⟨_, h⟩ | ⟨_, _, h⟩ | ⟨hwi, v, hv, h⟩
    · rw [h]; exact ih lab flag hP
    · rw [h]; exact ih lab true hP
    · rw [h]
      apply ih
      intro c hc h1 h2
      by_cases hci : c = idx
      · subst hci
        rw [upd_same]
        obtain ⟨n, hn1, hn2, hn3, hn4⟩ := (mem_countedLabels dims lab c v).mp hv
        rw [← hn2]
        exact hP n (neighbor_mem_allCells dims c n hn1) (hn2 ▸ hn3) (hn2 ▸ hn4)
      · rw [upd_other _ _ _ _ hci] at h1 h2 ⊢
        exact hP c hc h1 h2

theorem filter_length_lt {α : Type} (l : List α) (p q : α → Bool)
    (hsub : ∀ a ∈ l, q a = true → p a = true) (w : α) (hw : w ∈ l) (hp : p w = true)
    (hq : q w = false) : (l.filter q).length < (l.filter p).length := by
  induction l with
  | nil => simp at hw
  | cons a rest ih =>
    have hle : (rest.filter q).length ≤ (rest.filter p).length := by
      clear ih hw
      induction rest with
      | nil => simp
      | cons b r ihr =>
        have hb := hsub b (List.mem_cons_of_mem _ (List.mem_cons_self _ _))
        have ihr1 := ihr (fun x hx hqx => by
          rcases List.mem_cons.mp hx with h | h
          · exact hsub x (List.mem_cons_self _ _ |> fun m => h ▸ m) hqx
          · exact hsub x (List.mem_cons_of_mem _ (List.mem_cons_of_mem _ h)) hqx)
        simp only [List.filter_cons]
        cases hqb : q b <;> cases hpb : p b <;> simp_all <;> omega
    rcases List.mem_cons.mp hw with h | h
    · subst h
      simp only [List.filter_cons, hp, hq, if_true, List.length_cons]
      simp only [Bool.false_eq_true, if_false]
      omega
    · have := ih (fun x hx => hsub x (List.mem_cons_of_mem _ hx)) h
      have ha := hsub a (List.mem_cons_self _ _)
      simp only [List.filter_cons]
      cases hqa : q a <;> cases hpa : p a <;> simp_all <;> omega

theorem removeFold_noop (dims : Dimensions) (cells : List CellIndex) (lab : CellIndex → Int)
    (flag : Bool) (h : ∀ c ∈ cells, lab c ≠ WSHED) :
    cells.foldl (removeStep dims) (lab, flag) = (lab, flag) := by
  induction cells with
  | nil => rfl
  | cons idx rest ih =>
    rw [List.foldl_cons, removeStep_not_wshed dims lab flag idx (h idx (List.mem_cons_self _ _))]
    exact ih (fun c hc => h c (List.mem_cons_of_mem _ hc))

theorem exists_wshed_with_counted_neighbor (dims : Dimensions) (lab : CellIndex → Int)
    (hinit : ∀ c ∈ allCells dims, lab c ≠ INIT)
    (b : CellIndex) (hb : b ∈ allCells dims) (hlb : lab b ≠ WSHED)
    (w : CellIndex) (hw : w ∈ allCells dims) (hlw : lab w = WSHED) :
    ∃ w1 ∈ allCells dims, lab w1 = WSHED ∧
      ∃ n ∈ neighborCells dims w1, lab n ≠ WSHED ∧ lab n ≠ INIT := by
  by_contra hcon
  push_neg at hcon
  have hall := grid_connected dims (fun c => lab c ≠ WSHED) b hb hlb (by
    intro c hc hPc n hn hln
    have hnin := neighbor_mem_allCells dims c n hn
    have hcn := neighbor_symm dims c n hn ((mem_allCells dims c).mp hc)
    exact hinit c hc (hcon n hnin hln c hcn hPc))
  exact hall w hw hlw

/-- `RemoveWatershedPixels` terminates on a field without INIT voxels that has a voxel
which is not WSHED: every pass that sees a WSHED voxel resolves at least one. -/
theorem removeWatershed_terminates (dims : Dimensions) :
    ∀ (k : Nat) (lab : CellIndex → Int), wshedCount dims lab ≤ k →
      (∀ c ∈ allCells dims, lab c ≠ INIT) → (∃ b ∈ allCells dims, lab b ≠ WSHED) →
      ∃ lab1, RemoveWatershedPixels dims (k + 1) lab = .ok lab1 ∧
        (∀ c ∈ allCells dims, lab1 c ≠ WSHED ∧ lab1 c ≠ INIT) ∧
        (∀ c, lab c ≠ WSHED → lab1 c = lab c) ∧
        (∀ c, c ∉ allCells dims → lab1 c = lab c) ∧
        ∀ P : Int → Prop, (∀ c ∈ allCells dims, lab c ≠ WSHED → P (lab c)) →
          ∀ c ∈ allCells dims, P (lab1 c) := by
  intro k
  induction k with
  | zero =>
    intro lab hk hinit _
    have hnow : ∀ c ∈ allCells dims, lab c ≠ WSHED := by
      intro c hc hlc
      have : c ∈ (allCells dims).filter (fun c => decide (lab c = WSHED)) :=
        List.mem_filter.mpr ⟨hc, by simpa using hlc⟩
      have hpos := List.length_pos_of_mem this
      unfold wshedCount at hk
      omega
    have hpass : removePass dims lab = (lab, false) := removeFold_noop dims _ lab false hnow
    refine ⟨lab, ?_, fun c hc => ⟨hnow c hc, hinit c hc⟩, fun _ _ => rfl, fun _ _ => rfl,
      fun P hP c hc => hP c hc (hnow c hc)⟩
    simp [RemoveWatershedPixels, hpass]
  | succ k ih =>
    intro lab hk hinit hb
    by_cases hnow : ∀ c ∈ allCells dims, lab c ≠ WSHED
    · have hpass : removePass dims lab = (lab, false) := removeFold_noop dims _ lab false hnow
      refine ⟨lab, ?_, fun c hc => ⟨hnow c hc, hinit c hc⟩, fun _ _ => rfl, fun _ _ => rfl,
        fun P hP c hc => hP c hc (hnow c hc)⟩
      simp [RemoveWatershedPixels, hpass]
    · push_neg at hnow
      obtain ⟨w, hw, hlw⟩ := hnow
      obtain ⟨b, hb, hlb⟩ := hb
      obtain ⟨w1, hw1, hlw1, hn⟩ :=
        exists_wshed_with_counted_neighbor dims lab hinit b hb hlb w hw hlw
      have hch := removeFold_change dims (allCells dims) lab false
      have hres := removeFold_resolves dims (allCells dims) (nodup_allCells dims) lab false
        w1 hw1 hlw1 hn
      have hflag : (removePass dims lab).2 = true :=
        (removeFold_flag dims (allCells dims) (nodup_allCells dims) lab false).mpr
          (Or.inr ⟨w, hw, hlw⟩)
      have hkeep : ∀ c, lab c ≠ WSHED → (removePass dims lab).1 c = lab c := by
        intro c hc
        rcases hch c with h | ⟨h, _⟩
        · exact h
        · exact absurd h hc
      have hcount : wshedCount dims (removePass dims lab).1 ≤ k := by
        have : wshedCount dims (removePass dims lab).1 < wshedCount dims lab := by
          unfold wshedCount
          apply filter_length_lt _ _ _ _ w1 hw1
          · simpa using hlw1
          · simpa using hres
          · intro a _ ha
            simp only [decide_eq_true_eq] at ha ⊢
            by_contra hne
            rw [hkeep a hne] at ha
            exact hne ha
        omega
      have hinit1 : ∀ c ∈ allCells dims, (removePass dims lab).1 c ≠ INIT := by
        intro c hc
        rcases hch c with h | ⟨_, _, h⟩
        · unfold removePass; rw [h]; exact hinit c hc
        · exact h
      have hb1 : ∃ b ∈ allCells dims, (removePass dims lab).1 b ≠ WSHED :=
        ⟨b, hb, by rw [hkeep b hlb]; exact hlb⟩
      obtain ⟨lab1, hr, h1, h2, h3, h4⟩ := ih (removePass dims lab).1 hcount hinit1 hb1
      refine ⟨lab1, ?_, h1, ?_, ?_, ?_⟩
      · rw [RemoveWatershedPixels]
        simp only [hflag, if_true]
        exact hr
      · intro c hc
        rw [h2 c (by rw [hkeep c hc]; exact hc), hkeep c hc]
      · intro c hc
        rw [h3 c hc]
        exact removeFold_not_mem dims (allCells dims) lab false c hc
      · intro P hP
        apply h4 P
        intro c hc hcw
        exact removeFold_labels dims P (allCells dims) lab false
          (fun c hc h _ => hP c hc h) c hc hcw (hinit1 c hc)

theorem removeWatershed_result_no_wshed (dims : Dimensions) :
    ∀ (fuel : Nat) (lab lab1 : CellIndex → Int),
      RemoveWatershedPixels dims fuel lab = .ok lab1 → ∀ c ∈ allCells dims, lab1 c ≠ WSHED := by
  intro fuel
  induction fuel with
  | zero => intro lab lab1 h; simp [RemoveWatershedPixels] at h
  | succ n ih =>
    intro lab lab1 h
    rw [RemoveWatershedPixels] at h
    by_cases hfl : (removePass dims lab).2 = true
    · simp only [hfl, if_true] at h
      exact ih _ _ h
    · simp only [hfl] at h
      have hnow : ∀ c ∈ allCells dims, lab c ≠ WSHED := by
        intro c hc hlc
        exact hfl ((removeFold_flag dims (allCells dims) (nodup_allCells dims) lab false).mpr
          (Or.inr ⟨c, hc, hlc⟩))
      have hpass : removePass dims lab = (lab, false) := removeFold_noop dims _ lab false hnow
      rw [hpass] at h
      simp only [Bool.false_eq_true, if_false, Except.ok.injEq] at h
      rw [← h]
      exact hnow

/-- C9 (as the code has it): on a label field without INIT voxels in which some voxel is
not WSHED, `RemoveWatershedPixels` terminates within `wshedCount + 1` full-grid passes and
leaves no WSHED voxel; and whatever the field, a field it returns has no WSHED voxel in
the grid (the loop only stops after a pass that met no WSHED voxel). -/
theorem cleanup_terminates_when_resolvable (dims : Dimensions) (lab : CellIndex → Int)
    (fuel : Nat) (hinit : ∀ c ∈ allCells dims, lab c ≠ INIT)
    (hb : ∃ b ∈ allCells dims, lab b ≠ WSHED) (hfuel : wshedCount dims lab + 1 ≤ fuel) :
    (∃ lab1, RemoveWatershedPixels dims fuel lab = .ok lab1 ∧
      ∀ c ∈ allCells dims, lab1 c ≠ WSHED) ∧
    ∀ (fuel2 : Nat) (lab2 lab3 : CellIndex → Int),
      RemoveWatershedPixels dims fuel2 lab2 = .ok lab3 → ∀ c ∈ allCells dims, lab3 c ≠ WSHED := by
  refine ⟨?_, removeWatershed_result_no_wshed dims⟩
  obtain ⟨lab1, h, h1, _⟩ := removeWatershed_terminates dims _ lab (le_refl _) hinit hb
  exact ⟨lab1, RemoveWatershedPixels_fuel_mono dims _ fuel _ _ hfuel h, fun c hc => (h1 c hc).1⟩

theorem cleanup_terminates_when_resolvable_witness :
    (∃ lab1, RemoveWatershedPixels tieDims 2 tieLab = .ok lab1 ∧
      ∀ c ∈ allCells tieDims, lab1 c ≠ WSHED) ∧
    ∀ (fuel2 : Nat) (lab2 lab3 : CellIndex → Int),
      RemoveWatershedPixels tieDims fuel2 lab2 = .ok lab3 →
        ∀ c ∈ allCells tieDims, lab3 c ≠ WSHED :=
  cleanup_terminates_when_resolvable tieDims tieLab 2 (by decide) (by decide) (by decide)

theorem removePass_allWshed : removePass unitDims allWshed = (allWshed, true) := rfl

/-- C9 as stated fails: on the 1x1x1 grid whose voxel is WSHED, no number of passes makes
`RemoveWatershedPixels` return. -/
theorem cleanup_all_wshed_never_returns :
    ¬ ∃ (fuel : Nat) (lab1 : CellIndex → Int),
      RemoveWatershedPixels unitDims fuel allWshed = .ok lab1 := by
  rintro ⟨fuel, lab1, h⟩
  induction fuel with
  | zero => simp [RemoveWatershedPixels] at h
  | succ n ih =>
    rw [RemoveWatershedPixels, removePass_allWshed] at h
    simp only [if_true] at h
    exact ih h

theorem isPlateau_not_propagates (k : Int) (s : FloodState) (n : CellIndex)
    (h : isPlateau s n = true) : propagates k s n = false := by
  simp only [isPlateau, decide_eq_true_eq] at h
  simp only [propagates, decide_eq_false_iff_not, not_and, not_or]
  intro _
  rw [h.1]
  simp [MASK, WSHED]

theorem examineNeighbor_spec (k : Int) (idx : CellIndex) (s : FloodState) (n : CellIndex)
    (hd : propagates k s n = true → s.dist n = k - 1) :
    ∃ s1, examineNeighbor k idx s n = .ok s1 ∧ s1.curlab = s.curlab ∧
      (∀ c, c ≠ idx → s1.lab c = s.lab c) ∧
      s1.lab idx = (if propagates k s n = true then relabel (s.lab idx) (s.lab n)
        else s.lab idx) ∧
      (∀ c, s1.dist c = if c = n ∧ isPlateau s n = true then k + 1 else s.dist c) ∧
      s1.queue = s.queue ++ (if isPlateau s n = true then [n] else []) := by
  by_cases hp : propagates k s n = true
  · have hq : isPlateau s n = false := by
      by_contra hq
      have := isPlateau_not_propagates k s n (by simpa using hq)
      rw [hp] at this
      exact absurd this (by simp)
    have hdn := hd hp
    have hp1 : s.dist n < k ∧ (s.lab n > 0 ∨ s.lab n = WSHED) := by
      simpa [propagates] using hp
    simp only [hp, hq, if_true, Bool.false_eq_true, and_false, if_false, List.append_nil]
    unfold examineNeighbor
    rw [if_pos hp1, if_neg (by simpa using hdn)]
    by_cases hpos : s.lab n > 0
    · rw [if_pos hpos]
      by_cases hc : s.lab idx = MASK ∨ s.lab idx = WSHED
      · rw [if_pos hc]
        refine ⟨_, rfl, rfl, fun c hc1 => upd_other _ _ _ _ hc1, ?_, fun _ => rfl, rfl⟩
        simp only [upd_same, relabel, hpos, hc, if_true]
      · rw [if_neg hc]
        by_cases hne : s.lab idx ≠ s.lab n
        · rw [if_pos hne]
          refine ⟨_, rfl, rfl, fun c hc1 => upd_other _ _ _ _ hc1, ?_, fun _ => rfl, rfl⟩
          simp only [upd_same, relabel, hpos, hc, hne, if_true, if_false, ne_eq,
            not_false_eq_true]
        · rw [if_neg hne]
          refine ⟨_, rfl, rfl, fun c _ => rfl, ?_, fun _ => rfl, rfl⟩
          simp only [relabel, hpos, hc, hne, if_true, if_false]
    · rw [if_neg hpos]
      by_cases hc : s.lab idx = MASK
      · rw [if_pos hc]
        refine ⟨_, rfl, rfl, fun c hc1 => upd_other _ _ _ _ hc1, ?_, fun _ => rfl, rfl⟩
        simp only [upd_same, relabel, hpos, hc, if_true, if_false]
      · rw [if_neg hc]
        refine ⟨_, rfl, rfl, fun c _ => rfl, ?_, fun _ => rfl, rfl⟩
        simp only [relabel, hpos, hc, if_false]
  · have hp1 : ¬ (s.dist n < k ∧ (s.lab n > 0 ∨ s.lab n = WSHED)) := by
      simpa [propagates] using hp
    simp only [hp, if_false, Bool.false_eq_true]
    unfold examineNeighbor
    rw [if_neg hp1]
    by_cases hq : isPlateau s n = true
    · have hq1 : s.lab n = MASK ∧ s.dist n = 0 := by simpa [isPlateau] using hq
      rw [if_pos hq1]
      refine ⟨_, rfl, rfl, fun c _ => rfl, rfl, ?_, ?_⟩
      · intro c
        by_cases hcn : c = n
        · simp only [hcn, hq, and_self, if_true, upd_same]
        · simp only [hcn, false_and, if_false]
          exact upd_other _ _ _ _ hcn
      · simp only [hq, if_true]
    · have hq1 : ¬ (s.lab n = MASK ∧ s.dist n = 0) := by simpa [isPlateau] using hq
      rw [if_neg hq1]
      refine ⟨s, rfl, rfl, fun c _ => rfl, rfl, ?_, ?_⟩
      · intro c; simp [hq]
      · simp [hq]

theorem propagates_congr (k : Int) (s s1 : FloodState) (m : CellIndex)
    (hl : s1.lab m = s.lab m) (hd : s1.dist m = s.dist m) :
    propagates k s1 m = propagates k s m := by
  simp only [propagates, hl, hd]

theorem isPlateau_congr (s s1 : FloodState) (m : CellIndex)
    (hl : s1.lab m = s.lab m) (hd : s1.dist m = s.dist m) :
    isPlateau s1 m = isPlateau s m := by
  simp only [isPlateau, hl, hd]

/-- Closed form of the neighbour loop of the propagation for the dequeued voxel `idx`:
only `lab[idx]` is written, plateau neighbours get distance `curdist + 1` and are pushed
in neighbour order, and the loop does not abort when every propagating neighbour is at
distance `curdist - 1`. -/
theorem visitNeighbors_spec (k : Int) (idx : CellIndex) :
    ∀ (ns : List CellIndex) (s : FloodState), ns.Nodup → idx ∉ ns →
      (∀ n ∈ ns, propagates k s n = true → s.dist n = k - 1) →
      ∃ s1, visitNeighbors k idx ns s = .ok s1 ∧ s1.curlab = s.curlab ∧
        (∀ c, c ≠ idx → s1.lab c = s.lab c) ∧
        s1.lab idx = visitLabel k s idx ns ∧
        (∀ c, s1.dist c = if c ∈ ns ∧ isPlateau s c = true then k + 1 else s.dist c) ∧
        s1.queue = s.queue ++ ns.filter (isPlateau s) := by
  intro ns
  induction ns with
  | nil =>
    intro s _ _ _
    exact ⟨s, rfl, rfl, fun _ _ => rfl, rfl, fun c => by simp, by simp⟩
  | cons n rest ih =>
    intro s hnd hidx hd
    rw [List.nodup_cons] at hnd
    obtain ⟨hn, hnd⟩ := hnd
    have hidxn : n ≠ idx := fun h => hidx (h ▸ List.mem_cons_self _ _)
    have hidxr : idx ∉ rest := fun h => hidx (List.mem_cons_of_mem _ h)
    obtain ⟨s1, he, hcl, hlab, hlabi, hdist, hq⟩ :=
      examineNeighbor_spec k idx s n (hd n (List.mem_cons_self _ _))
    have hagree : ∀ m ∈ rest, s1.lab m = s.lab m ∧ s1.dist m = s.dist m := by
      intro m hm
      have hmn : m ≠ n := fun h => hn (h ▸ hm)
      have hmi : m ≠ idx := fun h => hidxr (h ▸ hm)
      refine ⟨hlab m hmi, ?_⟩
      rw [hdist m]; simp [hmn]
    have hpc : ∀ m ∈ rest, propagates k s1 m = propagates k s m := fun m hm =>
      propagates_congr k s s1 m (hagree m hm).1 (hagree m hm).2
    have hqc : ∀ m ∈ rest, isPlateau s1 m = isPlateau s m := fun m hm =>
      isPlateau_congr s s1 m (hagree m hm).1 (hagree m hm).2
    obtain ⟨s2, hv, hcl2, hlab2, hlabi2, hdist2, hq2⟩ := ih s1 hnd hidxr (by
      intro m hm hp
      rw [hpc m hm] at hp
      rw [(hagree m hm).2]
      exact hd m (List.mem_cons_of_mem _ hm) hp)
    refine ⟨s2, ?_, by rw [hcl2, hcl], fun c hc => by rw [hlab2 c hc, hlab c hc], ?_, ?_, ?_⟩
    · rw [visitNeighbors, he]; exact hv
    · rw [hlabi2]
      unfold visitLabel
      rw [List.filter_congr hpc, hlabi]
      have hmap : (rest.filter (propagates k s)).map s1.lab =
          (rest.filter (propagates k s)).map s.lab := by
        apply List.map_congr_left
        intro m hm
        exact (hagree m (List.mem_of_mem_filter hm)).1
      rw [hmap, List.filter_cons]
      by_cases hp : propagates k s n = true
      · simp only [hp, if_true, List.map_cons, List.foldl_cons]
      · simp only [hp, if_false, Bool.false_eq_true]
    · intro c
      rw [hdist2 c]
      by_cases hcr : c ∈ rest
      · have hcn : c ≠ n := fun h => hn (h ▸ hcr)
        rw [hqc c hcr, hdist c]
        simp only [hcr, true_and, List.mem_cons, or_true, hcn, false_and, if_false]
      · rw [hdist c]
        simp only [hcr, false_and, if_false, List.mem_cons, or_false]
        by_cases hcn : c = n
        · subst hcn; rfl
        · simp only [hcn, false_and]
    · rw [hq2, hq, List.filter_congr hqc, List.filter_cons, List.append_assoc]
      by_cases hp : isPlateau s n = true
      · simp only [hp, if_true, List.singleton_append]
      · simp only [hp, if_false, Bool.false_eq_true, List.nil_append]

theorem hasFloodedNeighbor_iff (dims : Dimensions) (lab : CellIndex → Int) (idx : CellIndex) :
    hasFloodedNeighbor dims lab idx = true ↔ ∃ n ∈ neighborCells dims idx, 0 ≤ lab n := by
  simp only [hasFloodedNeighbor, List.any_eq_true, Bool.or_eq_true, decide_eq_true_eq, WSHED]
  constructor
  · rintro ⟨n, hn, h⟩; exact ⟨n, hn, by omega⟩
  · rintro ⟨n, hn, h⟩; exact ⟨n, hn, by omega⟩

theorem propagates_iff (k : Int) (s : FloodState) (n : CellIndex) :
    propagates k s n = true ↔ s.dist n < k ∧ 0 ≤ s.lab n := by
  simp only [propagates, decide_eq_true_eq, WSHED]
  constructor
  · rintro ⟨h1, h2⟩; exact ⟨h1, by omega⟩
  · rintro ⟨h1, h2⟩; exact ⟨h1, by omega⟩

theorem isPlateau_iff (s : FloodState) (n : CellIndex) :
    isPlateau s n = true ↔ s.lab n = MASK ∧ s.dist n = 0 := by
  simp only [isPlateau, decide_eq_true_eq]

theorem relabel_range (cl cur nb : Int) (hnb : 0 ≤ nb ∧ nb ≤ cl)
    (hcur : cur = MASK ∨ (0 ≤ cur ∧ cur ≤ cl)) :
    0 ≤ relabel cur nb ∧ relabel cur nb ≤ cl := by
  unfold relabel
  simp only [MASK, WSHED] at *
  split_ifs <;> omega

theorem relabel_fold_range (cl : Int) (nbs : List Int) :
    ∀ cur : Int, (∀ nb ∈ nbs, 0 ≤ nb ∧ nb ≤ cl) → (cur = MASK ∨ (0 ≤ cur ∧ cur ≤ cl)) →
      (nbs = [] ∧ nbs.foldl relabel cur = cur) ∨
      (0 ≤ nbs.foldl relabel cur ∧ nbs.foldl relabel cur ≤ cl) := by
  induction nbs with
  | nil => intro cur _ _; left; exact ⟨rfl, rfl⟩
  | cons nb rest ih =>
    intro cur hnbs hcur
    right
    have h1 := relabel_range cl cur nb (hnbs nb (List.mem_cons_self _ _)) hcur
    rw [List.foldl_cons]
    rcases ih (relabel cur nb) (fun x hx => hnbs x (List.mem_cons_of_mem _ hx)) (Or.inr h1)
      with ⟨_, h⟩ | h
    · rw [h]; exact h1
    · exact h

theorem inGrid_x_ne (dims : Dimensions) (c : CellIndex) (h : c ∈ allCells dims) : c.x ≠ -1 := by
  rw [mem_allCells, outside_eq_false] at h
  omega

theorem LevelCtx.not_mask (dims : Dimensions) (L : List CellIndex) (lab0 : CellIndex → Int)
    (cl : Int) (ctx : LevelCtx dims L lab0 cl) (c : CellIndex) (hc : c ∉ L) :
    lab0 c ≠ MASK := by
  rcases ctx.other c hc with h | h
  · rw [h]; decide
  · intro hm; rw [hm] at h; simp [MASK] at h

/-- A voxel with a non-negative label is settled: its label is within `0 .. cl`, and if
it belongs to the level it has left the queue at a distance within `1 .. k`. -/
theorem PropInv.flooded (dims : Dimensions) (L : List CellIndex) (lab0 : CellIndex → Int)
    (cl k : Int) (A B : List CellIndex) (s : FloodState)
    (ctx : LevelCtx dims L lab0 cl) (inv : PropInv dims L lab0 cl k A B s)
    (n : CellIndex) (hn : 0 ≤ s.lab n) :
    s.lab n ≤ cl ∧ (n ∉ L → s.dist n = 0 ∧ 0 ≤ lab0 n) ∧
      (n ∈ L → n ∉ A ∧ n ∉ B ∧ 1 ≤ s.dist n ∧ s.dist n ≤ k) := by
  by_cases hL : n ∈ L
  · have hm : s.lab n ≠ MASK := by intro h; rw [h] at hn; simp [MASK] at hn
    have hd : s.dist n ≠ 0 := fun h => hm (inv.untouched n hL h)
    have hA : n ∉ A := fun h => hm (inv.front n h).2.1
    have hB : n ∉ B := fun h => hm (inv.back n h).2.1
    obtain ⟨_, h2, h3, h4⟩ := inv.settled n hL hd hA hB
    exact ⟨h2, fun h => absurd hL h, fun _ => ⟨hA, hB, h3, h4⟩⟩
  · obtain ⟨h1, h2⟩ := inv.frame n hL
    rw [h1] at hn ⊢
    rcases ctx.other n hL with h | h
    · rw [h] at hn; simp [INIT] at hn
    · exact ⟨h.2, fun _ => ⟨h2, hn⟩, fun h => absurd h hL⟩

/-- The distance check of the propagation cannot fail under the loop invariant. -/
theorem PropInv.no_abort (dims : Dimensions) (L : List CellIndex) (lab0 : CellIndex → Int)
    (cl k : Int) (idx : CellIndex) (A B : List CellIndex) (s : FloodState)
    (ctx : LevelCtx dims L lab0 cl) (inv : PropInv dims L lab0 cl k (idx :: A) B s)
    (n : CellIndex) (hn : n ∈ neighborCells dims idx) (hp : propagates k s n = true) :
    s.dist n = k - 1 := by
  rw [propagates_iff] at hp
  obtain ⟨hlt, hlab⟩ := hp
  obtain ⟨hidxL, _, hidxD⟩ := inv.front idx (List.mem_cons_self _ _)
  obtain ⟨_, hout, hin⟩ := inv.flooded dims L lab0 cl k (idx :: A) B s ctx n hlab
  by_cases hL : n ∈ L
  · obtain ⟨hA, hB, h1, _⟩ := hin hL
    have hd : s.dist n ≠ 0 := by omega
    have hsym := neighbor_symm dims idx n hn ((mem_allCells dims idx).mp (ctx.inGrid idx hidxL))
    have := (inv.closed n hL hd hA hB idx hsym hidxL).2
    omega
  · obtain ⟨h0, hl0⟩ := hout hL
    have hseed : hasFloodedNeighbor dims lab0 idx = true :=
      (hasFloodedNeighbor_iff dims lab0 idx).mpr ⟨n, hn, hl0⟩
    have := (inv.seeds idx hidxL).mp hseed
    omega

/-- The dequeued voxel has a propagating neighbour. -/
theorem PropInv.has_propagating (dims : Dimensions) (L : List CellIndex)
    (lab0 : CellIndex → Int) (cl k : Int) (idx : CellIndex) (A B : List CellIndex)
    (s : FloodState) (ctx : LevelCtx dims L lab0 cl)
    (inv : PropInv dims L lab0 cl k (idx :: A) B s) :
    ∃ n ∈ neighborCells dims idx, propagates k s n = true := by
  obtain ⟨hidxL, _, hidxD⟩ := inv.front idx (List.mem_cons_self _ _)
  have hpos := inv.pos
  by_cases hk : k = 1
  · have hseed := (inv.seeds idx hidxL).mpr (by omega)
    obtain ⟨n, hn, hl0⟩ := (hasFloodedNeighbor_iff dims lab0 idx).mp hseed
    have hnL : n ∉ L := by
      intro h; rw [ctx.init n h] at hl0; simp [INIT] at hl0
    obtain ⟨h1, h2⟩ := inv.frame n hnL
    exact ⟨n, hn, (propagates_iff k s n).mpr ⟨by omega, by rw [h1]; exact hl0⟩⟩
  · obtain ⟨n, hn, hnL, hnd⟩ := inv.pred idx hidxL (by omega)
    have hne : n ≠ idx := neighbor_ne dims idx n hn
    have hA : n ∉ idx :: A := by
      intro h; have := (inv.front n h).2.2; omega
    have hB : n ∉ B := by
      intro h; have := (inv.back n h).2.2; omega
    obtain ⟨h1, _⟩ := inv.settled n hnL (by omega) hA hB
    exact ⟨n, hn, (propagates_iff k s n).mpr ⟨by omega, h1⟩⟩

/-- The dequeued voxel leaves its neighbour loop with a basin label or WSHED. -/
theorem PropInv.visitLabel_range (dims : Dimensions) (L : List CellIndex)
    (lab0 : CellIndex → Int) (cl k : Int) (idx : CellIndex) (A B : List CellIndex)
    (s : FloodState) (ctx : LevelCtx dims L lab0 cl)
    (inv : PropInv dims L lab0 cl k (idx :: A) B s) :
    0 ≤ visitLabel k s idx (neighborCells dims idx) ∧
      visitLabel k s idx (neighborCells dims idx) ≤ cl := by
  obtain ⟨_, hidxM, _⟩ := inv.front idx (List.mem_cons_self _ _)
  unfold visitLabel
  have hall : ∀ nb ∈ ((neighborCells dims idx).filter (propagates k s)).map s.lab,
      0 ≤ nb ∧ nb ≤ cl := by
    intro nb hnb
    obtain ⟨n, hn, rfl⟩ := List.mem_map.mp hnb
    have hp := (List.mem_filter.mp hn).2
    have h0 := ((propagates_iff k s n).mp hp).2
    exact ⟨h0, (inv.flooded dims L lab0 cl k (idx :: A) B s ctx n h0).1⟩
  rcases relabel_fold_range cl _ (s.lab idx) hall (Or.inl hidxM) with ⟨hnil, _⟩ | h
  · exfalso
    obtain ⟨n, hn, hp⟩ := inv.has_propagating dims L lab0 cl k idx A B s ctx
    have : s.lab n ∈ ((neighborCells dims idx).filter (propagates k s)).map s.lab :=
      List.mem_map.mpr ⟨n, List.mem_filter.mpr ⟨hn, hp⟩, rfl⟩
    rw [hnil] at this
    simp at this
  · exact h

/-- One dequeued voxel: the neighbour loop succeeds and re-establishes the invariant, with
the voxel's plateau neighbours appended to the queue at distance `k + 1`. -/
theorem visit_preserves (dims : Dimensions) (L : List CellIndex) (lab0 : CellIndex → Int)
    (cl k : Int) (idx : CellIndex) (A B : List CellIndex) (s : FloodState)
    (q : List CellIndex) (ctx : LevelCtx dims L lab0 cl)
    (inv : PropInv dims L lab0 cl k (idx :: A) B s) :
    ∃ s1, visitNeighbors k idx (neighborCells dims idx) { s with queue := q } = .ok s1 ∧
      s1.queue = q ++ (neighborCells dims idx).filter (isPlateau s) ∧
      PropInv dims L lab0 cl k A (B ++ (neighborCells dims idx).filter (isPlateau s)) s1 ∧
      (∀ c, c ≠ idx → s1.lab c = s.lab c) ∧
      s1.lab idx = visitLabel k s idx (neighborCells dims idx) ∧
      (∀ c, s1.dist c =
        if c ∈ neighborCells dims idx ∧ isPlateau s c = true then k + 1 else s.dist c) := by
  obtain ⟨hidxL, hidxM, hidxD⟩ := inv.front idx (List.mem_cons_self _ _)
  have hpos := inv.pos
  have hidxG := (mem_allCells dims idx).mp (ctx.inGrid idx hidxL)
  have hni : idx ∉ neighborCells dims idx := fun h => neighbor_ne dims idx idx h rfl
  obtain ⟨s1, hv, hcl, hlab, hlabi, hdist, hq⟩ :=
    visitNeighbors_spec k idx (neighborCells dims idx) { s with queue := q }
      (nodup_neighborCells dims idx) hni
      (fun n hn hp => inv.no_abort dims L lab0 cl k idx A B s ctx n hn hp)
  have hlab1 : ∀ c, c ≠ idx → s1.lab c = s.lab c := hlab
  have hlabi1 : s1.lab idx = visitLabel k s idx (neighborCells dims idx) := hlabi
  have hdist1 : ∀ c, s1.dist c =
      if c ∈ neighborCells dims idx ∧ isPlateau s c = true then k + 1 else s.dist c := hdist
  have hq1 : s1.queue = q ++ (neighborCells dims idx).filter (isPlateau s) := hq
  have hcl1 : s1.curlab = s.curlab := hcl
  -- the plateau neighbours
  have hP : ∀ c ∈ (neighborCells dims idx).filter (isPlateau s),
      c ∈ neighborCells dims idx ∧ s.lab c = MASK ∧ s.dist c = 0 ∧ c ∈ L ∧ c ≠ idx := by
    intro c hc
    obtain ⟨hcn, hcp⟩ := List.mem_filter.mp hc
    obtain ⟨hm, hd⟩ := (isPlateau_iff s c).mp hcp
    refine ⟨hcn, hm, hd, ?_, neighbor_ne dims idx c hcn⟩
    by_contra hL
    have := (inv.frame c hL).1
    exact ctx.not_mask dims L lab0 cl c hL (by rw [← this]; exact hm)
  have hdistP : ∀ c ∈ (neighborCells dims idx).filter (isPlateau s), s1.dist c = k + 1 := by
    intro c hc
    obtain ⟨hcn, hcp⟩ := List.mem_filter.mp hc
    rw [hdist1 c, if_pos ⟨hcn, hcp⟩]
  have hdistN : ∀ c, c ∉ (neighborCells dims idx).filter (isPlateau s) →
      s1.dist c = s.dist c := by
    intro c hc
    rw [hdist1 c, if_neg]
    intro h
    exact hc (List.mem_filter.mpr h)
  have hdistNZ : ∀ c, s.dist c ≠ 0 → s1.dist c = s.dist c := by
    intro c hc
    apply hdistN
    intro h
    exact hc (hP c h).2.2.1
  have hlabidx : 0 ≤ s1.lab idx ∧ s1.lab idx ≤ cl := by
    rw [hlabi1]
    exact inv.visitLabel_range dims L lab0 cl k idx A B s ctx
  have hnodup : (A ++ (B ++ (neighborCells dims idx).filter (isPlateau s))).Nodup := by
    have h0 := inv.nodup
    rw [List.cons_append, List.nodup_cons] at h0
    rw [← List.append_assoc]
    refine List.Nodup.append h0.2 ((nodup_neighborCells dims idx).filter _) ?_
    intro c hc1 hc2
    have hd := (hP c hc2).2.2.1
    rcases List.mem_append.mp hc1 with h | h
    · have := (inv.front c (List.mem_cons_of_mem _ h)).2.2; omega
    · have := (inv.back c h).2.2; omega
  have hidxA : idx ∉ A := by
    have h0 := inv.nodup
    rw [List.cons_append, List.nodup_cons] at h0
    exact fun h => h0.1 (List.mem_append_left _ h)
  refine ⟨s1, hv, hq1, ?_, hlab1, hlabi1, hdist1⟩
  refine
    { curlab := by rw [hcl1]; exact inv.curlab
      frame := ?_
      nodup := hnodup
      front := ?_
      back := ?_
      untouched := ?_
      settled := ?_
      seeds := ?_
      closed := ?_
      pred := ?_
      pos := hpos }
  · intro c hc
    have hci : c ≠ idx := fun h => hc (h ▸ hidxL)
    obtain ⟨h1, h2⟩ := inv.frame c hc
    refine ⟨by rw [hlab1 c hci]; exact h1, ?_⟩
    rw [hdistN c (fun h => hc (hP c h).2.2.2.1)]
    exact h2
  · intro c hc
    obtain ⟨h1, h2, h3⟩ := inv.front c (List.mem_cons_of_mem _ hc)
    have hci : c ≠ idx := fun h => hidxA (h ▸ hc)
    exact ⟨h1, by rw [hlab1 c hci]; exact h2, by rw [hdistNZ c (by omega)]; exact h3⟩
  · intro c hc
    rcases List.mem_append.mp hc with h | h
    · obtain ⟨h1, h2, h3⟩ := inv.back c h
      have hci : c ≠ idx := by
        intro he; rw [he] at h3; omega
      exact ⟨h1, by rw [hlab1 c hci]; exact h2, by rw [hdistNZ c (by omega)]; exact h3⟩
    · obtain ⟨_, h2, _, h4, h5⟩ := hP c h
      exact ⟨h4, by rw [hlab1 c h5]; exact h2, hdistP c h⟩
  · intro c hcL hd
    have hcP : c ∉ (neighborCells dims idx).filter (isPlateau s) := by
      intro h; have := hdistP c h; omega
    rw [hdistN c hcP] at hd
    have hci : c ≠ idx := by
      intro he; rw [he] at hd; omega
    rw [hlab1 c hci]
    exact inv.untouched c hcL hd
  · intro c hcL hd hcA hcB
    have hcP : c ∉ (neighborCells dims idx).filter (isPlateau s) :=
      fun h => hcB (List.mem_append_right _ h)
    have hcB1 : c ∉ B := fun h => hcB (List.mem_append_left _ h)
    rw [hdistN c hcP] at hd ⊢
    by_cases hci : c = idx
    · rw [hci]
      exact ⟨hlabidx.1, hlabidx.2, by omega, by omega⟩
    · rw [hlab1 c hci]
      have hcA1 : c ∉ idx :: A := by
        intro h
        rcases List.mem_cons.mp h with h | h
        · exact hci h
        · exact hcA h
      exact inv.settled c hcL hd hcA1 hcB1
  · intro c hcL
    rw [inv.seeds c hcL]
    by_cases hcP : c ∈ (neighborCells dims idx).filter (isPlateau s)
    · rw [hdistP c hcP]
      have := (hP c hcP).2.2.1
      constructor <;> intro h <;> omega
    · rw [hdistN c hcP]
  · intro c hcL hd hcA hcB n hn hnL
    have hcP : c ∉ (neighborCells dims idx).filter (isPlateau s) :=
      fun h => hcB (List.mem_append_right _ h)
    have hcB1 : c ∉ B := fun h => hcB (List.mem_append_left _ h)
    rw [hdistN c hcP] at hd ⊢
    by_cases hci : c = idx
    · rw [hci] at hn ⊢
      by_cases hnP : n ∈ (neighborCells dims idx).filter (isPlateau s)
      · rw [hdistP n hnP]; omega
      · rw [hdistN n hnP]
        have hnz : s.dist n ≠ 0 := by
          intro h0
          apply hnP
          exact List.mem_filter.mpr ⟨hn, (isPlateau_iff s n).mpr ⟨inv.untouched n hnL h0, h0⟩⟩
        refine ⟨hnz, ?_⟩
        by_cases hnA : n ∈ idx :: A
        · have := (inv.front n hnA).2.2; omega
        · by_cases hnB : n ∈ B
          · have := (inv.back n hnB).2.2; omega
          · have := (inv.settled n hnL hnz hnA hnB).2.2.2; omega
    · have hcA1 : c ∉ idx :: A := by
        intro h
        rcases List.mem_cons.mp h with h | h
        · exact hci h
        · exact hcA h
      obtain ⟨h1, h2⟩ := inv.closed c hcL hd hcA1 hcB1 n hn hnL
      rw [hdistNZ n h1]
      exact ⟨h1, h2⟩
  · intro c hcL hd
    by_cases hcP : c ∈ (neighborCells dims idx).filter (isPlateau s)
    · obtain ⟨hcn, _, _, _, _⟩ := hP c hcP
      refine ⟨idx, neighbor_symm dims idx c hcn hidxG, hidxL, ?_⟩
      rw [hdistP c hcP, hdistNZ idx (by omega)]
      omega
    · rw [hdistN c hcP] at hd ⊢
      obtain ⟨n, hn, hnL, hnd⟩ := inv.pred c hcL hd
      refine ⟨n, hn, hnL, ?_⟩
      rw [hdistNZ n (by omega)]
      exact hnd

theorem Outcome.ok_iff {α : Type} (a : α) (enough : Prop) (Post : α → Prop) :
    Outcome (Except.ok a : Except Fault α) enough Post ↔ Post a := Iff.rfl

theorem Outcome.weaken {α : Type} (r : Except Fault α) (e1 e2 : Prop) (P1 P2 : α → Prop)
    (h : Outcome r e1 P1) (he : e2 → e1) (hP : ∀ a, P1 a → P2 a) : Outcome r e2 P2 := by
  cases r with
  | ok a => exact hP a h
  | error e => exact ⟨h.1, fun h2 => h.2 (he h2)⟩

theorem Outcome.bind {α β : Type} (r : Except Fault α) (f : α → Except Fault β)
    (e1 e2 : Prop) (P1 : α → Prop) (P2 : β → Prop)
    (h : Outcome r e1 P1) (he : e2 → e1)
    (hf : ∀ a, r = .ok a → P1 a → Outcome (f a) e2 P2) : Outcome (r.bind f) e2 P2 := by
  cases r with
  | ok a => exact hf a rfl h
  | error e => exact ⟨h.1, fun h2 => h.2 (he h2)⟩

theorem Outcome.exists_ok {α : Type} (r : Except Fault α) (enough : Prop) (Post : α → Prop)
    (h : Outcome r enough Post) (he : enough) : ∃ a, r = .ok a ∧ Post a := by
  cases r with
  | ok a => exact ⟨a, rfl, h⟩
  | error e => exact absurd he h.2

theorem Outcome.of_ok {α : Type} (r : Except Fault α) (enough : Prop) (Post : α → Prop)
    (a : α) (hr : r = .ok a) (h : Outcome r enough Post) : Post a := by
  subst hr; exact h

theorem Outcome.not_fault {α : Type} (r : Except Fault α) (enough : Prop) (Post : α → Prop)
    (h : Outcome r enough Post) :
    r ≠ .error Fault.unexpectedDist ∧ r ≠ .error Fault.emptyQueue := by
  cases r with
  | ok a => exact ⟨by simp, by simp⟩
  | error e =>
    have := h.1
    subst this
    exact ⟨by simp, by simp⟩

theorem maskCount_lt (L : List CellIndex) (s s1 : FloodState) (idx : CellIndex)
    (hL : idx ∈ L) (hm : s.lab idx = MASK) (h1 : s1.lab idx ≠ MASK)
    (hlab : ∀ c, c ≠ idx → s1.lab c = s.lab c) : maskCount L s1 < maskCount L s := by
  unfold maskCount
  apply filter_length_lt L _ _ _ idx hL
  · simpa using hm
  · simpa using h1
  · intro a _ ha
    simp only [decide_eq_true_eq] at ha ⊢
    by_cases hai : a = idx
    · rw [hai] at ha; exact absurd ha h1
    · rw [← hlab a hai]; exact ha

theorem PropInv.advance (dims : Dimensions) (L : List CellIndex) (lab0 : CellIndex → Int)
    (cl k : Int) (B : List CellIndex) (s : FloodState)
    (inv : PropInv dims L lab0 cl k [] B s) : PropInv dims L lab0 cl (k + 1) B [] s :=
  { curlab := inv.curlab
    frame := inv.frame
    nodup := by have := inv.nodup; simpa using this
    front := inv.back
    back := fun c hc => by simp at hc
    untouched := inv.untouched
    settled := fun c hcL hd hcB _ => by
      obtain ⟨h1, h2, h3, h4⟩ := inv.settled c hcL hd (by simp) hcB
      exact ⟨h1, h2, h3, by omega⟩
    seeds := inv.seeds
    closed := fun c hcL hd hcB _ => inv.closed c hcL hd (by simp) hcB
    pred := inv.pred
    pos := by have := inv.pos; omega }

theorem PropInv.set_queue (dims : Dimensions) (L : List CellIndex) (lab0 : CellIndex → Int)
    (cl k : Int) (A B : List CellIndex) (s : FloodState) (q : List CellIndex)
    (inv : PropInv dims L lab0 cl k A B s) :
    PropInv dims L lab0 cl k A B { s with queue := q } :=
  { curlab := inv.curlab
    frame := inv.frame
    nodup := inv.nodup
    front := inv.front
    back := inv.back
    untouched := inv.untouched
    settled := inv.settled
    seeds := inv.seeds
    closed := inv.closed
    pred := inv.pred
    pos := inv.pos }

/-- The propagation loop under its invariant, together with any further property `J` of
the state that every dequeued voxel's neighbour loop preserves: the loop never reads an
empty queue and never trips the distance check; with `maskCount + 1` fuel it ends, with an
empty queue, the invariant for an empty frontier, and `J`. -/
theorem propagate_outcome_with (dims : Dimensions) (L : List CellIndex)
    (lab0 : CellIndex → Int) (cl : Int) (ctx : LevelCtx dims L lab0 cl)
    (J : FloodState → Prop) (hJq : ∀ s q, J s → J { s with queue := q })
    (hJ : ∀ k idx A B s q s1, PropInv dims L lab0 cl k (idx :: A) B s → J s →
      visitNeighbors k idx (neighborCells dims idx) { s with queue := q } = .ok s1 → J s1) :
    ∀ (fuel : Nat) (k : Int) (A B : List CellIndex) (s : FloodState),
      PropInv dims L lab0 cl k A B s → s.queue = A ++ FICTITIOUS :: B → J s →
      Outcome (propagate dims fuel k s) (maskCount L s + 1 ≤ fuel)
        (fun s1 => (∃ k1, PropInv dims L lab0 cl k1 [] [] s1 ∧ s1.queue = []) ∧ J s1) := by
  intro fuel
  induction fuel with
  | zero =>
    intro k A B s _ _ _
    rw [propagate_zero]
    exact ⟨rfl, by omega⟩
  | succ fuel ih =>
    intro k A B s inv hq hJs
    rw [propagate_succ]
    cases A with
    | cons idx A1 =>
      rw [List.cons_append] at hq
      simp only [hq]
      obtain ⟨hidxL, hidxM, _⟩ := inv.front idx (List.mem_cons_self _ _)
      rw [if_neg (inGrid_x_ne dims idx (ctx.inGrid idx hidxL))]
      obtain ⟨s1, hv, hq1, inv1, hlab, hlabi, _⟩ :=
        visit_preserves dims L lab0 cl k idx A1 B s (A1 ++ FICTITIOUS :: B) ctx inv
      have hJ1 := hJ k idx A1 B s _ s1 inv hJs hv
      rw [hv]
      have hrange := inv.visitLabel_range dims L lab0 cl k idx A1 B s ctx
      have hlt : maskCount L s1 < maskCount L s :=
        maskCount_lt L s s1 idx hidxL hidxM
          (by rw [hlabi]; intro h; rw [h] at hrange; simp [MASK] at hrange) hlab
      have hq2 : s1.queue = A1 ++ FICTITIOUS ::
          (B ++ (neighborCells dims idx).filter (isPlateau s)) := by
        rw [hq1, List.append_assoc, List.cons_append]
      exact Outcome.weaken _ _ _ _ _ (ih k A1 _ s1 inv1 hq2 hJ1) (by omega) (fun _ h => h)
    | nil =>
      rw [List.nil_append] at hq
      simp only [hq]
      rw [if_pos (by rfl)]
      cases B with
      | nil =>
        exact ⟨⟨k, inv.set_queue dims L lab0 cl k [] [] s [], rfl⟩, hJq s [] hJs⟩
      | cons idx B1 =>
        simp only
        have inv0 := inv.advance dims L lab0 cl k (idx :: B1) s
        obtain ⟨hidxL, hidxM, _⟩ := inv0.front idx (List.mem_cons_self _ _)
        obtain ⟨s1, hv, hq1, inv1, hlab, hlabi, _⟩ :=
          visit_preserves dims L lab0 cl (k + 1) idx B1 [] s (B1 ++ [FICTITIOUS]) ctx inv0
        have hJ1 := hJ (k + 1) idx B1 [] s _ s1 inv0 hJs hv
        rw [hv]
        have hrange := inv0.visitLabel_range dims L lab0 cl (k + 1) idx B1 [] s ctx
        have hlt : maskCount L s1 < maskCount L s :=
          maskCount_lt L s s1 idx hidxL hidxM
            (by rw [hlabi]; intro h; rw [h] at hrange; simp [MASK] at hrange) hlab
        have hq2 : s1.queue = B1 ++ FICTITIOUS ::
            ([] ++ (neighborCells dims idx).filter (isPlateau s)) := by
          rw [hq1, List.append_assoc, List.singleton_append, List.nil_append]
        exact Outcome.weaken _ _ _ _ _ (ih (k + 1) B1 _ s1 inv1 hq2 hJ1) (by omega)
          (fun _ h => h)

/-- The propagation loop under its invariant: it never reads an empty queue and never
trips the distance check; with `maskCount + 1` fuel it ends, with an empty queue and the
invariant for an empty frontier. -/
theorem propagate_outcome (dims : Dimensions) (L : List CellIndex) (lab0 : CellIndex → Int)
    (cl : Int) (ctx : LevelCtx dims L lab0 cl) :
    ∀ (fuel : Nat) (k : Int) (A B : List CellIndex) (s : FloodState),
      PropInv dims L lab0 cl k A B s → s.queue = A ++ FICTITIOUS :: B →
      Outcome (propagate dims fuel k s) (maskCount L s + 1 ≤ fuel)
        (fun s1 => ∃ k1, PropInv dims L lab0 cl k1 [] [] s1 ∧ s1.queue = []) := by
  intro fuel k A B s inv hq
  exact Outcome.weaken _ _ _ _ _
    (propagate_outcome_with dims L lab0 cl ctx (fun _ => True) (fun _ _ _ => trivial)
      (fun _ _ _ _ _ _ _ _ _ _ => trivial) fuel k A B s inv hq trivial)
    (fun h => h) (fun _ h => h.1)

theorem hasFloodedNeighbor_congr (dims : Dimensions) (lab lab1 : CellIndex → Int)
    (idx : CellIndex) (h : ∀ n ∈ neighborCells dims idx, (0 ≤ lab1 n ↔ 0 ≤ lab n)) :
    hasFloodedNeighbor dims lab1 idx = hasFloodedNeighbor dims lab idx := by
  rw [Bool.eq_iff_iff, hasFloodedNeighbor_iff, hasFloodedNeighbor_iff]
  constructor
  · rintro ⟨n, hn, h1⟩; exact ⟨n, hn, (h n hn).mp h1⟩
  · rintro ⟨n, hn, h1⟩; exact ⟨n, hn, (h n hn).mpr h1⟩

theorem maskStep_spec (dims : Dimensions) (lab0 : CellIndex → Int) (s : FloodState)
    (idx : CellIndex) (hfl : ∀ n, 0 ≤ s.lab n ↔ 0 ≤ lab0 n) :
    (maskStep dims s idx).curlab = s.curlab ∧
    (∀ c, (maskStep dims s idx).lab c = if c = idx then MASK else s.lab c) ∧
    (∀ c, (maskStep dims s idx).dist c =
      if c = idx ∧ hasFloodedNeighbor dims lab0 c = true then 1 else s.dist c) ∧
    (maskStep dims s idx).queue =
      s.queue ++ (if hasFloodedNeighbor dims lab0 idx = true then [idx] else []) := by
  have hseed : hasFloodedNeighbor dims (upd s.lab idx MASK) idx =
      hasFloodedNeighbor dims lab0 idx := by
    apply hasFloodedNeighbor_congr
    intro n hn
    rw [upd_other _ _ _ _ (neighbor_ne dims idx n hn)]
    exact hfl n
  by_cases hs : hasFloodedNeighbor dims lab0 idx = true
  · have hstep : maskStep dims s idx =
        { s with lab := upd s.lab idx MASK, dist := upd s.dist idx 1,
                 queue := s.queue ++ [idx] } := by
      simp only [maskStep, hseed, hs, if_true]
    rw [hstep]
    refine ⟨rfl, fun c => rfl, ?_, by simp [hs]⟩
    intro c
    by_cases hci : c = idx
    · simp [hci, upd_same, hs]
    · simp [hci, upd_other _ _ _ _ hci]
  · have hstep : maskStep dims s idx = { s with lab := upd s.lab idx MASK } := by
      simp only [maskStep, hseed, hs, if_false, Bool.false_eq_true]
    rw [hstep]
    refine ⟨rfl, fun c => rfl, ?_, by simp [hs]⟩
    intro c
    by_cases hci : c = idx
    · simp [hci, hs]
    · simp [hci]

/-- Closed form of the masking loop over `l`, from a state whose flooded voxels are those
of `lab0`. -/
theorem maskFold_spec (dims : Dimensions) (lab0 : CellIndex → Int) (l : List CellIndex) :
    ∀ s : FloodState, (∀ c ∈ l, lab0 c < 0) → (∀ n, 0 ≤ s.lab n ↔ 0 ≤ lab0 n) →
      (l.foldl (maskStep dims) s).curlab = s.curlab ∧
      (∀ c, (l.foldl (maskStep dims) s).lab c = if c ∈ l then MASK else s.lab c) ∧
      (∀ c, (l.foldl (maskStep dims) s).dist c =
        if c ∈ l ∧ hasFloodedNeighbor dims lab0 c = true then 1 else s.dist c) ∧
      (l.foldl (maskStep dims) s).queue = s.queue ++ l.filter (hasFloodedNeighbor dims lab0) := by
  induction l with
  | nil => intro s _ _; simp
  | cons idx rest ih =>
    intro s hneg hfl
    obtain ⟨e1, e2, e3, e4⟩ := maskStep_spec dims lab0 s idx hfl
    have hfl1 : ∀ n, 0 ≤ (maskStep dims s idx).lab n ↔ 0 ≤ lab0 n := by
      intro n
      rw [e2 n]
      by_cases hni : n = idx
      · rw [if_pos hni, hni]
        have := hneg idx (List.mem_cons_self _ _)
        simp only [MASK]
        constructor <;> intro h <;> omega
      · rw [if_neg hni]; exact hfl n
    have hneg1 : ∀ c ∈ rest, lab0 c < 0 := fun c hc => hneg c (List.mem_cons_of_mem _ hc)
    rw [List.foldl_cons]
    obtain ⟨h1, h2, h3, h4⟩ := ih (maskStep dims s idx) hneg1 hfl1
    refine ⟨by rw [h1, e1], ?_, ?_, ?_⟩
    · intro c
      rw [h2 c, e2 c]
      by_cases hcr : c ∈ rest
      · simp [hcr]
      · by_cases hci : c = idx
        · simp [hci]
        · simp [hcr, hci]
    · intro c
      rw [h3 c, e3 c]
      by_cases hf : hasFloodedNeighbor dims lab0 c = true
      · by_cases hcr : c ∈ rest
        · simp [hcr, hf]
        · by_cases hci : c = idx
          · subst hci; simp [hcr, hf]
          · simp [hcr, hci]
      · simp [hf]
    · rw [h4, e4, List.filter_cons, List.append_assoc]
      by_cases hs : hasFloodedNeighbor dims lab0 idx = true
      · simp [hs]
      · simp [hs]

theorem maskLevel_spec (dims : Dimensions) (L : List CellIndex) (cl : Int) (s : FloodState)
    (ctx : LevelCtx dims L s.lab cl) :
    (maskLevel dims s L).curlab = s.curlab ∧
    (∀ c, (maskLevel dims s L).lab c = if c ∈ L then MASK else s.lab c) ∧
    (∀ c, (maskLevel dims s L).dist c =
      if c ∈ L ∧ hasFloodedNeighbor dims s.lab c = true then 1 else s.dist c) ∧
    (maskLevel dims s L).queue = s.queue ++ L.filter (hasFloodedNeighbor dims s.lab) :=
  maskFold_spec dims s.lab L s (fun c hc => by rw [ctx.init c hc]; decide) (fun _ => Iff.rfl)

/-- The masking loop establishes the invariant of the propagation loop at distance 1. -/
theorem mask_establishes (dims : Dimensions) (L : List CellIndex) (cl : Int) (s : FloodState)
    (ctx : LevelCtx dims L s.lab cl) (hcl : s.curlab = cl) (hdist : ∀ c, s.dist c = 0)
    (q : List CellIndex) :
    PropInv dims L s.lab cl 1 (L.filter (hasFloodedNeighbor dims s.lab)) []
      { maskLevel dims s L with queue := q } := by
  obtain ⟨h1, h2, h3, _⟩ := maskLevel_spec dims L cl s ctx
  refine
    { curlab := by rw [← hcl]; exact h1
      frame := ?_
      nodup := by simpa using ctx.nodup.filter _
      front := ?_
      back := fun c hc => by simp at hc
      untouched := ?_
      settled := ?_
      seeds := ?_
      closed := ?_
      pred := ?_
      pos := le_refl 1 }
  · intro c hc
    show (maskLevel dims s L).lab c = s.lab c ∧ (maskLevel dims s L).dist c = 0
    rw [h2 c, h3 c]
    simp [hc, hdist c]
  · intro c hc
    obtain ⟨hcL, hseed⟩ := List.mem_filter.mp hc
    show c ∈ L ∧ (maskLevel dims s L).lab c = MASK ∧ (maskLevel dims s L).dist c = 1
    rw [h2 c, h3 c]
    simp [hcL, hseed]
  · intro c hcL _
    show (maskLevel dims s L).lab c = MASK
    rw [h2 c]; simp [hcL]
  · intro c hcL hd hA _
    exfalso
    apply hd
    show (maskLevel dims s L).dist c = 0
    rw [h3 c]
    have : ¬ (c ∈ L ∧ hasFloodedNeighbor dims s.lab c = true) :=
      fun h => hA (List.mem_filter.mpr h)
    rw [if_neg this]; exact hdist c
  · intro c hcL
    show hasFloodedNeighbor dims s.lab c = true ↔ (maskLevel dims s L).dist c = 1
    rw [h3 c]
    by_cases hs : hasFloodedNeighbor dims s.lab c = true
    · simp [hcL, hs]
    · simp [hs, hdist c]
  · intro c hcL hd hA _
    exfalso
    apply hd
    show (maskLevel dims s L).dist c = 0
    rw [h3 c]
    have : ¬ (c ∈ L ∧ hasFloodedNeighbor dims s.lab c = true) :=
      fun h => hA (List.mem_filter.mpr h)
    rw [if_neg this]; exact hdist c
  · intro c _ hd
    exfalso
    have : (maskLevel dims s L).dist c = 0 ∨ (maskLevel dims s L).dist c = 1 := by
      rw [h3 c]
      by_cases h : c ∈ L ∧ hasFloodedNeighbor dims s.lab c = true
      · right; rw [if_pos h]
      · left; rw [if_neg h]; exact hdist c
    have hd1 : 2 ≤ (maskLevel dims s L).dist c := hd
    omega

theorem fillNeighbor_spec (s : FloodState) (n : CellIndex) :
    (fillNeighbor s n).curlab = s.curlab ∧ (fillNeighbor s n).dist = s.dist ∧
    (∀ c, (fillNeighbor s n).lab c = if c = n ∧ s.lab n = MASK then s.curlab else s.lab c) ∧
    (fillNeighbor s n).queue = s.queue ++ (if s.lab n = MASK then [n] else []) := by
  unfold fillNeighbor
  by_cases h : s.lab n = MASK
  · rw [if_pos h]
    refine ⟨rfl, rfl, ?_, by simp [h]⟩
    intro c
    by_cases hc : c = n
    · simp [hc, h, upd_same]
    · simp [hc, upd_other _ _ _ _ hc]
  · rw [if_neg h]
    refine ⟨rfl, rfl, ?_, by simp [h]⟩
    intro c; simp [h]

/-- Closed form of the neighbour loop of the basin fill. -/
theorem fillFold_spec (ns : List CellIndex) :
    ∀ s : FloodState, ns.Nodup →
      (ns.foldl fillNeighbor s).curlab = s.curlab ∧ (ns.foldl fillNeighbor s).dist = s.dist ∧
      (∀ c, (ns.foldl fillNeighbor s).lab c =
        if c ∈ ns ∧ s.lab c = MASK then s.curlab else s.lab c) ∧
      (ns.foldl fillNeighbor s).queue =
        s.queue ++ ns.filter (fun n => decide (s.lab n = MASK)) := by
  induction ns with
  | nil => intro s _; simp
  | cons n rest ih =>
    intro s hnd
    rw [List.nodup_cons] at hnd
    obtain ⟨hn, hnd⟩ := hnd
    obtain ⟨e1, e2, e3, e4⟩ := fillNeighbor_spec s n
    obtain ⟨h1, h2, h3, h4⟩ := ih (fillNeighbor s n) hnd
    have hagree : ∀ m ∈ rest, (fillNeighbor s n).lab m = s.lab m := by
      intro m hm
      have hmn : m ≠ n := fun h => hn (h ▸ hm)
      rw [e3 m]; simp [hmn]
    rw [List.foldl_cons]
    refine ⟨by rw [h1, e1], by rw [h2, e2], ?_, ?_⟩
    · intro c
      rw [h3 c, e1]
      by_cases hcr : c ∈ rest
      · rw [hagree c hcr]
        simp [hcr]
      · rw [e3 c]
        by_cases hcn : c = n
        · subst hcn; simp [hcr]
        · simp [hcr, hcn]
    · rw [h4, e4, List.filter_cons, List.append_assoc]
      have : rest.filter (fun m => decide ((fillNeighbor s n).lab m = MASK)) =
          rest.filter (fun m => decide (s.lab m = MASK)) := by
        apply List.filter_congr
        intro m hm
        rw [hagree m hm]
      rw [this]
      by_cases h : s.lab n = MASK
      · simp [h]
      · simp [h]

/-- One iteration of the basin fill keeps its invariant and shrinks `fillCount`. -/
theorem fill_step (dims : Dimensions) (L : List CellIndex) (labS : CellIndex → Int)
    (nl : Int) (idx : CellIndex) (s : FloodState) (c : CellIndex) (q : List CellIndex)
    (inv : FillInv dims L labS nl idx s) (hq : s.queue = c :: q) :
    FillInv dims L labS nl idx ((neighborCells dims c).foldl fillNeighbor { s with queue := q }) ∧
    fillCount L ((neighborCells dims c).foldl fillNeighbor { s with queue := q }) <
      fillCount L s ∧
    ((neighborCells dims c).foldl fillNeighbor { s with queue := q }).dist = s.dist := by
  obtain ⟨h1, h2, h3, h4⟩ :=
    fillFold_spec (neighborCells dims c) { s with queue := q } (nodup_neighborCells dims c)
  generalize (neighborCells dims c).foldl fillNeighbor { s with queue := q } = s1 at h1 h2 h3 h4
  have h1' : s1.curlab = s.curlab := h1
  have h2' : s1.dist = s.dist := h2
  have h3' : ∀ x, s1.lab x = if x ∈ neighborCells dims c ∧ s.lab x = MASK then s.curlab
      else s.lab x := h3
  have h4' : s1.queue = q ++ (neighborCells dims c).filter (fun n => decide (s.lab n = MASK)) :=
    h4
  have hnl : nl ≠ MASK := by have := inv.fresh; simp only [MASK]; omega
  have hqn := inv.queue_nodup
  rw [hq, List.nodup_cons] at hqn
  obtain ⟨hcq, hqnd⟩ := hqn
  obtain ⟨hcS, hcl⟩ := inv.queue_filled c (by rw [hq]; exact List.mem_cons_self _ _)
  have hmaskS : ∀ x, s.lab x = MASK → labS x = MASK := by
    intro x hx
    rcases inv.lab_cases x with h | ⟨_, h⟩
    · rw [← h]; exact hx
    · rw [hx] at h; exact absurd h.symm hnl
  have hP : ∀ x ∈ (neighborCells dims c).filter (fun n => decide (s.lab n = MASK)),
      x ∈ neighborCells dims c ∧ s.lab x = MASK := by
    intro x hx
    obtain ⟨hx1, hx2⟩ := List.mem_filter.mp hx
    exact ⟨hx1, by simpa using hx2⟩
  have hlabP : ∀ x, x ∈ neighborCells dims c → s.lab x = MASK → s1.lab x = nl := by
    intro x hx1 hx2
    rw [h3' x, if_pos ⟨hx1, hx2⟩, inv.curlab]
  have hlabN : ∀ x, s.lab x ≠ MASK → s1.lab x = s.lab x := by
    intro x hx
    rw [h3' x, if_neg (fun h => hx h.2)]
  have hlabN2 : ∀ x, x ∉ neighborCells dims c → s1.lab x = s.lab x := by
    intro x hx
    rw [h3' x, if_neg (fun h => hx h.1)]
  have hfilled : ∀ x, s.lab x = nl → s1.lab x = nl := by
    intro x hx
    rw [hlabN x (by rw [hx]; exact hnl)]; exact hx
  have hcases : ∀ x, s1.lab x = s.lab x ∨ (s.lab x = MASK ∧ s1.lab x = nl ∧
      x ∈ neighborCells dims c) := by
    intro x
    by_cases hx : x ∈ neighborCells dims c ∧ s.lab x = MASK
    · right; exact ⟨hx.2, hlabP x hx.1 hx.2, hx.1⟩
    · left; rw [h3' x, if_neg hx]
  refine ⟨?_, ?_, h2'⟩
  · refine
      { curlab := by rw [h1']; exact inv.curlab
        fresh := inv.fresh
        lab_cases := ?_
        queue_nodup := ?_
        queue_filled := ?_
        seed_filled := ⟨inv.seed_filled.1, hfilled idx inv.seed_filled.2⟩
        sound := ?_
        closed := ?_
        maskIn := inv.maskIn }
    · intro x
      rcases hcases x with h | ⟨h, h5, _⟩
      · rw [h]; exact inv.lab_cases x
      · right; exact ⟨hmaskS x h, h5⟩
    · rw [h4']
      refine List.Nodup.append hqnd ((nodup_neighborCells dims c).filter _) ?_
      intro x hx1 hx2
      have := (inv.queue_filled x (by rw [hq]; exact List.mem_cons_of_mem _ hx1)).2
      rw [(hP x hx2).2] at this
      exact hnl this.symm
    · intro x hx
      rw [h4'] at hx
      rcases List.mem_append.mp hx with h | h
      · obtain ⟨h5, h6⟩ := inv.queue_filled x (by rw [hq]; exact List.mem_cons_of_mem _ h)
        exact ⟨h5, hfilled x h6⟩
      · obtain ⟨h5, h6⟩ := hP x h
        exact ⟨hmaskS x h6, hlabP x h5 h6⟩
    · intro x hxS hx1
      rcases hcases x with h | ⟨h, _, h6⟩
      · rw [h] at hx1; exact inv.sound x hxS hx1
      · exact Reach.step (inv.sound c hcS hcl) h6 hxS
    · intro x hxS hx1 hxq n hn hnS
      rw [h4'] at hxq
      have hxq1 : x ∉ q := fun h => hxq (List.mem_append_left _ h)
      have hxP : x ∉ (neighborCells dims c).filter (fun n => decide (s.lab n = MASK)) :=
        fun h => hxq (List.mem_append_right _ h)
      by_cases hxc : x = c
      · rw [hxc] at hn
        by_cases hnm : s.lab n = MASK
        · exact hlabP n hn hnm
        · rw [hlabN n hnm]
          rcases inv.lab_cases n with h | ⟨_, h⟩
          · rw [h] at hnm; exact absurd hnS hnm
          · exact h
      · have hx0 : s.lab x = nl := by
          rcases hcases x with h | ⟨h, _, h6⟩
          · rw [← h]; exact hx1
          · exact absurd (List.mem_filter.mpr ⟨h6, by simpa using h⟩) hxP
        have hxq0 : x ∉ s.queue := by
          rw [hq]
          intro h
          rcases List.mem_cons.mp h with h | h
          · exact hxc h
          · exact hxq1 h
        exact hfilled n (inv.closed x hxS hx0 hxq0 n hn hnS)
  · unfold fillCount
    apply filter_length_lt L _ _ _ c (inv.maskIn c hcS)
    · simp only [decide_eq_true_eq]; right; rw [hq]; exact List.mem_cons_self _ _
    · simp only [decide_eq_false_iff_not, not_or]
      refine ⟨?_, ?_⟩
      · rw [hfilled c hcl]; exact hnl
      · rw [h4']
        intro h
        rcases List.mem_append.mp h with h | h
        · exact hcq h
        · have := (hP c h).2
          rw [hcl] at this
          exact hnl this
    · intro a _ ha
      simp only [decide_eq_true_eq] at ha ⊢
      rcases ha with ha | ha
      · left
        rcases hcases a with h | ⟨_, h, _⟩
        · rw [← h]; exact ha
        · rw [ha] at h; exact absurd h.symm hnl
      · rw [h4'] at ha
        rcases List.mem_append.mp ha with h | h
        · right; rw [hq]; exact List.mem_cons_of_mem _ h
        · left; exact (hP a h).2

/-- The basin fill under its invariant: with `fillCount` fuel it ends with an empty
queue; it leaves `dist` alone. -/
theorem fillBasin_outcome (dims : Dimensions) (L : List CellIndex) (labS : CellIndex → Int)
    (nl : Int) (idx : CellIndex) :
    ∀ (fuel : Nat) (s : FloodState), FillInv dims L labS nl idx s →
      Outcome (fillBasin dims fuel s) (fillCount L s ≤ fuel)
        (fun s1 => FillInv dims L labS nl idx s1 ∧ s1.queue = [] ∧ s1.dist = s.dist) := by
  intro fuel
  induction fuel with
  | zero =>
    intro s inv
    cases hq : s.queue with
    | nil =>
      rw [fillBasin_nil dims 0 s hq]
      exact ⟨inv, hq, rfl⟩
    | cons c q =>
      rw [fillBasin_cons_zero dims s c q hq]
      refine ⟨rfl, ?_⟩
      have := (fill_step dims L labS nl idx s c q inv hq).2.1
      omega
  | succ fuel ih =>
    intro s inv
    cases hq : s.queue with
    | nil =>
      rw [fillBasin_nil dims _ s hq]
      exact ⟨inv, hq, rfl⟩
    | cons c q =>
      rw [fillBasin_cons_succ dims fuel s c q hq]
      obtain ⟨inv1, hlt, hd⟩ := fill_step dims L labS nl idx s c q inv hq
      refine Outcome.weaken _ _ _ _ _ (ih _ inv1) (by omega) ?_
      intro s1 ⟨h1, h2, h3⟩
      exact ⟨h1, h2, by rw [h3, hd]⟩

/-- When the fill has ended, the voxels carrying the fresh label are exactly those reached
from the seed through MASK voxels; the other labels are unchanged. -/
theorem FillInv.complete (dims : Dimensions) (L : List CellIndex) (labS : CellIndex → Int)
    (nl : Int) (idx : CellIndex) (s : FloodState) (inv : FillInv dims L labS nl idx s)
    (hq : s.queue = []) (c : CellIndex) :
    (Reach dims (fun n => labS n = MASK) idx c → labS c = MASK ∧ s.lab c = nl) ∧
    (¬ Reach dims (fun n => labS n = MASK) idx c → s.lab c = labS c) := by
  constructor
  · intro h
    induction h with
    | refl => exact inv.seed_filled
    | step _ hn hM ih =>
      exact ⟨hM, inv.closed _ ih.1 ih.2 (by rw [hq]; simp) _ hn hM⟩
  · intro h
    rcases inv.lab_cases c with h1 | ⟨h1, h2⟩
    · exact h1
    · exact absurd (inv.sound c h1 h2) h

theorem Reach.mono_pred (dims : Dimensions) (M N : CellIndex → Prop) (hMN : ∀ c, M c → N c)
    (a b : CellIndex) (h : Reach dims M a b) : Reach dims N a b := by
  induction h with
  | refl => exact Reach.refl _
  | step _ hn hM ih => exact Reach.step ih hn (hMN _ hM)

theorem Reach.trans (dims : Dimensions) (M : CellIndex → Prop) (a b c : CellIndex)
    (h1 : Reach dims M a b) (h2 : Reach dims M b c) : Reach dims M a c := by
  induction h2 with
  | refl => exact h1
  | step _ hn hM ih => exact Reach.step ih hn hM

theorem Reach.target (dims : Dimensions) (M : CellIndex → Prop) (a b : CellIndex)
    (h : Reach dims M a b) (ha : M a) : M b := by
  induction h with
  | refl => exact ha
  | step _ _ hM _ => exact hM

theorem Reach.head_step (dims : Dimensions) (M : CellIndex → Prop) (a n b : CellIndex)
    (hn : n ∈ neighborCells dims a) (hM : M n) (h : Reach dims M n b) : Reach dims M a b := by
  induction h with
  | refl => exact Reach.step (Reach.refl a) hn hM
  | step _ hn1 hM1 ih => exact Reach.step ih hn1 hM1

/-- Reachability through `M` voxels is symmetric between `M` voxels of the grid. -/
theorem Reach.symm (dims : Dimensions) (M : CellIndex → Prop)
    (hgrid : ∀ c, M c → c ∈ allCells dims) (a b : CellIndex) (ha : M a)
    (h : Reach dims M a b) : Reach dims M b a := by
  induction h with
  | refl => exact Reach.refl _
  | @step b n _ hn hM ih =>
    have hb : M b := Reach.target dims M a b (by assumption) ha
    have hbn : b ∈ neighborCells dims n :=
      neighbor_symm dims b n hn ((mem_allCells dims b).mp (hgrid b hb))
    exact Reach.head_step dims M n b a hbn hb ih

theorem fillInv_start (dims : Dimensions) (L : List CellIndex) (s : FloodState)
    (idx : CellIndex) (hmask : s.lab idx = MASK) (hq : s.queue = []) (hcl : 0 ≤ s.curlab)
    (hmaskIn : ∀ c, s.lab c = MASK → c ∈ L) (d : CellIndex → Int) :
    FillInv dims L s.lab (s.curlab + 1) idx
      { lab := upd s.lab idx (s.curlab + 1), dist := d, queue := s.queue ++ [idx],
        curlab := s.curlab + 1 } := by
  have hnl : s.curlab + 1 ≠ MASK := by simp only [MASK]; omega
  refine
    { curlab := rfl
      fresh := by omega
      lab_cases := ?_
      queue_nodup := by simp [hq]
      queue_filled := ?_
      seed_filled := ⟨hmask, upd_same _ _ _⟩
      sound := ?_
      closed := ?_
      maskIn := hmaskIn }
  · intro c
    by_cases hc : c = idx
    · right; rw [hc]; exact ⟨hmask, upd_same _ _ _⟩
    · left; exact upd_other _ _ _ _ hc
  · intro c hc
    simp only [hq, List.nil_append, List.mem_singleton] at hc
    rw [hc]; exact ⟨hmask, upd_same _ _ _⟩
  · intro c hcS hc1
    by_cases hc : c = idx
    · rw [hc]; exact Reach.refl _
    · exfalso
      have : upd s.lab idx (s.curlab + 1) c = s.curlab + 1 := hc1
      rw [upd_other _ _ _ _ hc, hcS] at this
      exact hnl this.symm
  · intro c hcS hc1 hcq
    exfalso
    by_cases hc : c = idx
    · apply hcq; simp [hq, hc]
    · have : upd s.lab idx (s.curlab + 1) c = s.curlab + 1 := hc1
      rw [upd_other _ _ _ _ hc, hcS] at this
      exact hnl this.symm

theorem fillCount_le (L : List CellIndex) (s : FloodState) : fillCount L s ≤ L.length :=
  List.length_filter_le _ _

/-- One iteration of the new-minima loop keeps its invariant. -/
theorem newMinimum_outcome (dims : Dimensions) (L : List CellIndex) (lab2 : CellIndex → Int)
    (cl : Int) (hmaskIn : ∀ c, lab2 c = MASK → c ∈ L) (hgrid : ∀ c ∈ L, c ∈ allCells dims)
    (hcl : 0 ≤ cl) (idx : CellIndex) (todo : List CellIndex) (s : FloodState) (fuel : Nat)
    (inv : MinInv dims L lab2 cl (idx :: todo) s) :
    Outcome (newMinimum dims fuel s idx) (L.length ≤ fuel)
      (fun s1 => MinInv dims L lab2 cl todo s1) := by
  have hsM : ∀ n, s.lab n = MASK → lab2 n = MASK := by
    intro n hn
    by_contra h
    have := inv.keep n h
    rw [hn] at this
    exact h this.symm
  unfold newMinimum
  by_cases hm : s.lab idx = MASK
  · simp only [hm, if_true]
    have hm2 : lab2 idx = MASK := hsM idx hm
    have hgridM : ∀ c, lab2 c = MASK → c ∈ allCells dims := fun c hc => hgrid c (hmaskIn c hc)
    have hcur : 0 ≤ s.curlab := le_trans hcl inv.curlab_ge
    have hnl : s.curlab + 1 ≠ MASK := by simp only [MASK]; omega
    have hreach : ∀ c, Reach dims (fun n => lab2 n = MASK) idx c →
        Reach dims (fun n => s.lab n = MASK) idx c := by
      intro c hc
      induction hc with
      | refl => exact Reach.refl _
      | @step b n hb hn hM ih =>
        refine Reach.step ih hn ?_
        by_contra hnm
        have h2 : Reach dims (fun n => lab2 n = MASK) n idx :=
          Reach.symm dims _ hgridM idx n hm2 (Reach.step hb hn hM)
        have := (inv.comp n idx hM hm2 hnm).mpr h2
        rw [hm] at this
        exact hnm this.symm
    have hreach2 : ∀ c, Reach dims (fun n => s.lab n = MASK) idx c →
        Reach dims (fun n => lab2 n = MASK) idx c :=
      fun c hc => Reach.mono_pred dims _ _ hsM idx c hc
    have hstart := fillInv_start dims L s idx hm inv.queue_nil hcur
      (fun c hc => hmaskIn c (hsM c hc)) (upd s.dist idx 0)
    refine Outcome.weaken _ _ _ _ _
      (fillBasin_outcome dims L s.lab (s.curlab + 1) idx fuel _ hstart)
      (fun h => le_trans (fillCount_le L _) h) ?_
    intro s1 ⟨finv, hq1, hd1⟩
    have hd1' : s1.dist = upd s.dist idx 0 := hd1
    have hR : ∀ c, Reach dims (fun n => lab2 n = MASK) idx c →
        s.lab c = MASK ∧ s1.lab c = s.curlab + 1 :=
      fun c hc => (finv.complete dims L s.lab _ idx s1 hq1 c).1 (hreach c hc)
    have hN : ∀ c, ¬ Reach dims (fun n => lab2 n = MASK) idx c → s1.lab c = s.lab c :=
      fun c hc => (finv.complete dims L s.lab _ idx s1 hq1 c).2 (fun h => hc (hreach2 c h))
    have hNM : ∀ c, s.lab c ≠ MASK → s1.lab c = s.lab c :=
      fun c hc => hN c (fun h => hc (hR c h).1)
    refine
      { queue_nil := hq1
        curlab_ge := by rw [finv.curlab]; have := inv.curlab_ge; omega
        keep := ?_
        fresh := ?_
        done_filled := ?_
        comp := ?_
        used := ?_
        dist_done := ?_ }
    · intro c hc
      have h1 := inv.keep c hc
      rw [hNM c (by rw [h1]; exact hc)]
      exact h1
    · intro c hc
      rw [finv.curlab]
      by_cases hr : Reach dims (fun n => lab2 n = MASK) idx c
      · right; rw [(hR c hr).2]; have := inv.curlab_ge; omega
      · rw [hN c hr]
        rcases inv.fresh c hc with h | h
        · left; exact h
        · right; omega
    · intro c hcL hct
      by_cases hr : Reach dims (fun n => lab2 n = MASK) idx c
      · rw [(hR c hr).2]; exact hnl
      · rw [hN c hr]
        have hci : c ≠ idx := fun h => hr (h ▸ Reach.refl _)
        apply inv.done_filled c hcL
        intro h
        rcases List.mem_cons.mp h with h | h
        · exact hci h
        · exact hct h
    · intro c d hc hd hcm
      by_cases hrc : Reach dims (fun n => lab2 n = MASK) idx c
      · rw [(hR c hrc).2]
        have hci : Reach dims (fun n => lab2 n = MASK) c idx :=
          Reach.symm dims _ hgridM idx c hm2 hrc
        constructor
        · intro hdl
          have hrd : Reach dims (fun n => lab2 n = MASK) idx d := by
            by_contra hrd
            rw [hN d hrd] at hdl
            rcases inv.fresh d hd with h | h
            · rw [h] at hdl; exact hnl hdl.symm
            · omega
          exact Reach.trans dims _ c idx d hci hrd
        · intro hcd
          exact (hR d (Reach.trans dims _ idx c d hrc hcd)).2
      · rw [hN c hrc] at hcm ⊢
        have hcomp := inv.comp c d hc hd hcm
        by_cases hrd : Reach dims (fun n => lab2 n = MASK) idx d
        · have hdm := (hR d hrd).1
          rw [(hR d hrd).2]
          constructor
          · intro h
            exfalso
            rcases inv.fresh c hc with h1 | h1
            · exact hcm h1
            · omega
          · intro hcd
            exfalso
            have := hcomp.mpr hcd
            rw [hdm] at this
            exact hcm this.symm
        · rw [hN d hrd]
          exact hcomp
    · intro j hj1 hj2
      rw [finv.curlab] at hj2
      by_cases hj : j = s.curlab + 1
      · exact ⟨idx, hm2, by rw [hj]; exact (hR idx (Reach.refl _)).2⟩
      · obtain ⟨c, hc1, hc2⟩ := inv.used j hj1 (by omega)
        refine ⟨c, hc1, ?_⟩
        rw [hNM c (by rw [hc2]; simp only [MASK]; omega)]
        exact hc2
    · intro c hct
      rw [hd1']
      by_cases hci : c = idx
      · rw [hci, upd_same]
      · rw [upd_other _ _ _ _ hci]
        apply inv.dist_done c
        intro h
        rcases List.mem_cons.mp h with h | h
        · exact hci h
        · exact hct h
  · simp only [hm, if_false]
    refine
      { queue_nil := inv.queue_nil
        curlab_ge := inv.curlab_ge
        keep := inv.keep
        fresh := inv.fresh
        done_filled := ?_
        comp := inv.comp
        used := inv.used
        dist_done := ?_ }
    · intro c hcL hct
      by_cases hci : c = idx
      · rw [hci]; exact hm
      · apply inv.done_filled c hcL
        intro h
        rcases List.mem_cons.mp h with h | h
        · exact hci h
        · exact hct h
    · intro c hct
      show upd s.dist idx 0 c = 0
      by_cases hci : c = idx
      · rw [hci, upd_same]
      · rw [upd_other _ _ _ _ hci]
        apply inv.dist_done c
        intro h
        rcases List.mem_cons.mp h with h | h
        · exact hci h
        · exact hct h

/-- The new-minima loop keeps its invariant and ends with every voxel of the level
visited. -/
theorem newMinima_outcome (dims : Dimensions) (L : List CellIndex) (lab2 : CellIndex → Int)
    (cl : Int) (hmaskIn : ∀ c, lab2 c = MASK → c ∈ L) (hgrid : ∀ c ∈ L, c ∈ allCells dims)
    (hcl : 0 ≤ cl) (fuel : Nat) :
    ∀ (todo : List CellIndex) (s : FloodState), MinInv dims L lab2 cl todo s →
      Outcome (newMinima dims fuel todo s) (L.length ≤ fuel)
        (fun s1 => MinInv dims L lab2 cl [] s1) := by
  intro todo
  induction todo with
  | nil => intro s inv; exact inv
  | cons idx rest ih =>
    intro s inv
    rw [newMinima]
    exact Outcome.bind _ _ _ _ _ _
      (newMinimum_outcome dims L lab2 cl hmaskIn hgrid hcl idx rest s fuel inv) (fun h => h)
      (fun s1 _ h1 => ih s1 h1)

/-- After the propagation a touched voxel of the level is joined, inside the level, to a
voxel of the level that has a flooded neighbour. -/
theorem PropInv.touched_reaches_seed (dims : Dimensions) (L : List CellIndex)
    (lab0 : CellIndex → Int) (cl k : Int) (s : FloodState)
    (inv : PropInv dims L lab0 cl k [] [] s) :
    ∀ (m : Nat) (c : CellIndex), c ∈ L → s.dist c = (m : Int) + 1 →
      ∃ d, Reach dims (fun n => n ∈ L) c d ∧ d ∈ L ∧ hasFloodedNeighbor dims lab0 d = true := by
  intro m
  induction m with
  | zero =>
    intro c hcL hd
    exact ⟨c, Reach.refl _, hcL, (inv.seeds c hcL).mpr (by simpa using hd)⟩
  | succ m ih =>
    intro c hcL hd
    obtain ⟨n, hn, hnL, hnd⟩ := inv.pred c hcL (by rw [hd]; push_cast; omega)
    obtain ⟨d, hr, hdL, hs⟩ := ih n hnL (by rw [hnd, hd]; push_cast; omega)
    exact ⟨d, Reach.head_step dims _ c n d hn hnL hr, hdL, hs⟩

/-- After the propagation, a voxel of the level is still MASK exactly when no voxel of its
6-connected component within the level has a flooded neighbour. -/
theorem PropInv.mask_iff (dims : Dimensions) (L : List CellIndex)
    (lab0 : CellIndex → Int) (cl k : Int) (s : FloodState)
    (ctx : LevelCtx dims L lab0 cl) (inv : PropInv dims L lab0 cl k [] [] s)
    (c : CellIndex) (hcL : c ∈ L) :
    s.lab c = MASK ↔
      ¬ ∃ d, Reach dims (fun n => n ∈ L) c d ∧ hasFloodedNeighbor dims lab0 d = true := by
  constructor
  · rintro hm ⟨d, hr, hs⟩
    have hdL : d ∈ L := Reach.target dims _ c d hr hcL
    have hrd : Reach dims (fun n => n ∈ L) d c :=
      Reach.symm dims _ (fun x hx => ctx.inGrid x hx) c d hcL hr
    have htouched : ∀ x, Reach dims (fun n => n ∈ L) d x → x ∈ L ∧ s.dist x ≠ 0 := by
      intro x hx
      induction hx with
      | refl =>
        have := (inv.seeds d hdL).mp hs
        exact ⟨hdL, by omega⟩
      | step _ hn hM ih =>
        exact ⟨hM, (inv.closed _ ih.1 ih.2 (by simp) (by simp) _ hn hM).1⟩
    obtain ⟨_, hd⟩ := htouched c hrd
    have := (inv.settled c hcL hd (by simp) (by simp)).1
    rw [hm] at this
    simp [MASK] at this
  · intro hno
    by_contra hm
    have hd : s.dist c ≠ 0 := fun h => hm (inv.untouched c hcL h)
    have h1 := (inv.settled c hcL hd (by simp) (by simp)).2.2.1
    obtain ⟨d, hr, _, hs⟩ := inv.touched_reaches_seed dims L lab0 cl k s
      ((s.dist c).toNat - 1) c hcL (by omega)
    exact hno ⟨d, hr, hs⟩

theorem Outcome.with_eq {α : Type} (r : Except Fault α) (enough : Prop) (Post : α → Prop)
    (h : Outcome r enough Post) : Outcome r enough (fun a => r = .ok a ∧ Post a) := by
  cases r with
  | ok a => exact ⟨rfl, h⟩
  | error e => exact h

theorem LevelStart.ctx (dims : Dimensions) (L rest : List CellIndex) (s : FloodState)
    (hs : LevelStart dims (L ++ rest) s) : LevelCtx dims L s.lab s.curlab :=
  { nodup := (List.nodup_append.mp hs.rest_nodup).1
    inGrid := fun c hc => hs.rest_grid c (List.mem_append_left _ hc)
    init := fun c hc => hs.pending c (List.mem_append_left _ hc)
    other := fun c hc => by
      by_cases hr : c ∈ rest
      · left; exact hs.pending c (List.mem_append_right _ hr)
      · by_cases hg : c ∈ allCells dims
        · right
          exact hs.settled c hg (fun h => by
            rcases List.mem_append.mp h with h | h
            · exact hc h
            · exact hr h)
        · left; exact hs.outside c hg }

/-- Between MASK voxels left by the propagation, reachability inside the level and
reachability through MASK voxels agree. -/
theorem PropInv.reach_mask (dims : Dimensions) (L : List CellIndex)
    (lab0 : CellIndex → Int) (cl k : Int) (s : FloodState)
    (ctx : LevelCtx dims L lab0 cl) (inv : PropInv dims L lab0 cl k [] [] s)
    (c d : CellIndex) (hc : s.lab c = MASK) :
    Reach dims (fun n => n ∈ L) c d ↔ Reach dims (fun n => s.lab n = MASK) c d := by
  have hmaskL : ∀ x, s.lab x = MASK → x ∈ L := by
    intro x hx
    by_contra hxL
    have := (inv.frame x hxL).1
    exact ctx.not_mask dims L lab0 cl x hxL (by rw [← this]; exact hx)
  have hcL := hmaskL c hc
  constructor
  · intro h
    induction h with
    | refl => exact Reach.refl _
    | @step b n hb hn hnL ih =>
      refine Reach.step ih hn ?_
      rw [inv.mask_iff dims L lab0 cl k s ctx n hnL]
      rintro ⟨x, hx, hs⟩
      apply (inv.mask_iff dims L lab0 cl k s ctx c hcL).mp hc
      exact ⟨x, Reach.trans dims _ c n x (Reach.step hb hn hnL) hx, hs⟩
  · intro h
    exact Reach.mono_pred dims _ _ hmaskL c d h

theorem maskCount_le (L : List CellIndex) (s : FloodState) : maskCount L s ≤ L.length :=
  List.length_filter_le _ _

theorem minInv_start (dims : Dimensions) (L : List CellIndex) (lab0 : CellIndex → Int)
    (cl k : Int) (s2 : FloodState) (inv : PropInv dims L lab0 cl k [] [] s2)
    (hq : s2.queue = []) : MinInv dims L s2.lab cl L s2 :=
  { queue_nil := hq
    curlab_ge := by rw [inv.curlab]
    keep := fun _ _ => rfl
    fresh := fun _ h => Or.inl h
    done_filled := fun c h1 h2 => absurd h1 h2
    comp := fun _ _ h1 _ h2 => absurd h1 h2
    used := fun j h1 h2 => by rw [inv.curlab] at h2; omega
    dist_done := fun c hc => (inv.frame c hc).2 }

/-- The propagation of a level, started after its masking loop: under the level-start
invariant it never faults, and with `|L| + 1` fuel it ends in a state `s2` that satisfies
the propagation invariant for an empty queue. -/
theorem levelPropagate_outcome (dims : Dimensions) (fuel : Nat) (L rest : List CellIndex)
    (s : FloodState) (hs : LevelStart dims (L ++ rest) s) :
    Outcome
      (propagate dims fuel 1
        { maskLevel dims s L with queue := (maskLevel dims s L).queue ++ [FICTITIOUS] })
      (L.length + 1 ≤ fuel)
      (fun s2 => ∃ k, PropInv dims L s.lab s.curlab k [] [] s2 ∧ s2.queue = []) := by
  have ctx := hs.ctx dims L rest s
  have inv1 := mask_establishes dims L s.curlab s ctx rfl hs.dist_zero
    ((maskLevel dims s L).queue ++ [FICTITIOUS])
  have hq : (maskLevel dims s L).queue ++ [FICTITIOUS] =
      L.filter (hasFloodedNeighbor dims s.lab) ++ FICTITIOUS :: [] := by
    rw [(maskLevel_spec dims L s.curlab s ctx).2.2.2, hs.queue_nil, List.nil_append]
  refine Outcome.weaken _ _ _ _ _
    (propagate_outcome dims L s.lab s.curlab ctx fuel 1 _ [] _ inv1 hq) ?_ (fun _ h => h)
  intro h
  have := maskCount_le L
    { maskLevel dims s L with queue := (maskLevel dims s L).queue ++ [FICTITIOUS] }
  omega

/-- The facts about one level, from the two loop invariants at their ends. -/
theorem levelPost_of_inv (dims : Dimensions) (L rest : List CellIndex) (s s2 s3 : FloodState)
    (k : Int) (hs : LevelStart dims (L ++ rest) s)
    (inv : PropInv dims L s.lab s.curlab k [] [] s2)
    (minv : MinInv dims L s2.lab s.curlab [] s3) : LevelPost dims L s s2 s3 := by
  have ctx := hs.ctx dims L rest s
  have hmaskL : ∀ x, s2.lab x = MASK → x ∈ L := by
    intro x hx
    by_contra hxL
    have := (inv.frame x hxL).1
    exact ctx.not_mask dims L s.lab s.curlab x hxL (by rw [← this]; exact hx)
  refine
    { curlab2 := inv.curlab
      frame2 := fun c hc => (inv.frame c hc).1
      range2 := ?_
      mask_iff := fun c hc => inv.mask_iff dims L s.lab s.curlab k s2 ctx c hc
      keep := minv.keep
      fresh := ?_
      comp := ?_
      used := minv.used
      curlab_le := minv.curlab_ge }
  · intro c hcL
    by_cases hd : s2.dist c = 0
    · left; exact inv.untouched c hcL hd
    · right
      obtain ⟨h1, h2, _⟩ := inv.settled c hcL hd (by simp) (by simp)
      exact ⟨h1, h2⟩
  · intro c hc
    rcases minv.fresh c hc with h | h
    · exact absurd h (minv.done_filled c (hmaskL c hc) (by simp))
    · exact h
  · intro c d hc hd
    rw [inv.reach_mask dims L s.lab s.curlab k s2 ctx c d hc]
    exact minv.comp c d hc hd (minv.done_filled c (hmaskL c hc) (by simp))

/-- The level-start invariant holds again after the level, for the rest of `cellOrder`. -/
theorem levelStart_next (dims : Dimensions) (L rest : List CellIndex) (s s2 s3 : FloodState)
    (k : Int) (hL : L ≠ []) (hs : LevelStart dims (L ++ rest) s)
    (inv : PropInv dims L s.lab s.curlab k [] [] s2)
    (minv : MinInv dims L s2.lab s.curlab [] s3) : LevelStart dims rest s3 := by
  have ctx := hs.ctx dims L rest s
  have post := levelPost_of_inv dims L rest s s2 s3 k hs inv minv
  have hdisj : ∀ c ∈ L, c ∉ rest := fun c h1 h2 =>
    (List.nodup_append.mp hs.rest_nodup).2.2 h1 h2
  have hout : ∀ c, c ∉ L → s3.lab c = s.lab c := by
    intro c hc
    have h2 := post.frame2 c hc
    rw [post.keep c (by rw [h2]; exact ctx.not_mask dims L s.lab s.curlab c hc), h2]
  have hin : ∀ c ∈ L, 0 ≤ s3.lab c ∧ s3.lab c ≤ s3.curlab := by
    intro c hcL
    rcases post.range2 c hcL with h | h
    · have := post.fresh c h
      have := hs.curlab_nonneg
      omega
    · have hnm : s2.lab c ≠ MASK := by
        intro hm; rw [hm] at h; simp [MASK] at h
      rw [post.keep c hnm]
      have := post.curlab_le
      omega
  refine
    { queue_nil := minv.queue_nil
      dist_zero := fun c => minv.dist_done c (by simp)
      pending := ?_
      settled := ?_
      outside := ?_
      curlab_nonneg := le_trans hs.curlab_nonneg post.curlab_le
      used := ?_
      rest_nodup := (List.nodup_append.mp hs.rest_nodup).2.1
      rest_grid := fun c hc => hs.rest_grid c (List.mem_append_right _ hc)
      started := ?_ }
  · intro c hc
    rw [hout c (fun h => hdisj c h hc)]
    exact hs.pending c (List.mem_append_right _ hc)
  · intro c hg hc
    by_cases hcL : c ∈ L
    · exact hin c hcL
    · rw [hout c hcL]
      have := hs.settled c hg (fun h => by
        rcases List.mem_append.mp h with h | h
        · exact hcL h
        · exact hc h)
      have := post.curlab_le
      omega
  · intro c hg
    have hcL : c ∉ L := fun h => hg (ctx.inGrid c h)
    rw [hout c hcL]
    exact hs.outside c hg
  · intro j hj1 hj2
    by_cases hj : j ≤ s.curlab
    · obtain ⟨c, hg, hc⟩ := hs.used j hj1 hj
      have hcL : c ∉ L := by
        intro h
        rw [ctx.init c h] at hc
        simp only [INIT] at hc
        omega
      exact ⟨c, hg, by rw [hout c hcL]; exact hc⟩
    · obtain ⟨c, hc1, hc2⟩ := post.used j (by omega) hj2
      have hcL : c ∈ L := by
        by_contra hcL
        have := post.frame2 c hcL
        exact ctx.not_mask dims L s.lab s.curlab c hcL (by rw [← this]; exact hc1)
      exact ⟨c, ctx.inGrid c hcL, hc2⟩
  · intro _
    obtain ⟨c, hcL⟩ := List.exists_mem_of_ne_nil L hL
    rcases post.range2 c hcL with h | h
    · have := post.fresh c h
      have := hs.curlab_nonneg
      have := hin c hcL
      omega
    · have hnm : s2.lab c ≠ MASK := by
        intro hm; rw [hm] at h; simp [MASK] at h
      have hsome := (not_iff_not.mpr (post.mask_iff c hcL)).mp hnm
      rw [not_not] at hsome
      obtain ⟨d, hr, hseed⟩ := hsome
      obtain ⟨n, hn, hn0⟩ := (hasFloodedNeighbor_iff dims s.lab d).mp hseed
      have hng := neighbor_mem_allCells dims d n hn
      have hnr : n ∉ L ++ rest := by
        intro h
        rw [hs.pending n h] at hn0
        simp [INIT] at hn0
      have := hs.started ⟨n, hng, hnr⟩
      have := post.curlab_le
      omega

/-- The propagation of a level with a further preserved property `J`. -/
theorem levelPropagate_outcome_with (dims : Dimensions) (fuel : Nat) (L rest : List CellIndex)
    (s : FloodState) (hs : LevelStart dims (L ++ rest) s)
    (J : FloodState → Prop) (hJq : ∀ s q, J s → J { s with queue := q })
    (hJ : ∀ k idx A B s0 q s1, PropInv dims L s.lab s.curlab k (idx :: A) B s0 → J s0 →
      visitNeighbors k idx (neighborCells dims idx) { s0 with queue := q } = .ok s1 → J s1)
    (hJ0 : J (maskLevel dims s L)) :
    Outcome
      (propagate dims fuel 1
        { maskLevel dims s L with queue := (maskLevel dims s L).queue ++ [FICTITIOUS] })
      (L.length + 1 ≤ fuel)
      (fun s2 => (∃ k, PropInv dims L s.lab s.curlab k [] [] s2 ∧ s2.queue = []) ∧ J s2) := by
  have ctx := hs.ctx dims L rest s
  have inv1 := mask_establishes dims L s.curlab s ctx rfl hs.dist_zero
    ((maskLevel dims s L).queue ++ [FICTITIOUS])
  have hq : (maskLevel dims s L).queue ++ [FICTITIOUS] =
      L.filter (hasFloodedNeighbor dims s.lab) ++ FICTITIOUS :: [] := by
    rw [(maskLevel_spec dims L s.curlab s ctx).2.2.2, hs.queue_nil, List.nil_append]
  refine Outcome.weaken _ _ _ _ _
    (propagate_outcome_with dims L s.lab s.curlab ctx J hJq hJ fuel 1 _ [] _ inv1 hq
      (hJq _ _ hJ0)) ?_ (fun _ h => h)
  intro h
  have := maskCount_le L
    { maskLevel dims s L with queue := (maskLevel dims s L).queue ++ [FICTITIOUS] }
  omega

/-- One level of the level loop, from the level-start invariant: it never faults; with
`|L| + 1` fuel it ends, the invariant holds for the rest of `cellOrder`, and the
intermediate and final states are related as `LevelPost` says. -/
theorem processLevel_outcome_with (dims : Dimensions) (fuel : Nat) (L rest : List CellIndex)
    (s : FloodState) (hL : L ≠ []) (hs : LevelStart dims (L ++ rest) s)
    (J : FloodState → Prop) (hJq : ∀ s q, J s → J { s with queue := q })
    (hJ : ∀ k idx A B s0 q s1, PropInv dims L s.lab s.curlab k (idx :: A) B s0 → J s0 →
      visitNeighbors k idx (neighborCells dims idx) { s0 with queue := q } = .ok s1 → J s1)
    (hJ0 : J (maskLevel dims s L)) :
    Outcome (processLevel dims fuel L s) (L.length + 1 ≤ fuel)
      (fun s3 => LevelStart dims rest s3 ∧
        ∃ s2, propagate dims fuel 1
            { maskLevel dims s L with queue := (maskLevel dims s L).queue ++ [FICTITIOUS] } =
              .ok s2 ∧
          newMinima dims fuel L s2 = .ok s3 ∧ LevelPost dims L s s2 s3 ∧ J s2) := by
  have ctx := hs.ctx dims L rest s
  unfold processLevel
  refine Outcome.bind _ _ _ _ _ _
    (levelPropagate_outcome_with dims fuel L rest s hs J hJq hJ hJ0) (fun h => h) ?_
  intro s2 hp ⟨⟨k, inv, hq2⟩, hJ2⟩
  have hmaskIn : ∀ c, s2.lab c = MASK → c ∈ L := by
    intro x hx
    by_contra hxL
    have := (inv.frame x hxL).1
    exact ctx.not_mask dims L s.lab s.curlab x hxL (by rw [← this]; exact hx)
  have hmin := newMinima_outcome dims L s2.lab s.curlab hmaskIn ctx.inGrid hs.curlab_nonneg
    fuel L s2 (minInv_start dims L s.lab s.curlab k s2 inv hq2)
  refine Outcome.weaken _ _ _ _ _ (Outcome.with_eq _ _ _ hmin) (by omega) ?_
  intro s3 ⟨hn, minv⟩
  exact ⟨levelStart_next dims L rest s s2 s3 k hL hs inv minv, s2, hp, hn,
    levelPost_of_inv dims L rest s s2 s3 k hs inv minv, hJ2⟩

theorem processLevel_outcome (dims : Dimensions) (fuel : Nat) (L rest : List CellIndex)
    (s : FloodState) (hL : L ≠ []) (hs : LevelStart dims (L ++ rest) s) :
    Outcome (processLevel dims fuel L s) (L.length + 1 ≤ fuel)
      (fun s3 => LevelStart dims rest s3 ∧
        ∃ s2, propagate dims fuel 1
            { maskLevel dims s L with queue := (maskLevel dims s L).queue ++ [FICTITIOUS] } =
              .ok s2 ∧
          newMinima dims fuel L s2 = .ok s3 ∧ LevelPost dims L s s2 s3) :=
  Outcome.weaken _ _ _ _ _
    (processLevel_outcome_with dims fuel L rest s hL hs (fun _ => True) (fun _ _ _ => trivial)
      (fun _ _ _ _ _ _ _ _ _ _ => trivial) trivial)
    (fun h => h) (fun _ ⟨h1, s2, h2, h3, h4, _⟩ => ⟨h1, s2, h2, h3, h4⟩)

theorem levelOf_append {H : Type} [DecidableEq H] (ftleValues : CellIndex → H)
    (idx : CellIndex) (tl : List CellIndex) :
    levelOf ftleValues idx tl ++ afterLevel ftleValues idx tl = idx :: tl :=
  List.takeWhile_append_dropWhile _ _

theorem levelOf_cons {H : Type} [DecidableEq H] (ftleValues : CellIndex → H)
    (idx : CellIndex) (tl : List CellIndex) :
    levelOf ftleValues idx tl =
      idx :: tl.takeWhile (fun c => decide (ftleValues c = ftleValues idx)) := by
  simp [levelOf, List.takeWhile_cons]

theorem levelOf_ne_nil {H : Type} [DecidableEq H] (ftleValues : CellIndex → H)
    (idx : CellIndex) (tl : List CellIndex) : levelOf ftleValues idx tl ≠ [] := by
  rw [levelOf_cons]; simp

theorem afterLevel_length {H : Type} [DecidableEq H] (ftleValues : CellIndex → H)
    (idx : CellIndex) (tl : List CellIndex) :
    (levelOf ftleValues idx tl).length + (afterLevel ftleValues idx tl).length =
      tl.length + 1 := by
  rw [← List.length_append, levelOf_append]; rfl

theorem levelOf_length_pos {H : Type} [DecidableEq H] (ftleValues : CellIndex → H)
    (idx : CellIndex) (tl : List CellIndex) : 0 < (levelOf ftleValues idx tl).length := by
  rw [levelOf_cons]; simp

theorem mem_levelOf {H : Type} [DecidableEq H] (ftleValues : CellIndex → H)
    (idx : CellIndex) (tl : List CellIndex) (c : CellIndex)
    (h : c ∈ levelOf ftleValues idx tl) : ftleValues c = ftleValues idx ∧ c ∈ idx :: tl := by
  have h1 := List.mem_takeWhile_imp h
  exact ⟨by simpa using h1, (List.takeWhile_sublist _).subset h⟩

theorem floodLoop_cons {H : Type} [DecidableEq H] (dims : Dimensions)
    (ftleValues : CellIndex → H) (fuel n : Nat) (idx : CellIndex) (tl : List CellIndex)
    (s : FloodState) :
    floodLoop dims ftleValues fuel (n + 1) (idx :: tl) s =
      (processLevel dims fuel (levelOf ftleValues idx tl) s).bind
        (floodLoop dims ftleValues fuel n (afterLevel ftleValues idx tl)) := rfl

/-- Outside the level, a level changes no label. -/
theorem LevelPost.frame (dims : Dimensions) (L rest : List CellIndex) (s s2 s3 : FloodState)
    (hs : LevelStart dims (L ++ rest) s) (post : LevelPost dims L s s2 s3)
    (c : CellIndex) (hc : c ∉ L) : s3.lab c = s.lab c := by
  have ctx := hs.ctx dims L rest s
  have h2 := post.frame2 c hc
  rw [post.keep c (by rw [h2]; exact ctx.not_mask dims L s.lab s.curlab c hc), h2]

/-- The level loop from the level-start invariant: it never faults, and with enough fuel
it ends with every voxel of `rest` settled; voxels outside `rest` keep their labels. -/
theorem floodLoop_outcome {H : Type} [DecidableEq H] (dims : Dimensions)
    (ftleValues : CellIndex → H) (fuel : Nat) :
    ∀ (n : Nat) (rest : List CellIndex) (s : FloodState), LevelStart dims rest s →
      Outcome (floodLoop dims ftleValues fuel n rest s)
        (rest.length + 1 ≤ fuel ∧ rest.length ≤ n)
        (fun r => LevelStart dims [] r ∧ (∀ c, c ∉ rest → r.lab c = s.lab c) ∧
          s.curlab ≤ r.curlab) := by
  intro n
  induction n with
  | zero =>
    intro rest s hs
    cases rest with
    | nil => exact ⟨hs, fun _ _ => rfl, le_refl _⟩
    | cons idx tl => exact ⟨rfl, by simp⟩
  | succ n ih =>
    intro rest s hs
    cases rest with
    | nil => exact ⟨hs, fun _ _ => rfl, le_refl _⟩
    | cons idx tl =>
      rw [floodLoop_cons]
      have happ := levelOf_append ftleValues idx tl
      have hlen := afterLevel_length ftleValues idx tl
      have hpos := levelOf_length_pos ftleValues idx tl
      have hs1 : LevelStart dims (levelOf ftleValues idx tl ++ afterLevel ftleValues idx tl) s := by
        rw [happ]; exact hs
      refine Outcome.bind _ _ _ _ _ _
        (processLevel_outcome dims fuel _ _ s (levelOf_ne_nil ftleValues idx tl) hs1)
        (by simp only [List.length_cons]; omega) ?_
      intro s1 _ ⟨hs2, s2, _, _, post⟩
      refine Outcome.weaken _ _ _ _ _ (ih _ s1 hs2)
        (by simp only [List.length_cons]; omega) ?_
      intro r ⟨h1, h2, h3⟩
      refine ⟨h1, ?_, le_trans post.curlab_le h3⟩
      intro c hc
      have hcL : c ∉ levelOf ftleValues idx tl := by
        intro h; exact hc (by rw [← happ]; exact List.mem_append_left _ h)
      have hcR : c ∉ afterLevel ftleValues idx tl := by
        intro h; exact hc (by rw [← happ]; exact List.mem_append_right _ h)
      rw [h2 c hcR]
      exact post.frame dims _ _ s s2 s1 hs1 c hcL

theorem length_flatMap_const {α β : Type} (l : List α) (f : α → List β) (m : Nat)
    (h : ∀ a ∈ l, (f a).length = m) : (l.flatMap f).length = l.length * m := by
  induction l with
  | nil => simp
  | cons a rest ih =>
    rw [List.flatMap_cons, List.length_append, h a (List.mem_cons_self _ _),
      ih (fun x hx => h x (List.mem_cons_of_mem _ hx)), List.length_cons]
    ring

theorem length_allCells (dims : Dimensions) :
    (allCells dims).length = dims.d0 * dims.d1 * dims.d2 := by
  unfold allCells
  rw [length_flatMap_const _ _ (dims.d1 * dims.d2), List.length_range, Nat.mul_assoc]
  intro i _
  rw [length_flatMap_const _ _ dims.d2, List.length_range]
  intro j _
  rw [List.length_map, List.length_range]

theorem levelStart_init (dims : Dimensions) (cellOrder : List CellIndex)
    (hperm : cellOrder.Perm (allCells dims)) : LevelStart dims cellOrder initState :=
  { queue_nil := rfl
    dist_zero := fun _ => rfl
    pending := fun _ _ => rfl
    settled := fun c hg hc => absurd (hperm.mem_iff.mpr hg) hc
    outside := fun _ _ => rfl
    curlab_nonneg := le_refl _
    used := fun j h1 h2 => by
      have : initState.curlab = 0 := rfl
      omega
    rest_nodup := hperm.nodup_iff.mpr (nodup_allCells dims)
    rest_grid := fun c hc => hperm.mem_iff.mp hc
    started := fun ⟨c, hg, hc⟩ => absurd (hperm.mem_iff.mpr hg) hc }

/-- The Flood Engine on a `cellOrder` that lists every voxel of the grid once: it never
faults, and with `d0 * d1 * d2 + 1` fuel it ends with every voxel settled. -/
theorem FloodEngine_outcome {H : Type} [DecidableEq H] (dims : Dimensions)
    (ftleValues : CellIndex → H) (fuel : Nat) (cellOrder : List CellIndex)
    (hperm : cellOrder.Perm (allCells dims)) :
    Outcome (FloodEngine dims ftleValues fuel cellOrder)
      (dims.d0 * dims.d1 * dims.d2 + 1 ≤ fuel)
      (fun r => LevelStart dims [] r) := by
  unfold FloodEngine
  refine Outcome.weaken _ _ _ _ _
    (floodLoop_outcome dims ftleValues fuel fuel cellOrder initState
      (levelStart_init dims cellOrder hperm)) ?_ (fun _ h => h.1)
  intro h
  rw [hperm.length_eq, length_allCells]
  omega

theorem LoopAt.levelStart {H : Type} [DecidableEq H] (dims : Dimensions)
    (ftleValues : CellIndex → H) (fuel : Nat) (cellOrder : List CellIndex)
    (hperm : cellOrder.Perm (allCells dims)) (n : Nat) (rest : List CellIndex)
    (s : FloodState) (h : LoopAt dims ftleValues fuel cellOrder n rest s) :
    LevelStart dims rest s := by
  induction h with
  | start => exact levelStart_init dims cellOrder hperm
  | @next n idx tl s s1 _ hp ih =>
    have hs1 : LevelStart dims (levelOf ftleValues idx tl ++ afterLevel ftleValues idx tl) s := by
      rw [levelOf_append]; exact ih
    exact (Outcome.of_ok _ _ _ s1 hp
      (processLevel_outcome dims fuel _ _ s (levelOf_ne_nil ftleValues idx tl) hs1)).1

theorem LoopAt.floodLoop_eq {H : Type} [DecidableEq H] (dims : Dimensions)
    (ftleValues : CellIndex → H) (fuel : Nat) (cellOrder : List CellIndex)
    (n : Nat) (rest : List CellIndex) (s : FloodState)
    (h : LoopAt dims ftleValues fuel cellOrder n rest s) :
    floodLoop dims ftleValues fuel n rest s = FloodEngine dims ftleValues fuel cellOrder := by
  induction h with
  | start => rfl
  | @next n idx tl s s1 _ hp ih =>
    rw [← ih, floodLoop_cons]
    have : processLevel dims fuel (levelOf ftleValues idx tl) s = .ok s1 := hp
    rw [this]
    rfl

/-- In a sorted `rest`, what follows the tie level at its head is strictly higher. -/
theorem afterLevel_higher {H : Type} [LinearOrder H] (ftleValues : CellIndex → H)
    (h : H) (l : List CellIndex)
    (hsorted : l.Pairwise (fun a b => ¬ ftleValues b < ftleValues a))
    (hlow : ∀ a ∈ l, ¬ ftleValues a < h) :
    ∀ c ∈ l.dropWhile (fun c => decide (ftleValues c = h)), h < ftleValues c := by
  induction l with
  | nil => intro c hc; simp at hc
  | cons a rest ih =>
    rw [List.pairwise_cons] at hsorted
    intro c hc
    rw [List.dropWhile_cons] at hc
    by_cases ha : ftleValues a = h
    · simp only [ha, decide_True, if_true] at hc
      exact ih hsorted.2 (fun x hx => hlow x (List.mem_cons_of_mem _ hx)) c hc
    · simp only [ha, decide_False, Bool.false_eq_true, if_false] at hc
      have hax : h < ftleValues a :=
        lt_of_le_of_ne (not_lt.mp (hlow a (List.mem_cons_self _ _))) (Ne.symm ha)
      rcases List.mem_cons.mp hc with hc | hc
      · rw [hc]; exact hax
      · exact lt_of_lt_of_le hax (not_lt.mp (hsorted.1 c hc))

/-- On a height-sorted `cellOrder`, the loop reaches `rest` with everything before it
strictly lower than everything in it. -/
theorem LoopAt.sorted {H : Type} [LinearOrder H] (dims : Dimensions)
    (ftleValues : CellIndex → H) (fuel : Nat) (cellOrder : List CellIndex)
    (hsort : IsHeightOrder dims ftleValues cellOrder) (n : Nat) (rest : List CellIndex)
    (s : FloodState) (h : LoopAt dims ftleValues fuel cellOrder n rest s) :
    ∃ pre, cellOrder = pre ++ rest ∧
      ∀ a ∈ pre, ∀ b ∈ rest, ftleValues a < ftleValues b := by
  induction h with
  | start => exact ⟨[], rfl, fun a ha => by simp at ha⟩
  | @next n idx tl s s1 _ hp ih =>
    obtain ⟨pre, hco, hlt⟩ := ih
    have happ := levelOf_append ftleValues idx tl
    have hsorted : (idx :: tl).Pairwise (fun a b => ¬ ftleValues b < ftleValues a) := by
      have := hsort.2
      rw [hco, List.pairwise_append] at this
      exact this.2.1
    have hhigh := afterLevel_higher ftleValues (ftleValues idx) (idx :: tl) hsorted (by
      intro a ha
      rcases List.mem_cons.mp ha with ha | ha
      · rw [ha]; exact lt_irrefl _
      · exact (List.pairwise_cons.mp hsorted).1 a ha)
    refine ⟨pre ++ levelOf ftleValues idx tl, ?_, ?_⟩
    · rw [hco, List.append_assoc]
      congr 1
      exact happ.symm
    · intro a ha b hb
      have hb1 : b ∈ idx :: tl := by
        rw [← happ]; exact List.mem_append_right _ hb
      rcases List.mem_append.mp ha with ha | ha
      · exact hlt a ha b hb1
      · rw [(mem_levelOf ftleValues idx tl a ha).1]
        exact hhigh b hb

/-- C7: on every grid and scalar field, for every height-sorted `cellOrder` and every
amount of fuel, the Flood Engine never takes the abort branch of the distance check
(`Fault.unexpectedDist`) and never reads the front of an empty queue
(`Fault.emptyQueue`); with `d0 * d1 * d2 + 1` fuel it runs to its end. -/
theorem flood_never_faults {H : Type} [LinearOrder H] (dims : Dimensions)
    (ftleValues : CellIndex → H) (cellOrder : List CellIndex)
    (hsort : IsHeightOrder dims ftleValues cellOrder) (fuel : Nat) :
    FloodEngine dims ftleValues fuel cellOrder ≠ .error Fault.unexpectedDist ∧
    FloodEngine dims ftleValues fuel cellOrder ≠ .error Fault.emptyQueue ∧
    (dims.d0 * dims.d1 * dims.d2 + 1 ≤ fuel →
      ∃ r, FloodEngine dims ftleValues fuel cellOrder = .ok r) := by
  have h := FloodEngine_outcome dims ftleValues fuel cellOrder hsort.1
  obtain ⟨h1, h2⟩ := Outcome.not_fault _ _ _ h
  refine ⟨h1, h2, fun hf => ?_⟩
  obtain ⟨r, hr, _⟩ := Outcome.exists_ok _ _ _ h hf
  exact ⟨r, hr⟩

theorem flood_never_faults_witness :
    FloodEngine saddleDims saddleHeights 8 saddleOrder ≠ .error Fault.unexpectedDist ∧
    FloodEngine saddleDims saddleHeights 8 saddleOrder ≠ .error Fault.emptyQueue ∧
    (saddleDims.d0 * saddleDims.d1 * saddleDims.d2 + 1 ≤ 8 →
      ∃ r, FloodEngine saddleDims saddleHeights 8 saddleOrder = .ok r) :=
  flood_never_faults saddleDims saddleHeights saddleOrder saddleOrder_isHeightOrder 8

theorem origin_mem_allCells (dims : Dimensions)
    (hpos : 0 < dims.d0 ∧ 0 < dims.d1 ∧ 0 < dims.d2) : (⟨0, 0, 0⟩ : CellIndex) ∈ allCells dims := by
  rw [mem_allCells, outside_eq_false]
  simp only
  omega

theorem wshedCount_le (dims : Dimensions) (lab : CellIndex → Int) :
    wshedCount dims lab ≤ dims.d0 * dims.d1 * dims.d2 := by
  rw [← length_allCells]
  exact List.length_filter_le _ _

/-- C4: on every grid with positive dimensions and every scalar field, with
`d0 * d1 * d2 + 1` fuel the Flood Engine and then `RemoveWatershedPixels` terminate, and
afterwards every voxel of the grid carries a basin label `L` with `1 ≤ L ≤ curlab`: none
is INIT, MASK or WSHED. -/
theorem cleanup_labels_every_voxel {H : Type} [LinearOrder H] (dims : Dimensions)
    (hpos : 0 < dims.d0 ∧ 0 < dims.d1 ∧ 0 < dims.d2)
    (ftleValues : CellIndex → H) (cellOrder : List CellIndex)
    (hsort : IsHeightOrder dims ftleValues cellOrder) (fuel : Nat)
    (hfuel : dims.d0 * dims.d1 * dims.d2 + 1 ≤ fuel) :
    ∃ s lab1, FloodEngine dims ftleValues fuel cellOrder = .ok s ∧
      RemoveWatershedPixels dims fuel s.lab = .ok lab1 ∧
      ∀ c ∈ allCells dims, 1 ≤ lab1 c ∧ lab1 c ≤ s.curlab := by
  obtain ⟨s, hs, hst⟩ := Outcome.exists_ok _ _ _
    (FloodEngine_outcome dims ftleValues fuel cellOrder hsort.1) hfuel
  have hsettled : ∀ c ∈ allCells dims, 0 ≤ s.lab c ∧ s.lab c ≤ s.curlab :=
    fun c hc => hst.settled c hc (by simp)
  have hcur : 1 ≤ s.curlab :=
    hst.started ⟨⟨0, 0, 0⟩, origin_mem_allCells dims hpos, by simp⟩
  obtain ⟨b, hb, hlb⟩ := hst.used 1 (le_refl 1) hcur
  obtain ⟨lab1, hr, h1, _, _, h4⟩ := removeWatershed_terminates dims (wshedCount dims s.lab)
    s.lab (le_refl _)
    (fun c hc h => by have := (hsettled c hc).1; rw [h] at this; simp [INIT] at this)
    ⟨b, hb, by rw [hlb]; simp [WSHED]⟩
  refine ⟨s, lab1, hs, ?_, ?_⟩
  · exact RemoveWatershedPixels_fuel_mono dims _ fuel _ _
      (by have := wshedCount_le dims s.lab; omega) hr
  · apply h4 (fun v => 1 ≤ v ∧ v ≤ s.curlab)
    intro c hc hw
    have := hsettled c hc
    simp only [WSHED] at hw
    exact ⟨by omega, this.2⟩

theorem cleanup_labels_every_voxel_witness :
    ∃ s lab1, FloodEngine saddleDims saddleHeights 8 saddleOrder = .ok s ∧
      RemoveWatershedPixels saddleDims 8 s.lab = .ok lab1 ∧
      ∀ c ∈ allCells saddleDims, 1 ≤ lab1 c ∧ lab1 c ≤ s.curlab :=
  cleanup_labels_every_voxel saddleDims (by decide) saddleHeights saddleOrder
    saddleOrder_isHeightOrder 8 (by decide)

/-- On a height-sorted `cellOrder`, the tie level at the head of `rest` holds exactly the
voxels of the grid with that height. -/
theorem LoopAt.mem_level_iff {H : Type} [LinearOrder H] (dims : Dimensions)
    (ftleValues : CellIndex → H) (fuel : Nat) (cellOrder : List CellIndex)
    (hsort : IsHeightOrder dims ftleValues cellOrder) (n : Nat) (idx : CellIndex)
    (tl : List CellIndex) (s : FloodState)
    (h : LoopAt dims ftleValues fuel cellOrder n (idx :: tl) s) (c : CellIndex) :
    c ∈ levelOf ftleValues idx tl ↔ c ∈ allCells dims ∧ ftleValues c = ftleValues idx := by
  obtain ⟨pre, hco, hlt⟩ := h.sorted dims ftleValues fuel cellOrder hsort
  have happ := levelOf_append ftleValues idx tl
  constructor
  · intro hc
    obtain ⟨h1, h2⟩ := mem_levelOf ftleValues idx tl c hc
    exact ⟨hsort.1.mem_iff.mp (by rw [hco]; exact List.mem_append_right _ h2), h1⟩
  · rintro ⟨hg, hh⟩
    have hc : c ∈ pre ++ (idx :: tl) := by rw [← hco]; exact hsort.1.mem_iff.mpr hg
    rcases List.mem_append.mp hc with hc | hc
    · have := hlt c hc idx (List.mem_cons_self _ _)
      rw [hh] at this
      exact absurd this (lt_irrefl _)
    · rw [← happ] at hc
      rcases List.mem_append.mp hc with hc | hc
      · exact hc
      · have hsorted : (idx :: tl).Pairwise (fun a b => ¬ ftleValues b < ftleValues a) := by
          have := hsort.2
          rw [hco, List.pairwise_append] at this
          exact this.2.1
        have := afterLevel_higher ftleValues (ftleValues idx) (idx :: tl) hsorted (by
          intro a ha
          rcases List.mem_cons.mp ha with ha | ha
          · rw [ha]; exact lt_irrefl _
          · exact (List.pairwise_cons.mp hsorted).1 a ha) c hc
        rw [hh] at this
        exact absurd this (lt_irrefl _)

theorem LoopAt.rest_sorted {H : Type} [LinearOrder H] (dims : Dimensions)
    (ftleValues : CellIndex → H) (fuel : Nat) (cellOrder : List CellIndex)
    (hsort : IsHeightOrder dims ftleValues cellOrder) (n : Nat) (rest : List CellIndex)
    (s : FloodState) (h : LoopAt dims ftleValues fuel cellOrder n rest s) :
    rest.Pairwise (fun a b => ¬ ftleValues b < ftleValues a) ∧ rest.length ≤ cellOrder.length := by
  obtain ⟨pre, hco, _⟩ := LoopAt.sorted dims ftleValues fuel cellOrder hsort _ _ _ h
  have := hsort.2
  rw [hco, List.pairwise_append] at this
  refine ⟨this.2.1, ?_⟩
  rw [hco, List.length_append]
  omega

/-- C10: when the level loop of the Flood Engine (on a height-sorted `cellOrder`, with
`d0 * d1 * d2 + 1` fuel) is at the head of a tie level of height `h`, processing that level
succeeds and changes the label only of voxels of height `h`; every voxel of strictly lower
height already carries a basin label or WSHED, keeps it through the level and until the
engine ends; every voxel of strictly greater height is INIT when the level finishes.  Hence
for voxels `u`, `v` with `scalar(u) < scalar(v)`, when `v`'s level starts `v` is still INIT
and `u` already has its final label. -/
theorem level_changes_only_its_height {H : Type} [LinearOrder H] (dims : Dimensions)
    (ftleValues : CellIndex → H) (cellOrder : List CellIndex)
    (hsort : IsHeightOrder dims ftleValues cellOrder) (fuel : Nat)
    (hfuel : dims.d0 * dims.d1 * dims.d2 + 1 ≤ fuel) (n : Nat) (idx : CellIndex)
    (tl : List CellIndex) (s : FloodState)
    (hat : LoopAt dims ftleValues fuel cellOrder (n + 1) (idx :: tl) s) :
    ∃ s1 r, processLevel dims fuel (levelOf ftleValues idx tl) s = .ok s1 ∧
      FloodEngine dims ftleValues fuel cellOrder = .ok r ∧
      (∀ c, ftleValues c ≠ ftleValues idx → s1.lab c = s.lab c) ∧
      (∀ c ∈ allCells dims, ftleValues c < ftleValues idx →
        0 ≤ s.lab c ∧ s1.lab c = s.lab c ∧ r.lab c = s.lab c) ∧
      (∀ c ∈ allCells dims, ftleValues idx < ftleValues c → s1.lab c = INIT) ∧
      (∀ u ∈ allCells dims, ∀ v ∈ allCells dims, ftleValues u < ftleValues v →
        ftleValues v = ftleValues idx → s.lab v = INIT ∧ s.lab u = r.lab u) := by
  have hs := LoopAt.levelStart dims ftleValues fuel cellOrder hsort.1 _ _ _ hat
  have happ := levelOf_append ftleValues idx tl
  have hs1 : LevelStart dims (levelOf ftleValues idx tl ++ afterLevel ftleValues idx tl) s := by
    rw [happ]; exact hs
  obtain ⟨hsorted, hlen⟩ := LoopAt.rest_sorted dims ftleValues fuel cellOrder hsort _ _ _ hat
  have hN : cellOrder.length = dims.d0 * dims.d1 * dims.d2 := by
    rw [hsort.1.length_eq, length_allCells]
  have hLlen := afterLevel_length ftleValues idx tl
  simp only [List.length_cons] at hlen
  obtain ⟨s1, hp, hs2, s2, _, _, post⟩ := Outcome.exists_ok _ _ _
    (processLevel_outcome dims fuel _ _ s (levelOf_ne_nil ftleValues idx tl) hs1) (by omega)
  obtain ⟨r, hr, _⟩ := Outcome.exists_ok _ _ _
    (FloodEngine_outcome dims ftleValues fuel cellOrder hsort.1) hfuel
  have hloop := LoopAt.floodLoop_eq dims ftleValues fuel cellOrder _ _ _ hat
  rw [hr] at hloop
  have hframeR : ∀ c, c ∉ idx :: tl → r.lab c = s.lab c :=
    (Outcome.of_ok _ _ _ r hloop (floodLoop_outcome dims ftleValues fuel (n + 1) _ s hs)).2.1
  have hmem := LoopAt.mem_level_iff dims ftleValues fuel cellOrder hsort _ _ _ _ hat
  have hframe : ∀ c, ftleValues c ≠ ftleValues idx → s1.lab c = s.lab c := by
    intro c hc
    exact post.frame dims _ _ s s2 s1 hs1 c (fun h => hc (mem_levelOf ftleValues idx tl c h).1)
  have hlow : ∀ c ∈ allCells dims, ftleValues c < ftleValues idx →
      0 ≤ s.lab c ∧ s1.lab c = s.lab c ∧ r.lab c = s.lab c := by
    intro c hg hc
    have hcr : c ∉ idx :: tl := by
      intro h
      rcases List.mem_cons.mp h with h | h
      · rw [h] at hc; exact lt_irrefl _ hc
      · exact (List.pairwise_cons.mp hsorted).1 c h hc
    exact ⟨(hs.settled c hg hcr).1, hframe c (ne_of_lt hc), hframeR c hcr⟩
  refine ⟨s1, r, hp, hr, hframe, hlow, ?_, ?_⟩
  · intro c hg hc
    obtain ⟨pre, hco, hlt⟩ := LoopAt.sorted dims ftleValues fuel cellOrder hsort _ _ _ hat
    have hc1 : c ∈ pre ++ (idx :: tl) := by rw [← hco]; exact hsort.1.mem_iff.mpr hg
    apply hs2.pending
    rcases List.mem_append.mp hc1 with h | h
    · exact absurd (lt_trans (hlt c h idx (List.mem_cons_self _ _)) hc) (lt_irrefl _)
    · rw [← happ] at h
      rcases List.mem_append.mp h with h | h
      · rw [(mem_levelOf ftleValues idx tl c h).1] at hc
        exact absurd hc (lt_irrefl _)
      · exact h
  · intro u hu v hv huv hvh
    have hvL : v ∈ levelOf ftleValues idx tl := (hmem v).mpr ⟨hv, hvh⟩
    refine ⟨hs.pending v (mem_levelOf ftleValues idx tl v hvL).2, ?_⟩
    rw [hvh] at huv
    exact (hlow u hu huv).2.2.symm

theorem Reach.mono_grid (dims : Dimensions) (M N : CellIndex → Prop)
    (hMN : ∀ c ∈ allCells dims, M c → N c) (a b : CellIndex) (h : Reach dims M a b) :
    Reach dims N a b := by
  induction h with
  | refl => exact Reach.refl _
  | step _ hn hM ih => exact Reach.step ih hn (hMN _ (neighbor_mem_allCells dims _ _ hn) hM)

/-- C6: when the level loop (height-sorted `cellOrder`, `d0 * d1 * d2 + 1` fuel) is at the
head of a tie level, the propagation and the new-minima loop of that level succeed, and
(1) after the propagation a voxel of the level is MASK iff no voxel of its 6-connected
component within the level has a neighbour that was flooded (basin label or WSHED) when
the level started; (2) the new-minima loop leaves every other label alone, gives every MASK
voxel a fresh label above the old basin counter, two voxels get the same fresh label
exactly when they lie in the same component, and every value the counter passed through
is the label of such a component: the counter is incremented once per component. -/
theorem new_minima_per_component {H : Type} [LinearOrder H] (dims : Dimensions)
    (ftleValues : CellIndex → H) (cellOrder : List CellIndex)
    (hsort : IsHeightOrder dims ftleValues cellOrder) (fuel : Nat)
    (hfuel : dims.d0 * dims.d1 * dims.d2 + 1 ≤ fuel) (n : Nat) (idx : CellIndex)
    (tl : List CellIndex) (s : FloodState)
    (hat : LoopAt dims ftleValues fuel cellOrder (n + 1) (idx :: tl) s) :
    ∃ s2 s3,
      propagate dims fuel 1
        { maskLevel dims s (levelOf ftleValues idx tl) with
          queue := (maskLevel dims s (levelOf ftleValues idx tl)).queue ++ [FICTITIOUS] } =
        .ok s2 ∧
      newMinima dims fuel (levelOf ftleValues idx tl) s2 = .ok s3 ∧
      (∀ c ∈ levelOf ftleValues idx tl, (s2.lab c = MASK ↔
        ¬ ∃ d, Reach dims (fun x => ftleValues x = ftleValues idx) c d ∧
          hasFloodedNeighbor dims s.lab d = true)) ∧
      (∀ c, s2.lab c ≠ MASK → s3.lab c = s2.lab c) ∧
      (∀ c, s2.lab c = MASK →
        c ∈ levelOf ftleValues idx tl ∧ s2.curlab < s3.lab c ∧ s3.lab c ≤ s3.curlab) ∧
      (∀ c, s2.lab c = MASK → ∀ d,
        (s3.lab d = s3.lab c ↔ Reach dims (fun x => ftleValues x = ftleValues idx) c d)) ∧
      (∀ j, s2.curlab < j → j ≤ s3.curlab → ∃ c, s2.lab c = MASK ∧ s3.lab c = j) := by
  have hs := LoopAt.levelStart dims ftleValues fuel cellOrder hsort.1 _ _ _ hat
  have happ := levelOf_append ftleValues idx tl
  have hs1 : LevelStart dims (levelOf ftleValues idx tl ++ afterLevel ftleValues idx tl) s := by
    rw [happ]; exact hs
  have ctx := hs1.ctx dims _ _ s
  obtain ⟨_, hlen⟩ := LoopAt.rest_sorted dims ftleValues fuel cellOrder hsort _ _ _ hat
  have hN : cellOrder.length = dims.d0 * dims.d1 * dims.d2 := by
    rw [hsort.1.length_eq, length_allCells]
  have hLlen := afterLevel_length ftleValues idx tl
  simp only [List.length_cons] at hlen
  obtain ⟨s3, _, _, s2, hp2, hp3, post⟩ := Outcome.exists_ok _ _ _
    (processLevel_outcome dims fuel _ _ s (levelOf_ne_nil ftleValues idx tl) hs1) (by omega)
  have hmem := LoopAt.mem_level_iff dims ftleValues fuel cellOrder hsort _ _ _ _ hat
  have hreach : ∀ c d, c ∈ levelOf ftleValues idx tl →
      (Reach dims (fun x => x ∈ levelOf ftleValues idx tl) c d ↔
        Reach dims (fun x => ftleValues x = ftleValues idx) c d) := by
    intro c d _
    constructor
    · exact Reach.mono_grid dims _ _ (fun x _ hx => ((hmem x).mp hx).2) c d
    · exact Reach.mono_grid dims _ _ (fun x hg hx => (hmem x).mpr ⟨hg, hx⟩) c d
  have hmaskL : ∀ x, s2.lab x = MASK → x ∈ levelOf ftleValues idx tl := by
    intro x hx
    by_contra hxL
    have := post.frame2 x hxL
    exact ctx.not_mask dims _ s.lab s.curlab x hxL (by rw [← this]; exact hx)
  have hold : ∀ d, s2.lab d ≠ MASK → s2.lab d ≤ s.curlab := by
    intro d hd
    by_cases hdL : d ∈ levelOf ftleValues idx tl
    · rcases post.range2 d hdL with h | h
      · exact absurd h hd
      · exact h.2
    · rw [post.frame2 d hdL]
      rcases ctx.other d hdL with h | h
      · rw [h]; have := hs.curlab_nonneg; simp only [INIT]; omega
      · exact h.2
  refine ⟨s2, s3, hp2, hp3, ?_, post.keep, ?_, ?_, ?_⟩
  · intro c hcL
    rw [post.mask_iff c hcL]
    constructor
    · rintro h ⟨d, hr, hsd⟩; exact h ⟨d, (hreach c d hcL).mpr hr, hsd⟩
    · rintro h ⟨d, hr, hsd⟩; exact h ⟨d, (hreach c d hcL).mp hr, hsd⟩
  · intro c hc
    have := post.fresh c hc
    rw [post.curlab2]
    exact ⟨hmaskL c hc, this.1, this.2⟩
  · intro c hc d
    have hcL := hmaskL c hc
    rw [← hreach c d hcL]
    by_cases hd : s2.lab d = MASK
    · exact post.comp c d hc hd
    · constructor
      · intro h
        exfalso
        rw [post.keep d hd] at h
        have := hold d hd
        have := (post.fresh c hc).1
        omega
      · intro h
        exfalso
        have hinv := (post.mask_iff c hcL).mp hc
        have hdL : d ∈ levelOf ftleValues idx tl := Reach.target dims _ c d h hcL
        apply hd
        rw [post.mask_iff d hdL]
        rintro ⟨x, hx, hsx⟩
        exact hinv ⟨x, Reach.trans dims _ c d x h hx, hsx⟩
  · intro j hj1 hj2
    rw [post.curlab2] at hj1
    exact post.used j hj1 hj2

theorem new_minima_per_component_witness :
    ∃ s2 s3,
      propagate saddleDims 8 1
        { maskLevel saddleDims initState (levelOf saddleHeights ⟨0, 0, 0⟩
            [⟨6, 0, 0⟩, ⟨1, 0, 0⟩, ⟨5, 0, 0⟩, ⟨2, 0, 0⟩, ⟨4, 0, 0⟩, ⟨3, 0, 0⟩]) with
          queue := (maskLevel saddleDims initState (levelOf saddleHeights ⟨0, 0, 0⟩
            [⟨6, 0, 0⟩, ⟨1, 0, 0⟩, ⟨5, 0, 0⟩, ⟨2, 0, 0⟩, ⟨4, 0, 0⟩, ⟨3, 0, 0⟩])).queue ++
              [FICTITIOUS] } =
        .ok s2 ∧
      newMinima saddleDims 8 (levelOf saddleHeights ⟨0, 0, 0⟩
        [⟨6, 0, 0⟩, ⟨1, 0, 0⟩, ⟨5, 0, 0⟩, ⟨2, 0, 0⟩, ⟨4, 0, 0⟩, ⟨3, 0, 0⟩]) s2 = .ok s3 ∧
      (∀ c ∈ levelOf saddleHeights ⟨0, 0, 0⟩
          [⟨6, 0, 0⟩, ⟨1, 0, 0⟩, ⟨5, 0, 0⟩, ⟨2, 0, 0⟩, ⟨4, 0, 0⟩, ⟨3, 0, 0⟩],
        (s2.lab c = MASK ↔
          ¬ ∃ d, Reach saddleDims (fun x => saddleHeights x = saddleHeights ⟨0, 0, 0⟩) c d ∧
            hasFloodedNeighbor saddleDims initState.lab d = true)) ∧
      (∀ c, s2.lab c ≠ MASK → s3.lab c = s2.lab c) ∧
      (∀ c, s2.lab c = MASK →
        c ∈ levelOf saddleHeights ⟨0, 0, 0⟩
          [⟨6, 0, 0⟩, ⟨1, 0, 0⟩, ⟨5, 0, 0⟩, ⟨2, 0, 0⟩, ⟨4, 0, 0⟩, ⟨3, 0, 0⟩] ∧
        s2.curlab < s3.lab c ∧ s3.lab c ≤ s3.curlab) ∧
      (∀ c, s2.lab c = MASK → ∀ d,
        (s3.lab d = s3.lab c ↔
          Reach saddleDims (fun x => saddleHeights x = saddleHeights ⟨0, 0, 0⟩) c d)) ∧
      (∀ j, s2.curlab < j → j ≤ s3.curlab → ∃ c, s2.lab c = MASK ∧ s3.lab c = j) :=
  new_minima_per_component saddleDims saddleHeights saddleOrder saddleOrder_isHeightOrder
    8 (by decide) 7 ⟨0, 0, 0⟩ _ initState LoopAt.start

/-- The final state of the Flood Engine is a state the level loop reaches with nothing
left of `cellOrder`. -/
theorem LoopAt.final {H : Type} [DecidableEq H] (dims : Dimensions)
    (ftleValues : CellIndex → H) (fuel : Nat) (cellOrder : List CellIndex) :
    ∀ (n : Nat) (rest : List CellIndex) (s r : FloodState),
      LoopAt dims ftleValues fuel cellOrder n rest s →
      floodLoop dims ftleValues fuel n rest s = .ok r →
      ∃ m, LoopAt dims ftleValues fuel cellOrder m [] r := by
  intro n
  induction n with
  | zero =>
    intro rest s r hat h
    cases rest with
    | nil =>
      simp only [floodLoop, Except.ok.injEq] at h
      rw [← h]; exact ⟨0, hat⟩
    | cons idx tl => simp [floodLoop] at h
  | succ n ih =>
    intro rest s r hat h
    cases rest with
    | nil =>
      simp only [floodLoop, Except.ok.injEq] at h
      rw [← h]; exact ⟨n + 1, hat⟩
    | cons idx tl =>
      rw [floodLoop_cons, bind_eq_ok] at h
      obtain ⟨s1, h1, h2⟩ := h
      exact ih _ s1 r (LoopAt.next hat h1) h2

theorem relabel_fold_one (nbs : List Int) :
    ∀ cur : Int, (∀ nb ∈ nbs, nb = 1) → (cur = MASK ∨ cur = 1) →
      nbs.foldl relabel cur = MASK ∨ nbs.foldl relabel cur = 1 := by
  induction nbs with
  | nil => intro cur _ h; exact h
  | cons nb rest ih =>
    intro cur hnbs hcur
    rw [List.foldl_cons]
    apply ih _ (fun x hx => hnbs x (List.mem_cons_of_mem _ hx))
    right
    have := hnbs nb (List.mem_cons_self _ _)
    subst this
    rcases hcur with h | h
    · subst h; decide
    · subst h; decide

/-- The first level, when it is 6-connected: one basin, labelled 1. -/
theorem first_level_one_basin (dims : Dimensions) (L rest : List CellIndex)
    (s s2 s3 : FloodState) (hs : LevelStart dims (L ++ rest) s)
    (hnone : ∀ c ∈ allCells dims, c ∈ L ++ rest) (post : LevelPost dims L s s2 s3)
    (c0 : CellIndex) (hc0 : c0 ∈ L)
    (hconn : ∀ c ∈ L, Reach dims (fun x => x ∈ L) c0 c) :
    s3.curlab = 1 ∧ ∀ c ∈ L, s3.lab c = 1 := by
  have hnoseed : ∀ d, ¬ hasFloodedNeighbor dims s.lab d = true := by
    intro d hd
    obtain ⟨n, hn, hn0⟩ := (hasFloodedNeighbor_iff dims s.lab d).mp hd
    rw [hs.pending n (hnone n (neighbor_mem_allCells dims d n hn))] at hn0
    simp [INIT] at hn0
  have hmask : ∀ c ∈ L, s2.lab c = MASK := by
    intro c hc
    rw [post.mask_iff c hc]
    rintro ⟨d, _, hd⟩
    exact hnoseed d hd
  have hcur0 : s.curlab = 0 := by
    by_contra hne
    have h1 : 1 ≤ s.curlab := by have := hs.curlab_nonneg; omega
    obtain ⟨c, hg, hc⟩ := hs.used 1 (le_refl 1) h1
    rw [hs.pending c (hnone c hg)] at hc
    simp [INIT] at hc
  have hmaskL : ∀ x, s2.lab x = MASK → x ∈ L := by
    intro x hx
    by_contra hxL
    have := post.frame2 x hxL
    exact (hs.ctx dims L rest s).not_mask dims L s.lab s.curlab x hxL (by rw [← this]; exact hx)
  have hall : ∀ c ∈ L, s3.lab c = s3.lab c0 := fun c hc =>
    (post.comp c0 c (hmask c0 hc0) (hmask c hc)).mpr (hconn c hc)
  have hfresh := post.fresh c0 (hmask c0 hc0)
  rw [hcur0] at hfresh
  have h1 : s3.lab c0 = 1 := by
    obtain ⟨c, hc1, hc2⟩ := post.used 1 (by rw [hcur0]; decide) (by omega)
    rw [← hall c (hmaskL c hc1)]; exact hc2
  have h2 : s3.curlab = 1 := by
    obtain ⟨c, hc1, hc2⟩ := post.used s3.curlab (by rw [hcur0]; omega) (le_refl _)
    rw [hall c (hmaskL c hc1), h1] at hc2
    exact hc2.symm
  exact ⟨h2, fun c hc => by rw [hall c hc, h1]⟩

/-- A later level in which every voxel has a neighbour already in basin 1: the whole level
joins basin 1 and no basin is created. -/
theorem later_level_one_basin (dims : Dimensions) (fuel : Nat) (L rest : List CellIndex)
    (s s1 : FloodState) (hL : L ≠ []) (hs : LevelStart dims (L ++ rest) s)
    (hone : ∀ c ∈ allCells dims, c ∉ L ++ rest → s.lab c = 1) (hcur : s.curlab = 1)
    (hseed : ∀ c ∈ L, ∃ n ∈ neighborCells dims c, n ∉ L ++ rest)
    (hp : processLevel dims fuel L s = .ok s1) :
    s1.curlab = 1 ∧ ∀ c ∈ L, s1.lab c = 1 := by
  have ctx := hs.ctx dims L rest s
  have hflood : ∀ c, 0 ≤ s.lab c → s.lab c = 1 := by
    intro c hc
    by_cases hg : c ∈ allCells dims
    · by_cases hr : c ∈ L ++ rest
      · rw [hs.pending c hr] at hc; simp [INIT] at hc
      · exact hone c hg hr
    · rw [hs.outside c hg] at hc; simp [INIT] at hc
  have hJ0 : ∀ c, 0 ≤ (maskLevel dims s L).lab c → (maskLevel dims s L).lab c = 1 := by
    intro c
    rw [(maskLevel_spec dims L s.curlab s ctx).2.1 c]
    by_cases hcL : c ∈ L
    · simp [hcL, MASK]
    · simp only [hcL, if_false]; exact hflood c
  have hout := processLevel_outcome_with dims fuel L rest s hL hs
    (fun s0 => ∀ c, 0 ≤ s0.lab c → s0.lab c = 1) (fun _ _ h => h) (by
      intro k idx A B s0 q sv inv hJ hv
      obtain ⟨sv1, hv1, _, _, hlab, hlabi, _⟩ :=
        visit_preserves dims L s.lab s.curlab k idx A B s0 q ctx inv
      rw [hv1] at hv
      simp only [Except.ok.injEq] at hv
      subst hv
      intro c hc
      by_cases hci : c = idx
      · rw [hci] at hc ⊢
        rw [hlabi] at hc ⊢
        unfold visitLabel at hc ⊢
        have hnbs : ∀ nb ∈ ((neighborCells dims idx).filter (propagates k s0)).map s0.lab,
            nb = 1 := by
          intro nb hnb
          obtain ⟨n, hn, rfl⟩ := List.mem_map.mp hnb
          exact hJ n ((propagates_iff k s0 n).mp (List.mem_filter.mp hn).2).2
        rcases relabel_fold_one (((neighborCells dims idx).filter (propagates k s0)).map s0.lab)
          (s0.lab idx) hnbs (Or.inl (inv.front idx (List.mem_cons_self _ _)).2.1) with h | h
        · rw [h] at hc; simp [MASK] at hc
        · exact h
      · rw [hlab c hci] at hc ⊢
        exact hJ c hc) hJ0
  obtain ⟨_, s2, _, _, post, hJ2⟩ := Outcome.of_ok _ _ _ s1 hp hout
  have hnm : ∀ c ∈ L, s2.lab c ≠ MASK := by
    intro c hcL hm
    apply (post.mask_iff c hcL).mp hm
    obtain ⟨n, hn, hnr⟩ := hseed c hcL
    refine ⟨c, Reach.refl _, (hasFloodedNeighbor_iff dims s.lab c).mpr ⟨n, hn, ?_⟩⟩
    rw [hone n (neighbor_mem_allCells dims c n hn) hnr]
    decide
  have hmaskL : ∀ x, s2.lab x = MASK → x ∈ L := by
    intro x hx
    by_contra hxL
    have := post.frame2 x hxL
    exact ctx.not_mask dims L s.lab s.curlab x hxL (by rw [← this]; exact hx)
  constructor
  · by_contra hne
    have h1 := post.curlab_le
    obtain ⟨c, hc1, _⟩ := post.used s1.curlab (by omega) (le_refl _)
    exact hnm c (hmaskL c hc1) hc1
  · intro c hcL
    rw [post.keep c (hnm c hcL)]
    rcases post.range2 c hcL with h | h
    · exact absurd h (hnm c hcL)
    · exact hJ2 c h.1

/-- On a single bowl, every state the level loop reaches has all processed voxels in
basin 1. -/
theorem LoopAt.oneBasin {H : Type} [LinearOrder H] (dims : Dimensions)
    (ftleValues : CellIndex → H) (fuel : Nat) (cellOrder : List CellIndex)
    (hsort : IsHeightOrder dims ftleValues cellOrder) (c0 : CellIndex)
    (bowl : SingleBowl dims ftleValues c0) (n : Nat) (rest : List CellIndex)
    (s : FloodState) (h : LoopAt dims ftleValues fuel cellOrder n rest s) :
    OneBasin dims rest s := by
  induction h with
  | start =>
    exact ⟨fun c hg hc => absurd (hsort.1.mem_iff.mpr hg) hc,
      fun ⟨c, hg, hc⟩ => absurd (hsort.1.mem_iff.mpr hg) hc⟩
  | @next n idx tl s s1 hat hp ih =>
    have hs := LoopAt.levelStart dims ftleValues fuel cellOrder hsort.1 _ _ _ hat
    have happ := levelOf_append ftleValues idx tl
    have hs1 : LevelStart dims (levelOf ftleValues idx tl ++ afterLevel ftleValues idx tl) s := by
      rw [happ]; exact hs
    have hp1 : processLevel dims fuel (levelOf ftleValues idx tl) s = .ok s1 := hp
    have hmem := LoopAt.mem_level_iff dims ftleValues fuel cellOrder hsort _ _ _ _ hat
    obtain ⟨hsorted, _⟩ := LoopAt.rest_sorted dims ftleValues fuel cellOrder hsort _ _ _ hat
    obtain ⟨_, s2, _, _, post⟩ := Outcome.of_ok _ _ _ s1 hp1
      (processLevel_outcome dims fuel _ _ s (levelOf_ne_nil ftleValues idx tl) hs1)
    have hnotlow : ∀ c ∈ idx :: tl, ¬ ftleValues c < ftleValues idx := by
      intro c hc
      rcases List.mem_cons.mp hc with hc | hc
      · rw [hc]; exact lt_irrefl _
      · exact (List.pairwise_cons.mp hsorted).1 c hc
    have hlevel : s1.curlab = 1 ∧ ∀ c ∈ levelOf ftleValues idx tl, s1.lab c = 1 := by
      by_cases hnone : ∀ c ∈ allCells dims, c ∈ idx :: tl
      · have hh : ftleValues idx = ftleValues c0 := by
          have h1 := hnotlow c0 (hnone c0 bowl.mem)
          have h2 := bowl.minimal idx (hs.rest_grid idx (List.mem_cons_self _ _))
          exact le_antisymm (not_lt.mp h1) (not_lt.mp h2)
        refine first_level_one_basin dims _ _ s s2 s1 hs1 (by rw [happ]; exact hnone) post c0
          ((hmem c0).mpr ⟨bowl.mem, hh.symm⟩) ?_
        intro c hc
        obtain ⟨hg, hch⟩ := (hmem c).mp hc
        refine Reach.mono_grid dims _ _ ?_ c0 c (bowl.connected c hg (by rw [hch, hh]))
        intro x hx hxh
        exact (hmem x).mpr ⟨hx, by rw [hxh, hh]⟩
      · push_neg at hnone
        obtain ⟨a, hag, har⟩ := hnone
        obtain ⟨pre, hco, hlt⟩ := LoopAt.sorted dims ftleValues fuel cellOrder hsort _ _ _ hat
        have hapre : a ∈ pre := by
          have : a ∈ pre ++ (idx :: tl) := by rw [← hco]; exact hsort.1.mem_iff.mpr hag
          rcases List.mem_append.mp this with h | h
          · exact h
          · exact absurd h har
        have hne : ftleValues idx ≠ ftleValues c0 := by
          have h1 := hlt a hapre idx (List.mem_cons_self _ _)
          have h2 := bowl.minimal a hag
          exact ne_of_gt (lt_of_le_of_lt (not_lt.mp h2) h1)
        refine later_level_one_basin dims fuel _ _ s s1 (levelOf_ne_nil ftleValues idx tl) hs1
          (by rw [happ]; exact ih.1) (ih.2 ⟨a, hag, har⟩) ?_ hp1
        intro c hc
        obtain ⟨hg, hch⟩ := (hmem c).mp hc
        obtain ⟨x, hx, hxlt⟩ := bowl.descends c hg (by rw [hch]; exact hne)
        refine ⟨x, hx, ?_⟩
        rw [happ]
        intro hxr
        rw [hch] at hxlt
        exact hnotlow x hxr hxlt
    constructor
    · intro c hg hc
      by_cases hcL : c ∈ levelOf ftleValues idx tl
      · exact hlevel.2 c hcL
      · rw [post.frame dims _ _ s s2 s1 hs1 c hcL]
        apply ih.1 c hg
        rw [← happ]
        intro h
        rcases List.mem_append.mp h with h | h
        · exact hcL h
        · exact hc h
    · intro _
      exact hlevel.1

/-- On a single bowl the Flood Engine (with `d0 * d1 * d2 + 1` fuel) ends with one basin:
`curlab = 1` and label 1 on every voxel of the grid. -/
theorem single_bowl_result {H : Type} [LinearOrder H] (dims : Dimensions)
    (ftleValues : CellIndex → H) (cellOrder : List CellIndex)
    (hsort : IsHeightOrder dims ftleValues cellOrder) (c0 : CellIndex)
    (bowl : SingleBowl dims ftleValues c0) (fuel : Nat)
    (hfuel : dims.d0 * dims.d1 * dims.d2 + 1 ≤ fuel) :
    ∃ s, FloodEngine dims ftleValues fuel cellOrder = .ok s ∧ s.curlab = 1 ∧
      ∀ c ∈ allCells dims, s.lab c = 1 := by
  obtain ⟨r, hr, _⟩ := Outcome.exists_ok _ _ _
    (FloodEngine_outcome dims ftleValues fuel cellOrder hsort.1) hfuel
  obtain ⟨m, hm⟩ := LoopAt.final dims ftleValues fuel cellOrder fuel cellOrder initState r
    LoopAt.start hr
  obtain ⟨h1, h2⟩ := LoopAt.oneBasin dims ftleValues fuel cellOrder hsort c0 bowl _ _ _ hm
  exact ⟨r, hr, h2 ⟨c0, bowl.mem, by simp⟩, fun c hc => h1 c hc (by simp)⟩

/-- C5: on a single bowl (the minimum-height voxels form one 6-connected region and every
other voxel has an in-grid 6-neighbour of strictly lower height), the Flood Engine, on
any height-sorted `cellOrder` and with `d0 * d1 * d2 + 1` fuel, ends with `curlab = 1`,
every voxel of the grid labelled 1 and no WSHED voxel. -/
theorem single_bowl_one_basin {H : Type} [LinearOrder H] (dims : Dimensions)
    (ftleValues : CellIndex → H) (cellOrder : List CellIndex)
    (hsort : IsHeightOrder dims ftleValues cellOrder) (c0 : CellIndex)
    (bowl : SingleBowl dims ftleValues c0) (fuel : Nat)
    (hfuel : dims.d0 * dims.d1 * dims.d2 + 1 ≤ fuel) :
    ∃ s, FloodEngine dims ftleValues fuel cellOrder = .ok s ∧ s.curlab = 1 ∧
      (∀ c ∈ allCells dims, s.lab c = 1) ∧ ∀ c ∈ allCells dims, s.lab c ≠ WSHED := by
  obtain ⟨s, hs, h1, h2⟩ :=
    single_bowl_result dims ftleValues cellOrder hsort c0 bowl fuel hfuel
  exact ⟨s, hs, h1, h2, fun c hc => by rw [h2 c hc]; decide⟩

theorem bowl_isHeightOrder : IsHeightOrder bowlDims bowlHeights (allCells bowlDims) := by
  constructor
  · exact List.Perm.refl _
  · decide

theorem bowl_singleBowl : SingleBowl bowlDims bowlHeights ⟨0, 0, 0⟩ :=
  { mem := by decide
    minimal := by decide
    connected := by
      intro c hc hh
      have hc1 : c ∈ [(⟨0, 0, 0⟩ : CellIndex), ⟨1, 0, 0⟩, ⟨2, 0, 0⟩] := hc
      simp only [List.mem_cons, List.mem_singleton, List.not_mem_nil, or_false] at hc1
      rcases hc1 with h | h | h
      · rw [h]; exact Reach.refl _
      · rw [h] at hh; exact absurd hh (by decide)
      · rw [h] at hh; exact absurd hh (by decide)
    descends := by decide }

theorem single_bowl_one_basin_witness :
    ∃ s, FloodEngine bowlDims bowlHeights 4 (allCells bowlDims) = .ok s ∧ s.curlab = 1 ∧
      (∀ c ∈ allCells bowlDims, s.lab c = 1) ∧ ∀ c ∈ allCells bowlDims, s.lab c ≠ WSHED :=
  single_bowl_one_basin bowlDims bowlHeights (allCells bowlDims) bowl_isHeightOrder ⟨0, 0, 0⟩
    bowl_singleBowl 4 (by decide)

/-- A constant field on a grid with positive dimensions is a single bowl. -/
theorem flat_singleBowl {H : Type} [LinearOrder H] (dims : Dimensions)
    (hpos : 0 < dims.d0 ∧ 0 < dims.d1 ∧ 0 < dims.d2) (ftleValues : CellIndex → H)
    (hflat : ∀ a ∈ allCells dims, ∀ b ∈ allCells dims, ftleValues a = ftleValues b) :
    SingleBowl dims ftleValues ⟨0, 0, 0⟩ :=
  { mem := origin_mem_allCells dims hpos
    minimal := fun c hc => by
      rw [hflat c hc _ (origin_mem_allCells dims hpos)]; exact lt_irrefl _
    connected := fun c hc _ =>
      grid_connected dims
        (fun x => Reach dims (fun y => ftleValues y = ftleValues ⟨0, 0, 0⟩) ⟨0, 0, 0⟩ x)
        ⟨0, 0, 0⟩ (origin_mem_allCells dims hpos) (Reach.refl _)
        (fun x _ hx n hn => Reach.step hx hn
          (hflat n (neighbor_mem_allCells dims x n hn) _ (origin_mem_allCells dims hpos)))
        c hc
    descends := fun c hc hne =>
      absurd (hflat c hc _ (origin_mem_allCells dims hpos)) hne }

/-- C2: on every grid with positive dimensions (1x1x1 included) and every constant scalar
field, the Flood Engine (any height-sorted `cellOrder`, `d0 * d1 * d2 + 1` fuel) ends with
`curlab = 1` and every voxel of the grid labelled 1, so there is no WSHED voxel, and
`RemoveWatershedPixels` returns that label field unchanged. -/
theorem flat_field_one_basin {H : Type} [LinearOrder H] (dims : Dimensions)
    (hpos : 0 < dims.d0 ∧ 0 < dims.d1 ∧ 0 < dims.d2) (ftleValues : CellIndex → H)
    (hflat : ∀ a ∈ allCells dims, ∀ b ∈ allCells dims, ftleValues a = ftleValues b)
    (cellOrder : List CellIndex) (hsort : IsHeightOrder dims ftleValues cellOrder)
    (fuel : Nat) (hfuel : dims.d0 * dims.d1 * dims.d2 + 1 ≤ fuel) :
    ∃ s, FloodEngine dims ftleValues fuel cellOrder = .ok s ∧ s.curlab = 1 ∧
      (∀ c ∈ allCells dims, s.lab c = 1) ∧ (∀ c ∈ allCells dims, s.lab c ≠ WSHED) ∧
      RemoveWatershedPixels dims fuel s.lab = .ok s.lab := by
  obtain ⟨s, hs, h1, h2⟩ := single_bowl_result dims ftleValues cellOrder hsort ⟨0, 0, 0⟩
    (flat_singleBowl dims hpos ftleValues hflat) fuel hfuel
  have hnow : ∀ c ∈ allCells dims, s.lab c ≠ WSHED := fun c hc => by rw [h2 c hc]; decide
  refine ⟨s, hs, h1, h2, hnow, ?_⟩
  have hpass : removePass dims s.lab = (s.lab, false) := removeFold_noop dims _ s.lab false hnow
  apply RemoveWatershedPixels_fuel_mono dims 1 fuel _ _ (by omega)
  simp [RemoveWatershedPixels, hpass]

theorem flat_field_one_basin_witness :
    ∃ s, FloodEngine flatDims flatHeights 5 (allCells flatDims) = .ok s ∧ s.curlab = 1 ∧
      (∀ c ∈ allCells flatDims, s.lab c = 1) ∧ (∀ c ∈ allCells flatDims, s.lab c ≠ WSHED) ∧
      RemoveWatershedPixels flatDims 5 s.lab = .ok s.lab :=
  flat_field_one_basin flatDims (by decide) flatHeights (fun _ _ _ _ => rfl)
    (allCells flatDims) ⟨List.Perm.refl _, by decide⟩ 5 (by decide)

theorem relabel_fold_wshed_only (ls : List Int) :
    ∀ cur : Int, (∀ v ∈ ls, v = 0) → cur ≠ MASK → ls.foldl relabel cur = cur := by
  induction ls with
  | nil => intro cur _ _; rfl
  | cons v rest ih =>
    intro cur hls hcur
    have hv := hls v (List.mem_cons_self _ _)
    subst hv
    rw [List.foldl_cons]
    have : relabel cur 0 = cur := by simp [relabel, hcur]
    rw [this]
    exact ih cur (fun x hx => hls x (List.mem_cons_of_mem _ hx)) hcur

theorem filter_pos_nil (ls : List Int) (hls : ∀ v ∈ ls, 0 ≤ v)
    (h : ls.filter (fun v => decide (0 < v)) = []) : ∀ v ∈ ls, v = 0 := by
  intro v hv
  have := List.filter_eq_nil_iff.mp h v hv
  simp only [decide_eq_true_eq, not_lt] at this
  have := hls v hv
  omega

/-- One more basin label `b`, met while the voxel holds a different basin label: WSHED. -/
theorem relabel_fold_conflict (ls : List Int) :
    ∀ (cur b : Int), (∀ v ∈ ls, 0 ≤ v) → ls.filter (fun v => decide (0 < v)) = [b] →
      0 < cur → cur ≠ b → ls.foldl relabel cur = WSHED := by
  induction ls with
  | nil => intro cur b _ h; simp at h
  | cons v rest ih =>
    intro cur b hls hf hcur hne
    have hrest : ∀ x ∈ rest, 0 ≤ x := fun x hx => hls x (List.mem_cons_of_mem _ hx)
    rw [List.foldl_cons]
    rw [List.filter_cons] at hf
    by_cases hv : 0 < v
    · simp only [hv, decide_True, if_true, List.cons.injEq] at hf
      obtain ⟨hvb, hf⟩ := hf
      subst hvb
      have hr : relabel cur v = WSHED := by
        have h1 : ¬ (cur = MASK ∨ cur = WSHED) := by simp only [MASK, WSHED]; omega
        simp [relabel, hv, h1, hne]
      rw [hr]
      exact relabel_fold_wshed_only rest WSHED (filter_pos_nil rest hrest hf) (by decide)
    · simp only [hv, decide_False, Bool.false_eq_true, if_false] at hf
      have hv0 : v = 0 := by have := hls v (List.mem_cons_self _ _); omega
      subst hv0
      have hr : relabel cur 0 = cur := by
        have h1 : cur ≠ MASK := by simp only [MASK]; omega
        simp [relabel, h1]
      rw [hr]
      exact ih cur b hrest hf hcur hne

/-- Exactly two basin labels among the labels met, and they differ: the fold from MASK (or
from WSHED) ends in WSHED, wherever the two stand in the list. -/
theorem relabel_fold_two_basins (ls : List Int) :
    ∀ (cur a b : Int), (∀ v ∈ ls, 0 ≤ v) → ls.filter (fun v => decide (0 < v)) = [a, b] →
      a ≠ b → (cur = MASK ∨ cur = WSHED) → ls.foldl relabel cur = WSHED := by
  induction ls with
  | nil => intro cur a b _ h; simp at h
  | cons v rest ih =>
    intro cur a b hls hf hab hcur
    have hrest : ∀ x ∈ rest, 0 ≤ x := fun x hx => hls x (List.mem_cons_of_mem _ hx)
    rw [List.foldl_cons]
    rw [List.filter_cons] at hf
    by_cases hv : 0 < v
    · simp only [hv, decide_True, if_true, List.cons.injEq] at hf
      obtain ⟨hva, hf⟩ := hf
      subst hva
      have hr : relabel cur v = v := by simp [relabel, hv, hcur]
      rw [hr]
      exact relabel_fold_conflict rest v b hrest hf hv hab
    · simp only [hv, decide_False, Bool.false_eq_true, if_false] at hf
      have hv0 : v = 0 := by have := hls v (List.mem_cons_self _ _); omega
      subst hv0
      have hr : relabel cur 0 = WSHED := by
        rcases hcur with h | h <;> subst h <;> decide
      rw [hr]
      exact ih WSHED a b hrest hf hab (Or.inr rfl)

/-- The neighbour loop of a dequeued voxel keeps `FedLabels`. -/
theorem visit_fedLabels (dims : Dimensions) (L : List CellIndex) (lab0 : CellIndex → Int)
    (cl k : Int) (idx : CellIndex) (A B : List CellIndex) (s0 : FloodState)
    (q : List CellIndex) (s1 : FloodState) (ctx : LevelCtx dims L lab0 cl)
    (inv : PropInv dims L lab0 cl k (idx :: A) B s0) (hJ : FedLabels dims L s0)
    (hv : visitNeighbors k idx (neighborCells dims idx) { s0 with queue := q } = .ok s1) :
    FedLabels dims L s1 := by
  obtain ⟨sv, hv1, _, _, hlab, hlabi, hdist⟩ :=
    visit_preserves dims L lab0 cl k idx A B s0 q ctx inv
  rw [hv1] at hv
  simp only [Except.ok.injEq] at hv
  subst hv
  obtain ⟨hidxL, hidxM, hidxD⟩ := inv.front idx (List.mem_cons_self _ _)
  have hni : idx ∉ neighborCells dims idx := fun h => neighbor_ne dims idx idx h rfl
  have hdistF : ∀ n, 0 ≤ s0.lab n → sv.dist n = s0.dist n := by
    intro n hn
    rw [hdist n, if_neg]
    rintro ⟨_, hp⟩
    have := ((isPlateau_iff s0 n).mp hp).1
    rw [this] at hn
    simp [MASK] at hn
  have hdistI : sv.dist idx = k := by
    rw [hdist idx, if_neg (fun h => hni h.1)]; exact hidxD
  intro c hcL hc0
  by_cases hci : c = idx
  · subst hci
    rw [hlabi]
    unfold visitLabel feeders
    rw [hidxM]
    have hpred : ∀ n ∈ neighborCells dims c,
        decide (sv.dist n = sv.dist c - 1 ∧ 0 ≤ sv.lab n) = propagates k s0 n := by
      intro n hn
      have hnc : n ≠ c := neighbor_ne dims c n hn
      rw [Bool.eq_iff_iff, decide_eq_true_iff, propagates_iff, hlab n hnc, hdistI]
      constructor
      · rintro ⟨h1, h2⟩
        rw [hdistF n h2] at h1
        exact ⟨by omega, h2⟩
      · rintro ⟨h1, h2⟩
        have := inv.no_abort dims L lab0 cl k c A B s0 ctx n hn
          ((propagates_iff k s0 n).mpr ⟨h1, h2⟩)
        rw [hdistF n h2]
        exact ⟨this, h2⟩
    rw [List.filter_congr hpred]
    congr 1
    apply List.map_congr_left
    intro n hn
    exact (hlab n (neighbor_ne dims c n (List.mem_of_mem_filter hn))).symm
  · rw [hlab c hci] at hc0 ⊢
    rw [hJ c hcL hc0]
    unfold feeders
    have hcd : sv.dist c = s0.dist c := hdistF c hc0
    have hck : s0.dist c ≤ k :=
      ((inv.flooded dims L lab0 cl k (idx :: A) B s0 ctx c hc0).2.2 hcL).2.2.2
    have hpred : ∀ n ∈ neighborCells dims c,
        decide (s0.dist n = s0.dist c - 1 ∧ 0 ≤ s0.lab n) =
          decide (sv.dist n = sv.dist c - 1 ∧ 0 ≤ sv.lab n) := by
      intro n _
      rw [Bool.eq_iff_iff, decide_eq_true_iff, decide_eq_true_iff, hcd]
      by_cases hni : n = idx
      · subst hni
        constructor
        · rintro ⟨_, h2⟩; rw [hidxM] at h2; simp [MASK] at h2
        · rintro ⟨h1, _⟩; rw [hdistI] at h1; omega
      · rw [hlab n hni]
        constructor
        · rintro ⟨h1, h2⟩; exact ⟨by rw [hdistF n h2]; exact h1, h2⟩
        · rintro ⟨h1, h2⟩; exact ⟨by rw [← hdistF n h2]; exact h1, h2⟩
    rw [List.filter_congr hpred]
    congr 1
    apply List.map_congr_left
    intro n hn
    have hn2 := (List.mem_filter.mp hn).2
    simp only [decide_eq_true_eq] at hn2
    have hni : n ≠ idx := by
      intro h
      rw [h, hdistI, hcd] at hn2
      omega
    exact (hlab n hni).symm

theorem saddle_at1 :
    LoopAt saddleDims saddleHeights 8 saddleOrder 7
      [⟨1, 0, 0⟩, ⟨5, 0, 0⟩, ⟨2, 0, 0⟩, ⟨4, 0, 0⟩, ⟨3, 0, 0⟩] saddleState1 :=
  @LoopAt.next _ _ _ _ _ _ _ _ _ _ saddleState1 LoopAt.start rfl

theorem saddle_at2 :
    LoopAt saddleDims saddleHeights 8 saddleOrder 6
      [⟨2, 0, 0⟩, ⟨4, 0, 0⟩, ⟨3, 0, 0⟩] saddleState2 :=
  @LoopAt.next _ _ _ _ _ _ _ _ _ _ saddleState2 saddle_at1 rfl

theorem saddle_at3 :
    LoopAt saddleDims saddleHeights 8 saddleOrder 5 [⟨3, 0, 0⟩] saddleState3 :=
  @LoopAt.next _ _ _ _ _ _ _ _ _ _ saddleState3 saddle_at2 rfl

theorem meet_isHeightOrder : IsHeightOrder meetDims meetHeights meetOrder := by
  constructor <;> decide

theorem meet_at1 :
    LoopAt meetDims meetHeights 7 meetOrder 6
      [⟨1, 1, 0⟩, ⟨0, 0, 0⟩, ⟨2, 0, 0⟩] meetState1 :=
  @LoopAt.next _ _ _ _ _ _ _ _ _ _ meetState1 LoopAt.start rfl

theorem level_changes_only_its_height_witness :
    ∃ s1 r, processLevel saddleDims 8 (levelOf saddleHeights ⟨3, 0, 0⟩ []) saddleState3 =
        .ok s1 ∧
      FloodEngine saddleDims saddleHeights 8 saddleOrder = .ok r ∧
      (∀ c, saddleHeights c ≠ saddleHeights ⟨3, 0, 0⟩ → s1.lab c = saddleState3.lab c) ∧
      (∀ c ∈ allCells saddleDims, saddleHeights c < saddleHeights ⟨3, 0, 0⟩ →
        0 ≤ saddleState3.lab c ∧ s1.lab c = saddleState3.lab c ∧
          r.lab c = saddleState3.lab c) ∧
      (∀ c ∈ allCells saddleDims, saddleHeights ⟨3, 0, 0⟩ < saddleHeights c →
        s1.lab c = INIT) ∧
      (∀ u ∈ allCells saddleDims, ∀ v ∈ allCells saddleDims,
        saddleHeights u < saddleHeights v →
        saddleHeights v = saddleHeights ⟨3, 0, 0⟩ →
          saddleState3.lab v = INIT ∧ saddleState3.lab u = r.lab u) :=
  level_changes_only_its_height saddleDims saddleHeights saddleOrder saddleOrder_isHeightOrder
    8 (by decide) 4 ⟨3, 0, 0⟩ [] saddleState3 saddle_at3

/-- C3 (as the code has it): at every level the level loop reaches (height-sorted
`cellOrder`, `d0 * d1 * d2 + 1` fuel), the propagation and the new-minima loop succeed, and
every dequeued voxel of the level whose feeders (in-grid 6-neighbours settled at the
previous distance) carry exactly two basin labels, different from each other, is WSHED
when the propagation ends and when the level ends, wherever the two stand in the
neighbour order and whatever WSHED feeders stand around them. -/
theorem meeting_of_two_basins_is_wshed {H : Type} [LinearOrder H] (dims : Dimensions)
    (ftleValues : CellIndex → H) (cellOrder : List CellIndex)
    (hsort : IsHeightOrder dims ftleValues cellOrder) (fuel : Nat)
    (hfuel : dims.d0 * dims.d1 * dims.d2 + 1 ≤ fuel) (n : Nat) (idx : CellIndex)
    (tl : List CellIndex) (s : FloodState)
    (hat : LoopAt dims ftleValues fuel cellOrder (n + 1) (idx :: tl) s) :
    ∃ s2 s3,
      propagate dims fuel 1 (afterMasking dims s (levelOf ftleValues idx tl)) = .ok s2 ∧
      newMinima dims fuel (levelOf ftleValues idx tl) s2 = .ok s3 ∧
      ∀ c ∈ levelOf ftleValues idx tl, s2.lab c ≠ MASK → ∀ a b : Int, a ≠ b →
        feederBasins dims s2 c = [a, b] → s2.lab c = WSHED ∧ s3.lab c = WSHED := by
  have hs := LoopAt.levelStart dims ftleValues fuel cellOrder hsort.1 _ _ _ hat
  have happ := levelOf_append ftleValues idx tl
  have hs1 : LevelStart dims (levelOf ftleValues idx tl ++ afterLevel ftleValues idx tl) s := by
    rw [happ]; exact hs
  have ctx := hs1.ctx dims _ _ s
  obtain ⟨_, hlen⟩ := LoopAt.rest_sorted dims ftleValues fuel cellOrder hsort _ _ _ hat
  have hN : cellOrder.length = dims.d0 * dims.d1 * dims.d2 := by
    rw [hsort.1.length_eq, length_allCells]
  have hLlen := afterLevel_length ftleValues idx tl
  simp only [List.length_cons] at hlen
  have hJ0 : FedLabels dims (levelOf ftleValues idx tl)
      (maskLevel dims s (levelOf ftleValues idx tl)) := by
    intro c hcL hc
    rw [(maskLevel_spec dims _ s.curlab s ctx).2.1 c, if_pos hcL] at hc
    simp [MASK] at hc
  obtain ⟨s3, _, _, s2, hp2, hp3, post, hJ2⟩ := Outcome.exists_ok _ _ _
    (processLevel_outcome_with dims fuel _ _ s (levelOf_ne_nil ftleValues idx tl) hs1
      (FedLabels dims (levelOf ftleValues idx tl)) (fun _ _ h => h)
      (fun k i A B s0 q sv inv hJ hv =>
        visit_fedLabels dims _ s.lab s.curlab k i A B s0 q sv ctx inv hJ hv) hJ0) (by omega)
  refine ⟨s2, s3, hp2, hp3, ?_⟩
  intro c hcL hnm a b hab hfb
  have hc0 : 0 ≤ s2.lab c := by
    rcases post.range2 c hcL with h | h
    · exact absurd h hnm
    · exact h.1
  have hw : s2.lab c = WSHED := by
    rw [hJ2 c hcL hc0]
    refine relabel_fold_two_basins _ MASK a b ?_ hfb hab (Or.inl rfl)
    intro v hv
    obtain ⟨x, hx, rfl⟩ := List.mem_map.mp hv
    have := (List.mem_filter.mp hx).2
    simp only [decide_eq_true_eq] at this
    exact this.2
  exact ⟨hw, by rw [post.keep c hnm]; exact hw⟩

theorem meeting_of_two_basins_is_wshed_witness :
    feederBasins saddleDims
        (stateAfter (propagate saddleDims 8 1
          (afterMasking saddleDims saddleState3 (levelOf saddleHeights ⟨3, 0, 0⟩ []))))
        ⟨3, 0, 0⟩ = [1, 2] ∧
    ∃ s2 s3,
      propagate saddleDims 8 1
        (afterMasking saddleDims saddleState3 (levelOf saddleHeights ⟨3, 0, 0⟩ [])) = .ok s2 ∧
      newMinima saddleDims 8 (levelOf saddleHeights ⟨3, 0, 0⟩ []) s2 = .ok s3 ∧
      ∀ c ∈ levelOf saddleHeights ⟨3, 0, 0⟩ [], s2.lab c ≠ MASK → ∀ a b : Int, a ≠ b →
        feederBasins saddleDims s2 c = [a, b] → s2.lab c = WSHED ∧ s3.lab c = WSHED :=
  ⟨by decide,
    meeting_of_two_basins_is_wshed saddleDims saddleHeights saddleOrder
      saddleOrder_isHeightOrder 8 (by decide) 4 ⟨3, 0, 0⟩ [] saddleState3 saddle_at3⟩

/-- C3 as stated fails: on the 3x2x1 meeting grid the level loop reaches the level of the
voxel `(1,1)`; the voxel is dequeued with the feeders `(0,1)` (basin 1), `(2,1)` (basin 3)
and `(1,0)` (basin 2); it is demoted to WSHED at the second and re-assigned to basin 2 at
the third, and ends the propagation and the level with the basin label 2. -/
theorem meeting_voxel_keeps_basin_label :
    IsHeightOrder meetDims meetHeights meetOrder ∧
    LoopAt meetDims meetHeights 7 meetOrder 6 [⟨1, 1, 0⟩, ⟨0, 0, 0⟩, ⟨2, 0, 0⟩] meetState1 ∧
    okAnd (propagate meetDims 7 1
        (afterMasking meetDims meetState1
          (levelOf meetHeights ⟨1, 1, 0⟩ [⟨0, 0, 0⟩, ⟨2, 0, 0⟩])))
      (fun s2 =>
        okAnd (newMinima meetDims 7 (levelOf meetHeights ⟨1, 1, 0⟩ [⟨0, 0, 0⟩, ⟨2, 0, 0⟩]) s2)
          (fun s3 => decide (
            (⟨1, 1, 0⟩ : CellIndex) ∈ levelOf meetHeights ⟨1, 1, 0⟩ [⟨0, 0, 0⟩, ⟨2, 0, 0⟩] ∧
            s2.lab ⟨1, 1, 0⟩ ≠ MASK ∧
            (⟨0, 1, 0⟩ : CellIndex) ∈ feeders meetDims s2 ⟨1, 1, 0⟩ ∧
            (⟨2, 1, 0⟩ : CellIndex) ∈ feeders meetDims s2 ⟨1, 1, 0⟩ ∧
            s2.lab ⟨0, 1, 0⟩ = 1 ∧ s2.lab ⟨2, 1, 0⟩ = 3 ∧
            feederBasins meetDims s2 ⟨1, 1, 0⟩ = [1, 3, 2] ∧
            s2.lab ⟨1, 1, 0⟩ = 2 ∧ s3.lab ⟨1, 1, 0⟩ = 2 ∧ s3.lab ⟨1, 1, 0⟩ ≠ WSHED))) = true :=
  ⟨meet_isHeightOrder, meet_at1, by decide⟩

/-- The run of one level reached by the level loop, with everything the invariants give:
the propagation ends in `s2` with its invariant for an empty frontier and with fed labels,
the new-minima loop ends in `s3`, and the loop reaches the next level in `s3`. -/
theorem LoopAt.level_run {H : Type} [LinearOrder H] (dims : Dimensions)
    (ftleValues : CellIndex → H) (cellOrder : List CellIndex)
    (hsort : IsHeightOrder dims ftleValues cellOrder) (fuel : Nat)
    (hfuel : dims.d0 * dims.d1 * dims.d2 + 1 ≤ fuel) (n : Nat) (idx : CellIndex)
    (tl : List CellIndex) (s : FloodState)
    (hat : LoopAt dims ftleValues fuel cellOrder (n + 1) (idx :: tl) s) :
    ∃ s2 s3 k,
      propagate dims fuel 1 (afterMasking dims s (levelOf ftleValues idx tl)) = .ok s2 ∧
      newMinima dims fuel (levelOf ftleValues idx tl) s2 = .ok s3 ∧
      processLevel dims fuel (levelOf ftleValues idx tl) s = .ok s3 ∧
      LevelCtx dims (levelOf ftleValues idx tl) s.lab s.curlab ∧
      PropInv dims (levelOf ftleValues idx tl) s.lab s.curlab k [] [] s2 ∧
      FedLabels dims (levelOf ftleValues idx tl) s2 ∧
      LevelPost dims (levelOf ftleValues idx tl) s s2 s3 ∧
      LevelStart dims (afterLevel ftleValues idx tl) s3 ∧
      LoopAt dims ftleValues fuel cellOrder n (afterLevel ftleValues idx tl) s3 := by
  have hs := LoopAt.levelStart dims ftleValues fuel cellOrder hsort.1 _ _ _ hat
  have happ := levelOf_append ftleValues idx tl
  have hs1 : LevelStart dims (levelOf ftleValues idx tl ++ afterLevel ftleValues idx tl) s := by
    rw [happ]; exact hs
  have ctx := hs1.ctx dims _ _ s
  obtain ⟨_, hlen⟩ := LoopAt.rest_sorted dims ftleValues fuel cellOrder hsort _ _ _ hat
  have hN : cellOrder.length = dims.d0 * dims.d1 * dims.d2 := by
    rw [hsort.1.length_eq, length_allCells]
  have hLlen := afterLevel_length ftleValues idx tl
  simp only [List.length_cons] at hlen
  have hJ0 : FedLabels dims (levelOf ftleValues idx tl)
      (maskLevel dims s (levelOf ftleValues idx tl)) := by
    intro c hcL hc
    rw [(maskLevel_spec dims _ s.curlab s ctx).2.1 c, if_pos hcL] at hc
    simp [MASK] at hc
  obtain ⟨s2', hp2', ⟨k, inv, _⟩, hJ2⟩ := Outcome.exists_ok _ _ _
    (levelPropagate_outcome_with dims fuel _ _ s hs1
      (FedLabels dims (levelOf ftleValues idx tl)) (fun _ _ h => h)
      (fun k i A B s0 q sv inv hJ hv =>
        visit_fedLabels dims _ s.lab s.curlab k i A B s0 q sv ctx inv hJ hv) hJ0) (by omega)
  obtain ⟨s3, _, hp, hs3, s2, hp2, hp3, post⟩ := Outcome.exists_ok _ _ _
    (Outcome.with_eq _ _ _
      (processLevel_outcome dims fuel _ _ s (levelOf_ne_nil ftleValues idx tl) hs1)) (by omega)
  have he : s2' = s2 := by
    have := hp2'.symm.trans hp2
    injection this
  subst he
  exact ⟨s2', s3, k, hp2, hp3, hp, ctx, inv, hJ2, post, hs3, LoopAt.next hat hp⟩

/-- With `cellOrder.length + 1` fuel the level loop always has iterations left for what
remains of `cellOrder`. -/
theorem LoopAt.fuel_left {H : Type} [DecidableEq H] (dims : Dimensions)
    (ftleValues : CellIndex → H) (fuel : Nat) (cellOrder : List CellIndex)
    (hfuel : cellOrder.length + 1 ≤ fuel) (n : Nat) (rest : List CellIndex)
    (s : FloodState) (h : LoopAt dims ftleValues fuel cellOrder n rest s) :
    rest.length + 1 ≤ n := by
  induction h with
  | start => exact hfuel
  | @next n idx tl s s1 _ hp ih =>
    have h1 := afterLevel_length ftleValues idx tl
    have h2 := levelOf_length_pos ftleValues idx tl
    simp only [List.length_cons] at ih
    show (afterLevel ftleValues idx tl).length + 1 ≤ n
    omega

/-- A height order exists for every grid and scalar field: sorting the cells of the
triple loop by height gives one. -/
theorem exists_isHeightOrder {H : Type} [LinearOrder H] (dims : Dimensions)
    (ftleValues : CellIndex → H) :
    IsHeightOrder dims ftleValues
      ((allCells dims).insertionSort (fun a b => ftleValues a ≤ ftleValues b)) := by
  constructor
  · exact List.perm_insertionSort _ _
  · have h : ((allCells dims).insertionSort (fun a b => ftleValues a ≤ ftleValues b)).Sorted
        (fun a b => ftleValues a ≤ ftleValues b) :=
      @List.sorted_insertionSort _ (fun a b => ftleValues a ≤ ftleValues b) _
        ⟨fun a b => le_total (ftleValues a) (ftleValues b)⟩
        ⟨fun a b c hab hbc => le_trans hab hbc⟩ _
    exact List.Pairwise.imp (fun hab => not_lt.mpr hab) h

/-- Two level starts whose heads have the same height are the same position of
`cellOrder`. -/
theorem LoopAt.same_height_same_rest {H : Type} [LinearOrder H] (dims : Dimensions)
    (ftleValues : CellIndex → H) (fuel : Nat) (cellOrder : List CellIndex)
    (hsort : IsHeightOrder dims ftleValues cellOrder)
    (n1 n2 : Nat) (idx1 idx2 : CellIndex) (tl1 tl2 : List CellIndex) (s1 s2 : FloodState)
    (h1 : LoopAt dims ftleValues fuel cellOrder n1 (idx1 :: tl1) s1)
    (h2 : LoopAt dims ftleValues fuel cellOrder n2 (idx2 :: tl2) s2)
    (hh : ftleValues idx1 = ftleValues idx2) : idx1 :: tl1 = idx2 :: tl2 := by
  obtain ⟨pre1, hco1, hlt1⟩ := LoopAt.sorted dims ftleValues fuel cellOrder hsort _ _ _ h1
  obtain ⟨pre2, hco2, hlt2⟩ := LoopAt.sorted dims ftleValues fuel cellOrder hsort _ _ _ h2
  have he : pre1 ++ idx1 :: tl1 = pre2 ++ idx2 :: tl2 := hco1.symm.trans hco2
  rcases List.append_eq_append_iff.mp he with ⟨a, ha, hb⟩ | ⟨a, ha, hb⟩
  · cases a with
    | nil => simpa using hb
    | cons x a1 =>
      exfalso
      rw [List.cons_append] at hb
      injection hb with hx _
      have : ftleValues idx1 < ftleValues idx2 :=
        hlt2 idx1 (by rw [ha, hx]; simp) idx2 (List.mem_cons_self _ _)
      rw [hh] at this
      exact lt_irrefl _ this
  · cases a with
    | nil => simpa using hb.symm
    | cons x a1 =>
      exfalso
      rw [List.cons_append] at hb
      injection hb with hx _
      have : ftleValues idx2 < ftleValues idx1 :=
        hlt1 idx2 (by rw [ha, hx]; simp) idx1 (List.mem_cons_self _ _)
      rw [hh] at this
      exact lt_irrefl _ this

/-- With enough fuel, every voxel still in `rest` is in the tie level of a level start the
loop reaches. -/
theorem LoopAt.reaches_level {H : Type} [LinearOrder H] (dims : Dimensions)
    (ftleValues : CellIndex → H) (cellOrder : List CellIndex)
    (hsort : IsHeightOrder dims ftleValues cellOrder) (fuel : Nat)
    (hfuel : dims.d0 * dims.d1 * dims.d2 + 1 ≤ fuel) :
    ∀ (m n : Nat) (rest : List CellIndex) (s : FloodState), rest.length ≤ m →
      LoopAt dims ftleValues fuel cellOrder n rest s → ∀ c ∈ rest,
      ∃ n1 idx tl s1, LoopAt dims ftleValues fuel cellOrder (n1 + 1) (idx :: tl) s1 ∧
        c ∈ levelOf ftleValues idx tl := by
  have hN : cellOrder.length + 1 ≤ fuel := by
    rw [hsort.1.length_eq, length_allCells]; exact hfuel
  intro m
  induction m with
  | zero =>
    intro n rest s hlen _ c hc
    have : rest = [] := List.length_eq_zero.mp (Nat.le_zero.mp hlen)
    rw [this] at hc
    simp at hc
  | succ m ih =>
    intro n rest s hlen hat c hc
    cases rest with
    | nil => simp at hc
    | cons idx tl =>
      have hleft := LoopAt.fuel_left dims ftleValues fuel cellOrder hN _ _ _ hat
      obtain ⟨n0, rfl⟩ : ∃ n0, n = n0 + 1 := ⟨n - 1, by simp only [List.length_cons] at hleft; omega⟩
      rw [← levelOf_append ftleValues idx tl] at hc
      rcases List.mem_append.mp hc with hc | hc
      · exact ⟨n0, idx, tl, s, hat, hc⟩
      · obtain ⟨s2, s3, k, _, _, _, _, _, _, _, _, hnext⟩ :=
          LoopAt.level_run dims ftleValues cellOrder hsort fuel hfuel n0 idx tl s hat
        have h1 := afterLevel_length ftleValues idx tl
        have h2 := levelOf_length_pos ftleValues idx tl
        simp only [List.length_cons] at hlen
        exact ih n0 _ s3 (by omega) hnext c hc

/-- C12: a sorted `cellOrder` (the postcondition of `std::sort`) is a permutation of the
grid's coordinates in non-decreasing height; at every level start the level loop reaches,
the range `[d, nextD)` holds exactly the voxels of the grid whose height is that of
`cellOrder[d]`, everything before `d` is strictly lower and everything from `nextD` on
strictly higher; with `d0 * d1 * d2 + 1` fuel every voxel of the grid is in the tie level
of a level start the loop reaches, and in that of one position `d` only. -/
theorem levels_are_height_classes {H : Type} [LinearOrder H] (dims : Dimensions)
    (ftleValues : CellIndex → H) (cellOrder : List CellIndex)
    (hsort : IsHeightOrder dims ftleValues cellOrder) (fuel : Nat)
    (hfuel : dims.d0 * dims.d1 * dims.d2 + 1 ≤ fuel) :
    cellOrder.Perm (allCells dims) ∧
    cellOrder.Pairwise (fun a b => ftleValues a ≤ ftleValues b) ∧
    (∀ n idx tl s, LoopAt dims ftleValues fuel cellOrder n (idx :: tl) s →
      (∀ c, c ∈ levelOf ftleValues idx tl ↔ c ∈ allCells dims ∧ ftleValues c = ftleValues idx) ∧
      (∀ c ∈ afterLevel ftleValues idx tl, ftleValues idx < ftleValues c) ∧
      ∃ pre, cellOrder = pre ++ (levelOf ftleValues idx tl ++ afterLevel ftleValues idx tl) ∧
        ∀ a ∈ pre, ftleValues a < ftleValues idx) ∧
    (∀ c ∈ allCells dims, ∃ n idx tl s,
      LoopAt dims ftleValues fuel cellOrder (n + 1) (idx :: tl) s ∧
        c ∈ levelOf ftleValues idx tl) ∧
    (∀ n1 idx1 tl1 s1 n2 idx2 tl2 s2,
      LoopAt dims ftleValues fuel cellOrder n1 (idx1 :: tl1) s1 →
      LoopAt dims ftleValues fuel cellOrder n2 (idx2 :: tl2) s2 →
      ∀ c, c ∈ levelOf ftleValues idx1 tl1 → c ∈ levelOf ftleValues idx2 tl2 →
        idx1 :: tl1 = idx2 :: tl2) := by
  refine ⟨hsort.1, List.Pairwise.imp (fun h => not_lt.mp h) hsort.2, ?_, ?_, ?_⟩
  · intro n idx tl s hat
    refine ⟨fun c => LoopAt.mem_level_iff dims ftleValues fuel cellOrder hsort n idx tl s hat c,
      ?_, ?_⟩
    · obtain ⟨hsorted, _⟩ := LoopAt.rest_sorted dims ftleValues fuel cellOrder hsort _ _ _ hat
      exact afterLevel_higher ftleValues (ftleValues idx) (idx :: tl) hsorted (by
        intro a ha
        rcases List.mem_cons.mp ha with ha | ha
        · rw [ha]; exact lt_irrefl _
        · exact (List.pairwise_cons.mp hsorted).1 a ha)
    · obtain ⟨pre, hco, hlt⟩ := LoopAt.sorted dims ftleValues fuel cellOrder hsort _ _ _ hat
      exact ⟨pre, by rw [levelOf_append]; exact hco,
        fun a ha => hlt a ha idx (List.mem_cons_self _ _)⟩
  · intro c hc
    exact LoopAt.reaches_level dims ftleValues cellOrder hsort fuel hfuel cellOrder.length fuel
      cellOrder initState (le_refl _) LoopAt.start c (hsort.1.mem_iff.mpr hc)
  · intro n1 idx1 tl1 s1 n2 idx2 tl2 s2 h1 h2 c hc1 hc2
    have e1 := (mem_levelOf ftleValues idx1 tl1 c hc1).1
    have e2 := (mem_levelOf ftleValues idx2 tl2 c hc2).1
    exact LoopAt.same_height_same_rest dims ftleValues fuel cellOrder hsort n1 n2 idx1 idx2
      tl1 tl2 s1 s2 h1 h2 (e1.symm.trans e2)

theorem levels_are_height_classes_witness :
    saddleOrder.Perm (allCells saddleDims) ∧
    saddleOrder.Pairwise (fun a b => saddleHeights a ≤ saddleHeights b) ∧
    (∀ n idx tl s, LoopAt saddleDims saddleHeights 8 saddleOrder n (idx :: tl) s →
      (∀ c, c ∈ levelOf saddleHeights idx tl ↔
        c ∈ allCells saddleDims ∧ saddleHeights c = saddleHeights idx) ∧
      (∀ c ∈ afterLevel saddleHeights idx tl, saddleHeights idx < saddleHeights c) ∧
      ∃ pre, saddleOrder =
          pre ++ (levelOf saddleHeights idx tl ++ afterLevel saddleHeights idx tl) ∧
        ∀ a ∈ pre, saddleHeights a < saddleHeights idx) ∧
    (∀ c ∈ allCells saddleDims, ∃ n idx tl s,
      LoopAt saddleDims saddleHeights 8 saddleOrder (n + 1) (idx :: tl) s ∧
        c ∈ levelOf saddleHeights idx tl) ∧
    (∀ n1 idx1 tl1 s1 n2 idx2 tl2 s2,
      LoopAt saddleDims saddleHeights 8 saddleOrder n1 (idx1 :: tl1) s1 →
      LoopAt saddleDims saddleHeights 8 saddleOrder n2 (idx2 :: tl2) s2 →
      ∀ c, c ∈ levelOf saddleHeights idx1 tl1 → c ∈ levelOf saddleHeights idx2 tl2 →
        idx1 :: tl1 = idx2 :: tl2) :=
  levels_are_height_classes saddleDims saddleHeights saddleOrder saddleOrder_isHeightOrder 8
    (by decide)

/-- `RemoveWatershedPixels` never changes a voxel that is not WSHED. -/
theorem removeWatershed_keeps (dims : Dimensions) :
    ∀ (fuel : Nat) (lab lab1 : CellIndex → Int),
      RemoveWatershedPixels dims fuel lab = .ok lab1 → ∀ c, lab c ≠ WSHED → lab1 c = lab c := by
  intro fuel
  induction fuel with
  | zero => intro lab lab1 h; simp [RemoveWatershedPixels] at h
  | succ n ih =>
    intro lab lab1 h c hc
    have hpass : (removePass dims lab).1 c = lab c := by
      rcases removeFold_change dims (allCells dims) lab false c with h1 | ⟨h1, _⟩
      · exact h1
      · exact absurd h1 hc
    rw [RemoveWatershedPixels] at h
    by_cases hf : (removePass dims lab).2 = true
    · rw [if_pos hf] at h
      rw [ih _ _ h c (by rw [hpass]; exact hc), hpass]
    · rw [if_neg hf] at h
      injection h with h
      rw [← h, hpass]

/-- The counted labels are the positive neighbour labels when no neighbour is below INIT. -/
theorem countedLabels_pos (dims : Dimensions) (lab : CellIndex → Int) (idx : CellIndex)
    (hlegal : ∀ n ∈ neighborCells dims idx, INIT ≤ lab n) :
    ∀ v, v ∈ countedLabels dims lab idx ↔ ∃ n ∈ neighborCells dims idx, lab n = v ∧ 0 < v := by
  intro v
  rw [mem_countedLabels]
  constructor
  · rintro ⟨n, hn, hv, h1, h2⟩
    refine ⟨n, hn, hv, ?_⟩
    have := hlegal n hn
    simp only [WSHED, INIT] at *
    omega
  · rintro ⟨n, hn, hv, h1⟩
    refine ⟨n, hn, hv, ?_, ?_⟩ <;> simp only [WSHED, INIT] <;> omega

theorem count_countedLabels (dims : Dimensions) (lab : CellIndex → Int) (idx : CellIndex)
    (w : Int) (hw : 0 < w) :
    (countedLabels dims lab idx).count w = ((neighborCells dims idx).map lab).count w := by
  unfold countedLabels
  apply List.count_filter
  simp only [decide_eq_true_eq, WSHED, INIT]
  omega

/-- C13: in `RemoveWatershedPixels`, on a label field whose voxels around `idx` are INIT,
WSHED or basin labels (as in every field the Flood Engine hands over), the visit of a WSHED
voxel `idx` with a basin-labelled in-grid 6-neighbour assigns it a basin label carried by one
of these neighbours whose number of occurrences among them is maximal; with no such
neighbour the field is unchanged and `idx` stays WSHED; the visit of a voxel that is not
WSHED changes nothing, a visit changes no other voxel, and through a pass and through the
whole clean-up a voxel that is not WSHED keeps its label. -/
theorem cleanup_majority_vote (dims : Dimensions) (lab : CellIndex → Int) (flag : Bool)
    (idx : CellIndex) (hlegal : ∀ n ∈ neighborCells dims idx, INIT ≤ lab n) :
    (lab idx = WSHED → (∃ n ∈ neighborCells dims idx, 0 < lab n) →
      0 < (removeStep dims (lab, flag) idx).1 idx ∧
      (∃ n ∈ neighborCells dims idx, lab n = (removeStep dims (lab, flag) idx).1 idx) ∧
      ∀ w, 0 < w → ((neighborCells dims idx).map lab).count w ≤
        ((neighborCells dims idx).map lab).count ((removeStep dims (lab, flag) idx).1 idx)) ∧
    (lab idx = WSHED → (¬ ∃ n ∈ neighborCells dims idx, 0 < lab n) →
      (removeStep dims (lab, flag) idx).1 = lab) ∧
    (lab idx ≠ WSHED → (removeStep dims (lab, flag) idx).1 = lab) ∧
    (∀ c, c ≠ idx → (removeStep dims (lab, flag) idx).1 c = lab c) ∧
    (∀ (cells : List CellIndex) (c : CellIndex), lab c ≠ WSHED →
      (cells.foldl (removeStep dims) (lab, flag)).1 c = lab c) ∧
    (∀ (fuel : Nat) (lab1 : CellIndex → Int), RemoveWatershedPixels dims fuel lab = .ok lab1 →
      ∀ c, lab c ≠ WSHED → lab1 c = lab c) := by
  have hmem := countedLabels_pos dims lab idx hlegal
  refine ⟨?_, ?_, ?_, ?_, ?_, ?_⟩
  · intro hw ⟨n, hn, hpos⟩
    have hne : countedLabels dims lab idx ≠ [] :=
      List.ne_nil_of_mem ((hmem (lab n)).mpr ⟨n, hn, rfl, hpos⟩)
    obtain ⟨h1, h2, _, h4, _⟩ := bestOf_counted (countedLabels dims lab idx) hne
    rw [← countNeighbors_eq] at h1 h2 h4
    rw [removeStep_wshed dims lab flag idx hw]
    simp only [gt_iff_lt, h1, if_true, upd_same]
    obtain ⟨m, hm, hlm, hbpos⟩ := (hmem _).mp h2
    refine ⟨hbpos, ⟨m, hm, hlm⟩, ?_⟩
    intro w hwpos
    rw [← count_countedLabels dims lab idx w hwpos, ← count_countedLabels dims lab idx _ hbpos]
    by_cases hwin : w ∈ countedLabels dims lab idx
    · exact h4 w hwin
    · rw [List.count_eq_zero_of_not_mem hwin]
      exact Nat.zero_le _
  · intro hw hnone
    have hnil : countedLabels dims lab idx = [] := by
      apply List.eq_nil_iff_forall_not_mem.mpr
      intro v hv
      obtain ⟨n, hn, hlv, hpos⟩ := (hmem v).mp hv
      exact hnone ⟨n, hn, by rw [hlv]; exact hpos⟩
    rw [removeStep_wshed dims lab flag idx hw, countNeighbors_eq,
      bestOf_nil_counted _ hnil]
    simp
  · intro hw
    rw [removeStep_not_wshed dims lab flag idx hw]
  · intro c hc
    rcases removeStep_cases dims lab flag idx with ⟨_, h⟩ | ⟨_, _, h⟩ | ⟨_, v, _, h⟩
    · rw [h]
    · rw [h]
    · rw [h]; exact upd_other _ _ _ _ hc
  · intro cells c hc
    rcases removeFold_change dims cells lab flag c with h1 | ⟨h1, _⟩
    · exact h1
    · exact absurd h1 hc
  · intro fuel lab1 h
    exact removeWatershed_keeps dims fuel lab lab1 h

theorem cleanup_majority_vote_witness :
    (tieLab ⟨1, 0, 0⟩ = WSHED → (∃ n ∈ neighborCells tieDims ⟨1, 0, 0⟩, 0 < tieLab n) →
      0 < (removeStep tieDims (tieLab, false) ⟨1, 0, 0⟩).1 ⟨1, 0, 0⟩ ∧
      (∃ n ∈ neighborCells tieDims ⟨1, 0, 0⟩,
        tieLab n = (removeStep tieDims (tieLab, false) ⟨1, 0, 0⟩).1 ⟨1, 0, 0⟩) ∧
      ∀ w, 0 < w → ((neighborCells tieDims ⟨1, 0, 0⟩).map tieLab).count w ≤
        ((neighborCells tieDims ⟨1, 0, 0⟩).map tieLab).count
          ((removeStep tieDims (tieLab, false) ⟨1, 0, 0⟩).1 ⟨1, 0, 0⟩)) ∧
    (tieLab ⟨1, 0, 0⟩ = WSHED → (¬ ∃ n ∈ neighborCells tieDims ⟨1, 0, 0⟩, 0 < tieLab n) →
      (removeStep tieDims (tieLab, false) ⟨1, 0, 0⟩).1 = tieLab) ∧
    (tieLab ⟨1, 0, 0⟩ ≠ WSHED → (removeStep tieDims (tieLab, false) ⟨1, 0, 0⟩).1 = tieLab) ∧
    (∀ c, c ≠ ⟨1, 0, 0⟩ → (removeStep tieDims (tieLab, false) ⟨1, 0, 0⟩).1 c = tieLab c) ∧
    (∀ (cells : List CellIndex) (c : CellIndex), tieLab c ≠ WSHED →
      (cells.foldl (removeStep tieDims) (tieLab, false)).1 c = tieLab c) ∧
    (∀ (fuel : Nat) (lab1 : CellIndex → Int),
      RemoveWatershedPixels tieDims fuel tieLab = .ok lab1 →
      ∀ c, tieLab c ≠ WSHED → lab1 c = tieLab c) :=
  cleanup_majority_vote tieDims tieLab false ⟨1, 0, 0⟩ (by decide)

/-- Whatever the state, the basin fill keeps the counter and only turns MASK voxels into
the current label. -/
theorem fillBasin_labels (dims : Dimensions) :
    ∀ (fuel : Nat) (s r : FloodState), fillBasin dims fuel s = .ok r →
      r.curlab = s.curlab ∧ ∀ c, r.lab c = s.lab c ∨ (s.lab c = MASK ∧ r.lab c = s.curlab) := by
  intro fuel
  induction fuel with
  | zero =>
    intro s r h
    cases hq : s.queue with
    | nil =>
      rw [fillBasin_nil _ _ _ hq] at h
      injection h with h
      subst h
      exact ⟨rfl, fun c => Or.inl rfl⟩
    | cons idx q => rw [fillBasin_cons_zero _ _ _ _ hq] at h; simp at h
  | succ n ih =>
    intro s r h
    cases hq : s.queue with
    | nil =>
      rw [fillBasin_nil _ _ _ hq] at h
      injection h with h
      subst h
      exact ⟨rfl, fun c => Or.inl rfl⟩
    | cons idx q =>
      rw [fillBasin_cons_succ _ _ _ _ _ hq] at h
      obtain ⟨h1, h2⟩ := ih _ _ h
      obtain ⟨f1, _, f3, _⟩ := fillFold_spec (neighborCells dims idx) { s with queue := q }
        (nodup_neighborCells dims idx)
      rw [f1] at h1 h2
      refine ⟨h1, fun c => ?_⟩
      have hc := f3 c
      simp only at hc
      rcases h2 c with e | ⟨e1, e2⟩
      · rw [e, hc]
        by_cases hm : c ∈ neighborCells dims idx ∧ s.lab c = MASK
        · rw [if_pos hm]; exact Or.inr ⟨hm.2, rfl⟩
        · rw [if_neg hm]; exact Or.inl rfl
      · rw [hc] at e1
        by_cases hm : c ∈ neighborCells dims idx ∧ s.lab c = MASK
        · exact Or.inr ⟨hm.2, e2⟩
        · rw [if_neg hm] at e1; exact Or.inr ⟨e1, e2⟩

/-- One iteration of the new-minima loop, whatever the state: a MASK voxel makes the
counter go up by one and receives the new value, as does every voxel whose label changes;
any other voxel leaves counter and labels alone. -/
theorem newMinimum_label (dims : Dimensions) (fuel : Nat) (s r : FloodState) (idx : CellIndex)
    (h : newMinimum dims fuel s idx = .ok r) :
    (s.lab idx = MASK → r.curlab = s.curlab + 1 ∧ r.lab idx = s.curlab + 1 ∧
      ∀ c, r.lab c = s.lab c ∨ (s.lab c = MASK ∧ r.lab c = s.curlab + 1)) ∧
    (s.lab idx ≠ MASK → r.curlab = s.curlab ∧ r.lab = s.lab) := by
  unfold newMinimum at h
  constructor
  · intro hm
    simp only [hm, if_true] at h
    obtain ⟨h1, h2⟩ := fillBasin_labels dims fuel _ _ h
    simp only at h1 h2
    refine ⟨h1, ?_, fun c => ?_⟩
    · rcases h2 idx with e | ⟨_, e⟩
      · rw [e, upd_same]
      · exact e
    · by_cases hc : c = idx
      · subst hc
        right
        refine ⟨hm, ?_⟩
        rcases h2 c with e | ⟨_, e⟩
        · rw [e, upd_same]
        · exact e
      · rcases h2 c with e | ⟨e1, e2⟩
        · left; rw [e, upd_other _ _ _ _ hc]
        · right; rw [upd_other _ _ _ _ hc] at e1; exact ⟨e1, e2⟩
  · intro hm
    simp only [hm, if_false] at h
    injection h with h
    subst h
    exact ⟨rfl, rfl⟩

/-- Labels within `0 .. cl` stay within `0 .. cl` through the clean-up. -/
theorem removeWatershed_range (dims : Dimensions) (cl : Int) :
    ∀ (fuel : Nat) (lab lab1 : CellIndex → Int),
      (∀ c ∈ allCells dims, 0 ≤ lab c ∧ lab c ≤ cl) →
      RemoveWatershedPixels dims fuel lab = .ok lab1 →
      ∀ c ∈ allCells dims, 0 ≤ lab1 c ∧ lab1 c ≤ cl := by
  intro fuel
  induction fuel with
  | zero => intro lab lab1 _ h; simp [RemoveWatershedPixels] at h
  | succ n ih =>
    intro lab lab1 hr h
    have hpass : ∀ c ∈ allCells dims,
        0 ≤ (removePass dims lab).1 c ∧ (removePass dims lab).1 c ≤ cl := by
      intro c hc
      rcases removeFold_change dims (allCells dims) lab false c with h1 | ⟨_, h2, h3⟩
      · unfold removePass; rw [h1]; exact hr c hc
      · have := removeFold_labels dims (fun v => 1 ≤ v ∧ v ≤ cl) (allCells dims) lab false
          (fun d hd h0 _ => by
            have := hr d hd
            simp only [WSHED] at h0
            exact ⟨by omega, this.2⟩) c hc h2 h3
        unfold removePass
        exact ⟨by omega, this.2⟩
    rw [RemoveWatershedPixels] at h
    by_cases hf : (removePass dims lab).2 = true
    · rw [if_pos hf] at h
      exact ih _ _ hpass h
    · rw [if_neg hf] at h
      injection h with h
      rw [← h]
      exact hpass

/-- C14: the basin counter starts at 0; one iteration of the new-minima loop that meets a
MASK voxel (a new minimum) raises the counter by one and gives that voxel, and every voxel
it relabels, the new value, and an iteration that meets no MASK voxel changes neither
counter nor labels; at every level the loop reaches (height-sorted `cellOrder`,
`d0 * d1 * d2 + 1` fuel) the labels assigned so far lie in `0 .. curlab` and are kept, the
propagation leaves the counter alone, the new minima of the level get the labels above the
old counter up to the new one, one label per 6-connected component and every such label
used; when the Flood Engine finishes every label of the grid lies in `0 .. curlab`, each
of `1 .. curlab` is carried by a voxel, and the labels stay in `0 .. curlab` through
`RemoveWatershedPixels`. -/
theorem basin_labels_sequential {H : Type} [LinearOrder H] (dims : Dimensions)
    (ftleValues : CellIndex → H) (cellOrder : List CellIndex)
    (hsort : IsHeightOrder dims ftleValues cellOrder) (fuel : Nat)
    (hfuel : dims.d0 * dims.d1 * dims.d2 + 1 ≤ fuel) :
    initState.curlab = 0 ∧
    (∀ (fuel1 : Nat) (s r : FloodState) (idx : CellIndex),
      newMinimum dims fuel1 s idx = .ok r →
      (s.lab idx = MASK → r.curlab = s.curlab + 1 ∧ r.lab idx = s.curlab + 1 ∧
        ∀ c, r.lab c = s.lab c ∨ (s.lab c = MASK ∧ r.lab c = s.curlab + 1)) ∧
      (s.lab idx ≠ MASK → r.curlab = s.curlab ∧ r.lab = s.lab)) ∧
    (∀ n idx tl s, LoopAt dims ftleValues fuel cellOrder (n + 1) (idx :: tl) s →
      ∃ s2 s3,
        propagate dims fuel 1 (afterMasking dims s (levelOf ftleValues idx tl)) = .ok s2 ∧
        newMinima dims fuel (levelOf ftleValues idx tl) s2 = .ok s3 ∧
        processLevel dims fuel (levelOf ftleValues idx tl) s = .ok s3 ∧
        (∀ c, s.lab c = INIT ∨ (0 ≤ s.lab c ∧ s.lab c ≤ s.curlab)) ∧
        (∀ c, 0 ≤ s.lab c → s2.lab c = s.lab c ∧ s3.lab c = s.lab c) ∧
        s2.curlab = s.curlab ∧
        (∀ c, s2.lab c ≠ MASK → s3.lab c = s2.lab c ∧ s2.lab c ≤ s.curlab) ∧
        (∀ c, s2.lab c = MASK → s.curlab < s3.lab c ∧ s3.lab c ≤ s3.curlab) ∧
        (∀ c d, s2.lab c = MASK → s2.lab d = MASK →
          (s3.lab d = s3.lab c ↔
            Reach dims (fun x => x ∈ levelOf ftleValues idx tl) c d)) ∧
        (∀ j, s.curlab < j → j ≤ s3.curlab → ∃ c, s2.lab c = MASK ∧ s3.lab c = j)) ∧
    (∃ r, FloodEngine dims ftleValues fuel cellOrder = .ok r ∧
      (∀ c ∈ allCells dims, 0 ≤ r.lab c ∧ r.lab c ≤ r.curlab) ∧
      (∀ j, 1 ≤ j → j ≤ r.curlab → ∃ c ∈ allCells dims, r.lab c = j) ∧
      ∀ (fuel2 : Nat) (lab1 : CellIndex → Int),
        RemoveWatershedPixels dims fuel2 r.lab = .ok lab1 →
        ∀ c ∈ allCells dims, 0 ≤ lab1 c ∧ lab1 c ≤ r.curlab) := by
  refine ⟨rfl, fun fuel1 s r idx h => newMinimum_label dims fuel1 s r idx h, ?_, ?_⟩
  · intro n idx tl s hat
    obtain ⟨s2, s3, k, hp2, hp3, hp, ctx, inv, _, post, _, _⟩ :=
      LoopAt.level_run dims ftleValues cellOrder hsort fuel hfuel n idx tl s hat
    have hs := LoopAt.levelStart dims ftleValues fuel cellOrder hsort.1 _ _ _ hat
    have hs1 : LevelStart dims
        (levelOf ftleValues idx tl ++ afterLevel ftleValues idx tl) s := by
      rw [levelOf_append]; exact hs
    have hnotL : ∀ c, 0 ≤ s.lab c → c ∉ levelOf ftleValues idx tl := by
      intro c hc hcL
      rw [ctx.init c hcL] at hc
      simp [INIT] at hc
    refine ⟨s2, s3, hp2, hp3, hp, ?_, ?_, post.curlab2, ?_, post.fresh, post.comp, post.used⟩
    · intro c
      by_cases hg : c ∈ allCells dims
      · by_cases hr : c ∈ idx :: tl
        · exact Or.inl (hs.pending c hr)
        · exact Or.inr (hs.settled c hg hr)
      · exact Or.inl (hs.outside c hg)
    · intro c hc
      exact ⟨post.frame2 c (hnotL c hc), post.frame dims _ _ s s2 s3 hs1 c (hnotL c hc)⟩
    · intro c hc
      refine ⟨post.keep c hc, ?_⟩
      by_cases hcL : c ∈ levelOf ftleValues idx tl
      · rcases post.range2 c hcL with h | h
        · exact absurd h hc
        · exact h.2
      · rw [post.frame2 c hcL]
        rcases ctx.other c hcL with h | h
        · rw [h]
          have := hs.curlab_nonneg
          simp only [INIT]
          omega
        · exact h.2
  · obtain ⟨r, hr, hst⟩ := Outcome.exists_ok _ _ _
      (FloodEngine_outcome dims ftleValues fuel cellOrder hsort.1) hfuel
    have hrange : ∀ c ∈ allCells dims, 0 ≤ r.lab c ∧ r.lab c ≤ r.curlab :=
      fun c hc => hst.settled c hc (by simp)
    exact ⟨r, hr, hrange, hst.used,
      fun fuel2 lab1 h => removeWatershed_range dims r.curlab fuel2 r.lab lab1 hrange h⟩

theorem basin_labels_sequential_witness :
    initState.curlab = 0 ∧
    (∀ (fuel1 : Nat) (s r : FloodState) (idx : CellIndex),
      newMinimum saddleDims fuel1 s idx = .ok r →
      (s.lab idx = MASK → r.curlab = s.curlab + 1 ∧ r.lab idx = s.curlab + 1 ∧
        ∀ c, r.lab c = s.lab c ∨ (s.lab c = MASK ∧ r.lab c = s.curlab + 1)) ∧
      (s.lab idx ≠ MASK → r.curlab = s.curlab ∧ r.lab = s.lab)) ∧
    (∀ n idx tl s, LoopAt saddleDims saddleHeights 8 saddleOrder (n + 1) (idx :: tl) s →
      ∃ s2 s3,
        propagate saddleDims 8 1 (afterMasking saddleDims s (levelOf saddleHeights idx tl)) = .ok s2 ∧
        newMinima saddleDims 8 (levelOf saddleHeights idx tl) s2 = .ok s3 ∧
        processLevel saddleDims 8 (levelOf saddleHeights idx tl) s = .ok s3 ∧
        (∀ c, s.lab c = INIT ∨ (0 ≤ s.lab c ∧ s.lab c ≤ s.curlab)) ∧
        (∀ c, 0 ≤ s.lab c → s2.lab c = s.lab c ∧ s3.lab c = s.lab c) ∧
        s2.curlab = s.curlab ∧
        (∀ c, s2.lab c ≠ MASK → s3.lab c = s2.lab c ∧ s2.lab c ≤ s.curlab) ∧
        (∀ c, s2.lab c = MASK → s.curlab < s3.lab c ∧ s3.lab c ≤ s3.curlab) ∧
        (∀ c d, s2.lab c = MASK → s2.lab d = MASK →
          (s3.lab d = s3.lab c ↔
            Reach saddleDims (fun x => x ∈ levelOf saddleHeights idx tl) c d)) ∧
        (∀ j, s.curlab < j → j ≤ s3.curlab → ∃ c, s2.lab c = MASK ∧ s3.lab c = j)) ∧
    (∃ r, FloodEngine saddleDims saddleHeights 8 saddleOrder = .ok r ∧
      (∀ c ∈ allCells saddleDims, 0 ≤ r.lab c ∧ r.lab c ≤ r.curlab) ∧
      (∀ j, 1 ≤ j → j ≤ r.curlab → ∃ c ∈ allCells saddleDims, r.lab c = j) ∧
      ∀ (fuel2 : Nat) (lab1 : CellIndex → Int),
        RemoveWatershedPixels saddleDims fuel2 r.lab = .ok lab1 →
        ∀ c ∈ allCells saddleDims, 0 ≤ lab1 c ∧ lab1 c ≤ r.curlab) :=
  basin_labels_sequential saddleDims saddleHeights saddleOrder saddleOrder_isHeightOrder 8
    (by decide)

theorem propagateVisits_succ (dims : Dimensions) (n : Nat) (cd : Int) (s : FloodState) :
    propagateVisits dims (n + 1) cd s =
      match s.queue with
      | [] => []
      | idx :: q =>
        if idx.x = -1 then
          match q with
          | [] => []
          | idx2 :: q2 =>
            Visit.mk (cd + 1) idx2 { s with queue := q2 ++ [FICTITIOUS] } ::
              (match visitNeighbors (cd + 1) idx2 (neighborCells dims idx2)
                  { s with queue := q2 ++ [FICTITIOUS] } with
                | .ok s1 => propagateVisits dims n (cd + 1) s1
                | .error _ => [])
        else
          Visit.mk cd idx { s with queue := q } ::
            (match visitNeighbors cd idx (neighborCells dims idx) { s with queue := q } with
              | .ok s1 => propagateVisits dims n cd s1
              | .error _ => []) := rfl

/-- Every run of the neighbour loop made by the propagation starts in a state that satisfies
the propagation invariant with the visited voxel at the head of the frontier. -/
theorem propagateVisits_inv (dims : Dimensions) (L : List CellIndex)
    (lab0 : CellIndex → Int) (cl : Int) (ctx : LevelCtx dims L lab0 cl)
    (J : FloodState → Prop) (hJq : ∀ s q, J s → J { s with queue := q })
    (hJ : ∀ k idx A B s q s1, PropInv dims L lab0 cl k (idx :: A) B s → J s →
      visitNeighbors k idx (neighborCells dims idx) { s with queue := q } = .ok s1 → J s1) :
    ∀ (fuel : Nat) (k : Int) (A B : List CellIndex) (s : FloodState),
      PropInv dims L lab0 cl k A B s → s.queue = A ++ FICTITIOUS :: B → J s →
      ∀ v ∈ propagateVisits dims fuel k s,
        ∃ A1 B1, PropInv dims L lab0 cl v.curdist (v.idx :: A1) B1 v.before ∧ J v.before ∧
          v.before.queue = A1 ++ FICTITIOUS :: B1 := by
  intro fuel
  induction fuel with
  | zero =>
    intro k A B s _ _ _ v hv
    simp [propagateVisits] at hv
  | succ fuel ih =>
    intro k A B s inv hq hJs v hv
    rw [propagateVisits_succ] at hv
    cases A with
    | cons idx A1 =>
      rw [List.cons_append] at hq
      simp only [hq] at hv
      obtain ⟨hidxL, hidxM, _⟩ := inv.front idx (List.mem_cons_self _ _)
      rw [if_neg (inGrid_x_ne dims idx (ctx.inGrid idx hidxL))] at hv
      obtain ⟨s1, hvis, hq1, inv1, _, _, _⟩ :=
        visit_preserves dims L lab0 cl k idx A1 B s (A1 ++ FICTITIOUS :: B) ctx inv
      have hJ1 := hJ k idx A1 B s _ s1 inv hJs hvis
      rw [hvis] at hv
      rcases List.mem_cons.mp hv with hv | hv
      · subst hv
        exact ⟨A1, B, inv.set_queue dims L lab0 cl k _ _ s _, hJq s _ hJs, rfl⟩
      · have hq2 : s1.queue = A1 ++ FICTITIOUS ::
            (B ++ (neighborCells dims idx).filter (isPlateau s)) := by
          rw [hq1, List.append_assoc, List.cons_append]
        exact ih k A1 _ s1 inv1 hq2 hJ1 v hv
    | nil =>
      rw [List.nil_append] at hq
      simp only [hq] at hv
      rw [if_pos (by rfl)] at hv
      cases B with
      | nil => simp at hv
      | cons idx B1 =>
        simp only at hv
        have inv0 := inv.advance dims L lab0 cl k (idx :: B1) s
        obtain ⟨s1, hvis, hq1, inv1, _, _, _⟩ :=
          visit_preserves dims L lab0 cl (k + 1) idx B1 [] s (B1 ++ [FICTITIOUS]) ctx inv0
        have hJ1 := hJ (k + 1) idx B1 [] s _ s1 inv0 hJs hvis
        rw [hvis] at hv
        rcases List.mem_cons.mp hv with hv | hv
        · subst hv
          exact ⟨B1, [], inv0.set_queue dims L lab0 cl (k + 1) _ _ s _, hJq s _ hJs, rfl⟩
        · have hq2 : s1.queue = B1 ++ FICTITIOUS ::
              ([] ++ (neighborCells dims idx).filter (isPlateau s)) := by
            rw [hq1, List.append_assoc, List.singleton_append, List.nil_append]
          exact ih (k + 1) B1 _ s1 inv1 hq2 hJ1 v hv

theorem Hops.end_mem (dims : Dimensions) (M : CellIndex → Prop) (m : Nat) (a b : CellIndex)
    (h : Hops dims M a m b) (ha : M a) : M b := by
  induction h with
  | refl => exact ha
  | step _ _ hn _ => exact hn

theorem Hops.to_reach (dims : Dimensions) (M : CellIndex → Prop) (m : Nat) (a b : CellIndex)
    (h : Hops dims M a m b) : Reach dims M a b := by
  induction h with
  | refl => exact Reach.refl _
  | step _ hn hM ih => exact Reach.step ih hn hM

theorem Reach.hops (dims : Dimensions) (M : CellIndex → Prop) (a b : CellIndex)
    (h : Reach dims M a b) : ∃ m, Hops dims M a m b := by
  induction h with
  | refl => exact ⟨0, Hops.refl⟩
  | step _ hn hM ih =>
    obtain ⟨m, hm⟩ := ih
    exact ⟨m + 1, Hops.step hm hn hM⟩

/-- Every touched voxel of the level is at most one step beyond the current distance. -/
theorem PropInv.dist_le (dims : Dimensions) (L : List CellIndex) (lab0 : CellIndex → Int)
    (cl k : Int) (A B : List CellIndex) (s : FloodState)
    (inv : PropInv dims L lab0 cl k A B s) (c : CellIndex) (hcL : c ∈ L)
    (hc : s.dist c ≠ 0) : 1 ≤ s.dist c ∧ s.dist c ≤ k + 1 := by
  have hpos := inv.pos
  by_cases hA : c ∈ A
  · have := (inv.front c hA).2.2
    omega
  · by_cases hB : c ∈ B
    · have := (inv.back c hB).2.2
      omega
    · have := inv.settled c hcL hc hA hB
      omega

/-- Along a walk of `m` hops from a seed, either the end is touched at a distance of at
most `m + 1`, or the walk has met the frontier, which is no nearer than the current
distance. -/
theorem PropInv.walk (dims : Dimensions) (L : List CellIndex) (lab0 : CellIndex → Int)
    (cl k : Int) (A B : List CellIndex) (s : FloodState)
    (inv : PropInv dims L lab0 cl k A B s) (d : CellIndex) (hd : IsSeed dims L lab0 d) :
    ∀ (m : Nat) (c : CellIndex), Hops dims (fun x => x ∈ L) d m c →
      (s.dist c ≠ 0 ∧ s.dist c ≤ (m : Int) + 1) ∨ (A ++ B ≠ [] ∧ k ≤ (m : Int)) := by
  intro m c h
  induction h with
  | refl =>
    left
    have := (inv.seeds d hd.1).mp hd.2
    rw [this]
    simp
  | @step m b n hb hn hnL ih =>
    have hbL : b ∈ L := Hops.end_mem dims _ m d b hb hd.1
    rcases ih with ⟨h0, hle⟩ | ⟨hne, hk⟩
    · by_cases hA : b ∈ A
      · right
        have := (inv.front b hA).2.2
        refine ⟨?_, by push_cast; omega⟩
        intro hnil
        rw [List.append_eq_nil] at hnil
        rw [hnil.1] at hA
        simp at hA
      · by_cases hB : b ∈ B
        · right
          have := (inv.back b hB).2.2
          refine ⟨?_, by push_cast; omega⟩
          intro hnil
          rw [List.append_eq_nil] at hnil
          rw [hnil.2] at hB
          simp at hB
        · left
          have := inv.closed b hbL h0 hA hB n hn hnL
          refine ⟨this.1, by push_cast; omega⟩
    · right
      exact ⟨hne, by push_cast; omega⟩

/-- A voxel touched at distance `m + 1` is `m` hops from a seed. -/
theorem PropInv.hops_to (dims : Dimensions) (L : List CellIndex) (lab0 : CellIndex → Int)
    (cl k : Int) (A B : List CellIndex) (s : FloodState)
    (ctx : LevelCtx dims L lab0 cl) (inv : PropInv dims L lab0 cl k A B s) :
    ∀ (m : Nat) (c : CellIndex), c ∈ L → s.dist c = (m : Int) + 1 →
      ∃ d, IsSeed dims L lab0 d ∧ Hops dims (fun x => x ∈ L) d m c := by
  intro m
  induction m with
  | zero =>
    intro c hcL hc
    refine ⟨c, ⟨hcL, (inv.seeds c hcL).mpr (by rw [hc]; simp)⟩, Hops.refl⟩
  | succ m ih =>
    intro c hcL hc
    obtain ⟨n, hn, hnL, hdn⟩ := inv.pred c hcL (by rw [hc]; push_cast; omega)
    obtain ⟨d, hd, hops⟩ := ih n hnL (by rw [hdn, hc]; push_cast; omega)
    have hcin : Outside dims c.x c.y c.z = false :=
      (mem_allCells dims c).mp (ctx.inGrid c hcL)
    have hng : Outside dims n.x n.y n.z = false := neighbor_inGrid dims c n hn
    exact ⟨d, hd, Hops.step hops (neighbor_symm dims c n hn hcin) hcL⟩

/-- In every state of the propagation, the distance of a touched voxel of the level is its
geodesic distance. -/
theorem PropInv.dist_geodesic (dims : Dimensions) (L : List CellIndex)
    (lab0 : CellIndex → Int) (cl k : Int) (A B : List CellIndex) (s : FloodState)
    (ctx : LevelCtx dims L lab0 cl) (inv : PropInv dims L lab0 cl k A B s)
    (c : CellIndex) (hcL : c ∈ L) (hc : s.dist c ≠ 0) :
    IsGeodesic dims L lab0 c (s.dist c) := by
  obtain ⟨h1, h2⟩ := inv.dist_le dims L lab0 cl k A B s c hcL hc
  constructor
  · obtain ⟨m, hm⟩ : ∃ m : Nat, s.dist c = (m : Int) + 1 :=
      ⟨(s.dist c - 1).toNat, by omega⟩
    obtain ⟨d, hd, hops⟩ := inv.hops_to dims L lab0 cl k A B s ctx m c hcL hm
    exact ⟨m, d, hm, hd, hops⟩
  · intro m d hd hops
    rcases inv.walk dims L lab0 cl k A B s d hd m c hops with ⟨_, h⟩ | ⟨_, h⟩
    · exact h
    · omega

theorem IsGeodesic.unique (dims : Dimensions) (L : List CellIndex) (lab0 : CellIndex → Int)
    (c : CellIndex) (g1 g2 : Int) (h1 : IsGeodesic dims L lab0 c g1)
    (h2 : IsGeodesic dims L lab0 c g2) : g1 = g2 := by
  obtain ⟨⟨m1, d1, e1, s1, p1⟩, min1⟩ := h1
  obtain ⟨⟨m2, d2, e2, s2, p2⟩, min2⟩ := h2
  have a := min1 m2 d2 s2 p2
  have b := min2 m1 d1 s1 p1
  omega

/-- When the propagation has ended, a voxel of the level is untouched exactly when no walk
through the level joins it to a seed. -/
theorem PropInv.untouched_iff (dims : Dimensions) (L : List CellIndex)
    (lab0 : CellIndex → Int) (cl k : Int) (s : FloodState)
    (ctx : LevelCtx dims L lab0 cl) (inv : PropInv dims L lab0 cl k [] [] s)
    (c : CellIndex) (hcL : c ∈ L) :
    s.dist c = 0 ↔
      ¬ ∃ (m : Nat) (d : CellIndex), IsSeed dims L lab0 d ∧ Hops dims (fun x => x ∈ L) d m c := by
  constructor
  · rintro h0 ⟨m, d, hd, hops⟩
    rcases inv.walk dims L lab0 cl k [] [] s d hd m c hops with ⟨h, _⟩ | ⟨h, _⟩
    · exact h h0
    · exact h rfl
  · intro hno
    by_contra h0
    obtain ⟨⟨m, d, _, hd, hops⟩, _⟩ := inv.dist_geodesic dims L lab0 cl k [] [] s ctx c hcL h0
    exact hno ⟨m, d, hd, hops⟩

/-- At a level the loop reaches, every run of the neighbour loop of the propagation starts
in a state satisfying the propagation invariant, with fed labels, and with the queue made
of the frontier, the sentinel and the next frontier. -/
theorem LoopAt.visit_inv {H : Type} [LinearOrder H] (dims : Dimensions)
    (ftleValues : CellIndex → H) (cellOrder : List CellIndex)
    (hsort : IsHeightOrder dims ftleValues cellOrder) (fuel : Nat) (n : Nat) (idx : CellIndex)
    (tl : List CellIndex) (s : FloodState)
    (hat : LoopAt dims ftleValues fuel cellOrder n (idx :: tl) s) :
    ∀ v ∈ propagateVisits dims fuel 1 (afterMasking dims s (levelOf ftleValues idx tl)),
      ∃ A B, PropInv dims (levelOf ftleValues idx tl) s.lab s.curlab v.curdist (v.idx :: A) B
          v.before ∧
        FedLabels dims (levelOf ftleValues idx tl) v.before ∧
        v.before.queue = A ++ FICTITIOUS :: B := by
  have hs := LoopAt.levelStart dims ftleValues fuel cellOrder hsort.1 _ _ _ hat
  have happ := levelOf_append ftleValues idx tl
  have hs1 : LevelStart dims (levelOf ftleValues idx tl ++ afterLevel ftleValues idx tl) s := by
    rw [happ]; exact hs
  have ctx := hs1.ctx dims _ _ s
  have hJ0 : FedLabels dims (levelOf ftleValues idx tl)
      (maskLevel dims s (levelOf ftleValues idx tl)) := by
    intro c hcL hc
    rw [(maskLevel_spec dims _ s.curlab s ctx).2.1 c, if_pos hcL] at hc
    simp [MASK] at hc
  have inv1 := mask_establishes dims (levelOf ftleValues idx tl) s.curlab s ctx rfl
    hs1.dist_zero ((maskLevel dims s (levelOf ftleValues idx tl)).queue ++ [FICTITIOUS])
  have hq : (maskLevel dims s (levelOf ftleValues idx tl)).queue ++ [FICTITIOUS] =
      (levelOf ftleValues idx tl).filter (hasFloodedNeighbor dims s.lab) ++
        FICTITIOUS :: [] := by
    rw [(maskLevel_spec dims _ s.curlab s ctx).2.2.2, hs1.queue_nil, List.nil_append]
  exact propagateVisits_inv dims _ s.lab s.curlab ctx
    (FedLabels dims (levelOf ftleValues idx tl)) (fun _ _ h => h)
    (fun k i A B s0 q sv inv hJ hv =>
      visit_fedLabels dims _ s.lab s.curlab k i A B s0 q sv ctx inv hJ hv)
    fuel 1 _ [] _ inv1 hq hJ0

/-- C17: at every level the loop reaches (height-sorted `cellOrder`, `d0 * d1 * d2 + 1`
fuel) the propagation ends, and every voxel taken from the queue is a voxel of the level
whose `dist` equals `curdist` then and when the propagation ends, and that value is its
geodesic distance: one more than the least number of hops, along 6-adjacent voxels of the
level, from a level voxel with an in-grid 6-neighbour that was flooded (basin label or
WSHED) when the level started, so 1 exactly for these voxels; a level voxel that no such
walk reaches is never taken from the queue, is in the queue at no run of the neighbour
loop, and has `dist` 0 when the propagation ends. -/
theorem dequeued_at_geodesic_distance {H : Type} [LinearOrder H] (dims : Dimensions)
    (ftleValues : CellIndex → H) (cellOrder : List CellIndex)
    (hsort : IsHeightOrder dims ftleValues cellOrder) (fuel : Nat)
    (hfuel : dims.d0 * dims.d1 * dims.d2 + 1 ≤ fuel) (n : Nat) (idx : CellIndex)
    (tl : List CellIndex) (s : FloodState)
    (hat : LoopAt dims ftleValues fuel cellOrder (n + 1) (idx :: tl) s) :
    ∃ s2,
      propagate dims fuel 1 (afterMasking dims s (levelOf ftleValues idx tl)) = .ok s2 ∧
      (∀ v ∈ propagateVisits dims fuel 1 (afterMasking dims s (levelOf ftleValues idx tl)),
        v.idx ∈ levelOf ftleValues idx tl ∧ v.before.dist v.idx = v.curdist ∧
        s2.dist v.idx = v.curdist ∧
        IsGeodesic dims (levelOf ftleValues idx tl) s.lab v.idx v.curdist) ∧
      (∀ c ∈ levelOf ftleValues idx tl,
        (hasFloodedNeighbor dims s.lab c = true ↔ s2.dist c = 1) ∧
        (s2.dist c ≠ 0 → IsGeodesic dims (levelOf ftleValues idx tl) s.lab c (s2.dist c))) ∧
      (∀ c ∈ levelOf ftleValues idx tl,
        (¬ ∃ (m : Nat) (d : CellIndex), IsSeed dims (levelOf ftleValues idx tl) s.lab d ∧
          Hops dims (fun x => x ∈ levelOf ftleValues idx tl) d m c) →
        s2.dist c = 0 ∧
        ∀ v ∈ propagateVisits dims fuel 1 (afterMasking dims s (levelOf ftleValues idx tl)),
          v.idx ≠ c ∧ c ∉ v.before.queue) := by
  obtain ⟨s2, s3, k, hp2, _, _, ctx, inv, _, _, _, _⟩ :=
    LoopAt.level_run dims ftleValues cellOrder hsort fuel hfuel n idx tl s hat
  have hvis := LoopAt.visit_inv dims ftleValues cellOrder hsort fuel (n + 1) idx tl s hat
  refine ⟨s2, hp2, ?_, ?_, ?_⟩
  · intro v hv
    obtain ⟨A, B, vinv, _, _⟩ := hvis v hv
    obtain ⟨hvL, _, hvd⟩ := vinv.front v.idx (List.mem_cons_self _ _)
    have hpos := vinv.pos
    have hgeo := vinv.dist_geodesic dims _ s.lab s.curlab _ _ _ v.before ctx v.idx hvL
      (by rw [hvd]; omega)
    rw [hvd] at hgeo
    refine ⟨hvL, hvd, ?_, hgeo⟩
    have hne : s2.dist v.idx ≠ 0 := by
      intro h0
      obtain ⟨⟨m, d, _, hd, hops⟩, _⟩ := hgeo
      exact (inv.untouched_iff dims _ s.lab s.curlab k s2 ctx v.idx hvL).mp h0 ⟨m, d, hd, hops⟩
    exact IsGeodesic.unique dims _ s.lab v.idx _ _
      (inv.dist_geodesic dims _ s.lab s.curlab _ _ _ s2 ctx v.idx hvL hne) hgeo
  · intro c hcL
    exact ⟨inv.seeds c hcL,
      fun hne => inv.dist_geodesic dims _ s.lab s.curlab _ _ _ s2 ctx c hcL hne⟩
  · intro c hcL hno
    refine ⟨(inv.untouched_iff dims _ s.lab s.curlab k s2 ctx c hcL).mpr hno, ?_⟩
    intro v hv
    obtain ⟨A, B, vinv, _, hq⟩ := hvis v hv
    have hpos := vinv.pos
    have hpath : ∀ x, x ∈ levelOf ftleValues idx tl → v.before.dist x ≠ 0 → x ≠ c := by
      intro x hxL hx hxc
      obtain ⟨⟨m, d, _, hd, hops⟩, _⟩ :=
        vinv.dist_geodesic dims _ s.lab s.curlab _ _ _ v.before ctx x hxL hx
      rw [hxc] at hops
      exact hno ⟨m, d, hd, hops⟩
    have hfront : ∀ x ∈ v.idx :: A, x ≠ c := by
      intro x hx
      obtain ⟨hxL, _, hxd⟩ := vinv.front x hx
      exact hpath x hxL (by rw [hxd]; omega)
    refine ⟨hfront v.idx (List.mem_cons_self _ _), ?_⟩
    rw [hq]
    intro hmem
    rcases List.mem_append.mp hmem with h | h
    · exact hfront c (List.mem_cons_of_mem _ h) rfl
    · rcases List.mem_cons.mp h with h | h
      · have := inGrid_x_ne dims c (ctx.inGrid c hcL)
        rw [h] at this
        exact this rfl
      · obtain ⟨hxL, _, hxd⟩ := vinv.back c h
        exact hpath c hxL (by rw [hxd]; omega) rfl

theorem dequeued_at_geodesic_distance_witness :
    ∃ s2,
      propagate saddleDims 8 1 (afterMasking saddleDims saddleState3 (levelOf saddleHeights ⟨3, 0,
          0⟩ [])) = .ok s2 ∧
      (∀ v ∈ propagateVisits saddleDims 8 1 (afterMasking saddleDims saddleState3 (levelOf
          saddleHeights ⟨3, 0, 0⟩ [])),
        v.idx ∈ levelOf saddleHeights ⟨3, 0, 0⟩ [] ∧ v.before.dist v.idx = v.curdist ∧
        s2.dist v.idx = v.curdist ∧
        IsGeodesic saddleDims (levelOf saddleHeights ⟨3, 0, 0⟩ []) saddleState3.lab v.idx
            v.curdist) ∧
      (∀ c ∈ levelOf saddleHeights ⟨3, 0, 0⟩ [],
        (hasFloodedNeighbor saddleDims saddleState3.lab c = true ↔ s2.dist c = 1) ∧
        (s2.dist c ≠ 0 → IsGeodesic saddleDims (levelOf saddleHeights ⟨3, 0, 0⟩ [])
            saddleState3.lab c (s2.dist c))) ∧
      (∀ c ∈ levelOf saddleHeights ⟨3, 0, 0⟩ [],
        (¬ ∃ (m : Nat) (d : CellIndex), IsSeed saddleDims (levelOf saddleHeights ⟨3, 0, 0⟩ [])
            saddleState3.lab d ∧
          Hops saddleDims (fun x => x ∈ levelOf saddleHeights ⟨3, 0, 0⟩ []) d m c) →
        s2.dist c = 0 ∧
        ∀ v ∈ propagateVisits saddleDims 8 1 (afterMasking saddleDims saddleState3 (levelOf
            saddleHeights ⟨3, 0, 0⟩ [])),
          v.idx ≠ c ∧ c ∉ v.before.queue) :=
  dequeued_at_geodesic_distance saddleDims saddleHeights saddleOrder saddleOrder_isHeightOrder 8
    (by decide) 4 ⟨3, 0, 0⟩ [] saddleState3 saddle_at3

/-- The neighbour loop's body for a propagating neighbour `n` (settled at `curdist - 1`
with a basin label or WSHED): only the label of the dequeued voxel `i` can change, by the
rule of source lines 394-405. -/
theorem examineNeighbor_update (curdist : Int) (i n : CellIndex) (t : FloodState)
    (hd : t.dist n = curdist - 1) (hl : 0 < t.lab n ∨ t.lab n = WSHED) :
    ∃ t1, examineNeighbor curdist i t n = .ok t1 ∧ t1.dist = t.dist ∧ t1.queue = t.queue ∧
      t1.curlab = t.curlab ∧ (∀ c, c ≠ i → t1.lab c = t.lab c) ∧
      (0 < t.lab n → (t.lab i = MASK ∨ t.lab i = WSHED) → t1.lab i = t.lab n) ∧
      (0 < t.lab n → t.lab i ≠ MASK → t.lab i ≠ WSHED → t.lab i ≠ t.lab n →
        t1.lab i = WSHED) ∧
      (0 < t.lab n → t.lab i = t.lab n → t1.lab i = t.lab i) ∧
      (t.lab n = WSHED → t.lab i = MASK → t1.lab i = WSHED) ∧
      (t.lab n = WSHED → t.lab i ≠ MASK → t1.lab i = t.lab i) := by
  have hp : propagates curdist t n = true := by
    rw [propagates_iff]
    refine ⟨by omega, ?_⟩
    rcases hl with h | h
    · omega
    · rw [h]; simp [WSHED]
  have hnp : isPlateau t n = false := by
    rw [Bool.eq_false_iff]
    intro h
    rw [isPlateau_iff] at h
    rcases hl with h1 | h1
    · rw [h.1] at h1; simp [MASK] at h1
    · rw [h.1] at h1; simp [MASK, WSHED] at h1
  obtain ⟨t1, h1, hcl, hlab, hlabi, hdist, hq⟩ :=
    examineNeighbor_spec curdist i t n (fun _ => hd)
  rw [if_pos hp] at hlabi
  refine ⟨t1, h1, ?_, ?_, hcl, hlab, ?_, ?_, ?_, ?_, ?_⟩
  · funext c
    rw [hdist c, hnp]
    simp
  · rw [hq, hnp]
    simp
  · intro hn hc
    rw [hlabi, relabel, if_pos hn, if_pos hc]
  · intro hn hc1 hc2 hc3
    rw [hlabi, relabel, if_pos hn, if_neg (by tauto), if_pos hc3]
  · intro hn hc
    rw [hlabi, relabel, if_pos hn]
    by_cases hc1 : t.lab i = MASK ∨ t.lab i = WSHED
    · rw [if_pos hc1, hc]
    · rw [if_neg hc1, if_neg (by simpa using hc)]
  · intro hn hc
    rw [hlabi, relabel, if_neg (by rw [hn]; simp [WSHED]), if_pos hc]
  · intro hn hc
    rw [hlabi, relabel, if_neg (by rw [hn]; simp [WSHED]), if_neg hc]

/-- C19: the body of the propagation's neighbour loop, for the dequeued voxel `i` with
label `cur` and a propagating neighbour `n` with label `nb` (settled at `curdist - 1` with a
basin label or WSHED), changes nothing but the label of `i`: with `nb` a basin label, `cur`
becomes `nb` when `cur` is MASK or WSHED, becomes WSHED when `cur` is another label, and
stays when `cur = nb`; with `nb` WSHED, `cur` becomes WSHED when it is MASK and stays
otherwise.  At every level the loop reaches (height-sorted `cellOrder`,
`d0 * d1 * d2 + 1` fuel), every voxel taken from the queue is MASK when its neighbour loop
starts, the loop succeeds and leaves it a basin label or WSHED within `0 .. curlab`, and
it is not MASK when the propagation ends. -/
theorem neighbour_label_update {H : Type} [LinearOrder H] (dims : Dimensions)
    (ftleValues : CellIndex → H) (cellOrder : List CellIndex)
    (hsort : IsHeightOrder dims ftleValues cellOrder) (fuel : Nat)
    (hfuel : dims.d0 * dims.d1 * dims.d2 + 1 ≤ fuel) (n : Nat) (idx : CellIndex)
    (tl : List CellIndex) (s : FloodState)
    (hat : LoopAt dims ftleValues fuel cellOrder (n + 1) (idx :: tl) s) :
    (∀ (curdist : Int) (i nb : CellIndex) (t : FloodState), t.dist nb = curdist - 1 →
      (0 < t.lab nb ∨ t.lab nb = WSHED) →
      ∃ t1, examineNeighbor curdist i t nb = .ok t1 ∧ t1.dist = t.dist ∧
        t1.queue = t.queue ∧ t1.curlab = t.curlab ∧ (∀ c, c ≠ i → t1.lab c = t.lab c) ∧
        (0 < t.lab nb → (t.lab i = MASK ∨ t.lab i = WSHED) → t1.lab i = t.lab nb) ∧
        (0 < t.lab nb → t.lab i ≠ MASK → t.lab i ≠ WSHED → t.lab i ≠ t.lab nb →
          t1.lab i = WSHED) ∧
        (0 < t.lab nb → t.lab i = t.lab nb → t1.lab i = t.lab i) ∧
        (t.lab nb = WSHED → t.lab i = MASK → t1.lab i = WSHED) ∧
        (t.lab nb = WSHED → t.lab i ≠ MASK → t1.lab i = t.lab i)) ∧
    ∃ s2,
      propagate dims fuel 1 (afterMasking dims s (levelOf ftleValues idx tl)) = .ok s2 ∧
      ∀ v ∈ propagateVisits dims fuel 1 (afterMasking dims s (levelOf ftleValues idx tl)),
        v.before.lab v.idx = MASK ∧
        (∃ s1, visitNeighbors v.curdist v.idx (neighborCells dims v.idx) v.before = .ok s1 ∧
          s1.lab v.idx ≠ MASK ∧ 0 ≤ s1.lab v.idx ∧ s1.lab v.idx ≤ s.curlab) ∧
        s2.lab v.idx ≠ MASK ∧ 0 ≤ s2.lab v.idx := by
  refine ⟨fun curdist i nb t hd hl => examineNeighbor_update curdist i nb t hd hl, ?_⟩
  obtain ⟨s2, s3, k, hp2, _, _, ctx, inv, _, _, _, _⟩ :=
    LoopAt.level_run dims ftleValues cellOrder hsort fuel hfuel n idx tl s hat
  have hvis := LoopAt.visit_inv dims ftleValues cellOrder hsort fuel (n + 1) idx tl s hat
  refine ⟨s2, hp2, ?_⟩
  intro v hv
  obtain ⟨A, B, vinv, _, _⟩ := hvis v hv
  obtain ⟨hvL, hvM, hvd⟩ := vinv.front v.idx (List.mem_cons_self _ _)
  have hpos := vinv.pos
  obtain ⟨s1, h1, _, _, _, hlabi, _⟩ :=
    visit_preserves dims _ s.lab s.curlab v.curdist v.idx A B v.before v.before.queue ctx vinv
  have hrange := vinv.visitLabel_range dims _ s.lab s.curlab v.curdist v.idx A B v.before ctx
  rw [← hlabi] at hrange
  have h0 : s2.dist v.idx ≠ 0 := by
    intro h0
    obtain ⟨⟨m, d, _, hd, hops⟩, _⟩ :=
      vinv.dist_geodesic dims _ s.lab s.curlab _ _ _ v.before ctx v.idx hvL
        (by rw [hvd]; omega)
    exact (inv.untouched_iff dims _ s.lab s.curlab k s2 ctx v.idx hvL).mp h0 ⟨m, d, hd, hops⟩
  have hset := inv.settled v.idx hvL h0 (by simp) (by simp)
  refine ⟨hvM, ⟨s1, h1, ?_, hrange.1, hrange.2⟩, ?_, hset.1⟩
  · intro h; rw [h] at hrange; simp [MASK] at hrange
  · intro h; rw [h] at hset; simp [MASK] at hset

theorem neighbour_label_update_witness :
    (∀ (curdist : Int) (i nb : CellIndex) (t : FloodState), t.dist nb = curdist - 1 →
      (0 < t.lab nb ∨ t.lab nb = WSHED) →
      ∃ t1, examineNeighbor curdist i t nb = .ok t1 ∧ t1.dist = t.dist ∧
        t1.queue = t.queue ∧ t1.curlab = t.curlab ∧ (∀ c, c ≠ i → t1.lab c = t.lab c) ∧
        (0 < t.lab nb → (t.lab i = MASK ∨ t.lab i = WSHED) → t1.lab i = t.lab nb) ∧
        (0 < t.lab nb → t.lab i ≠ MASK → t.lab i ≠ WSHED → t.lab i ≠ t.lab nb →
          t1.lab i = WSHED) ∧
        (0 < t.lab nb → t.lab i = t.lab nb → t1.lab i = t.lab i) ∧
        (t.lab nb = WSHED → t.lab i = MASK → t1.lab i = WSHED) ∧
        (t.lab nb = WSHED → t.lab i ≠ MASK → t1.lab i = t.lab i)) ∧
    ∃ s2,
      propagate saddleDims 8 1 (afterMasking saddleDims saddleState3 (levelOf saddleHeights ⟨3, 0,
          0⟩ [])) = .ok s2 ∧
      ∀ v ∈ propagateVisits saddleDims 8 1 (afterMasking saddleDims saddleState3 (levelOf
          saddleHeights ⟨3, 0, 0⟩ [])),
        v.before.lab v.idx = MASK ∧
        (∃ s1, visitNeighbors v.curdist v.idx (neighborCells saddleDims v.idx) v.before = .ok s1 ∧
          s1.lab v.idx ≠ MASK ∧ 0 ≤ s1.lab v.idx ∧ s1.lab v.idx ≤ saddleState3.curlab) ∧
        s2.lab v.idx ≠ MASK ∧ 0 ≤ s2.lab v.idx :=
  neighbour_label_update saddleDims saddleHeights saddleOrder saddleOrder_isHeightOrder 8
    (by decide) 4 ⟨3, 0, 0⟩ [] saddleState3 saddle_at3

/-- C20: the distance field is 0 everywhere after the initialisation; at every level the
loop reaches (height-sorted `cellOrder`, `d0 * d1 * d2 + 1` fuel) it is 0 everywhere when
the level starts; after the masking loop, at every run of the propagation's neighbour loop
and when the propagation ends it is 0 at every voxel outside the level; and it is 0
everywhere again when the new-minima loop, and with it the level, ends. -/
theorem dist_is_level_scoped {H : Type} [LinearOrder H] (dims : Dimensions)
    (ftleValues : CellIndex → H) (cellOrder : List CellIndex)
    (hsort : IsHeightOrder dims ftleValues cellOrder) (fuel : Nat)
    (hfuel : dims.d0 * dims.d1 * dims.d2 + 1 ≤ fuel) (n : Nat) (idx : CellIndex)
    (tl : List CellIndex) (s : FloodState)
    (hat : LoopAt dims ftleValues fuel cellOrder (n + 1) (idx :: tl) s) :
    (∀ c, initState.dist c = 0) ∧ (∀ c, s.dist c = 0) ∧
    (∀ c, c ∉ levelOf ftleValues idx tl →
      (maskLevel dims s (levelOf ftleValues idx tl)).dist c = 0) ∧
    (∀ v ∈ propagateVisits dims fuel 1 (afterMasking dims s (levelOf ftleValues idx tl)),
      ∀ c, c ∉ levelOf ftleValues idx tl → v.before.dist c = 0) ∧
    ∃ s2 s3,
      propagate dims fuel 1 (afterMasking dims s (levelOf ftleValues idx tl)) = .ok s2 ∧
      newMinima dims fuel (levelOf ftleValues idx tl) s2 = .ok s3 ∧
      processLevel dims fuel (levelOf ftleValues idx tl) s = .ok s3 ∧
      (∀ c, c ∉ levelOf ftleValues idx tl → s2.dist c = 0) ∧
      (∀ c, s3.dist c = 0) := by
  obtain ⟨s2, s3, k, hp2, hp3, hp, ctx, inv, _, _, hs3, _⟩ :=
    LoopAt.level_run dims ftleValues cellOrder hsort fuel hfuel n idx tl s hat
  have hvis := LoopAt.visit_inv dims ftleValues cellOrder hsort fuel (n + 1) idx tl s hat
  have hs := LoopAt.levelStart dims ftleValues fuel cellOrder hsort.1 _ _ _ hat
  refine ⟨fun _ => rfl, hs.dist_zero, ?_, ?_, s2, s3, hp2, hp3, hp,
    fun c hc => (inv.frame c hc).2, hs3.dist_zero⟩
  · intro c hc
    rw [(maskLevel_spec dims _ s.curlab s ctx).2.2.1 c, if_neg (fun h => hc h.1)]
    exact hs.dist_zero c
  · intro v hv c hc
    obtain ⟨A, B, vinv, _, _⟩ := hvis v hv
    exact (vinv.frame c hc).2

theorem dist_is_level_scoped_witness :
    (∀ c, initState.dist c = 0) ∧ (∀ c, saddleState3.dist c = 0) ∧
    (∀ c, c ∉ levelOf saddleHeights ⟨3, 0, 0⟩ [] →
      (maskLevel saddleDims saddleState3 (levelOf saddleHeights ⟨3, 0, 0⟩ [])).dist c = 0) ∧
    (∀ v ∈ propagateVisits saddleDims 8 1 (afterMasking saddleDims saddleState3 (levelOf
        saddleHeights ⟨3, 0, 0⟩ [])),
      ∀ c, c ∉ levelOf saddleHeights ⟨3, 0, 0⟩ [] → v.before.dist c = 0) ∧
    ∃ s2 s3,
      propagate saddleDims 8 1 (afterMasking saddleDims saddleState3 (levelOf saddleHeights ⟨3, 0,
          0⟩ [])) = .ok s2 ∧
      newMinima saddleDims 8 (levelOf saddleHeights ⟨3, 0, 0⟩ []) s2 = .ok s3 ∧
      processLevel saddleDims 8 (levelOf saddleHeights ⟨3, 0, 0⟩ []) saddleState3 = .ok s3 ∧
      (∀ c, c ∉ levelOf saddleHeights ⟨3, 0, 0⟩ [] → s2.dist c = 0) ∧
      (∀ c, s3.dist c = 0) :=
  dist_is_level_scoped saddleDims saddleHeights saddleOrder saddleOrder_isHeightOrder 8
    (by decide) 4 ⟨3, 0, 0⟩ [] saddleState3 saddle_at3

theorem fillMark_cases (lab : CellIndex → Int) (mark : Int) (ns : List CellIndex) :
    (fillMark lab mark ns = mark ∨ fillMark lab mark ns = WSHED) ∧
    ((∀ n ∈ ns, lab n = WSHED ∨ lab n = INIT ∨ lab n = mark) → fillMark lab mark ns = mark) := by
  induction ns with
  | nil => exact ⟨Or.inl rfl, fun _ => rfl⟩
  | cons n ns ih =>
    rw [fillMark]
    by_cases h1 : lab n = WSHED ∨ lab n = INIT
    · rw [if_pos h1]
      exact ⟨ih.1, fun h => ih.2 (fun x hx => h x (List.mem_cons_of_mem _ hx))⟩
    · rw [if_neg h1]
      by_cases h2 : mark ≠ lab n
      · rw [if_pos h2]
        refine ⟨Or.inr rfl, fun h => ?_⟩
        rcases h n (List.mem_cons_self _ _) with e | e | e
        · exact absurd (Or.inl e) h1
        · exact absurd (Or.inr e) h1
        · exact absurd e.symm h2
      · rw [if_neg h2]
        exact ⟨ih.1, fun h => ih.2 (fun x hx => h x (List.mem_cons_of_mem _ hx))⟩

/-- The first loop of `FillWatershedPixels` only ever turns a voxel with a basin label into
WSHED. -/
theorem fillStep_rel (dims : Dimensions) (lab cur : CellIndex → Int) (idx : CellIndex)
    (h : ∀ n, cur n = lab n ∨ (lab n ≠ WSHED ∧ lab n ≠ INIT ∧ cur n = WSHED)) :
    ∀ n, fillStep dims cur idx n = lab n ∨
      (lab n ≠ WSHED ∧ lab n ≠ INIT ∧ fillStep dims cur idx n = WSHED) := by
  intro n
  unfold fillStep
  by_cases hc : cur idx ≠ WSHED ∧ cur idx ≠ INIT
  · rw [if_pos hc]
    by_cases hn : n = idx
    · subst hn
      rw [upd_same]
      have hlab : cur n = lab n := by
        rcases h n with e | ⟨_, _, e⟩
        · exact e
        · exact absurd e hc.1
      rcases (fillMark_cases cur (cur n) (neighborCells dims n)).1 with e | e
      · left; rw [e, hlab]
      · right; rw [← hlab]; exact ⟨hc.1, hc.2, e⟩
    · rw [upd_other _ _ _ _ hn]; exact h n
  · rw [if_neg hc]; exact h n

theorem fillFold_rel (dims : Dimensions) (lab : CellIndex → Int) (cells : List CellIndex) :
    ∀ cur : CellIndex → Int,
      (∀ n, cur n = lab n ∨ (lab n ≠ WSHED ∧ lab n ≠ INIT ∧ cur n = WSHED)) →
      ∀ n, cells.foldl (fillStep dims) cur n = lab n ∨
        (lab n ≠ WSHED ∧ lab n ≠ INIT ∧ cells.foldl (fillStep dims) cur n = WSHED) := by
  induction cells with
  | nil => intro cur h; exact h
  | cons idx rest ih =>
    intro cur h
    rw [List.foldl_cons]
    exact ih _ (fillStep_rel dims lab cur idx h)

/-- A voxel with a basin label whose in-grid neighbours are WSHED, INIT or of its own label
keeps its label through the first loop. -/
theorem fillFold_agree (dims : Dimensions) (lab : CellIndex → Int) (c : CellIndex)
    (hagree : ∀ n ∈ neighborCells dims c, lab n = WSHED ∨ lab n = INIT ∨ lab n = lab c)
    (cells : List CellIndex) :
    ∀ cur : CellIndex → Int,
      (∀ n, cur n = lab n ∨ (lab n ≠ WSHED ∧ lab n ≠ INIT ∧ cur n = WSHED)) →
      cur c = lab c → cells.foldl (fillStep dims) cur c = lab c := by
  induction cells with
  | nil => intro cur _ h; exact h
  | cons idx rest ih =>
    intro cur hrel hc
    rw [List.foldl_cons]
    refine ih _ (fillStep_rel dims lab cur idx hrel) ?_
    unfold fillStep
    by_cases hcond : cur idx ≠ WSHED ∧ cur idx ≠ INIT
    · rw [if_pos hcond]
      by_cases hn : c = idx
      · subst hn
        rw [upd_same, (fillMark_cases cur (cur c) (neighborCells dims c)).2, hc]
        intro n hn
        rcases hrel n with e | ⟨_, _, e⟩
        · rw [e, hc]; exact hagree n hn
        · exact Or.inl e
      · rw [upd_other _ _ _ _ hn]; exact hc
    · rw [if_neg hcond]; exact hc

/-- The second loop of `FillWatershedPixels` over distinct cells. -/
theorem binarizeFold_spec (cells : List CellIndex) (hnd : cells.Nodup) :
    ∀ (cur : CellIndex → Int) (c : CellIndex),
      cells.foldl binarizeStep cur c =
        if c ∈ cells then (if cur c ≠ WSHED ∧ cur c ≠ INIT then 0 else 1) else cur c := by
  induction cells with
  | nil => intro cur c; simp
  | cons idx rest ih =>
    intro cur c
    rw [List.nodup_cons] at hnd
    rw [List.foldl_cons, ih hnd.2]
    by_cases hc : c = idx
    · subst hc
      rw [if_neg hnd.1, if_pos (List.mem_cons_self _ _)]
      unfold binarizeStep
      by_cases hcond : cur c ≠ WSHED ∧ cur c ≠ INIT
      · rw [if_pos hcond, if_pos hcond, upd_same]
      · rw [if_neg hcond, if_neg hcond, upd_same]
    · have hstep : binarizeStep cur idx c = cur c := by
        unfold binarizeStep
        by_cases hcond : cur idx ≠ WSHED ∧ cur idx ≠ INIT
        · rw [if_pos hcond, upd_other _ _ _ _ hc]
        · rw [if_neg hcond, upd_other _ _ _ _ hc]
      rw [hstep]
      by_cases hr : c ∈ rest
      · rw [if_pos hr, if_pos (List.mem_cons_of_mem _ hr)]
      · rw [if_neg hr, if_neg (by simp [hc, hr])]

theorem fillFold_not_mem (dims : Dimensions) (cells : List CellIndex) :
    ∀ (cur : CellIndex → Int) (c : CellIndex), c ∉ cells →
      cells.foldl (fillStep dims) cur c = cur c := by
  induction cells with
  | nil => intro cur c _; rfl
  | cons idx rest ih =>
    intro cur c hc
    rw [List.mem_cons, not_or] at hc
    rw [List.foldl_cons, ih _ c hc.2]
    unfold fillStep
    by_cases hcond : cur idx ≠ WSHED ∧ cur idx ≠ INIT
    · rw [if_pos hcond, upd_other _ _ _ _ hc.1]
    · rw [if_neg hcond]

/-- C16 (as the code has it): `FillWatershedPixels` merges no watershed voxel into a basin.
Every voxel of the grid that is WSHED (or INIT) on entry ends with 1, whatever labels its
neighbours carry; every voxel of the grid ends with 0 or 1; a voxel with a basin label all
of whose in-grid 6-neighbours are WSHED, INIT or of its own label ends with 0; voxels
outside the grid are not touched. -/
theorem fill_mode_binary_mask (dims : Dimensions) (lab : CellIndex → Int) :
    (∀ c ∈ allCells dims, (lab c = WSHED ∨ lab c = INIT) →
      FillWatershedPixels dims lab c = 1) ∧
    (∀ c ∈ allCells dims,
      FillWatershedPixels dims lab c = 0 ∨ FillWatershedPixels dims lab c = 1) ∧
    (∀ c ∈ allCells dims, lab c ≠ WSHED → lab c ≠ INIT →
      (∀ n ∈ neighborCells dims c, lab n = WSHED ∨ lab n = INIT ∨ lab n = lab c) →
      FillWatershedPixels dims lab c = 0) ∧
    (∀ c, c ∉ allCells dims → FillWatershedPixels dims lab c = lab c) := by
  have hrel := fillFold_rel dims lab (allCells dims) lab (fun _ => Or.inl rfl)
  have hbin := binarizeFold_spec (allCells dims) (nodup_allCells dims)
    ((allCells dims).foldl (fillStep dims) lab)
  refine ⟨?_, ?_, ?_, ?_⟩
  · intro c hc hw
    unfold FillWatershedPixels
    rw [hbin c, if_pos hc]
    have h1 : (allCells dims).foldl (fillStep dims) lab c = lab c := by
      rcases hrel c with e | ⟨e1, e2, _⟩
      · exact e
      · rcases hw with hw | hw
        · exact absurd hw e1
        · exact absurd hw e2
    rw [h1, if_neg (by tauto)]
  · intro c hc
    unfold FillWatershedPixels
    rw [hbin c, if_pos hc]
    by_cases hcond : (allCells dims).foldl (fillStep dims) lab c ≠ WSHED ∧
        (allCells dims).foldl (fillStep dims) lab c ≠ INIT
    · left; rw [if_pos hcond]
    · right; rw [if_neg hcond]
  · intro c hc h1 h2 hagree
    unfold FillWatershedPixels
    rw [hbin c, if_pos hc,
      fillFold_agree dims lab c hagree (allCells dims) lab (fun _ => Or.inl rfl) rfl,
      if_pos ⟨h1, h2⟩]
  · intro c hc
    unfold FillWatershedPixels
    rw [hbin c, if_neg hc, fillFold_not_mem dims _ lab c hc]

/-- C16 as stated fails: in the field `[2, WSHED, 2]` the confirmed neighbours of the
watershed voxel all carry the basin label 2, yet `FillWatershedPixels` leaves it 1, not 2,
exactly as it leaves the watershed voxel of `[2, WSHED, 1]`, whose neighbours disagree. -/
theorem fill_mode_ignores_unanimous_label :
    unanimousLab ⟨1, 0, 0⟩ = WSHED ∧
    (neighborCells tieDims ⟨1, 0, 0⟩).map unanimousLab = [2, 2] ∧
    FillWatershedPixels tieDims unanimousLab ⟨1, 0, 0⟩ = 1 ∧
    FillWatershedPixels tieDims unanimousLab ⟨1, 0, 0⟩ ≠ 2 ∧
    (allCells tieDims).map (FillWatershedPixels tieDims unanimousLab) = [0, 1, 0] ∧
    (neighborCells tieDims ⟨1, 0, 0⟩).map tieLab = [2, 1] ∧
    (allCells tieDims).map (FillWatershedPixels tieDims tieLab) = [0, 1, 0] := by
  decide

theorem outside_eq_true (dims : Dimensions) (x y z : Int) :
    Outside dims x y z = true ↔
      (x < 0 ∨ y < 0 ∨ z < 0 ∨ x ≥ dims.d0 ∨ y ≥ dims.d1 ∨ z ≥ dims.d2) := by
  unfold Outside
  simp only [Bool.or_eq_true, decide_eq_true_eq]
  tauto

/-- A successful propagation leaves the queue empty. -/
theorem propagate_queue_nil (dims : Dimensions) :
    ∀ (fuel : Nat) (cd : Int) (s r : FloodState), propagate dims fuel cd s = .ok r →
      r.queue = [] := by
  intro fuel
  induction fuel with
  | zero => intro cd s r h; simp [propagate] at h
  | succ fuel ih =>
    intro cd s r h
    rw [propagate_succ] at h
    cases hq : s.queue with
    | nil => simp [hq] at h
    | cons idx q =>
      simp only [hq] at h
      by_cases hx : idx.x = -1
      · simp only [hx, if_true] at h
        cases q with
        | nil =>
          simp only at h
          injection h with h
          rw [← h]
        | cons idx2 q2 =>
          simp only [bind_eq_ok] at h
          obtain ⟨a, _, hr⟩ := h
          exact ih _ _ _ hr
      · simp only [hx, if_false] at h
        simp only [bind_eq_ok] at h
        obtain ⟨a, _, hr⟩ := h
        exact ih _ _ _ hr

/-- A successful basin fill leaves the queue empty. -/
theorem fillBasin_queue_nil (dims : Dimensions) :
    ∀ (fuel : Nat) (s r : FloodState), fillBasin dims fuel s = .ok r → r.queue = [] := by
  intro fuel
  induction fuel with
  | zero =>
    intro s r h
    cases hq : s.queue with
    | nil =>
      rw [fillBasin_nil _ _ _ hq] at h
      injection h with h
      rw [← h, hq]
    | cons idx q => rw [fillBasin_cons_zero _ _ _ _ hq] at h; simp at h
  | succ n ih =>
    intro s r h
    cases hq : s.queue with
    | nil =>
      rw [fillBasin_nil _ _ _ hq] at h
      injection h with h
      rw [← h, hq]
    | cons idx q =>
      rw [fillBasin_cons_succ _ _ _ _ _ hq] at h
      exact ih _ _ h

/-- The basin fill takes only voxels of the grid from a queue that holds only voxels of the
grid. -/
theorem fillVisits_inGrid (dims : Dimensions) :
    ∀ (fuel : Nat) (s : FloodState), (∀ c ∈ s.queue, c ∈ allCells dims) →
      ∀ c ∈ fillVisits dims fuel s, c ∈ allCells dims := by
  intro fuel
  induction fuel with
  | zero => intro s _ c hc; simp [fillVisits] at hc
  | succ n ih =>
    intro s hq c hc
    rw [fillVisits] at hc
    cases hqs : s.queue with
    | nil => simp [hqs] at hc
    | cons idx q =>
      simp only [hqs] at hc
      rw [hqs] at hq
      rcases List.mem_cons.mp hc with hc | hc
      · rw [hc]; exact hq idx (List.mem_cons_self _ _)
      · refine ih _ ?_ c hc
        obtain ⟨_, _, _, fq⟩ := fillFold_spec (neighborCells dims idx) { s with queue := q }
          (nodup_neighborCells dims idx)
        rw [fq]
        intro x hx
        rcases List.mem_append.mp hx with hx | hx
        · exact hq x (List.mem_cons_of_mem _ hx)
        · exact neighbor_mem_allCells dims idx x (List.mem_filter.mp hx).1

/-- The fills of the new-minima loop take only voxels of the grid from the queue. -/
theorem newMinimaVisits_inGrid (dims : Dimensions) (fuel : Nat) :
    ∀ (level : List CellIndex) (s : FloodState), (∀ c ∈ level, c ∈ allCells dims) →
      s.queue = [] → ∀ c ∈ newMinimaVisits dims fuel level s, c ∈ allCells dims := by
  intro level
  induction level with
  | nil => intro s _ _ c hc; simp [newMinimaVisits] at hc
  | cons idx rest ih =>
    intro s hlev hq c hc
    rw [newMinimaVisits] at hc
    rcases List.mem_append.mp hc with hc | hc
    · simp only at hc
      by_cases hm : s.lab idx = MASK
      · rw [if_pos hm] at hc
        refine fillVisits_inGrid dims fuel _ ?_ c hc
        intro x hx
        simp only [hq, List.nil_append, List.mem_singleton] at hx
        rw [hx]; exact hlev idx (List.mem_cons_self _ _)
      · rw [if_neg hm] at hc; simp at hc
    · cases hn : newMinimum dims fuel s idx with
      | error e => rw [hn] at hc; simp at hc
      | ok s1 =>
        rw [hn] at hc
        simp only at hc
        refine ih s1 (fun x hx => hlev x (List.mem_cons_of_mem _ hx)) ?_ c hc
        unfold newMinimum at hn
        by_cases hm : s.lab idx = MASK
        · simp only [hm, if_true] at hn
          exact fillBasin_queue_nil dims fuel _ _ hn
        · simp only [hm, if_false] at hn
          injection hn with hn
          rw [← hn]; exact hq

theorem countedLabels_congr (dims : Dimensions) (lab lab1 : CellIndex → Int) (idx : CellIndex)
    (h : ∀ c ∈ allCells dims, lab c = lab1 c) :
    countedLabels dims lab idx = countedLabels dims lab1 idx := by
  unfold countedLabels
  congr 1
  exact List.map_congr_left (fun n hn => h n (neighbor_mem_allCells dims idx n hn))

/-- One visit of `RemoveWatershedPixels` reads labels inside the grid only. -/
theorem removeStep_congr (dims : Dimensions) (lab lab1 : CellIndex → Int) (flag : Bool)
    (idx : CellIndex) (hidx : idx ∈ allCells dims) (h : ∀ c ∈ allCells dims, lab c = lab1 c) :
    (∀ c ∈ allCells dims,
      (removeStep dims (lab, flag) idx).1 c = (removeStep dims (lab1, flag) idx).1 c) ∧
    (removeStep dims (lab, flag) idx).2 = (removeStep dims (lab1, flag) idx).2 := by
  have hc := countedLabels_congr dims lab lab1 idx h
  by_cases hw : lab idx = WSHED
  · have hw1 : lab1 idx = WSHED := by rw [← h idx hidx]; exact hw
    rw [removeStep_wshed dims lab flag idx hw, removeStep_wshed dims lab1 flag idx hw1,
      countNeighbors_eq, countNeighbors_eq, hc]
    refine ⟨fun c hcg => ?_, rfl⟩
    simp only
    by_cases hb : (bestOf ((countedLabels dims lab1 idx).foldl counterAdd [])).2 > 0
    · rw [if_pos hb, if_pos hb]
      by_cases hci : c = idx
      · rw [hci, upd_same, upd_same]
      · rw [upd_other _ _ _ _ hci, upd_other _ _ _ _ hci]; exact h c hcg
    · rw [if_neg hb, if_neg hb]; exact h c hcg
  · have hw1 : lab1 idx ≠ WSHED := by rw [← h idx hidx]; exact hw
    rw [removeStep_not_wshed dims lab flag idx hw, removeStep_not_wshed dims lab1 flag idx hw1]
    exact ⟨h, rfl⟩

theorem removeFold_congr (dims : Dimensions) (cells : List CellIndex)
    (hcells : ∀ c ∈ cells, c ∈ allCells dims) :
    ∀ (lab lab1 : CellIndex → Int) (flag : Bool), (∀ c ∈ allCells dims, lab c = lab1 c) →
      (∀ c ∈ allCells dims, (cells.foldl (removeStep dims) (lab, flag)).1 c =
        (cells.foldl (removeStep dims) (lab1, flag)).1 c) ∧
      (cells.foldl (removeStep dims) (lab, flag)).2 =
        (cells.foldl (removeStep dims) (lab1, flag)).2 := by
  induction cells with
  | nil => intro lab lab1 flag h; exact ⟨h, rfl⟩
  | cons idx rest ih =>
    intro lab lab1 flag h
    rw [List.foldl_cons, List.foldl_cons]
    obtain ⟨h1, h2⟩ := removeStep_congr dims lab lab1 flag idx
      (hcells idx (List.mem_cons_self _ _)) h
    have e1 : removeStep dims (lab, flag) idx =
        ((removeStep dims (lab, flag) idx).1, (removeStep dims (lab, flag) idx).2) := rfl
    have e2 : removeStep dims (lab1, flag) idx =
        ((removeStep dims (lab1, flag) idx).1, (removeStep dims (lab, flag) idx).2) := by
      rw [h2]
    rw [e1, e2]
    exact ih (fun c hc => hcells c (List.mem_cons_of_mem _ hc)) _ _ _ h1

/-- `RemoveWatershedPixels` reads and writes labels inside the grid only: on label fields
that agree on the grid it behaves alike, and it leaves every label outside the grid. -/
theorem removeWatershed_congr (dims : Dimensions) :
    ∀ (fuel : Nat) (lab lab1 r : CellIndex → Int), (∀ c ∈ allCells dims, lab c = lab1 c) →
      RemoveWatershedPixels dims fuel lab = .ok r →
      (∀ c, c ∉ allCells dims → r c = lab c) ∧
      ∃ r1, RemoveWatershedPixels dims fuel lab1 = .ok r1 ∧ ∀ c ∈ allCells dims, r c = r1 c := by
  intro fuel
  induction fuel with
  | zero => intro lab lab1 r _ h; simp [RemoveWatershedPixels] at h
  | succ n ih =>
    intro lab lab1 r hagree h
    obtain ⟨h1, h2⟩ := removeFold_congr dims (allCells dims) (fun _ hc => hc) lab lab1 false hagree
    have hout : ∀ c, c ∉ allCells dims → (removePass dims lab).1 c = lab c :=
      fun c hc => removeFold_not_mem dims (allCells dims) lab false c hc
    rw [RemoveWatershedPixels] at h ⊢
    by_cases hf : (removePass dims lab).2 = true
    · have hf1 : (removePass dims lab1).2 = true := by
        unfold removePass at hf ⊢; rw [← h2]; exact hf
      rw [if_pos hf] at h
      rw [if_pos hf1]
      obtain ⟨g1, g2⟩ := ih _ (removePass dims lab1).1 r h1 h
      exact ⟨fun c hc => (g1 c hc).trans (hout c hc), g2⟩
    · have hf1 : ¬ (removePass dims lab1).2 = true := by
        unfold removePass at hf ⊢; rw [← h2]; exact hf
      rw [if_neg hf] at h
      rw [if_neg hf1]
      injection h with h
      subst h
      exact ⟨hout, _, rfl, h1⟩

theorem fillMark_congr (lab lab1 : CellIndex → Int) (mark : Int) (ns : List CellIndex)
    (h : ∀ n ∈ ns, lab n = lab1 n) : fillMark lab mark ns = fillMark lab1 mark ns := by
  induction ns with
  | nil => rfl
  | cons n ns ih =>
    rw [fillMark, fillMark, h n (List.mem_cons_self _ _),
      ih (fun x hx => h x (List.mem_cons_of_mem _ hx))]

theorem fillFold_congr (dims : Dimensions) (cells : List CellIndex)
    (hcells : ∀ c ∈ cells, c ∈ allCells dims) :
    ∀ (lab lab1 : CellIndex → Int), (∀ c ∈ allCells dims, lab c = lab1 c) →
      ∀ c ∈ allCells dims,
        cells.foldl (fillStep dims) lab c = cells.foldl (fillStep dims) lab1 c := by
  induction cells with
  | nil => intro lab lab1 h; exact h
  | cons idx rest ih =>
    intro lab lab1 h
    rw [List.foldl_cons, List.foldl_cons]
    refine ih (fun c hc => hcells c (List.mem_cons_of_mem _ hc)) _ _ ?_
    intro c hc
    have hidx := h idx (hcells idx (List.mem_cons_self _ _))
    unfold fillStep
    rw [← hidx, fillMark_congr lab lab1 (lab idx) (neighborCells dims idx)
      (fun n hn => h n (neighbor_mem_allCells dims idx n hn))]
    by_cases hcond : lab idx ≠ WSHED ∧ lab idx ≠ INIT
    · rw [if_pos hcond, if_pos hcond]
      by_cases hci : c = idx
      · rw [hci, upd_same, upd_same]
      · rw [upd_other _ _ _ _ hci, upd_other _ _ _ _ hci]; exact h c hc
    · rw [if_neg hcond, if_neg hcond]; exact h c hc

/-- `FillWatershedPixels` reads labels inside the grid only. -/
theorem fillWatershed_congr (dims : Dimensions) (lab lab1 : CellIndex → Int)
    (h : ∀ c ∈ allCells dims, lab c = lab1 c) :
    ∀ c ∈ allCells dims, FillWatershedPixels dims lab c = FillWatershedPixels dims lab1 c := by
  intro c hc
  unfold FillWatershedPixels
  rw [binarizeFold_spec (allCells dims) (nodup_allCells dims),
    binarizeFold_spec (allCells dims) (nodup_allCells dims), if_pos hc, if_pos hc,
    fillFold_congr dims (allCells dims) (fun _ hx => hx) lab lab1 h c hc]

theorem fillWatershed_outside (dims : Dimensions) (lab : CellIndex → Int) (c : CellIndex)
    (hc : c ∉ allCells dims) : FillWatershedPixels dims lab c = lab c := by
  unfold FillWatershedPixels
  rw [binarizeFold_spec (allCells dims) (nodup_allCells dims), if_neg hc,
    fillFold_not_mem dims _ lab c hc]

/-- C15: `Outside(x, y, z)` holds exactly when a coordinate is negative or not below its
dimension; the cells of the triple loops are the cells that are not `Outside`; the
neighbour loops reach exactly the cells `idx + dire[k]`, `k < 6`, that are not `Outside`,
so only cells of the grid.  For a height-sorted `cellOrder`, whatever the fuel: the entries
of `cellOrder` are in the grid, and at every level the loop reaches, every voxel the
propagation takes from the queue to examine its neighbours is in the grid (it is not the
sentinel), the queue then holds the sentinel and voxels of the grid only, every voxel the
basin fills take from the queue is in the grid, and no label or distance outside the grid
has been written.  `RemoveWatershedPixels` and `FillWatershedPixels` give, on the grid,
the same result on label fields that agree on the grid, and leave the labels outside the
grid as they were. -/
theorem lookups_inside_grid {H : Type} [LinearOrder H] (dims : Dimensions)
    (ftleValues : CellIndex → H) (cellOrder : List CellIndex)
    (hsort : IsHeightOrder dims ftleValues cellOrder) (fuel : Nat) :
    (∀ x y z : Int, Outside dims x y z = true ↔
      (x < 0 ∨ y < 0 ∨ z < 0 ∨ x ≥ dims.d0 ∨ y ≥ dims.d1 ∨ z ≥ dims.d2)) ∧
    (∀ c, c ∈ allCells dims ↔ Outside dims c.x c.y c.z = false) ∧
    (∀ idx n, n ∈ neighborCells dims idx ↔
      Outside dims n.x n.y n.z = false ∧
        (n = ⟨idx.x + -1, idx.y + 0, idx.z + 0⟩ ∨ n = ⟨idx.x + 1, idx.y + 0, idx.z + 0⟩ ∨
         n = ⟨idx.x + 0, idx.y + -1, idx.z + 0⟩ ∨ n = ⟨idx.x + 0, idx.y + 1, idx.z + 0⟩ ∨
         n = ⟨idx.x + 0, idx.y + 0, idx.z + -1⟩ ∨ n = ⟨idx.x + 0, idx.y + 0, idx.z + 1⟩)) ∧
    (∀ c ∈ cellOrder, c ∈ allCells dims) ∧
    (∀ n idx tl s, LoopAt dims ftleValues fuel cellOrder n (idx :: tl) s →
      (∀ c ∈ levelOf ftleValues idx tl, c ∈ allCells dims) ∧
      (∀ v ∈ propagateVisits dims fuel 1 (afterMasking dims s (levelOf ftleValues idx tl)),
        v.idx ∈ allCells dims ∧ v.idx ≠ FICTITIOUS ∧
        ∀ q ∈ v.before.queue, q = FICTITIOUS ∨ q ∈ allCells dims) ∧
      (∀ s2, propagate dims fuel 1 (afterMasking dims s (levelOf ftleValues idx tl)) = .ok s2 →
        ∀ c ∈ newMinimaVisits dims fuel (levelOf ftleValues idx tl) s2, c ∈ allCells dims) ∧
      (∀ c, c ∉ allCells dims → s.lab c = INIT ∧ s.dist c = 0)) ∧
    (∀ (fuel1 : Nat) (lab lab1 r : CellIndex → Int), (∀ c ∈ allCells dims, lab c = lab1 c) →
      RemoveWatershedPixels dims fuel1 lab = .ok r →
      (∀ c, c ∉ allCells dims → r c = lab c) ∧
      ∃ r1, RemoveWatershedPixels dims fuel1 lab1 = .ok r1 ∧
        ∀ c ∈ allCells dims, r c = r1 c) ∧
    (∀ (lab lab1 : CellIndex → Int), (∀ c ∈ allCells dims, lab c = lab1 c) →
      (∀ c, c ∉ allCells dims → FillWatershedPixels dims lab c = lab c) ∧
      ∀ c ∈ allCells dims, FillWatershedPixels dims lab c = FillWatershedPixels dims lab1 c) := by
  refine ⟨outside_eq_true dims, mem_allCells dims, mem_neighborCells dims,
    fun c hc => hsort.1.mem_iff.mp hc, ?_, removeWatershed_congr dims, ?_⟩
  · intro n idx tl s hat
    have hs := LoopAt.levelStart dims ftleValues fuel cellOrder hsort.1 _ _ _ hat
    have hs1 : LevelStart dims
        (levelOf ftleValues idx tl ++ afterLevel ftleValues idx tl) s := by
      rw [levelOf_append]; exact hs
    have ctx := hs1.ctx dims _ _ s
    have hvis := LoopAt.visit_inv dims ftleValues cellOrder hsort fuel n idx tl s hat
    refine ⟨ctx.inGrid, ?_, ?_, fun c hc => ⟨hs.outside c hc, hs.dist_zero c⟩⟩
    · intro v hv
      obtain ⟨A, B, vinv, _, hq⟩ := hvis v hv
      have hfront : ∀ x ∈ v.idx :: A, x ∈ allCells dims :=
        fun x hx => ctx.inGrid x (vinv.front x hx).1
      have hvg := hfront v.idx (List.mem_cons_self _ _)
      refine ⟨hvg, ?_, ?_⟩
      · intro h
        have := inGrid_x_ne dims v.idx hvg
        rw [h] at this
        exact this rfl
      · intro q hqm
        rw [hq] at hqm
        rcases List.mem_append.mp hqm with h | h
        · exact Or.inr (hfront q (List.mem_cons_of_mem _ h))
        · rcases List.mem_cons.mp h with h | h
          · exact Or.inl h
          · exact Or.inr (ctx.inGrid q (vinv.back q h).1)
    · intro s2 hp2 c hc
      exact newMinimaVisits_inGrid dims fuel _ s2 ctx.inGrid
        (propagate_queue_nil dims fuel 1 _ s2 hp2) c hc
  · intro lab lab1 h
    exact ⟨fillWatershed_outside dims lab, fillWatershed_congr dims lab lab1 h⟩

theorem lookups_inside_grid_witness :
    (∀ x y z : Int, Outside unitDims x y z = true ↔
      (x < 0 ∨ y < 0 ∨ z < 0 ∨ x ≥ unitDims.d0 ∨ y ≥ unitDims.d1 ∨ z ≥ unitDims.d2)) ∧
    (∀ c, c ∈ allCells unitDims ↔ Outside unitDims c.x c.y c.z = false) ∧
    (∀ idx n, n ∈ neighborCells unitDims idx ↔
      Outside unitDims n.x n.y n.z = false ∧
        (n = ⟨idx.x + -1, idx.y + 0, idx.z + 0⟩ ∨ n = ⟨idx.x + 1, idx.y + 0, idx.z + 0⟩ ∨
         n = ⟨idx.x + 0, idx.y + -1, idx.z + 0⟩ ∨ n = ⟨idx.x + 0, idx.y + 1, idx.z + 0⟩ ∨
         n = ⟨idx.x + 0, idx.y + 0, idx.z + -1⟩ ∨ n = ⟨idx.x + 0, idx.y + 0, idx.z + 1⟩)) ∧
    (∀ c ∈ (allCells unitDims), c ∈ allCells unitDims) ∧
    (∀ n idx tl s, LoopAt unitDims flatHeights 2 (allCells unitDims) n (idx :: tl) s →
      (∀ c ∈ levelOf flatHeights idx tl, c ∈ allCells unitDims) ∧
      (∀ v ∈ propagateVisits unitDims 2 1 (afterMasking unitDims s (levelOf flatHeights idx tl)),
        v.idx ∈ allCells unitDims ∧ v.idx ≠ FICTITIOUS ∧
        ∀ q ∈ v.before.queue, q = FICTITIOUS ∨ q ∈ allCells unitDims) ∧
      (∀ s2, propagate unitDims 2 1 (afterMasking unitDims s (levelOf flatHeights idx tl)) = .ok s2
          →
        ∀ c ∈ newMinimaVisits unitDims 2 (levelOf flatHeights idx tl) s2, c ∈ allCells unitDims) ∧
      (∀ c, c ∉ allCells unitDims → s.lab c = INIT ∧ s.dist c = 0)) ∧
    (∀ (fuel1 : Nat) (lab lab1 r : CellIndex → Int), (∀ c ∈ allCells unitDims, lab c = lab1 c) →
      RemoveWatershedPixels unitDims fuel1 lab = .ok r →
      (∀ c, c ∉ allCells unitDims → r c = lab c) ∧
      ∃ r1, RemoveWatershedPixels unitDims fuel1 lab1 = .ok r1 ∧
        ∀ c ∈ allCells unitDims, r c = r1 c) ∧
    (∀ (lab lab1 : CellIndex → Int), (∀ c ∈ allCells unitDims, lab c = lab1 c) →
      (∀ c, c ∉ allCells unitDims → FillWatershedPixels unitDims lab c = lab c) ∧
      ∀ c ∈ allCells unitDims, FillWatershedPixels unitDims lab c = FillWatershedPixels unitDims
          lab1 c) :=
  lookups_inside_grid unitDims flatHeights (allCells unitDims)
    ⟨List.Perm.refl _, by decide⟩ 2

/-- A positive result of the label fold is the start label or the label of a neighbour. -/
theorem relabel_fold_mem (ls : List Int) :
    ∀ cur : Int, 0 < ls.foldl relabel cur →
      ls.foldl relabel cur = cur ∨ ls.foldl relabel cur ∈ ls := by
  induction ls with
  | nil => intro cur _; exact Or.inl rfl
  | cons nb ls ih =>
    intro cur hpos
    rw [List.foldl_cons] at hpos ⊢
    rcases ih _ hpos with h | h
    · rw [h] at hpos ⊢
      unfold relabel at hpos ⊢
      by_cases h1 : nb > 0
      · simp only [h1, if_true] at hpos ⊢
        by_cases h2 : cur = MASK ∨ cur = WSHED
        · simp only [h2, if_true]
          exact Or.inr (List.mem_cons_self _ _)
        · simp only [h2, if_false] at hpos ⊢
          by_cases h3 : cur ≠ nb
          · simp only [h3, ne_eq, not_false_eq_true, if_true] at hpos
            simp [WSHED] at hpos
          · simp only [h3, if_false]
            exact Or.inl trivial
      · simp only [h1, if_false] at hpos ⊢
        by_cases h2 : cur = MASK
        · simp only [h2, if_true] at hpos
          simp [WSHED] at hpos
        · simp only [h2, if_false]
          exact Or.inl trivial
    · exact Or.inr (List.mem_cons_of_mem _ h)

theorem Descent.prepend {H : Type} [LinearOrder H] (dims : Dimensions)
    (ftleValues : CellIndex → H) (lab : CellIndex → Int) (l : Int) (a n b : CellIndex)
    (hn : n ∈ neighborCells dims a) (hl : lab n = l) (hle : ftleValues n ≤ ftleValues a)
    (h : Descent dims ftleValues lab l n b) : Descent dims ftleValues lab l a b := by
  induction h with
  | refl => exact Descent.step Descent.refl hn hl hle
  | step _ hn1 hl1 hle1 ih => exact Descent.step ih hn1 hl1 hle1

theorem Descent.mono {H : Type} [LinearOrder H] (dims : Dimensions)
    (ftleValues : CellIndex → H) (lab lab1 : CellIndex → Int) (l : Int) (a b : CellIndex)
    (hlab : ∀ x, lab x = l → lab1 x = l)
    (h : Descent dims ftleValues lab l a b) : Descent dims ftleValues lab1 l a b := by
  induction h with
  | refl => exact Descent.refl
  | step _ hn1 hl1 hle1 ih => exact Descent.step ih hn1 (hlab _ hl1) hle1

/-- The run of one level, from its success: the facts of `LoopAt.level_run` without a bound
on the fuel. -/
theorem LoopAt.level_of_ok {H : Type} [LinearOrder H] (dims : Dimensions)
    (ftleValues : CellIndex → H) (cellOrder : List CellIndex)
    (hsort : IsHeightOrder dims ftleValues cellOrder) (fuel : Nat) (n : Nat) (idx : CellIndex)
    (tl : List CellIndex) (s s3 : FloodState)
    (hat : LoopAt dims ftleValues fuel cellOrder n (idx :: tl) s)
    (hp : processLevel dims fuel (levelOf ftleValues idx tl) s = .ok s3) :
    ∃ s2 k,
      propagate dims fuel 1 (afterMasking dims s (levelOf ftleValues idx tl)) = .ok s2 ∧
      newMinima dims fuel (levelOf ftleValues idx tl) s2 = .ok s3 ∧
      LevelCtx dims (levelOf ftleValues idx tl) s.lab s.curlab ∧
      PropInv dims (levelOf ftleValues idx tl) s.lab s.curlab k [] [] s2 ∧
      FedLabels dims (levelOf ftleValues idx tl) s2 ∧
      LevelPost dims (levelOf ftleValues idx tl) s s2 s3 ∧
      LevelStart dims (afterLevel ftleValues idx tl) s3 := by
  have hs := LoopAt.levelStart dims ftleValues fuel cellOrder hsort.1 _ _ _ hat
  have happ := levelOf_append ftleValues idx tl
  have hs1 : LevelStart dims (levelOf ftleValues idx tl ++ afterLevel ftleValues idx tl) s := by
    rw [happ]; exact hs
  have ctx := hs1.ctx dims _ _ s
  have hJ0 : FedLabels dims (levelOf ftleValues idx tl)
      (maskLevel dims s (levelOf ftleValues idx tl)) := by
    intro c hcL hc
    rw [(maskLevel_spec dims _ s.curlab s ctx).2.1 c, if_pos hcL] at hc
    simp [MASK] at hc
  have hp0 := hp
  unfold processLevel at hp0
  simp only [bind_eq_ok] at hp0
  obtain ⟨s2, hp2, hp3⟩ := hp0
  obtain ⟨⟨k, inv, _⟩, hJ2⟩ := Outcome.of_ok _ _ _ s2 hp2
    (levelPropagate_outcome_with dims fuel _ _ s hs1
      (FedLabels dims (levelOf ftleValues idx tl)) (fun _ _ h => h)
      (fun k i A B s0 q sv inv hJ hv =>
        visit_fedLabels dims _ s.lab s.curlab k i A B s0 q sv ctx inv hJ hv) hJ0)
  obtain ⟨hs3, s2', hp2', _, post⟩ := Outcome.of_ok _ _ _ s3 hp
    (processLevel_outcome dims fuel _ _ s (levelOf_ne_nil ftleValues idx tl) hs1)
  have he : s2' = s2 := by
    have := hp2'.symm.trans hp2
    injection this
  subst he
  exact ⟨s2', k, hp2, hp3, ctx, inv, hJ2, post, hs3⟩

/-- At a level start, the flooded voxels of the grid are the voxels strictly lower than the
level. -/
theorem LoopAt.flooded_iff_lower {H : Type} [LinearOrder H] (dims : Dimensions)
    (ftleValues : CellIndex → H) (cellOrder : List CellIndex)
    (hsort : IsHeightOrder dims ftleValues cellOrder) (fuel : Nat) (n : Nat) (idx : CellIndex)
    (tl : List CellIndex) (s : FloodState)
    (hat : LoopAt dims ftleValues fuel cellOrder n (idx :: tl) s)
    (c : CellIndex) (hc : c ∈ allCells dims) :
    (0 ≤ s.lab c ↔ ftleValues c < ftleValues idx) ∧
    (c ∉ idx :: tl ↔ ftleValues c < ftleValues idx) := by
  have hs := LoopAt.levelStart dims ftleValues fuel cellOrder hsort.1 _ _ _ hat
  obtain ⟨pre, hco, hlt⟩ := LoopAt.sorted dims ftleValues fuel cellOrder hsort _ _ _ hat
  obtain ⟨hsorted, _⟩ := LoopAt.rest_sorted dims ftleValues fuel cellOrder hsort _ _ _ hat
  have hmem : c ∈ pre ++ idx :: tl := by rw [← hco]; exact hsort.1.mem_iff.mpr hc
  have hrest : c ∈ idx :: tl → ¬ ftleValues c < ftleValues idx := by
    intro h
    rcases List.mem_cons.mp h with h | h
    · rw [h]; exact lt_irrefl _
    · exact (List.pairwise_cons.mp hsorted).1 c h
  have hiff : c ∉ idx :: tl ↔ ftleValues c < ftleValues idx := by
    constructor
    · intro h
      rcases List.mem_append.mp hmem with h1 | h1
      · exact hlt c h1 idx (List.mem_cons_self _ _)
      · exact absurd h1 h
    · intro h h1
      exact hrest h1 h
  refine ⟨?_, hiff⟩
  rw [← hiff]
  constructor
  · intro h0 hr
    rw [hs.pending c hr] at h0
    simp [INIT] at h0
  · intro hr
    exact (hs.settled c hc hr).1

/-- At a level the loop reaches, the voxels of the level left MASK by the propagation (the
new minima) are the voxels of the level that lie in a regional minimum. -/
theorem LoopAt.mask_iff_regMin {H : Type} [LinearOrder H] (dims : Dimensions)
    (ftleValues : CellIndex → H) (cellOrder : List CellIndex)
    (hsort : IsHeightOrder dims ftleValues cellOrder) (fuel : Nat) (n : Nat) (idx : CellIndex)
    (tl : List CellIndex) (s s2 s3 : FloodState)
    (hat : LoopAt dims ftleValues fuel cellOrder n (idx :: tl) s)
    (post : LevelPost dims (levelOf ftleValues idx tl) s s2 s3)
    (c : CellIndex) (hcL : c ∈ levelOf ftleValues idx tl) :
    s2.lab c = MASK ↔ RegMin dims ftleValues c := by
  have hmem := LoopAt.mem_level_iff dims ftleValues fuel cellOrder hsort n idx tl s hat
  have hch : ftleValues c = ftleValues idx := ((hmem c).mp hcL).2
  rw [post.mask_iff c hcL]
  constructor
  · intro hno d hreach x hx hlt
    apply hno
    have hdh : ftleValues d = ftleValues c :=
      Reach.target dims (fun y => ftleValues y = ftleValues c) c d hreach rfl
    refine ⟨d, Reach.mono_grid dims _ _ (fun y hy hyh => (hmem y).mpr ⟨hy, hyh.trans hch⟩) c d
      hreach, ?_⟩
    rw [hasFloodedNeighbor_iff]
    refine ⟨x, hx, ?_⟩
    have hxg := neighbor_mem_allCells dims d x hx
    exact (LoopAt.flooded_iff_lower dims ftleValues cellOrder hsort fuel n idx tl s hat x hxg).1.mpr
      (by rw [← hch, ← hdh]; exact hlt)
  · rintro hmin ⟨d, hreach, hfl⟩
    rw [hasFloodedNeighbor_iff] at hfl
    obtain ⟨x, hx, hx0⟩ := hfl
    have hxg := neighbor_mem_allCells dims d x hx
    have hxlt := (LoopAt.flooded_iff_lower dims ftleValues cellOrder hsort fuel n idx tl s hat
      x hxg).1.mp hx0
    have hdL : d ∈ levelOf ftleValues idx tl :=
      Reach.target dims (fun y => y ∈ levelOf ftleValues idx tl) c d hreach hcL
    have hdh : ftleValues d = ftleValues idx := ((hmem d).mp hdL).2
    have hreach2 : Reach dims (fun y => ftleValues y = ftleValues c) c d :=
      Reach.mono_pred dims _ _ (fun y hy => ((hmem y).mp hy).2.trans hch.symm) c d hreach
    exact hmin d hreach2 x hx (by rw [hdh]; exact hxlt)

/-- A voxel that had a basin label when the level started keeps its descent when the level
ends. -/
theorem BasinInv.keep_descent {H : Type} [LinearOrder H] (dims : Dimensions)
    (ftleValues : CellIndex → H) (L rest : List CellIndex) (s s3 : FloodState)
    (binv : BasinInv dims ftleValues rest s)
    (hinit : ∀ c ∈ L, s.lab c = INIT) (hframe : ∀ c, c ∉ L → s3.lab c = s.lab c)
    (c : CellIndex) (hc : c ∈ allCells dims) (hpos : 0 < s.lab c) :
    ∃ m ∈ allCells dims, RegMin dims ftleValues m ∧ s3.lab m = s.lab c ∧
      Descent dims ftleValues s3.lab (s.lab c) c m := by
  obtain ⟨m, hm, hmin, hlm, hdesc⟩ := binv.descends c hc hpos
  have hkeep : ∀ x, s.lab x = s.lab c → s3.lab x = s.lab c := by
    intro x hx
    have hxL : x ∉ L := by
      intro h
      rw [hinit x h] at hx
      rw [← hx] at hpos
      simp [INIT] at hpos
    rw [hframe x hxL, hx]
  exact ⟨m, hm, hmin, hkeep m hlm, Descent.mono dims ftleValues s.lab s3.lab _ c m hkeep hdesc⟩

/-- Every voxel of the level that the propagation gave a basin label descends, through
voxels of that label, to a voxel of a regional minimum with that label. -/
theorem level_descends {H : Type} [LinearOrder H] (dims : Dimensions)
    (ftleValues : CellIndex → H) (cellOrder : List CellIndex)
    (hsort : IsHeightOrder dims ftleValues cellOrder) (fuel : Nat) (n : Nat) (idx : CellIndex)
    (tl : List CellIndex) (s s2 s3 : FloodState) (k : Int)
    (hat : LoopAt dims ftleValues fuel cellOrder n (idx :: tl) s)
    (binv : BasinInv dims ftleValues (idx :: tl) s)
    (ctx : LevelCtx dims (levelOf ftleValues idx tl) s.lab s.curlab)
    (inv : PropInv dims (levelOf ftleValues idx tl) s.lab s.curlab k [] [] s2)
    (fed : FedLabels dims (levelOf ftleValues idx tl) s2)
    (post : LevelPost dims (levelOf ftleValues idx tl) s s2 s3)
    (hframe : ∀ c, c ∉ levelOf ftleValues idx tl → s3.lab c = s.lab c) :
    ∀ (j : Nat) (c : CellIndex), c ∈ levelOf ftleValues idx tl → s2.dist c ≤ (j : Int) →
      0 < s2.lab c →
      ∃ m ∈ allCells dims, RegMin dims ftleValues m ∧ s3.lab m = s2.lab c ∧
        Descent dims ftleValues s3.lab (s2.lab c) c m := by
  have hmem := LoopAt.mem_level_iff dims ftleValues fuel cellOrder hsort n idx tl s hat
  have hdist : ∀ c ∈ levelOf ftleValues idx tl, 0 < s2.lab c → 1 ≤ s2.dist c := by
    intro c hcL hpos
    have h0 : s2.dist c ≠ 0 := by
      intro h0
      rw [inv.untouched c hcL h0] at hpos
      simp [MASK] at hpos
    exact (inv.settled c hcL h0 (by simp) (by simp)).2.2.1
  intro j
  induction j with
  | zero =>
    intro c hcL hle hpos
    have := hdist c hcL hpos
    simp only [Nat.cast_zero] at hle
    omega
  | succ j ih =>
    intro c hcL hle hpos
    have hfold := fed c hcL (le_of_lt hpos)
    have hpos2 := hpos
    rw [hfold] at hpos2
    rcases relabel_fold_mem _ MASK hpos2 with h | h
    · rw [h] at hpos2; simp [MASK] at hpos2
    · rw [← hfold] at h
      obtain ⟨x, hx, hxl⟩ := List.mem_map.mp h
      have hxf := List.mem_filter.mp hx
      have hxn : x ∈ neighborCells dims c := hxf.1
      have hxd := hxf.2
      simp only [decide_eq_true_eq] at hxd
      have hxg := neighbor_mem_allCells dims c x hxn
      have hch : ftleValues c = ftleValues idx := ((hmem c).mp hcL).2
      by_cases hxL : x ∈ levelOf ftleValues idx tl
      · have hxpos : 0 < s2.lab x := by rw [hxl]; exact hpos
        obtain ⟨m, hm, hmin, hlm, hdesc⟩ := ih x hxL (by rw [hxd.1]; push_cast at hle; omega) hxpos
        rw [hxl] at hlm hdesc
        refine ⟨m, hm, hmin, hlm, ?_⟩
        refine Descent.prepend dims ftleValues s3.lab _ c x m hxn ?_ ?_ hdesc
        · rw [post.keep x (by rw [hxl]; intro h; rw [h] at hpos; simp [MASK] at hpos), hxl]
        · rw [((hmem x).mp hxL).2, hch]
      · have hxs : s.lab x = s2.lab c := by rw [← post.frame2 x hxL, hxl]
        have hxpos : 0 < s.lab x := by rw [hxs]; exact hpos
        obtain ⟨m, hm, hmin, hlm, hdesc⟩ := binv.keep_descent dims ftleValues
          (levelOf ftleValues idx tl) (idx :: tl) s s3 ctx.init hframe x hxg hxpos
        rw [hxs] at hlm hdesc
        refine ⟨m, hm, hmin, hlm, ?_⟩
        refine Descent.prepend dims ftleValues s3.lab _ c x m hxn ?_ ?_ hdesc
        · rw [hframe x hxL, hxs]
        · rw [hch]
          exact le_of_lt ((LoopAt.flooded_iff_lower dims ftleValues cellOrder hsort fuel n idx tl
            s hat x hxg).1.mp (le_of_lt hxpos))

/-- The basin invariant passes from a level start to the next. -/
theorem basinInv_next {H : Type} [LinearOrder H] (dims : Dimensions)
    (ftleValues : CellIndex → H) (cellOrder : List CellIndex)
    (hsort : IsHeightOrder dims ftleValues cellOrder) (fuel : Nat) (n : Nat) (idx : CellIndex)
    (tl : List CellIndex) (s s3 : FloodState)
    (hat : LoopAt dims ftleValues fuel cellOrder n (idx :: tl) s)
    (hp : processLevel dims fuel (levelOf ftleValues idx tl) s = .ok s3)
    (binv : BasinInv dims ftleValues (idx :: tl) s) :
    BasinInv dims ftleValues (afterLevel ftleValues idx tl) s3 := by
  obtain ⟨s2, k, _, _, ctx, inv, fed, post, _⟩ :=
    LoopAt.level_of_ok dims ftleValues cellOrder hsort fuel n idx tl s s3 hat hp
  have hs := LoopAt.levelStart dims ftleValues fuel cellOrder hsort.1 _ _ _ hat
  have happ := levelOf_append ftleValues idx tl
  have hs1 : LevelStart dims (levelOf ftleValues idx tl ++ afterLevel ftleValues idx tl) s := by
    rw [happ]; exact hs
  have hframe : ∀ c, c ∉ levelOf ftleValues idx tl → s3.lab c = s.lab c :=
    fun c hc => post.frame dims _ _ s s2 s3 hs1 c hc
  have hmem := LoopAt.mem_level_iff dims ftleValues fuel cellOrder hsort n idx tl s hat
  have hmask := fun c hc =>
    LoopAt.mask_iff_regMin dims ftleValues cellOrder hsort fuel n idx tl s s2 s3 hat post c hc
  have hlow := LoopAt.flooded_iff_lower dims ftleValues cellOrder hsort fuel n idx tl s hat
  have hproc : ∀ c, c ∉ afterLevel ftleValues idx tl → c ∉ levelOf ftleValues idx tl →
      c ∉ idx :: tl := by
    intro c h1 h2 h3
    rw [← happ] at h3
    rcases List.mem_append.mp h3 with h | h
    · exact h2 h
    · exact h1 h
  have hfresh : ∀ c ∈ levelOf ftleValues idx tl, RegMin dims ftleValues c →
      s.curlab < s3.lab c := fun c hc hmin => (post.fresh c ((hmask c hc).mpr hmin)).1
  have hold : ∀ c ∈ allCells dims, c ∉ idx :: tl → s3.lab c ≤ s.curlab := by
    intro c hc hr
    have hcL : c ∉ levelOf ftleValues idx tl :=
      fun h => hr (by rw [← happ]; exact List.mem_append_left _ h)
    rw [hframe c hcL]
    exact (hs.settled c hc hr).2
  constructor
  · intro c hc hpos
    by_cases hcL : c ∈ levelOf ftleValues idx tl
    · by_cases hm : s2.lab c = MASK
      · exact ⟨c, hc, (hmask c hcL).mp hm, rfl, Descent.refl⟩
      · have hk := post.keep c hm
        rw [hk] at hpos ⊢
        have hd : 0 ≤ s2.dist c := by
          by_cases h0 : s2.dist c = 0
          · omega
          · have := (inv.settled c hcL h0 (by simp) (by simp)).2.2.1
            omega
        exact level_descends dims ftleValues cellOrder hsort fuel n idx tl s s2 s3 k hat binv
          ctx inv fed post hframe (s2.dist c).toNat c hcL (by omega) hpos
    · rw [hframe c hcL] at hpos ⊢
      exact binv.keep_descent dims ftleValues (levelOf ftleValues idx tl) (idx :: tl) s s3
        ctx.init hframe c hc hpos
  · intro m hm hr hmin
    by_cases hmL : m ∈ levelOf ftleValues idx tl
    · have := hfresh m hmL hmin
      have := hs.curlab_nonneg
      omega
    · rw [hframe m hmL]
      exact binv.minima_pos m hm (hproc m hr hmL) hmin
  · intro m1 hm1 m2 hm2 hr1 hr2 hmin1 hmin2
    by_cases h1 : m1 ∈ levelOf ftleValues idx tl
    · have e1 : ftleValues m1 = ftleValues idx := ((hmem m1).mp h1).2
      by_cases h2 : m2 ∈ levelOf ftleValues idx tl
      · rw [post.comp m1 m2 ((hmask m1 h1).mpr hmin1) ((hmask m2 h2).mpr hmin2)]
        constructor
        · exact Reach.mono_pred dims _ _ (fun y hy => ((hmem y).mp hy).2.trans e1.symm) m1 m2
        · exact Reach.mono_grid dims _ _ (fun y hy hyh => (hmem y).mpr ⟨hy, hyh.trans e1⟩) m1 m2
      · have hlt := hfresh m1 h1 hmin1
        have hle := hold m2 hm2 (hproc m2 hr2 h2)
        constructor
        · intro h; omega
        · intro hreach
          exfalso
          have e2 : ftleValues m2 = ftleValues m1 :=
            Reach.target dims (fun y => ftleValues y = ftleValues m1) m1 m2 hreach rfl
          have := (hlow m2 hm2).2.mp (hproc m2 hr2 h2)
          rw [e2, e1] at this
          exact lt_irrefl _ this
    · by_cases h2 : m2 ∈ levelOf ftleValues idx tl
      · have e2 : ftleValues m2 = ftleValues idx := ((hmem m2).mp h2).2
        have hlt := hfresh m2 h2 hmin2
        have hle := hold m1 hm1 (hproc m1 hr1 h1)
        constructor
        · intro h; omega
        · intro hreach
          exfalso
          have e3 : ftleValues m2 = ftleValues m1 :=
            Reach.target dims (fun y => ftleValues y = ftleValues m1) m1 m2 hreach rfl
          have := (hlow m1 hm1).2.mp (hproc m1 hr1 h1)
          rw [← e3, e2] at this
          exact lt_irrefl _ this
      · rw [hframe m1 h1, hframe m2 h2]
        exact binv.minima_sep m1 hm1 m2 hm2 (hproc m1 hr1 h1) (hproc m2 hr2 h2) hmin1 hmin2

/-- The basin invariant holds at every level start the loop reaches. -/
theorem LoopAt.basinInv {H : Type} [LinearOrder H] (dims : Dimensions)
    (ftleValues : CellIndex → H) (cellOrder : List CellIndex)
    (hsort : IsHeightOrder dims ftleValues cellOrder) (fuel : Nat) (n : Nat)
    (rest : List CellIndex) (s : FloodState)
    (h : LoopAt dims ftleValues fuel cellOrder n rest s) :
    BasinInv dims ftleValues rest s := by
  induction h with
  | start =>
    constructor
    · intro c _ hpos
      simp [initState, INIT] at hpos
    · intro m hm hr
      exact absurd (hsort.1.mem_iff.mpr hm) hr
    · intro m1 hm1 _ _ hr1
      exact absurd (hsort.1.mem_iff.mpr hm1) hr1
  | @next n idx tl s s1 hat hp ih =>
    exact basinInv_next dims ftleValues cellOrder hsort fuel (n + 1) idx tl s s1 hat hp ih

theorem Descent.to_label_reach {H : Type} [LinearOrder H] (dims : Dimensions)
    (ftleValues : CellIndex → H) (lab : CellIndex → Int) (l : Int) (a b : CellIndex)
    (h : Descent dims ftleValues lab l a b) : Reach dims (fun x => lab x = l) a b := by
  induction h with
  | refl => exact Reach.refl _
  | step _ hn hl _ ih => exact Reach.step ih hn hl

/-- The plateau of a processed regional minimum carries one label. -/
theorem BasinInv.plateau {H : Type} [LinearOrder H] (dims : Dimensions)
    (ftleValues : CellIndex → H) (s : FloodState) (binv : BasinInv dims ftleValues [] s)
    (m : CellIndex) (hm : m ∈ allCells dims) (hmin : RegMin dims ftleValues m)
    (x : CellIndex) (h : Reach dims (fun y => ftleValues y = ftleValues m) m x) :
    x ∈ allCells dims ∧ RegMin dims ftleValues x ∧ s.lab x = s.lab m ∧
      Reach dims (fun y => s.lab y = s.lab m) m x := by
  induction h with
  | refl => exact ⟨hm, hmin, rfl, Reach.refl _⟩
  | @step b n hb hn hnh ih =>
    have hng := neighbor_mem_allCells dims b n hn
    have hreach : Reach dims (fun y => ftleValues y = ftleValues m) m n := Reach.step hb hn hnh
    have hnmin : RegMin dims ftleValues n := by
      intro d hd
      have hd1 : Reach dims (fun y => ftleValues y = ftleValues m) n d :=
        Reach.mono_pred dims _ _ (fun y hy => hy.trans hnh) n d hd
      exact hmin d (Reach.trans dims _ m n d hreach hd1)
    have hlab : s.lab n = s.lab m :=
      (binv.minima_sep m hm n hng (by simp) (by simp) hmin hnmin).mpr hreach
    exact ⟨hng, hnmin, hlab, Reach.step ih.2.2.2 hn hlab⟩

/-- Labels given by a level are final. -/
theorem LoopAt.label_final {H : Type} [LinearOrder H] (dims : Dimensions)
    (ftleValues : CellIndex → H) (cellOrder : List CellIndex)
    (hsort : IsHeightOrder dims ftleValues cellOrder) (fuel : Nat) (n : Nat)
    (rest : List CellIndex) (s r : FloodState)
    (hat : LoopAt dims ftleValues fuel cellOrder n rest s)
    (hr : FloodEngine dims ftleValues fuel cellOrder = .ok r) (c : CellIndex) (hc : c ∉ rest) :
    r.lab c = s.lab c := by
  have hs := LoopAt.levelStart dims ftleValues fuel cellOrder hsort.1 _ _ _ hat
  have heq := LoopAt.floodLoop_eq dims ftleValues fuel cellOrder n rest s hat
  rw [hr] at heq
  exact (Outcome.of_ok _ _ _ r heq (floodLoop_outcome dims ftleValues fuel n rest s hs)).2.1 c hc

/-- C18: with `d0 * d1 * d2 + 1` fuel the Flood Engine, on a height-sorted `cellOrder`,
ends in a state `r` in which every voxel of the grid with a basin label is joined to a voxel
of a regional minimum carrying that label by a path of 6-adjacent voxels that all carry the
label and are never higher than the voxel before them; every voxel of a regional minimum has
a basin label, and two of them share a label exactly when they lie in the same plateau, so a
basin holds exactly one minimum; any two voxels of a basin are joined by 6-adjacent voxels
of the basin.  At every level the loop reaches, the voxels left MASK by the propagation
(the minima discovered there) are the voxels of the level that lie in a regional minimum,
and the label they get above the old counter is their label in `r`. -/
theorem basins_descend_to_minima {H : Type} [LinearOrder H] (dims : Dimensions)
    (ftleValues : CellIndex → H) (cellOrder : List CellIndex)
    (hsort : IsHeightOrder dims ftleValues cellOrder) (fuel : Nat)
    (hfuel : dims.d0 * dims.d1 * dims.d2 + 1 ≤ fuel) :
    ∃ r, FloodEngine dims ftleValues fuel cellOrder = .ok r ∧
      (∀ c ∈ allCells dims, 0 < r.lab c →
        ∃ m ∈ allCells dims, RegMin dims ftleValues m ∧ r.lab m = r.lab c ∧
          Descent dims ftleValues r.lab (r.lab c) c m) ∧
      (∀ m ∈ allCells dims, RegMin dims ftleValues m → 0 < r.lab m) ∧
      (∀ m1 ∈ allCells dims, ∀ m2 ∈ allCells dims,
        RegMin dims ftleValues m1 → RegMin dims ftleValues m2 →
        (r.lab m2 = r.lab m1 ↔ Reach dims (fun x => ftleValues x = ftleValues m1) m1 m2)) ∧
      (∀ c ∈ allCells dims, ∀ d ∈ allCells dims, 0 < r.lab c → r.lab d = r.lab c →
        Reach dims (fun x => r.lab x = r.lab c) c d) ∧
      (∀ n idx tl s, LoopAt dims ftleValues fuel cellOrder (n + 1) (idx :: tl) s →
        ∃ s2 s3,
          propagate dims fuel 1 (afterMasking dims s (levelOf ftleValues idx tl)) = .ok s2 ∧
          newMinima dims fuel (levelOf ftleValues idx tl) s2 = .ok s3 ∧
          ∀ c ∈ levelOf ftleValues idx tl,
            (s2.lab c = MASK ↔ RegMin dims ftleValues c) ∧
            (s2.lab c = MASK → s.curlab < s3.lab c) ∧ r.lab c = s3.lab c) := by
  obtain ⟨r, hr, hst⟩ := Outcome.exists_ok _ _ _
    (FloodEngine_outcome dims ftleValues fuel cellOrder hsort.1) hfuel
  obtain ⟨m0, hend⟩ := LoopAt.final dims ftleValues fuel cellOrder fuel cellOrder initState r
    LoopAt.start hr
  have binv := LoopAt.basinInv dims ftleValues cellOrder hsort fuel m0 [] r hend
  have hsep : ∀ m1 ∈ allCells dims, ∀ m2 ∈ allCells dims,
      RegMin dims ftleValues m1 → RegMin dims ftleValues m2 →
      (r.lab m2 = r.lab m1 ↔ Reach dims (fun x => ftleValues x = ftleValues m1) m1 m2) :=
    fun m1 hm1 m2 hm2 h1 h2 => binv.minima_sep m1 hm1 m2 hm2 (by simp) (by simp) h1 h2
  refine ⟨r, hr, binv.descends, fun m hm hmin => binv.minima_pos m hm (by simp) hmin, hsep,
    ?_, ?_⟩
  · intro c hc d hd hpos hdc
    obtain ⟨mc, hmc, hminc, hlc, hdescc⟩ := binv.descends c hc hpos
    obtain ⟨md, hmd, hmind, hld, hdescd⟩ := binv.descends d hd (by rw [hdc]; exact hpos)
    rw [hdc] at hld hdescd
    have hgrid : ∀ x, r.lab x = r.lab c → x ∈ allCells dims := by
      intro x hx
      by_contra hxg
      rw [hst.outside x hxg] at hx
      rw [← hx] at hpos
      simp [INIT] at hpos
    have h1 := Descent.to_label_reach dims ftleValues r.lab _ c mc hdescc
    have h2 := Descent.to_label_reach dims ftleValues r.lab _ d md hdescd
    have h3 := Reach.symm dims _ hgrid d md hdc h2
    have hplat := (hsep mc hmc md hmd hminc hmind).mp (by rw [hld, hlc])
    have h4 := (binv.plateau dims ftleValues r mc hmc hminc md hplat).2.2.2
    rw [hlc] at h4
    exact Reach.trans dims _ c mc d h1 (Reach.trans dims _ mc md d h4 h3)
  · intro n idx tl s hat
    obtain ⟨s2, s3, k, hp2, hp3, _, _, _, _, post, hs3, hnext⟩ :=
      LoopAt.level_run dims ftleValues cellOrder hsort fuel hfuel n idx tl s hat
    have hs := LoopAt.levelStart dims ftleValues fuel cellOrder hsort.1 _ _ _ hat
    have hnd : (levelOf ftleValues idx tl ++ afterLevel ftleValues idx tl).Nodup := by
      rw [levelOf_append]; exact hs.rest_nodup
    refine ⟨s2, s3, hp2, hp3, fun c hcL => ⟨?_, fun hm => (post.fresh c hm).1, ?_⟩⟩
    · exact LoopAt.mask_iff_regMin dims ftleValues cellOrder hsort fuel (n + 1) idx tl s s2 s3
        hat post c hcL
    · exact LoopAt.label_final dims ftleValues cellOrder hsort fuel n _ s3 r hnext hr c
        (fun h => (List.nodup_append.mp hnd).2.2 hcL h)

theorem basins_descend_to_minima_witness :
    ∃ r, FloodEngine saddleDims saddleHeights 8 saddleOrder = .ok r ∧
      (∀ c ∈ allCells saddleDims, 0 < r.lab c →
        ∃ m ∈ allCells saddleDims, RegMin saddleDims saddleHeights m ∧ r.lab m = r.lab c ∧
          Descent saddleDims saddleHeights r.lab (r.lab c) c m) ∧
      (∀ m ∈ allCells saddleDims, RegMin saddleDims saddleHeights m → 0 < r.lab m) ∧
      (∀ m1 ∈ allCells saddleDims, ∀ m2 ∈ allCells saddleDims,
        RegMin saddleDims saddleHeights m1 → RegMin saddleDims saddleHeights m2 →
        (r.lab m2 = r.lab m1 ↔ Reach saddleDims (fun x => saddleHeights x = saddleHeights m1) m1
            m2)) ∧
      (∀ c ∈ allCells saddleDims, ∀ d ∈ allCells saddleDims, 0 < r.lab c → r.lab d = r.lab c →
        Reach saddleDims (fun x => r.lab x = r.lab c) c d) ∧
      (∀ n idx tl s, LoopAt saddleDims saddleHeights 8 saddleOrder (n + 1) (idx :: tl) s →
        ∃ s2 s3,
          propagate saddleDims 8 1 (afterMasking saddleDims s (levelOf saddleHeights idx tl)) = .ok
              s2 ∧
          newMinima saddleDims 8 (levelOf saddleHeights idx tl) s2 = .ok s3 ∧
          ∀ c ∈ levelOf saddleHeights idx tl,
            (s2.lab c = MASK ↔ RegMin saddleDims saddleHeights c) ∧
            (s2.lab c = MASK → s.curlab < s3.lab c) ∧ r.lab c = s3.lab c) :=
  basins_descend_to_minima saddleDims saddleHeights saddleOrder saddleOrder_isHeightOrder 8
    (by decide)

theorem Hops.weaken_pred (dims : Dimensions) (M N : CellIndex → Prop) (hMN : ∀ c, M c → N c)
    (a : CellIndex) (m : Nat) (b : CellIndex) (h : Hops dims M a m b) : Hops dims N a m b := by
  induction h with
  | refl => exact Hops.refl
  | step _ hn hM ih => exact Hops.step ih hn (hMN _ hM)

/-- The geodesic distance depends on the level only through its voxels, and on the label
field of the level start only through the voxels that have a flooded neighbour. -/
theorem IsGeodesic.congr (dims : Dimensions) (L1 L2 : List CellIndex)
    (lab1 lab2 : CellIndex → Int) (hL : ∀ c, c ∈ L1 ↔ c ∈ L2)
    (hfl : ∀ d, hasFloodedNeighbor dims lab1 d = hasFloodedNeighbor dims lab2 d)
    (c : CellIndex) (g : Int) (h : IsGeodesic dims L1 lab1 c g) :
    IsGeodesic dims L2 lab2 c g := by
  obtain ⟨⟨m, d, hg, hd, hops⟩, hmin⟩ := h
  refine ⟨⟨m, d, hg, ⟨(hL d).mp hd.1, by rw [← hfl d]; exact hd.2⟩,
    Hops.weaken_pred dims _ _ (fun x hx => (hL x).mp hx) d m c hops⟩, ?_⟩
  intro m1 d1 hd1 hops1
  exact hmin m1 d1 ⟨(hL d1).mpr hd1.1, by rw [hfl d1]; exact hd1.2⟩
    (Hops.weaken_pred dims _ _ (fun x hx => (hL x).mpr hx) d1 m1 c hops1)

/-- Two propagations over the same voxels, from label fields with the same flooded voxels,
end with the same distances on the level. -/
theorem PropInv.dist_eq (dims : Dimensions) (L1 L2 : List CellIndex)
    (lab1 lab2 : CellIndex → Int) (cl1 cl2 k1 k2 : Int) (s1 s2 : FloodState)
    (ctx1 : LevelCtx dims L1 lab1 cl1) (ctx2 : LevelCtx dims L2 lab2 cl2)
    (inv1 : PropInv dims L1 lab1 cl1 k1 [] [] s1) (inv2 : PropInv dims L2 lab2 cl2 k2 [] [] s2)
    (hL : ∀ c, c ∈ L1 ↔ c ∈ L2)
    (hfl : ∀ d, hasFloodedNeighbor dims lab1 d = hasFloodedNeighbor dims lab2 d)
    (c : CellIndex) : s1.dist c = s2.dist c := by
  by_cases hc : c ∈ L1
  · have hc2 := (hL c).mp hc
    by_cases h0 : s1.dist c = 0
    · rw [h0]
      symm
      rw [inv2.untouched_iff dims L2 lab2 cl2 k2 s2 ctx2 c hc2]
      rintro ⟨m, d, hd, hops⟩
      exact (inv1.untouched_iff dims L1 lab1 cl1 k1 s1 ctx1 c hc).mp h0
        ⟨m, d, ⟨(hL d).mpr hd.1, by rw [hfl d]; exact hd.2⟩,
          Hops.weaken_pred dims _ _ (fun x hx => (hL x).mpr hx) d m c hops⟩
    · have g1 := inv1.dist_geodesic dims L1 lab1 cl1 k1 [] [] s1 ctx1 c hc h0
      have g1' := IsGeodesic.congr dims L1 L2 lab1 lab2 hL hfl c _ g1
      have h02 : s2.dist c ≠ 0 := by
        intro h
        obtain ⟨⟨m, d, _, hd, hops⟩, _⟩ := g1'
        exact (inv2.untouched_iff dims L2 lab2 cl2 k2 s2 ctx2 c hc2).mp h ⟨m, d, hd, hops⟩
      have g2 := inv2.dist_geodesic dims L2 lab2 cl2 k2 [] [] s2 ctx2 c hc2 h02
      exact IsGeodesic.unique dims L2 lab2 c _ _ g1' g2
  · have hc2 : c ∉ L2 := fun h => hc ((hL c).mpr h)
    rw [(inv1.frame c hc).2, (inv2.frame c hc2).2]

/-- The label fold on two lists of labels that are tied pair by pair gives tied labels:
`T` relates labels of the two runs, is compatible with equality and with being a basin
label, and holds labels that are not negative. -/
theorem relabel_fold_tied (T : Int → Int → Prop) (hT0 : T 0 0)
    (hcoh : ∀ u v u1 v1, T u v → T u1 v1 → (u = u1 ↔ v = v1) ∧ 0 ≤ u ∧ 0 ≤ v)
    (la lb : CellIndex → Int) (F : List CellIndex) (hF : ∀ n ∈ F, T (la n) (lb n)) :
    ∀ u v : Int, ((u = MASK ∧ v = MASK) ∨ T u v) →
      (((F.map la).foldl relabel u = MASK ∧ (F.map lb).foldl relabel v = MASK) ∨
        T ((F.map la).foldl relabel u) ((F.map lb).foldl relabel v)) := by
  induction F with
  | nil => intro u v h; exact h
  | cons n F ih =>
    intro u v h
    rw [List.map_cons, List.map_cons, List.foldl_cons, List.foldl_cons]
    apply ih (fun x hx => hF x (List.mem_cons_of_mem _ hx))
    have hn := hF n (List.mem_cons_self _ _)
    obtain ⟨hn0, hna, hnb⟩ := hcoh _ _ _ _ hn hT0
    have hpos : 0 < la n ↔ 0 < lb n := by
      constructor
      · intro h1
        have : ¬ lb n = 0 := fun h2 => by have := hn0.mpr h2; omega
        omega
      · intro h1
        have : ¬ la n = 0 := fun h2 => by have := hn0.mp h2; omega
        omega
    unfold relabel
    rcases h with ⟨hu, hv⟩ | h
    · subst hu; subst hv
      by_cases hp : 0 < la n
      · have hp2 := hpos.mp hp
        simp only [gt_iff_lt, hp, hp2, if_true, true_or]
        exact Or.inr hn
      · have hp2 : ¬ 0 < lb n := fun h2 => hp (hpos.mpr h2)
        have e1 : la n = 0 := by omega
        have e2 : lb n = 0 := by omega
        simp only [gt_iff_lt, hp, hp2, if_false, if_true, WSHED]
        exact Or.inr hT0
    · obtain ⟨hu0, hua, hva⟩ := hcoh _ _ _ _ h hT0
      obtain ⟨heq, _, _⟩ := hcoh _ _ _ _ h hn
      have huM : u ≠ MASK := by simp only [MASK]; omega
      have hvM : v ≠ MASK := by simp only [MASK]; omega
      by_cases hp : 0 < la n
      · have hp2 := hpos.mp hp
        simp only [gt_iff_lt, hp, hp2, if_true, huM, hvM, false_or, WSHED]
        by_cases hz : u = 0
        · have hz2 := hu0.mp hz
          simp only [hz, hz2, if_true]
          exact Or.inr hn
        · have hz2 : ¬ v = 0 := fun h2 => hz (hu0.mpr h2)
          simp only [hz, hz2, if_false]
          by_cases he : u = la n
          · have he2 := heq.mp he
            simp only [he, he2, ne_eq, not_true_eq_false, if_false]
            rw [← he, ← he2]
            exact Or.inr h
          · have he2 : ¬ v = lb n := fun h2 => he (heq.mpr h2)
            simp only [ne_eq, he, he2, not_false_eq_true, if_true]
            exact Or.inr hT0
      · have hp2 : ¬ 0 < lb n := fun h2 => hp (hpos.mpr h2)
        simp only [gt_iff_lt, hp, hp2, if_false, huM, hvM]
        exact Or.inr h

/-- Two runs that have the same voxels left reach tie levels with the same voxels, and have
the same voxels left after them. -/
theorem two_runs_same_level {H : Type} [LinearOrder H] (dims : Dimensions)
    (ftleValues : CellIndex → H) (o1 o2 : List CellIndex)
    (hsort1 : IsHeightOrder dims ftleValues o1) (hsort2 : IsHeightOrder dims ftleValues o2)
    (f1 f2 n1 n2 : Nat) (idx1 idx2 : CellIndex) (tl1 tl2 : List CellIndex)
    (s1 s2 : FloodState)
    (hat1 : LoopAt dims ftleValues f1 o1 n1 (idx1 :: tl1) s1)
    (hat2 : LoopAt dims ftleValues f2 o2 n2 (idx2 :: tl2) s2)
    (hmem : ∀ c, c ∈ idx1 :: tl1 ↔ c ∈ idx2 :: tl2) :
    ftleValues idx1 = ftleValues idx2 ∧
    (∀ c, c ∈ levelOf ftleValues idx1 tl1 ↔ c ∈ levelOf ftleValues idx2 tl2) ∧
    (∀ c, c ∈ afterLevel ftleValues idx1 tl1 ↔ c ∈ afterLevel ftleValues idx2 tl2) ∧
    (∀ c, c ∈ afterLevel ftleValues idx1 tl1 ↔
      c ∈ idx1 :: tl1 ∧ c ∉ levelOf ftleValues idx1 tl1) := by
  obtain ⟨hsorted1, _⟩ := LoopAt.rest_sorted dims ftleValues f1 o1 hsort1 _ _ _ hat1
  obtain ⟨hsorted2, _⟩ := LoopAt.rest_sorted dims ftleValues f2 o2 hsort2 _ _ _ hat2
  have hmin1 : ∀ c ∈ idx1 :: tl1, ftleValues idx1 ≤ ftleValues c := by
    intro c hc
    rcases List.mem_cons.mp hc with h | h
    · rw [h]
    · exact not_lt.mp ((List.pairwise_cons.mp hsorted1).1 c h)
  have hmin2 : ∀ c ∈ idx2 :: tl2, ftleValues idx2 ≤ ftleValues c := by
    intro c hc
    rcases List.mem_cons.mp hc with h | h
    · rw [h]
    · exact not_lt.mp ((List.pairwise_cons.mp hsorted2).1 c h)
  have hh : ftleValues idx1 = ftleValues idx2 :=
    le_antisymm (hmin1 idx2 ((hmem idx2).mpr (List.mem_cons_self _ _)))
      (hmin2 idx1 ((hmem idx1).mp (List.mem_cons_self _ _)))
  have hl1 := LoopAt.mem_level_iff dims ftleValues f1 o1 hsort1 n1 idx1 tl1 s1 hat1
  have hl2 := LoopAt.mem_level_iff dims ftleValues f2 o2 hsort2 n2 idx2 tl2 s2 hat2
  have hL : ∀ c, c ∈ levelOf ftleValues idx1 tl1 ↔ c ∈ levelOf ftleValues idx2 tl2 := by
    intro c
    rw [hl1 c, hl2 c, hh]
  have hafter : ∀ (f : Nat) (o : List CellIndex) (n : Nat) (idx : CellIndex)
      (tl : List CellIndex) (s : FloodState), IsHeightOrder dims ftleValues o →
      LoopAt dims ftleValues f o n (idx :: tl) s →
      ∀ c, c ∈ afterLevel ftleValues idx tl ↔ c ∈ idx :: tl ∧ c ∉ levelOf ftleValues idx tl := by
    intro f o n idx tl s hsort hat c
    have hs := LoopAt.levelStart dims ftleValues f o hsort.1 _ _ _ hat
    have hnd : (levelOf ftleValues idx tl ++ afterLevel ftleValues idx tl).Nodup := by
      rw [levelOf_append]; exact hs.rest_nodup
    have happ := levelOf_append ftleValues idx tl
    constructor
    · intro h
      exact ⟨by rw [← happ]; exact List.mem_append_right _ h,
        fun h1 => (List.nodup_append.mp hnd).2.2 h1 h⟩
    · rintro ⟨h1, h2⟩
      rw [← happ] at h1
      rcases List.mem_append.mp h1 with h | h
      · exact absurd h h2
      · exact h
  refine ⟨hh, hL, ?_, hafter f1 o1 n1 idx1 tl1 s1 hsort1 hat1⟩
  intro c
  rw [hafter f1 o1 n1 idx1 tl1 s1 hsort1 hat1 c, hafter f2 o2 n2 idx2 tl2 s2 hsort2 hat2 c,
    hmem c, hL c]

/-- After the propagation, a voxel of the level has a basin label or WSHED exactly when it
has been touched. -/
theorem PropInv.settled_iff (dims : Dimensions) (L : List CellIndex) (lab0 : CellIndex → Int)
    (cl k : Int) (s : FloodState) (inv : PropInv dims L lab0 cl k [] [] s)
    (c : CellIndex) (hc : c ∈ L) : 0 ≤ s.lab c ↔ s.dist c ≠ 0 := by
  constructor
  · intro h h0
    rw [inv.untouched c hc h0] at h
    simp [MASK] at h
  · intro h0
    exact (inv.settled c hc h0 (by simp) (by simp)).1

/-- Two propagations over the same voxels, from label fields that are tied outside the
level, give every touched voxel of the level tied labels. -/
theorem two_runs_tied (dims : Dimensions) (L1 L2 : List CellIndex)
    (lab1 lab2 : CellIndex → Int) (cl1 cl2 k1 k2 : Int) (a b : FloodState)
    (ctx1 : LevelCtx dims L1 lab1 cl1) (ctx2 : LevelCtx dims L2 lab2 cl2)
    (inv1 : PropInv dims L1 lab1 cl1 k1 [] [] a) (inv2 : PropInv dims L2 lab2 cl2 k2 [] [] b)
    (fed1 : FedLabels dims L1 a) (fed2 : FedLabels dims L2 b)
    (hL : ∀ c, c ∈ L1 ↔ c ∈ L2)
    (hfl0 : ∀ n ∈ allCells dims, (0 ≤ lab1 n ↔ 0 ≤ lab2 n))
    (T : Int → Int → Prop) (hT0 : T 0 0)
    (hcoh : ∀ u v u1 v1, T u v → T u1 v1 → (u = u1 ↔ v = v1) ∧ 0 ≤ u ∧ 0 ≤ v)
    (hold : ∀ n ∈ allCells dims, n ∉ L1 → 0 ≤ lab1 n → T (lab1 n) (lab2 n)) :
    ∀ (j : Nat) (c : CellIndex), c ∈ L1 → a.dist c ≤ (j : Int) → 0 ≤ a.lab c →
      T (a.lab c) (b.lab c) := by
  have hfl : ∀ d, hasFloodedNeighbor dims lab1 d = hasFloodedNeighbor dims lab2 d :=
    fun d => hasFloodedNeighbor_congr dims lab2 lab1 d
      (fun n hn => hfl0 n (neighbor_mem_allCells dims d n hn))
  have hdist : ∀ c, a.dist c = b.dist c :=
    PropInv.dist_eq dims L1 L2 lab1 lab2 cl1 cl2 k1 k2 a b ctx1 ctx2 inv1 inv2 hL hfl
  have hnonneg : ∀ n ∈ allCells dims, (0 ≤ a.lab n ↔ 0 ≤ b.lab n) := by
    intro n hn
    by_cases hnL : n ∈ L1
    · rw [inv1.settled_iff dims L1 lab1 cl1 k1 a n hnL,
        inv2.settled_iff dims L2 lab2 cl2 k2 b n ((hL n).mp hnL), hdist n]
    · have hnL2 : n ∉ L2 := fun h => hnL ((hL n).mpr h)
      rw [(inv1.frame n hnL).1, (inv2.frame n hnL2).1]
      exact hfl0 n hn
  have hfeed : ∀ c, feeders dims a c = feeders dims b c := by
    intro c
    unfold feeders
    apply List.filter_congr
    intro n hn
    have := hnonneg n (neighbor_mem_allCells dims c n hn)
    rw [hdist n, hdist c]
    simp only [decide_eq_decide]
    rw [this]
  intro j
  induction j with
  | zero =>
    intro c hc hle h0
    have h1 := (inv1.settled_iff dims L1 lab1 cl1 k1 a c hc).mp h0
    have h2 := (inv1.settled c hc h1 (by simp) (by simp)).2.2.1
    simp only [Nat.cast_zero] at hle
    omega
  | succ j ih =>
    intro c hc hle h0
    have hc2 := (hL c).mp hc
    have e1 := fed1 c hc h0
    have e2 := fed2 c hc2 ((hnonneg c (ctx1.inGrid c hc)).mp h0)
    rw [← hfeed c] at e2
    have hF : ∀ n ∈ feeders dims a c, T (a.lab n) (b.lab n) := by
      intro n hn
      have hnf := List.mem_filter.mp hn
      have hnd := hnf.2
      simp only [decide_eq_true_eq] at hnd
      have hng := neighbor_mem_allCells dims c n hnf.1
      by_cases hnL : n ∈ L1
      · exact ih n hnL (by rw [hnd.1]; push_cast at hle; omega) hnd.2
      · have hnL2 : n ∉ L2 := fun h => hnL ((hL n).mpr h)
        rw [(inv1.frame n hnL).1, (inv2.frame n hnL2).1]
        exact hold n hng hnL (by rw [← (inv1.frame n hnL).1]; exact hnd.2)
    rcases relabel_fold_tied T hT0 hcoh a.lab b.lab (feeders dims a c) hF MASK MASK
      (Or.inl ⟨rfl, rfl⟩) with ⟨h1, _⟩ | h1
    · rw [← e1] at h1
      rw [h1] at h0
      simp [MASK] at h0
    · rw [← e1, ← e2] at h1
      exact h1

/-- One level of two runs on the same scalar field: if the runs have the same voxels left
and have split the processed voxels alike, they have split them alike after the level. -/
theorem two_runs_level {H : Type} [LinearOrder H] (dims : Dimensions)
    (ftleValues : CellIndex → H) (o1 o2 : List CellIndex)
    (hsort1 : IsHeightOrder dims ftleValues o1) (hsort2 : IsHeightOrder dims ftleValues o2)
    (f1 f2 n1 n2 : Nat) (idx1 idx2 : CellIndex) (tl1 tl2 : List CellIndex)
    (s1 s2 t1 t2 : FloodState)
    (hat1 : LoopAt dims ftleValues f1 o1 n1 (idx1 :: tl1) s1)
    (hat2 : LoopAt dims ftleValues f2 o2 n2 (idx2 :: tl2) s2)
    (hp1 : processLevel dims f1 (levelOf ftleValues idx1 tl1) s1 = .ok t1)
    (hp2 : processLevel dims f2 (levelOf ftleValues idx2 tl2) s2 = .ok t2)
    (hmem : ∀ c, c ∈ idx1 :: tl1 ↔ c ∈ idx2 :: tl2)
    (hsplit : SameSplit dims (idx1 :: tl1) s1.lab s2.lab) :
    SameSplit dims (afterLevel ftleValues idx1 tl1) t1.lab t2.lab := by
  obtain ⟨hh, hL, _, hafter⟩ := two_runs_same_level dims ftleValues o1 o2 hsort1 hsort2
    f1 f2 n1 n2 idx1 idx2 tl1 tl2 s1 s2 hat1 hat2 hmem
  obtain ⟨a, k1, _, _, ctx1, inv1, fed1, post1, _⟩ :=
    LoopAt.level_of_ok dims ftleValues o1 hsort1 f1 n1 idx1 tl1 s1 t1 hat1 hp1
  obtain ⟨b, k2, _, _, ctx2, inv2, fed2, post2, _⟩ :=
    LoopAt.level_of_ok dims ftleValues o2 hsort2 f2 n2 idx2 tl2 s2 t2 hat2 hp2
  have hs1 := LoopAt.levelStart dims ftleValues f1 o1 hsort1.1 _ _ _ hat1
  have hs2 := LoopAt.levelStart dims ftleValues f2 o2 hsort2.1 _ _ _ hat2
  have hs1' : LevelStart dims
      (levelOf ftleValues idx1 tl1 ++ afterLevel ftleValues idx1 tl1) s1 := by
    rw [levelOf_append]; exact hs1
  have hs2' : LevelStart dims
      (levelOf ftleValues idx2 tl2 ++ afterLevel ftleValues idx2 tl2) s2 := by
    rw [levelOf_append]; exact hs2
  have hlow1 := LoopAt.flooded_iff_lower dims ftleValues o1 hsort1 f1 n1 idx1 tl1 s1 hat1
  have hlow2 := LoopAt.flooded_iff_lower dims ftleValues o2 hsort2 f2 n2 idx2 tl2 s2 hat2
  have hfl0 : ∀ n ∈ allCells dims, (0 ≤ s1.lab n ↔ 0 ≤ s2.lab n) := by
    intro n hn
    rw [(hlow1 n hn).1, (hlow2 n hn).1, hh]
  have hT0 : (fun (u v : Int) => (u = 0 ∧ v = 0) ∨
      ∃ x ∈ allCells dims, x ∉ idx1 :: tl1 ∧ s1.lab x = u ∧ s2.lab x = v) 0 0 :=
    Or.inl ⟨rfl, rfl⟩
  have hpair : ∀ x ∈ allCells dims, x ∉ idx1 :: tl1 →
      0 ≤ s1.lab x ∧ 0 ≤ s2.lab x ∧ (s1.lab x = 0 ↔ s2.lab x = 0) := by
    intro x hx hr
    exact ⟨(hs1.settled x hx hr).1, (hs2.settled x hx (fun h => hr ((hmem x).mpr h))).1,
      (hsplit x hx hr x hx hr).1⟩
  have hcoh : ∀ u v u1 v1,
      ((u = 0 ∧ v = 0) ∨ ∃ x ∈ allCells dims, x ∉ idx1 :: tl1 ∧ s1.lab x = u ∧ s2.lab x = v) →
      ((u1 = 0 ∧ v1 = 0) ∨
        ∃ x ∈ allCells dims, x ∉ idx1 :: tl1 ∧ s1.lab x = u1 ∧ s2.lab x = v1) →
      (u = u1 ↔ v = v1) ∧ 0 ≤ u ∧ 0 ≤ v := by
    intro u v u1 v1 h h1
    rcases h with ⟨hu, hv⟩ | ⟨x, hx, hxr, hxu, hxv⟩
    · subst hu; subst hv
      refine ⟨?_, le_refl _, le_refl _⟩
      rcases h1 with ⟨hu1, hv1⟩ | ⟨y, hy, hyr, hyu, hyv⟩
      · rw [hu1, hv1]
      · obtain ⟨_, _, hz⟩ := hpair y hy hyr
        subst hyu; subst hyv
        constructor
        · intro h; exact (hz.mp h.symm).symm
        · intro h; exact (hz.mpr h.symm).symm
    · obtain ⟨p1, p2, hz⟩ := hpair x hx hxr
      subst hxu; subst hxv
      refine ⟨?_, p1, p2⟩
      rcases h1 with ⟨hu1, hv1⟩ | ⟨y, hy, hyr, hyu, hyv⟩
      · rw [hu1, hv1]; exact hz
      · subst hyu; subst hyv
        exact (hsplit x hx hxr y hy hyr).2
  have hold : ∀ n ∈ allCells dims, n ∉ levelOf ftleValues idx1 tl1 → 0 ≤ s1.lab n →
      ((s1.lab n = 0 ∧ s2.lab n = 0) ∨
        ∃ x ∈ allCells dims, x ∉ idx1 :: tl1 ∧ s1.lab x = s1.lab n ∧ s2.lab x = s2.lab n) := by
    intro n hn _ h0
    refine Or.inr ⟨n, hn, ?_, rfl, rfl⟩
    intro hr
    rw [hs1.pending n hr] at h0
    simp [INIT] at h0
  have htied := two_runs_tied dims _ _ s1.lab s2.lab s1.curlab s2.curlab k1 k2 a b ctx1 ctx2
    inv1 inv2 fed1 fed2 hL hfl0 _ hT0 hcoh hold
  have hmask : ∀ c ∈ levelOf ftleValues idx1 tl1, (a.lab c = MASK ↔ b.lab c = MASK) := by
    intro c hc
    rw [LoopAt.mask_iff_regMin dims ftleValues o1 hsort1 f1 n1 idx1 tl1 s1 a t1 hat1 post1 c hc,
      LoopAt.mask_iff_regMin dims ftleValues o2 hsort2 f2 n2 idx2 tl2 s2 b t2 hat2 post2 c
        ((hL c).mp hc)]
  have hclass : ∀ c ∈ allCells dims, c ∉ afterLevel ftleValues idx1 tl1 →
      ((((t1.lab c = 0 ∧ t2.lab c = 0) ∨
          ∃ x ∈ allCells dims, x ∉ idx1 :: tl1 ∧ s1.lab x = t1.lab c ∧ s2.lab x = t2.lab c) ∧
        t1.lab c ≤ s1.curlab ∧ t2.lab c ≤ s2.curlab) ∨
      (c ∈ levelOf ftleValues idx1 tl1 ∧ a.lab c = MASK ∧ b.lab c = MASK)) := by
    intro c hc hca
    by_cases hcL : c ∈ levelOf ftleValues idx1 tl1
    · have hcL2 := (hL c).mp hcL
      by_cases hm : a.lab c = MASK
      · exact Or.inr ⟨hcL, hm, (hmask c hcL).mp hm⟩
      · have hm2 : b.lab c ≠ MASK := fun h => hm ((hmask c hcL).mpr h)
        left
        rw [post1.keep c hm, post2.keep c hm2]
        have r1 : 0 ≤ a.lab c ∧ a.lab c ≤ s1.curlab := by
          rcases post1.range2 c hcL with h | h
          · exact absurd h hm
          · exact h
        have r2 : 0 ≤ b.lab c ∧ b.lab c ≤ s2.curlab := by
          rcases post2.range2 c hcL2 with h | h
          · exact absurd h hm2
          · exact h
        exact ⟨htied (a.dist c).toNat c hcL (Int.self_le_toNat _) r1.1, r1.2, r2.2⟩
    · have hcL2 : c ∉ levelOf ftleValues idx2 tl2 := fun h => hcL ((hL c).mpr h)
      have hcr : c ∉ idx1 :: tl1 := fun h => hca ((hafter c).mpr ⟨h, hcL⟩)
      have hcr2 : c ∉ idx2 :: tl2 := fun h => hcr ((hmem c).mpr h)
      left
      rw [post1.frame dims _ _ s1 a t1 hs1' c hcL, post2.frame dims _ _ s2 b t2 hs2' c hcL2]
      exact ⟨Or.inr ⟨c, hc, hcr, rfl, rfl⟩, (hs1.settled c hc hcr).2, (hs2.settled c hc hcr2).2⟩
  have hnew : ∀ c, a.lab c = MASK → b.lab c = MASK →
      s1.curlab < t1.lab c ∧ s2.curlab < t2.lab c :=
    fun c h1 h2 => ⟨(post1.fresh c h1).1, (post2.fresh c h2).1⟩
  have hcl1 := hs1.curlab_nonneg
  have hcl2 := hs2.curlab_nonneg
  intro c hc hca d hd hda
  rcases hclass c hc hca with ⟨hTc, hc1, hc2⟩ | ⟨hcL, hca1, hcb1⟩
  · have hzc := (hcoh _ _ _ _ hTc hT0).1
    rcases hclass d hd hda with ⟨hTd, hd1, hd2⟩ | ⟨hdL, hda1, hdb1⟩
    · exact ⟨hzc, (hcoh _ _ _ _ hTc hTd).1⟩
    · obtain ⟨g1, g2⟩ := hnew d hda1 hdb1
      refine ⟨hzc, ?_⟩
      constructor
      · intro h; omega
      · intro h; omega
  · obtain ⟨e1, e2⟩ := hnew c hca1 hcb1
    have hzc : t1.lab c = WSHED ↔ t2.lab c = WSHED := by
      simp only [WSHED]
      constructor
      · intro h; omega
      · intro h; omega
    refine ⟨hzc, ?_⟩
    rcases hclass d hd hda with ⟨hTd, hd1, hd2⟩ | ⟨hdL, hda1, hdb1⟩
    · constructor
      · intro h; omega
      · intro h; omega
    · have c1 := post1.comp c d hca1 hda1
      have c2 := post2.comp c d hcb1 hdb1
      have hreach : Reach dims (fun x => x ∈ levelOf ftleValues idx1 tl1) c d ↔
          Reach dims (fun x => x ∈ levelOf ftleValues idx2 tl2) c d :=
        ⟨Reach.mono_pred dims _ _ (fun x hx => (hL x).mp hx) c d,
          Reach.mono_pred dims _ _ (fun x hx => (hL x).mpr hx) c d⟩
      rw [eq_comm, c1, hreach, ← c2, eq_comm]

theorem floodLoop_nil {H : Type} [DecidableEq H] (dims : Dimensions)
    (ftleValues : CellIndex → H) (fuel n : Nat) (s : FloodState) :
    floodLoop dims ftleValues fuel n [] s = .ok s := by
  cases n <;> rfl

theorem floodLoop_zero_cons {H : Type} [DecidableEq H] (dims : Dimensions)
    (ftleValues : CellIndex → H) (fuel : Nat) (idx : CellIndex) (tl : List CellIndex)
    (s : FloodState) :
    floodLoop dims ftleValues fuel 0 (idx :: tl) s = .error Fault.outOfFuel := rfl

/-- Two runs of the Flood Engine on the same scalar field, from level starts with the same
voxels left and the processed voxels split alike, end with the grid split alike. -/
theorem two_runs {H : Type} [LinearOrder H] (dims : Dimensions)
    (ftleValues : CellIndex → H) (o1 o2 : List CellIndex)
    (hsort1 : IsHeightOrder dims ftleValues o1) (hsort2 : IsHeightOrder dims ftleValues o2)
    (f1 f2 : Nat) (r1 r2 : FloodState)
    (hr1 : FloodEngine dims ftleValues f1 o1 = .ok r1)
    (hr2 : FloodEngine dims ftleValues f2 o2 = .ok r2) :
    ∀ (m n1 n2 : Nat) (rest1 rest2 : List CellIndex) (s1 s2 : FloodState),
      rest1.length ≤ m →
      LoopAt dims ftleValues f1 o1 n1 rest1 s1 → LoopAt dims ftleValues f2 o2 n2 rest2 s2 →
      (∀ c, c ∈ rest1 ↔ c ∈ rest2) → SameSplit dims rest1 s1.lab s2.lab →
      SameSplit dims [] r1.lab r2.lab := by
  intro m
  induction m with
  | zero =>
    intro n1 n2 rest1 rest2 s1 s2 hlen hat1 hat2 hmem hsplit
    have e1 : rest1 = [] := List.length_eq_zero.mp (Nat.le_zero.mp hlen)
    have e2 : rest2 = [] := by
      apply List.eq_nil_iff_forall_not_mem.mpr
      intro c hc
      have := (hmem c).mpr hc
      rw [e1] at this
      simp at this
    subst e1; subst e2
    have g1 := LoopAt.floodLoop_eq dims ftleValues f1 o1 n1 [] s1 hat1
    have g2 := LoopAt.floodLoop_eq dims ftleValues f2 o2 n2 [] s2 hat2
    rw [floodLoop_nil, hr1] at g1
    rw [floodLoop_nil, hr2] at g2
    injection g1 with g1
    injection g2 with g2
    rw [← g1, ← g2]
    exact hsplit
  | succ m ih =>
    intro n1 n2 rest1 rest2 s1 s2 hlen hat1 hat2 hmem hsplit
    cases rest1 with
    | nil => exact ih n1 n2 [] rest2 s1 s2 (Nat.zero_le _) hat1 hat2 hmem hsplit
    | cons idx1 tl1 =>
      cases rest2 with
      | nil =>
        have := (hmem idx1).mp (List.mem_cons_self _ _)
        simp at this
      | cons idx2 tl2 =>
        have g1 := LoopAt.floodLoop_eq dims ftleValues f1 o1 n1 _ s1 hat1
        have g2 := LoopAt.floodLoop_eq dims ftleValues f2 o2 n2 _ s2 hat2
        rw [hr1] at g1
        rw [hr2] at g2
        cases n1 with
        | zero => rw [floodLoop_zero_cons] at g1; simp at g1
        | succ n1 =>
          cases n2 with
          | zero => rw [floodLoop_zero_cons] at g2; simp at g2
          | succ n2 =>
            rw [floodLoop_cons, bind_eq_ok] at g1 g2
            obtain ⟨t1, hp1, _⟩ := g1
            obtain ⟨t2, hp2, _⟩ := g2
            have hnext := two_runs_level dims ftleValues o1 o2 hsort1 hsort2 f1 f2 (n1 + 1)
              (n2 + 1) idx1 idx2 tl1 tl2 s1 s2 t1 t2 hat1 hat2 hp1 hp2 hmem hsplit
            obtain ⟨_, _, hafter, _⟩ := two_runs_same_level dims ftleValues o1 o2 hsort1 hsort2
              f1 f2 (n1 + 1) (n2 + 1) idx1 idx2 tl1 tl2 s1 s2 hat1 hat2 hmem
            have h1 := afterLevel_length ftleValues idx1 tl1
            have h2 := levelOf_length_pos ftleValues idx1 tl1
            simp only [List.length_cons] at hlen
            exact ih n1 n2 (afterLevel ftleValues idx1 tl1) (afterLevel ftleValues idx2 tl2) t1 t2
              (by omega) (LoopAt.next hat1 hp1) (LoopAt.next hat2 hp2) hafter hnext

/-- Two label fields that split the grid alike, each using exactly the labels `1 .. cl`
of its own counter, differ by a permutation of the basin labels, and the counters agree. -/
theorem sameSplit_permutation (dims : Dimensions) (l1 l2 : CellIndex → Int) (cl1 cl2 : Int)
    (hsplit : SameSplit dims [] l1 l2) (hcl1 : 0 ≤ cl1) (hcl2 : 0 ≤ cl2)
    (hr1 : ∀ c ∈ allCells dims, 0 ≤ l1 c ∧ l1 c ≤ cl1)
    (hr2 : ∀ c ∈ allCells dims, 0 ≤ l2 c ∧ l2 c ≤ cl2)
    (hu1 : ∀ j, 1 ≤ j → j ≤ cl1 → ∃ c ∈ allCells dims, l1 c = j)
    (hu2 : ∀ j, 1 ≤ j → j ≤ cl2 → ∃ c ∈ allCells dims, l2 c = j) :
    cl1 = cl2 ∧
    ∃ σ : Int → Int, σ WSHED = WSHED ∧
      (∀ a, 1 ≤ a → a ≤ cl1 → 1 ≤ σ a ∧ σ a ≤ cl1) ∧
      (∀ a b, 1 ≤ a → a ≤ cl1 → 1 ≤ b → b ≤ cl1 → σ a = σ b → a = b) ∧
      (∀ b, 1 ≤ b → b ≤ cl1 → ∃ a, 1 ≤ a ∧ a ≤ cl1 ∧ σ a = b) ∧
      ∀ c ∈ allCells dims, l2 c = σ (l1 c) := by
  classical
  have hz : ∀ c ∈ allCells dims, (l1 c = 0 ↔ l2 c = 0) :=
    fun c hc => (hsplit c hc (by simp) c hc (by simp)).1
  have heq : ∀ c ∈ allCells dims, ∀ d ∈ allCells dims, (l1 c = l1 d ↔ l2 c = l2 d) :=
    fun c hc d hd => (hsplit c hc (by simp) d hd (by simp)).2
  let σ : Int → Int := fun a =>
    if h : ∃ c ∈ allCells dims, l1 c = a then l2 (Classical.choose h) else a
  have hσ : ∀ c ∈ allCells dims, σ (l1 c) = l2 c := by
    intro c hc
    have h : ∃ d ∈ allCells dims, l1 d = l1 c := ⟨c, hc, rfl⟩
    show (if h : ∃ d ∈ allCells dims, l1 d = l1 c then l2 (Classical.choose h) else l1 c) = l2 c
    rw [dif_pos h]
    obtain ⟨hd, hde⟩ := Classical.choose_spec h
    exact (heq _ hd c hc).mp hde
  have hmap : ∀ a, 1 ≤ a → a ≤ cl1 → 1 ≤ σ a ∧ σ a ≤ cl2 := by
    intro a h1 h2
    obtain ⟨c, hc, hca⟩ := hu1 a h1 h2
    rw [← hca, hσ c hc]
    have := hr2 c hc
    have hne : l2 c ≠ 0 := fun h => by have := (hz c hc).mpr h; omega
    omega
  have hinj : ∀ a b, 1 ≤ a → a ≤ cl1 → 1 ≤ b → b ≤ cl1 → σ a = σ b → a = b := by
    intro a b a1 a2 b1 b2 h
    obtain ⟨c, hc, hca⟩ := hu1 a a1 a2
    obtain ⟨d, hd, hdb⟩ := hu1 b b1 b2
    rw [← hca, ← hdb, hσ c hc, hσ d hd] at h
    rw [← hca, ← hdb]
    exact (heq c hc d hd).mpr h
  have hsurj : ∀ b, 1 ≤ b → b ≤ cl2 → ∃ a, 1 ≤ a ∧ a ≤ cl1 ∧ σ a = b := by
    intro b b1 b2
    obtain ⟨d, hd, hdb⟩ := hu2 b b1 b2
    have := hr1 d hd
    have hne : l1 d ≠ 0 := fun h => by have := (hz d hd).mp h; omega
    exact ⟨l1 d, by omega, this.2, by rw [hσ d hd, hdb]⟩
  have hcard : (Finset.Icc 1 cl1).card = (Finset.Icc 1 cl2).card := by
    apply Finset.card_bij (fun a _ => σ a)
    · intro a ha
      rw [Finset.mem_Icc] at ha ⊢
      exact hmap a ha.1 ha.2
    · intro a ha b hb h
      rw [Finset.mem_Icc] at ha hb
      exact hinj a b ha.1 ha.2 hb.1 hb.2 h
    · intro b hb
      rw [Finset.mem_Icc] at hb
      obtain ⟨a, a1, a2, ha⟩ := hsurj b hb.1 hb.2
      exact ⟨a, Finset.mem_Icc.mpr ⟨a1, a2⟩, ha⟩
  rw [Int.card_Icc, Int.card_Icc] at hcard
  have hcl : cl1 = cl2 := by omega
  subst hcl
  refine ⟨rfl, σ, ?_, hmap, hinj, hsurj, fun c hc => (hσ c hc).symm⟩
  show (if h : ∃ c ∈ allCells dims, l1 c = WSHED then l2 (Classical.choose h) else WSHED) = WSHED
  by_cases h : ∃ c ∈ allCells dims, l1 c = WSHED
  · rw [dif_pos h]
    obtain ⟨hd, hde⟩ := Classical.choose_spec h
    exact (hz _ hd).mp hde
  · rw [dif_neg h]

/-- C11: for two height orders `o1`, `o2` of the same scalar field (two outcomes of the
sort that may place equal-height voxels differently), the two runs of the Flood Engine,
each with `d0 * d1 * d2 + 1` fuel or more, end in states with the same WSHED voxels and
the same partition of the grid into basins: two voxels carry the same label in one run
exactly when they do in the other; the basin counters agree, and the labels of the second
run are those of the first under a permutation of `1 .. curlab` that keeps WSHED. -/
theorem tie_order_independent {H : Type} [LinearOrder H] (dims : Dimensions)
    (ftleValues : CellIndex → H) (o1 o2 : List CellIndex)
    (hsort1 : IsHeightOrder dims ftleValues o1) (hsort2 : IsHeightOrder dims ftleValues o2)
    (f1 f2 : Nat) (hf1 : dims.d0 * dims.d1 * dims.d2 + 1 ≤ f1)
    (hf2 : dims.d0 * dims.d1 * dims.d2 + 1 ≤ f2) :
    ∃ r1 r2, FloodEngine dims ftleValues f1 o1 = .ok r1 ∧
      FloodEngine dims ftleValues f2 o2 = .ok r2 ∧
      (∀ c ∈ allCells dims, (r1.lab c = WSHED ↔ r2.lab c = WSHED)) ∧
      (∀ c ∈ allCells dims, ∀ d ∈ allCells dims,
        (r1.lab c = r1.lab d ↔ r2.lab c = r2.lab d)) ∧
      r1.curlab = r2.curlab ∧
      ∃ σ : Int → Int, σ WSHED = WSHED ∧
        (∀ a, 1 ≤ a → a ≤ r1.curlab → 1 ≤ σ a ∧ σ a ≤ r1.curlab) ∧
        (∀ a b, 1 ≤ a → a ≤ r1.curlab → 1 ≤ b → b ≤ r1.curlab → σ a = σ b → a = b) ∧
        (∀ b, 1 ≤ b → b ≤ r1.curlab → ∃ a, 1 ≤ a ∧ a ≤ r1.curlab ∧ σ a = b) ∧
        ∀ c ∈ allCells dims, r2.lab c = σ (r1.lab c) := by
  obtain ⟨r1, hr1, hst1⟩ := Outcome.exists_ok _ _ _
    (FloodEngine_outcome dims ftleValues f1 o1 hsort1.1) hf1
  obtain ⟨r2, hr2, hst2⟩ := Outcome.exists_ok _ _ _
    (FloodEngine_outcome dims ftleValues f2 o2 hsort2.1) hf2
  have hmem : ∀ c, c ∈ o1 ↔ c ∈ o2 := fun c => by
    rw [hsort1.1.mem_iff, hsort2.1.mem_iff]
  have hstart : SameSplit dims o1 initState.lab initState.lab :=
    fun c hc hr => absurd (hsort1.1.mem_iff.mpr hc) hr
  have hsplit := two_runs dims ftleValues o1 o2 hsort1 hsort2 f1 f2 r1 r2 hr1 hr2 o1.length
    f1 f2 o1 o2 initState initState (le_refl _) LoopAt.start LoopAt.start hmem hstart
  obtain ⟨hcl, hσ⟩ := sameSplit_permutation dims r1.lab r2.lab r1.curlab r2.curlab hsplit
    hst1.curlab_nonneg hst2.curlab_nonneg
    (fun c hc => hst1.settled c hc (by simp)) (fun c hc => hst2.settled c hc (by simp))
    hst1.used hst2.used
  exact ⟨r1, r2, hr1, hr2, fun c hc => (hsplit c hc (by simp) c hc (by simp)).1,
    fun c hc d hd => (hsplit c hc (by simp) d hd (by simp)).2, hcl, hσ⟩

theorem saddleOrder2_isHeightOrder : IsHeightOrder saddleDims saddleHeights saddleOrder2 := by
  constructor <;> decide

theorem tie_order_independent_witness :
    ∃ r1 r2, FloodEngine saddleDims saddleHeights 8 saddleOrder = .ok r1 ∧
      FloodEngine saddleDims saddleHeights 9 saddleOrder2 = .ok r2 ∧
      (∀ c ∈ allCells saddleDims, (r1.lab c = WSHED ↔ r2.lab c = WSHED)) ∧
      (∀ c ∈ allCells saddleDims, ∀ d ∈ allCells saddleDims,
        (r1.lab c = r1.lab d ↔ r2.lab c = r2.lab d)) ∧
      r1.curlab = r2.curlab ∧
      ∃ σ : Int → Int, σ WSHED = WSHED ∧
        (∀ a, 1 ≤ a → a ≤ r1.curlab → 1 ≤ σ a ∧ σ a ≤ r1.curlab) ∧
        (∀ a b, 1 ≤ a → a ≤ r1.curlab → 1 ≤ b → b ≤ r1.curlab → σ a = σ b → a = b) ∧
        (∀ b, 1 ≤ b → b ≤ r1.curlab → ∃ a, 1 ≤ a ∧ a ≤ r1.curlab ∧ σ a = b) ∧
        ∀ c ∈ allCells saddleDims, r2.lab c = σ (r1.lab c) :=
  tie_order_independent saddleDims saddleHeights saddleOrder saddleOrder2
    saddleOrder_isHeightOrder saddleOrder2_isHeightOrder 8 9 (by decide) (by decide)

end Watershed
